import Mathlib

/-!
# sjtu::map — a red-black tree map (STLite)

Shallow embedding of `src/map/src/map.hpp`.

* A node pointer (`RBTreeNode *`) is the address `addr : Nat` stored in the node it points to;
  `nullptr` is the empty tree / `none`.
* The pointer graph is kept as a tree plus a path of ancestors (a zipper): the loop variable
  `now` is the subtree in focus, `now->parent_`, `now->parent_->parent_`, ... are the frames of
  the path, innermost first.  The test `par->left_ == now` is the direction stored in the frame.
* `KeyCompare()(a, b)` is `a < b` of a linear order on the key type.
* A dereference of an absent node is the fault `null_access`; loops carry fuel and report
  `out_of_fuel` when it is used up.
-/

namespace sjtu

/-- The `enum Colour`. -/
inductive Colour where
  | kRed
  | kBlack
deriving DecidableEq

/-- Exceptions thrown by the container (`exceptions.hpp`). -/
inductive Exn where
  | index_out_of_bound
  | invalid_iterator
  | container_is_empty
deriving DecidableEq

/-- Undefined behaviour of the source, made explicit: a field access through `nullptr`
(`null_access`) or through a pointer to no live node (`dangling`), a `root_` left pointing at
the deleted node (`dangling`), links that no longer form a tree (`broken_links`), a read of a
data member that no constructor initialised or of a slot of a block that holds no object
(`uninitialised`), an access outside the allocated block (`out_of_block`), an `int` operation
whose result is not an `int` (`int_overflow`); and `out_of_fuel`, a loop of the embedding
running out of fuel. -/
inductive Fault where
  | null_access
  | dangling
  | broken_links
  | uninitialised
  | out_of_block
  | int_overflow
  | out_of_fuel
deriving DecidableEq

/-- Result of a private tree operation: a normal return or a fault. -/
inductive Outcome (α : Type) where
  | ok (a : α)
  | fail (f : Fault)
deriving DecidableEq

/-- Result of a public member function on a container state `σ`: it returns `r` leaving the
state `s`, or throws `e` leaving the state `s`, or its behaviour is undefined. -/
inductive Call (σ ρ : Type) where
  | returns (s : σ) (r : ρ)
  | throws (s : σ) (e : Exn)
  | undefined (f : Fault)
deriving DecidableEq

/-- An `RBTreeNode` and the subtree hanging from it; `nil` is `nullptr`. -/
inductive Tree (K V : Type) where
  | nil
  | node (colour_ : Colour) (addr : Nat) (key : K) (val : V) (left_ right_ : Tree K V)
deriving DecidableEq

/-- Which child slot of an ancestor leads to the focus. -/
inductive Dir where
  | L
  | R
deriving DecidableEq

/-- An ancestor of the focus: its own fields, the slot leading to the focus and its other
child. -/
structure Frame (K V : Type) where
  colour_ : Colour
  addr : Nat
  key : K
  val : V
  dir : Dir
  sib : Tree K V
deriving DecidableEq

/-- Ancestors of the focus, parent first, root last. -/
abbrev Path (K V : Type) := List (Frame K V)

variable {K V : Type}

namespace Tree

/-- Test `t != nullptr && t->colour_ == kRed`. -/
def isRed : Tree K V → Bool
  | node .kRed _ _ _ _ _ => true
  | _ => false

/-- Test `t == nullptr`. -/
def isNil : Tree K V → Bool
  | nil => true
  | _ => false

/-- Assignment `t->colour_ = kBlack` (no effect on `nullptr`, which callers exclude). -/
def setBlack : Tree K V → Tree K V
  | nil => nil
  | node _ a k v l r => node .kBlack a k v l r

/-- Assignment `t->colour_ = kRed`. -/
def setRed : Tree K V → Tree K V
  | nil => nil
  | node _ a k v l r => node .kRed a k v l r

/-- Number of nodes reachable from the root. -/
def size : Tree K V → Nat
  | nil => 0
  | node _ _ _ _ l r => size l + 1 + size r

/-- In-order traversal: address, key and value of every node. -/
def toList : Tree K V → List (Nat × K × V)
  | nil => []
  | node _ a k v l r => toList l ++ (a, k, v) :: toList r

/-- In-order sequence of keys. -/
def keys (t : Tree K V) : List K := t.toList.map (fun e => e.2.1)

/-- In-order sequence of (key, value) entries. -/
def entries (t : Tree K V) : List (K × V) := t.toList.map (fun e => e.2)

/-- In-order sequence of node addresses. -/
def addrs (t : Tree K V) : List Nat := t.toList.map (fun e => e.1)

/-- Key stored in the node at address `p` (`p->data_.first`), when `p` is a node of the tree. -/
def keyAt : Tree K V → Nat → Option K
  | nil, _ => none
  | node _ a k _ l r, p =>
    if a = p then some k else
      match keyAt l p with
      | some x => some x
      | none => keyAt r p

/-- Value stored in the node at address `p` (`p->data_.second`), when `p` is a node of the
tree. -/
def valAt : Tree K V → Nat → Option V
  | nil, _ => none
  | node _ a _ v l r, p =>
    if a = p then some v else
      match valAt l p with
      | some x => some x
      | none => valAt r p

/-- Address of the root node (`root_` as a pointer). -/
def rootAddr : Tree K V → Option Nat
  | nil => none
  | node _ a _ _ _ _ => some a

/-- Value stored in the root node of the subtree (`res->data_.second`). -/
def rootVal : Tree K V → Option V
  | nil => none
  | node _ _ _ v _ _ => some v

/-- Key stored in the root node of the subtree. -/
def rootKey : Tree K V → Option K
  | nil => none
  | node _ _ k _ _ _ => some k

/-- Black nodes on the leftmost path down to the absent leaf. -/
def blackHeight : Tree K V → Nat
  | nil => 0
  | node .kBlack _ _ _ l _ => blackHeight l + 1
  | node .kRed _ _ _ l _ => blackHeight l

/-- Black-node counts of all paths from the root to an absent leaf. -/
def pathCounts : Tree K V → List Nat
  | nil => [0]
  | node .kBlack _ _ _ l r => (pathCounts l ++ pathCounts r).map (· + 1)
  | node .kRed _ _ _ l r => pathCounts l ++ pathCounts r

end Tree

open Tree

/-- Put the subtree `t` back under the ancestor `f`. -/
def Frame.fill (f : Frame K V) (t : Tree K V) : Tree K V :=
  match f.dir with
  | .L => node f.colour_ f.addr f.key f.val t f.sib
  | .R => node f.colour_ f.addr f.key f.val f.sib t

/-- The whole tree: the focus `t` put back under all its ancestors. -/
def plug (t : Tree K V) : Path K V → Tree K V
  | [] => t
  | f :: rest => plug (f.fill t) rest

/-! ## Invariants of §3 -/

/-- Invariant 1: the in-order traversal yields strictly increasing keys. -/
def BST [LinearOrder K] (t : Tree K V) : Prop := t.keys.Pairwise (· < ·)

/-- Invariant 2: the root, if present, is black. -/
def RootBlack (t : Tree K V) : Prop := t.isRed = false

/-- Invariant 3: no red node has a red child. -/
def NoRedRed : Tree K V → Prop
  | nil => True
  | node c _ _ _ l r =>
    (c = .kRed → l.isRed = false ∧ r.isRed = false) ∧ NoRedRed l ∧ NoRedRed r

/-- Invariant 4: every path from the root to an absent leaf has the same number of black
nodes. -/
def UniformBlack (t : Tree K V) : Prop := ∀ n ∈ t.pathCounts, ∀ m ∈ t.pathCounts, n = m

/-- Invariant 4, node by node: both subtrees of every node have the same black height. -/
def Balanced : Tree K V → Prop
  | nil => True
  | node _ _ _ _ l r => l.blackHeight = r.blackHeight ∧ Balanced l ∧ Balanced r

instance decNoRedRed : (t : Tree K V) → Decidable (NoRedRed t)
  | nil => isTrue trivial
  | node c _ _ _ l r =>
    have := decNoRedRed l
    have := decNoRedRed r
    inferInstanceAs (Decidable ((c = .kRed → l.isRed = false ∧ r.isRed = false) ∧
      NoRedRed l ∧ NoRedRed r))

instance decBalanced : (t : Tree K V) → Decidable (Balanced t)
  | nil => isTrue trivial
  | node _ _ _ _ l r =>
    have := decBalanced l
    have := decBalanced r
    inferInstanceAs (Decidable (l.blackHeight = r.blackHeight ∧ Balanced l ∧ Balanced r))

instance decUniformBlack (t : Tree K V) : Decidable (UniformBlack t) := by
  unfold UniformBlack; infer_instance

instance decBST [LinearOrder K] (t : Tree K V) : Decidable (BST t) := by
  unfold BST; infer_instance

instance decRootBlack (t : Tree K V) : Decidable (RootBlack t) := by
  unfold RootBlack; infer_instance

/-! ## Rotations (`LL`, `RR`, `LR`, `RL` and their recolouring forms)

Each takes the subtree rooted at `g` and returns the subtree that takes its place under
`g->parent_` (or in `root_`). -/

/-- Rotation `LL(g)`: right rotation, `p = g->left_` comes up. -/
def LL : Tree K V → Outcome (Tree K V)
  | node cg ag kg vg (node cp ap kp vp pl pr) gr =>
    .ok (node cp ap kp vp pl (node cg ag kg vg pr gr))
  | _ => .fail .null_access

/-- Rotation `RR(g)`: left rotation, `p = g->right_` comes up. -/
def RR : Tree K V → Outcome (Tree K V)
  | node cg ag kg vg gl (node cp ap kp vp pl pr) =>
    .ok (node cp ap kp vp (node cg ag kg vg gl pl) pr)
  | _ => .fail .null_access

/-- Rotation `LR(g)`: `x = g->left_->right_` comes up between `p = g->left_` and `g`. -/
def LR : Tree K V → Outcome (Tree K V)
  | node cg ag kg vg (node cp ap kp vp pl (node cx ax kx vx xl xr)) gr =>
    .ok (node cx ax kx vx (node cp ap kp vp pl xl) (node cg ag kg vg xr gr))
  | _ => .fail .null_access

/-- Rotation `RL(g)`: `x = g->right_->left_` comes up between `g` and `p = g->right_`. -/
def RL : Tree K V → Outcome (Tree K V)
  | node cg ag kg vg gl (node cp ap kp vp (node cx ax kx vx xl xr) pr) =>
    .ok (node cx ax kx vx (node cg ag kg vg gl xl) (node cp ap kp vp xr pr))
  | _ => .fail .null_access

/-- Rotation `LLb(g)`: `LL(g)`, then `g` red and its new parent black. -/
def LLb : Tree K V → Outcome (Tree K V)
  | node _ ag kg vg (node _ ap kp vp pl pr) gr =>
    .ok (node .kBlack ap kp vp pl (node .kRed ag kg vg pr gr))
  | _ => .fail .null_access

/-- Rotation `RRb(g)`: `RR(g)`, then `g` red and its new parent black. -/
def RRb : Tree K V → Outcome (Tree K V)
  | node _ ag kg vg gl (node _ ap kp vp pl pr) =>
    .ok (node .kBlack ap kp vp (node .kRed ag kg vg gl pl) pr)
  | _ => .fail .null_access

/-- Rotation `LRb(g)`: `LR(g)`, then `g` red and its new parent `x` black. -/
def LRb : Tree K V → Outcome (Tree K V)
  | node _ ag kg vg (node cp ap kp vp pl (node _ ax kx vx xl xr)) gr =>
    .ok (node .kBlack ax kx vx (node cp ap kp vp pl xl) (node .kRed ag kg vg xr gr))
  | _ => .fail .null_access

/-- Rotation `RLb(g)`: `RL(g)`, then `g` red and its new parent `x` black. -/
def RLb : Tree K V → Outcome (Tree K V)
  | node _ ag kg vg gl (node cp ap kp vp (node _ ax kx vx xl xr) pr) =>
    .ok (node .kBlack ax kx vx (node .kRed ag kg vg gl xl) (node cp ap kp vp xr pr))
  | _ => .fail .null_access

/-! ## `InsertNode` -/

/-- What `InsertNode` returns: the tree it leaves, and the pair (node, inserted). -/
structure InsertResult (K V : Type) where
  root_ : Tree K V
  first : Nat
  second : Bool
deriving DecidableEq

/-- The colour flip of the descent loop and the rotation that follows it when the parent is
red: from the ancestors and the flipped node `now`, the ancestors and focus after the step.
`none` is the access `now_par->parent_->left_` with `now_par` the root. -/
def flipFix (path : Path K V) (now : Tree K V) : Outcome (Path K V × Tree K V) :=
  match path, now with
  | par :: rest, node _ an kn vn nl nr =>
    if par.colour_ = .kRed then
      match rest with
      | [] => .fail .null_access
      | g :: up =>
        match par.dir, g.dir with
        | .L, .L =>
          -- LLb(now_par->parent_)
          .ok ({ par with colour_ := .kBlack,
                          sib := node .kRed g.addr g.key g.val par.sib g.sib } :: up, now)
        | .L, .R =>
          -- RLb(now_par->parent_): now comes up
          .ok (up, node .kBlack an kn vn (node .kRed g.addr g.key g.val g.sib nl)
                     (node par.colour_ par.addr par.key par.val nr par.sib))
        | .R, .L =>
          -- LRb(now_par->parent_): now comes up
          .ok (up, node .kBlack an kn vn (node par.colour_ par.addr par.key par.val par.sib nl)
                     (node .kRed g.addr g.key g.val nr g.sib))
        | .R, .R =>
          -- RRb(now_par->parent_)
          .ok ({ par with colour_ := .kBlack,
                          sib := node .kRed g.addr g.key g.val g.sib par.sib } :: up, now)
    else .ok (path, now)
  | _, _ => .ok (path, now)

/-- The `while (true)` loop of `InsertNode`, entered with `now` in focus. `value = (k, v)`, and
`a` is the address `new RBTreeNode` returns if a node is created. -/
def InsertLoop [LinearOrder K] (k : K) (v : V) (a : Nat) :
    Nat → Path K V → Tree K V → Outcome (InsertResult K V)
  | 0, _, _ => .fail .out_of_fuel
  | _ + 1, _, nil => .fail .null_access
  | fuel + 1, path, node c p nk nv l r =>
    let is_smaller := decide (k < nk)
    let is_bigger := decide (nk < k)
    if !is_smaller && !is_bigger then
      .ok ⟨plug (node c p nk nv l r) path, p, false⟩
    else if is_smaller && l.isNil then
      let now := node c p nk nv (node .kRed a k v nil nil) r
      if c = .kBlack then .ok ⟨(plug now path).setBlack, a, true⟩
      else
        match path with
        | [] => .fail .null_access
        | g :: up =>
          match (match g.dir with
                 | .L => LLb (g.fill now)
                 | .R => RLb (g.fill now)) with
          | .ok t => .ok ⟨(plug t up).setBlack, a, true⟩
          | .fail f => .fail f
    else if is_bigger && r.isNil then
      let now := node c p nk nv l (node .kRed a k v nil nil)
      if c = .kBlack then .ok ⟨(plug now path).setBlack, a, true⟩
      else
        match path with
        | [] => .fail .null_access
        | g :: up =>
          match (match g.dir with
                 | .L => LRb (g.fill now)
                 | .R => RRb (g.fill now)) with
          | .ok t => .ok ⟨(plug t up).setBlack, a, true⟩
          | .fail f => .fail f
    else
      match (if c = .kBlack && l.isRed && r.isRed then
               flipFix path (node .kRed p nk nv l.setBlack r.setBlack)
             else .ok (path, node c p nk nv l r)) with
      | .fail f => .fail f
      | .ok (_, nil) => .fail .null_access
      | .ok (path', node c' p' k' v' l' r') =>
        if is_smaller then InsertLoop k v a fuel (⟨c', p', k', v', .L, r'⟩ :: path') l'
        else InsertLoop k v a fuel (⟨c', p', k', v', .R, l'⟩ :: path') r'

/-- Member `InsertNode(value)` on the tree `root_`. -/
def InsertNode [LinearOrder K] (root_ : Tree K V) (k : K) (v : V) (a : Nat) :
    Outcome (InsertResult K V) :=
  match root_ with
  | nil => .ok ⟨node .kBlack a k v nil nil, a, true⟩
  | t => InsertLoop k v a (2 * t.size + 1) [] t

/-! ## `EraseNode` -/

/-- The inner `while (true)` loop of `EraseNode`: the top-down walk that makes `now` red (or
stops at the target with a red right child). Returns the ancestors and focus at the `break`.
`nk` is `node->data_.first`, `target` the pointer `node`, `fs` is `find_substitution`. -/
def EraseWalk [LinearOrder K] (nk : K) (target : Nat) (fs : Bool) :
    Nat → Path K V → Tree K V → Outcome (Path K V × Tree K V)
  | 0, _, _ => .fail .out_of_fuel
  | _ + 1, _, nil => .fail .null_access
  | fuel + 1, path, node c a k v l r =>
    if c = .kRed then .ok (path, node c a k v l r)
    else if !l.isRed && !r.isRed then
      match path with
      | [] => .ok ([], node .kRed a k v l r)
      | par :: rest =>
        match par.sib with
        | nil => .ok ({ par with colour_ := .kBlack } :: rest, node .kRed a k v l r)
        | node sc sa sk sv sl sr =>
          if !sl.isRed && !sr.isRed then
            .ok ({ par with colour_ := .kBlack, sib := node .kRed sa sk sv sl sr } :: rest,
                 node .kRed a k v l r)
          else
            match par.dir with
            | .L =>
              if sr.isRed then
                -- recolour, RR(par)
                .ok (⟨.kBlack, par.addr, par.key, par.val, .L, sl⟩ ::
                     ⟨.kRed, sa, sk, sv, .L, sr.setBlack⟩ :: rest, node .kRed a k v l r)
              else
                -- recolour, RL(par)
                match sl with
                | nil => .fail .null_access
                | node xc xa xk xv xl xr =>
                  .ok (⟨.kBlack, par.addr, par.key, par.val, .L, xl⟩ ::
                       ⟨xc, xa, xk, xv, .L, node sc sa sk sv xr sr⟩ :: rest,
                       node .kRed a k v l r)
            | .R =>
              if sl.isRed then
                -- recolour, LL(par)
                .ok (⟨.kBlack, par.addr, par.key, par.val, .R, sr⟩ ::
                     ⟨.kRed, sa, sk, sv, .R, sl.setBlack⟩ :: rest, node .kRed a k v l r)
              else
                -- recolour, LR(par)
                match sr with
                | nil => .fail .null_access
                | node xc xa xk xv xl xr =>
                  .ok (⟨.kBlack, par.addr, par.key, par.val, .R, xr⟩ ::
                       ⟨xc, xa, xk, xv, .R, node sc sa sk sv sl xl⟩ :: rest,
                       node .kRed a k v l r)
    else if (!fs && a = target) || (fs && l.isNil) then
      match l, r with
      | node _ la lk lv ll lr, node rc ra rk rv rl rr =>
        if rc = .kRed then .ok (path, node c a k v l r)
        else
          -- LLb(now)
          .ok (⟨.kBlack, la, lk, lv, .R, ll⟩ :: path, node .kRed a k v lr (node rc ra rk rv rl rr))
      | nil, node _ ra rk rv rl rr =>
        -- RRb(now)
        .ok (⟨.kBlack, ra, rk, rv, .L, rr⟩ :: path, node .kRed a k v nil rl)
      | nil, nil => .fail .null_access
      | node _ la lk lv ll lr, nil =>
        -- LLb(now)
        .ok (⟨.kBlack, la, lk, lv, .R, ll⟩ :: path, node .kRed a k v lr nil)
    else
      let is_smaller := fs || decide (nk < k)
      if is_smaller then
        match l with
        | nil => .fail .null_access
        | node lc la lk lv ll lr =>
          if lc = .kRed then .ok (⟨c, a, k, v, .L, r⟩ :: path, node lc la lk lv ll lr)
          else
            -- RRb(now->parent_)
            match r with
            | nil => .fail .null_access
            | node _ ra rk rv rl rr =>
              EraseWalk nk target fs fuel
                (⟨.kRed, a, k, v, .L, rl⟩ :: ⟨.kBlack, ra, rk, rv, .L, rr⟩ :: path)
                (node lc la lk lv ll lr)
      else
        match r with
        | nil => .fail .null_access
        | node rc ra rk rv rl rr =>
          if rc = .kRed then .ok (⟨c, a, k, v, .R, l⟩ :: path, node rc ra rk rv rl rr)
          else
            -- LLb(now->parent_)
            match l with
            | nil => .fail .null_access
            | node _ la lk lv ll lr =>
              EraseWalk nk target fs fuel
                (⟨.kRed, a, k, v, .R, lr⟩ :: ⟨.kBlack, la, lk, lv, .R, ll⟩ :: path)
                (node rc ra rk rv rl rr)

/-- The relinking that puts the successor (address, key, value `a k v`) in the place of the
node `target`, an ancestor of the successor: that ancestor keeps its colour, its children and
its parent. The access `node->right_->parent_` needs `node->right_`. -/
def spliceInto (target : Nat) (a : Nat) (k : K) (v : V) : Path K V → Outcome (Path K V)
  | [] => .fail .broken_links
  | f :: rest =>
    if f.addr = target then
      if f.dir = .L ∧ f.sib.isNil then .fail .null_access
      else .ok ({ f with addr := a, key := k, val := v } :: rest)
    else
      match spliceInto target a k v rest with
      | .ok rest' => .ok (f :: rest')
      | .fail e => .fail e

/-- The outer `while (true)` loop of `EraseNode`; returns the tree before the final
`root_->colour_ = kBlack`. -/
def EraseLoop [LinearOrder K] (nk : K) (target : Nat) :
    Nat → Bool → Path K V → Tree K V → Outcome (Tree K V)
  | 0, _, _, _ => .fail .out_of_fuel
  | fuel + 1, fs, path, now =>
    match EraseWalk nk target fs (fuel + 1) path now with
    | .fail f => .fail f
    | .ok (_, nil) => .fail .null_access
    | .ok (path, node c a k v l r) =>
      if a = target then
        match l, r with
        | nil, nil =>
          match path with
          | [] => .fail .dangling
          | _ => .ok (plug nil path)
        | nil, node rc ra rk rv rl rr =>
          match path with
          | [] => .fail .dangling
          | _ => .ok (plug (node rc ra rk rv rl rr) path)
        | node lc la lk lv ll lr, nil =>
          match path with
          | [] => .fail .dangling
          | _ => .ok (plug (node lc la lk lv ll lr) path)
        | node lc la lk lv ll lr, node rc ra rk rv rl rr =>
          EraseLoop nk target fuel true (⟨c, a, k, v, .R, node lc la lk lv ll lr⟩ :: path)
            (node rc ra rk rv rl rr)
      else if fs && l.isNil then
        match path with
        | [] => .fail .null_access
        | par :: rest =>
          if par.addr = target then
            match par.dir with
            | .R =>
              -- now == node->right_
              .ok (plug (node par.colour_ a k v par.sib r) rest)
            | .L =>
              -- now == node->left_: `node->left_->parent_ = now` makes `now` its own parent
              .fail .broken_links
          else
            match par.dir with
            | .R =>
              -- `par->left_ = nullptr` cuts the sibling off and leaves `now` under `par`
              .fail .broken_links
            | .L =>
              match spliceInto target a k v (par :: rest) with
              | .ok path' => .ok (plug nil path')
              | .fail e => .fail e
      else if fs || decide (nk < k) then
        EraseLoop nk target fuel fs (⟨c, a, k, v, .L, r⟩ :: path) l
      else
        EraseLoop nk target fuel fs (⟨c, a, k, v, .R, l⟩ :: path) r

/-- Member `EraseNode(node)` on the tree `root_` of a map whose counter is `size_`. -/
def EraseNode [LinearOrder K] (root_ : Tree K V) (size_ : Nat) (target : Nat) :
    Outcome (Tree K V) :=
  if size_ = 1 then .ok nil
  else
    match root_.keyAt target with
    | none => .fail .dangling
    | some nk =>
      match EraseLoop nk target (root_.size + 1) false [] root_ with
      | .fail f => .fail f
      | .ok nil => .fail .null_access
      | .ok t => .ok t.setBlack

/-! ## Lookup -/

/-- Member `FindNode(key)`: the node found (as the subtree it roots), `nil` for `nullptr`. -/
def FindNode [LinearOrder K] (key : K) : Tree K V → Tree K V
  | nil => nil
  | node c a k v l r =>
    let is_smaller := decide (key < k)
    let is_bigger := decide (k < key)
    if !is_smaller && !is_bigger then node c a k v l r
    else if is_smaller then FindNode key l
    else FindNode key r

/-- Function `GetMinimum(root)` for a non-null `root`: the address of the leftmost node. -/
def GetMinimum : Tree K V → Option Nat
  | nil => none
  | node _ a _ _ nil _ => some a
  | node _ _ _ _ l _ => GetMinimum l

/-- Function `GetMaximum(root)` for a non-null `root`: the address of the rightmost node. -/
def GetMaximum : Tree K V → Option Nat
  | nil => none
  | node _ a _ _ _ nil => some a
  | node _ _ _ _ _ r => GetMaximum r

/-! ## The container -/

/-- Data members of `map`. -/
structure Map (K V : Type) where
  root_ : Tree K V
  min_node_ : Option Nat
  max_node_ : Option Nat
  size_ : Nat
deriving DecidableEq

/-- An `iterator`: the node it references (`none` for the end sentinel) and the identity of
the map it was made by. -/
structure Iter where
  node_ : Option Nat
  map_ptr_ : Nat
deriving DecidableEq

namespace Map

/-- Constructor `map()`. -/
def empty : Map K V := ⟨nil, none, none, 0⟩

/-- Member `size()`. -/
def size (m : Map K V) : Nat := m.size_

/-- Member `end()` of the map at address `this`. -/
def end_ (this : Nat) (_m : Map K V) : Iter := ⟨none, this⟩

/-- Member `find(key)` of the map at address `this`. -/
def find [LinearOrder K] (this : Nat) (m : Map K V) (key : K) : Iter :=
  ⟨(FindNode key m.root_).rootAddr, this⟩

/-- Member `count(key)`. -/
def count [LinearOrder K] (m : Map K V) (key : K) : Nat :=
  if (FindNode key m.root_).isNil then 0 else 1

/-- Member `at(key)`; the mutable and the const form have the same body. -/
def at_ [LinearOrder K] (m : Map K V) (key : K) : Call (Map K V) V :=
  match FindNode key m.root_ with
  | nil => .throws m .index_out_of_bound
  | node _ _ _ v _ _ => .returns m v

/-- Member `operator[](key) const`. -/
def getConst [LinearOrder K] (m : Map K V) (key : K) : Call (Map K V) V :=
  match FindNode key m.root_ with
  | nil => .throws m .index_out_of_bound
  | node _ _ _ v _ _ => .returns m v

/-- Comparison `KeyCompare()(key, p->data_.first)` through a cached pointer `p`. -/
def ltAt [LinearOrder K] (t : Tree K V) (key : K) (p : Nat) : Outcome Bool :=
  match t.keyAt p with
  | none => .fail .dangling
  | some pk => .ok (decide (key < pk))

/-- Comparison `KeyCompare()(p->data_.first, key)` through a cached pointer `p`. -/
def gtAt [LinearOrder K] (t : Tree K V) (key : K) (p : Nat) : Outcome Bool :=
  match t.keyAt p with
  | none => .fail .dangling
  | some pk => .ok (decide (pk < key))

/-- Member `insert(value)` with `value = (k, v)` on the map at address `this`; `a` is the address of
the node created, if one is. Returns the pair (iterator, inserted). -/
def insert [LinearOrder K] (this : Nat) (m : Map K V) (k : K) (v : V) (a : Nat) :
    Call (Map K V) (Iter × Bool) :=
  match InsertNode m.root_ k v a with
  | .fail f => .undefined f
  | .ok res =>
    if res.second then
      match (match m.min_node_ with
             | none => Outcome.ok true
             | some p => ltAt res.root_ k p) with
      | .fail f => .undefined f
      | .ok lo =>
        match (match m.max_node_ with
               | none => Outcome.ok true
               | some p => gtAt res.root_ k p) with
        | .fail f => .undefined f
        | .ok hi =>
          .returns ⟨res.root_, if lo then some res.first else m.min_node_,
                    if hi then some res.first else m.max_node_, m.size_ + 1⟩
            (⟨some res.first, this⟩, true)
    else .returns ⟨res.root_, m.min_node_, m.max_node_, m.size_⟩ (⟨some res.first, this⟩, false)

/-- Member `operator[](key)`, the mutable form; `dflt` is `T()` and `a` the address of the node
created, if one is. Returns the node whose value is referenced, and that value. -/
def getOrInsert [LinearOrder K] (m : Map K V) (key : K) (dflt : V) (a : Nat) :
    Call (Map K V) (Nat × V) :=
  match FindNode key m.root_ with
  | node _ p _ v _ _ => .returns m (p, v)
  | nil =>
    match InsertNode m.root_ key dflt a with
    | .fail f => .undefined f
    | .ok res =>
      match res.root_.keyAt res.first, res.root_.valAt res.first with
      | some rk, some rv =>
        match (match m.min_node_ with
               | none => Outcome.ok true
               | some p => ltAt res.root_ rk p) with
        | .fail f => .undefined f
        | .ok lo =>
          .returns ⟨res.root_, if lo then some res.first else m.min_node_, m.max_node_,
                    m.size_ + 1⟩ (res.first, rv)
      | _, _ => .undefined .dangling

/-- Member `erase(pos)` on the map at address `this`. `size_--` wraps at zero (`size_t`). -/
def erase [LinearOrder K] (this : Nat) (m : Map K V) (pos : Iter) : Call (Map K V) Unit :=
  if pos.map_ptr_ ≠ this ∨ pos.node_ = none then .throws m .invalid_iterator
  else
    match pos.node_ with
    | none => .throws m .invalid_iterator
    | some p =>
      match EraseNode m.root_ m.size_ p with
      | .fail f => .undefined f
      | .ok t =>
        .returns ⟨t, if pos.node_ = m.min_node_ then GetMinimum t else m.min_node_,
                  if pos.node_ = m.max_node_ then GetMaximum t else m.max_node_,
                  if m.size_ = 0 then 2 ^ 64 - 1 else m.size_ - 1⟩ ()

end Map

end sjtu

/-! ## Notions used to state and prove the properties -/

namespace sjtu

variable {K V : Type}

open Tree

/-- Entries that precede the focus in the in-order traversal of the whole tree. -/
def before : Path K V → List (Nat × K × V)
  | [] => []
  | f :: rest =>
    match f.dir with
    | .L => before rest
    | .R => before rest ++ (f.sib.toList ++ [(f.addr, f.key, f.val)])

/-- Entries that follow the focus in the in-order traversal of the whole tree. -/
def after : Path K V → List (Nat × K × V)
  | [] => []
  | f :: rest =>
    match f.dir with
    | .L => (f.addr, f.key, f.val) :: f.sib.toList ++ after rest
    | .R => after rest

/-- Invariants 3 and 4 together, whatever the colour of the root. -/
def Good (t : Tree K V) : Prop := NoRedRed t ∧ Balanced t

/-- Neither child is red (`nullptr` included). -/
def Tree.noRedKids : Tree K V → Bool
  | nil => true
  | node _ _ _ _ l r => !l.isRed && !r.isRed

/-- What the ancestors ask of the focus for the whole tree to satisfy invariants 3 and 4: the
focus has black height `h`, and it is red (`red = true`) only under a black parent. -/
def Hole : Path K V → Nat → Bool → Prop
  | [], _, _ => True
  | f :: rest, h, red =>
    NoRedRed f.sib ∧ Balanced f.sib ∧ f.sib.blackHeight = h ∧
    (f.colour_ = .kRed → red = false ∧ f.sib.isRed = false) ∧
    Hole rest (if f.colour_ = .kBlack then h + 1 else h) (decide (f.colour_ = .kRed))

/-- The child `now->left_` or `now->right_` the descent for `k` takes. -/
def Tree.towards [LinearOrder K] (k : K) : Tree K V → Tree K V
  | nil => nil
  | node _ _ nk _ l r => if k < nk then l else r

/-- Every ancestor was left in the direction of `k`. -/
def PathDir [LinearOrder K] (k : K) (path : Path K V) : Prop :=
  ∀ f ∈ path, (f.dir = .L → k < f.key) ∧ (f.dir = .R → f.key < k)

/-- State of the insertion descent right after a double rotation: the focus is red, does not
hold `k`, and the child the descent takes next is a black node without red children. -/
def AfterDouble [LinearOrder K] (k : K) (now : Tree K V) : Prop :=
  now.isRed = true ∧ now.rootKey ≠ some k ∧ (now.towards k).isNil = false ∧
    (now.towards k).isRed = false ∧ (now.towards k).noRedKids = true

/-- What the insertion descent knows about the colours around the focus, beyond invariants
3 and 4. With `strict` the root was black when the descent began. -/
def Extra [LinearOrder K] (strict : Bool) (k : K) : Path K V → Tree K V → Prop
  | [], now => strict = true → now.isRed = false
  | par :: rest, now =>
    (par.colour_ = .kBlack → now.isRed = true → par.sib.isRed = false ∨ AfterDouble k now) ∧
    (par.colour_ = .kRed → now.noRedKids = true ∨
      match rest with
      | [] => strict = false
      | g :: _ => g.sib.isRed = false)

/-- Bound on the iterations the insertion descent still makes. -/
def insPot [LinearOrder K] (k : K) (now : Tree K V) : Nat :=
  2 * (now.towards k).size + (if now.isRed then 1 else 2)

/-- Loop invariant of `InsertLoop` for the colour invariants. -/
def InsInv [LinearOrder K] (strict : Bool) (k : K) (path : Path K V) (now : Tree K V) : Prop :=
  now.isNil = false ∧ Good now ∧ Hole path now.blackHeight now.isRed ∧ PathDir k path ∧
    Extra strict k path now

/-- While the successor is looked for: the erased node `target` is an ancestor of the focus,
entered by its right child, and every ancestor below it was entered by its left child. -/
def SuccPath (target : Nat) : Path K V → Prop
  | [] => False
  | f :: rest => (f.addr = target ∧ f.dir = .R) ∨ (f.dir = .L ∧ SuccPath target rest)

/-- The descent that compares `nk` with the keys reaches the node `target` from `now`. -/
def Leads [LinearOrder K] (nk : K) (target : Nat) : Tree K V → Prop
  | nil => False
  | node _ a k _ l r => a = target ∨ (if nk < k then Leads nk target l else Leads nk target r)

/-- The parent of the focus, if there is one, is red. -/
def redAbove : Path K V → Prop
  | [] => True
  | f :: _ => f.colour_ = .kRed

/-- The walk stopped at the erased node, which has two children, the right one red. -/
def AtTarget (target : Nat) : Tree K V → Prop
  | nil => False
  | node _ a _ _ l r => a = target ∧ l.isNil = false ∧ r.isRed = true

/-- Invariant at the head of the walk of `EraseNode`. -/
def WalkInv (path : Path K V) (now : Tree K V) : Prop :=
  now.isNil = false ∧ Good now ∧ Hole path now.blackHeight now.isRed ∧
    (now.isRed = false → redAbove path)

/-- State in which the walk of `EraseNode` stops. -/
def WalkOut (fs : Bool) (target : Nat) (path : Path K V) (now : Tree K V) : Prop :=
  now.isNil = false ∧ Good now ∧ Hole path now.blackHeight now.isRed ∧
    (now.isRed = true ∨ (fs = false ∧ AtTarget target now))

/-- What `InsertLoop` returns when it returns: either the key was found and nothing of the
in-order sequence changed, or the new entry was put at its place in the order. -/
def InsertPost [LinearOrder K] (k : K) (v : V) (a : Nat) (old : List (Nat × K × V))
    (res : InsertResult K V) : Prop :=
  (res.second = false ∧ res.root_.toList = old ∧ ∃ v', (res.first, k, v') ∈ old) ∨
  (res.second = true ∧ res.first = a ∧ ∃ L₁ L₂, old = L₁ ++ L₂ ∧
    res.root_.toList = L₁ ++ (a, k, v) :: L₂ ∧ (∀ e ∈ L₁, e.2.1 < k) ∧ ∀ e ∈ L₂, k < e.2.1)

/-! ## Reachable states -/

/-- A call of a mutating public member function. For `insert` and `operator[]` the call
carries the address the allocator returns if a node is created. -/
inductive Op (K V : Type) where
  | insert (k : K) (v : V) (a : Nat)
  | index (k : K) (dflt : V) (a : Nat)
  | erase (pos : Iter)

/-- The state after one call on the map at address `this`, when the call is well defined: the
allocator returns an address not in use, an iterator given to `erase` that passes the checks
references a node of the map, and the call returns or throws. -/
def Map.step [LinearOrder K] (this : Nat) (m : Map K V) : Op K V → Option (Map K V)
  | .insert k v a =>
    if a ∈ m.root_.addrs then none
    else
      match Map.insert this m k v a with
      | .returns m' _ => some m'
      | .throws m' _ => some m'
      | .undefined _ => none
  | .index k dflt a =>
    if a ∈ m.root_.addrs then none
    else
      match Map.getOrInsert m k dflt a with
      | .returns m' _ => some m'
      | .throws m' _ => some m'
      | .undefined _ => none
  | .erase pos =>
    match Map.erase this m pos with
    | .throws m' _ => some m'
    | .returns m' _ =>
      match pos.node_ with
      | some p => if p ∈ m.root_.addrs then some m' else none
      | none => none
    | .undefined _ => none

/-- The state after a sequence of calls, when every call is well defined. -/
def Map.run [LinearOrder K] (this : Nat) (m : Map K V) : List (Op K V) → Option (Map K V)
  | [] => some m
  | op :: ops =>
    match Map.step this m op with
    | some m' => Map.run this m' ops
    | none => none

/-- States reachable from the empty map by `insert`, `operator[]` and `erase` calls. -/
def Reachable [LinearOrder K] (this : Nat) (m : Map K V) : Prop :=
  ∃ ops, Map.run this (Map.empty : Map K V) ops = some m

/-- What holds of every reachable state: invariants 1, 3, 4 and 5, and distinct nodes have
distinct addresses. -/
def MapInv [LinearOrder K] (m : Map K V) : Prop :=
  BST m.root_ ∧ Good m.root_ ∧ m.root_.addrs.Nodup ∧ m.size_ = m.root_.size

/-! ## Concrete inputs -/

/-- The calls `insert(2), insert(1), insert(3)` and then `insert(1)` again. -/
def opsDup : List (Op Nat Nat) :=
  [.insert 2 20 1, .insert 1 10 2, .insert 3 30 3, .insert 1 11 4]

/-- The state after `opsDup`: the root, key 2, is red. -/
def mapDup : Map Nat Nat :=
  ⟨node .kRed 1 2 20 (node .kBlack 2 1 10 nil nil) (node .kBlack 3 3 30 nil nil),
    some 2, some 3, 3⟩

/-- Eleven inserts of new keys, then `insert` of the keys 9, 6 and 0, which are present. -/
def opsRedRoot : List (Op Nat Nat) :=
  [.insert 1 0 1, .insert 3 0 2, .insert 11 0 3, .insert 0 0 4, .insert 4 0 5, .insert 8 0 6,
   .insert 10 0 7, .insert 6 0 8, .insert 2 0 9, .insert 5 0 10, .insert 9 0 11,
   .insert 9 0 12, .insert 6 0 13, .insert 0 0 14]

/-- The state after `opsRedRoot`: the root, key 8, is red, and its black left child, key 3,
has two red children. -/
def mapRedRoot : Map Nat Nat :=
  ⟨node .kRed 6 8 0
      (node .kBlack 2 3 0
        (node .kRed 1 1 0 (node .kBlack 4 0 0 nil nil) (node .kBlack 9 2 0 nil nil))
        (node .kRed 10 5 0 (node .kBlack 5 4 0 nil nil) (node .kBlack 8 6 0 nil nil)))
      (node .kBlack 7 10 0 (node .kBlack 11 9 0 nil nil) (node .kBlack 3 11 0 nil nil)),
    some 4, some 3, 11⟩

/-- A small red-black tree: black root 2 with the red children 1 and 3. -/
def treeSmall : Tree Nat Nat :=
  node .kBlack 1 2 20 (node .kRed 2 1 10 nil nil) (node .kRed 3 3 30 nil nil)

/-- The map whose tree is `treeSmall`. -/
def mapSmall : Map Nat Nat := ⟨treeSmall, some 2, some 3, 3⟩

end sjtu


/-!
# Iterators, whole-map operations and the priority queue

Shallow embedding of the iterator classes and of `clear`, the copy constructor and the copy
assignment of `src/map/src/map.hpp`, and of `src/priority_queue/src/priority_queue.hpp`.

* An iterator holds the address of a node; the node is found again in the tree of the map each
  time the iterator is used, together with its chain of `parent_` links.
* `const_iterator` has constructors that leave `map_ptr_` without a value; the member is an
  `Option`, `none` standing for "never initialised".
-/

namespace sjtu

variable {K V : Type}

open Tree

/-! ## Following a node pointer -/

/-- The node at address `p` inside `t`: the subtree it roots and its chain of ancestors
`p->parent_`, `p->parent_->parent_`, ..., where `path` is the chain of ancestors of `t`. -/
def Tree.nodeAt (p : Nat) : Tree K V → Path K V → Option (Tree K V × Path K V)
  | nil, _ => none
  | node c a k v l r, path =>
    if a = p then some (node c a k v l r, path)
    else
      match nodeAt p l (⟨c, a, k, v, .L, r⟩ :: path) with
      | some x => some x
      | none => nodeAt p r (⟨c, a, k, v, .R, l⟩ :: path)

/-- The loop of `FindNext` and its return:
`while (node->parent_ != nullptr && node->parent_->right_ == node) node = node->parent_;`
then `return node->parent_`. -/
def climbWhileRight : Path K V → Option Nat
  | [] => none
  | f :: rest =>
    match f.dir with
    | .R => climbWhileRight rest
    | .L => some f.addr

/-- The loop of `FindPrev` and its return:
`while (node->parent_ != nullptr && node->parent_->left_ == node) node = node->parent_;`
then `return node->parent_`. -/
def climbWhileLeft : Path K V → Option Nat
  | [] => none
  | f :: rest =>
    match f.dir with
    | .L => climbWhileLeft rest
    | .R => some f.addr

/-- Function `FindNext(node)` on a node of the tree `root_`. -/
def FindNext (root_ : Tree K V) (node : Nat) : Outcome (Option Nat) :=
  match root_.nodeAt node [] with
  | some (.node _ _ _ _ _ r, path) =>
    if r.isNil then .ok (climbWhileRight path) else .ok (GetMinimum r)
  | _ => .fail .dangling

/-- Function `FindPrev(node)` on a node of the tree `root_`. -/
def FindPrev (root_ : Tree K V) (node : Nat) : Outcome (Option Nat) :=
  match root_.nodeAt node [] with
  | some (.node _ _ _ _ l _, path) =>
    if l.isNil then .ok (climbWhileLeft path) else .ok (GetMaximum l)
  | _ => .fail .dangling

/-! ## Class `iterator`

In the members below `m` is the map that `map_ptr_` designates, whose nodes the iterator
references. A call leaves the iterator in the state `s` of its result. -/

namespace Iter

/-- Operator `*it`: the `data_` of the node referenced. -/
def deref (m : Map K V) (it : Iter) : Outcome (K × V) :=
  match it.node_ with
  | none => .fail .null_access
  | some p =>
    match m.root_.nodeAt p [] with
    | some (.node _ _ k v _ _, _) => .ok (k, v)
    | _ => .fail .dangling

/-- Operator `++iter`. -/
def preInc (m : Map K V) (it : Iter) : Call Iter Iter :=
  match it.node_ with
  | none => .throws it .invalid_iterator
  | some p =>
    match FindNext m.root_ p with
    | .fail f => .undefined f
    | .ok q => .returns ⟨q, it.map_ptr_⟩ ⟨q, it.map_ptr_⟩

/-- Operator `iter++`: it returns the old value. -/
def postInc (m : Map K V) (it : Iter) : Call Iter Iter :=
  match it.node_ with
  | none => .throws it .invalid_iterator
  | some p =>
    match FindNext m.root_ p with
    | .fail f => .undefined f
    | .ok q => .returns ⟨q, it.map_ptr_⟩ it

/-- Operator `--iter`. When `FindPrev` gives `nullptr` the member `node_` has been overwritten
before the exception is thrown. -/
def preDec (m : Map K V) (it : Iter) : Call Iter Iter :=
  match it.node_ with
  | none =>
    if m.root_.isNil then .throws it .invalid_iterator
    else .returns ⟨m.max_node_, it.map_ptr_⟩ ⟨m.max_node_, it.map_ptr_⟩
  | some p =>
    match FindPrev m.root_ p with
    | .fail f => .undefined f
    | .ok none => .throws ⟨none, it.map_ptr_⟩ .invalid_iterator
    | .ok (some q) => .returns ⟨some q, it.map_ptr_⟩ ⟨some q, it.map_ptr_⟩

/-- Operator `iter--`: from the sentinel it returns the new value, elsewhere the old one. -/
def postDec (m : Map K V) (it : Iter) : Call Iter Iter :=
  match it.node_ with
  | none =>
    if m.root_.isNil then .throws it .invalid_iterator
    else .returns ⟨m.max_node_, it.map_ptr_⟩ ⟨m.max_node_, it.map_ptr_⟩
  | some p =>
    match FindPrev m.root_ p with
    | .fail f => .undefined f
    | .ok none => .throws ⟨none, it.map_ptr_⟩ .invalid_iterator
    | .ok (some q) => .returns ⟨some q, it.map_ptr_⟩ it

/-- Operator `a == b` of two `iterator`s. -/
def eq (a b : Iter) : Bool := a.map_ptr_ = b.map_ptr_ && a.node_ = b.node_

/-- Operator `a != b` of two `iterator`s. -/
def ne (a b : Iter) : Bool := a.map_ptr_ ≠ b.map_ptr_ || a.node_ ≠ b.node_

end Iter

/-! ## Class `const_iterator` -/

/-- A `const_iterator`: `map_ptr_` is `none` when the constructor that built the object gave it
no value. -/
structure ConstIter where
  node_ : Option Nat
  map_ptr_ : Option Nat
deriving DecidableEq

namespace ConstIter

/-- Constructor `const_iterator()`: `node_(nullptr)` only. -/
def blank : ConstIter := ⟨none, none⟩

/-- Constructor `const_iterator(const const_iterator &other)`: `node_(other.node_)` only. -/
def copy (other : ConstIter) : ConstIter := ⟨other.node_, none⟩

/-- Constructor `const_iterator(const iterator &other)`: `node_(other.node_)` only. -/
def ofIter (other : Iter) : ConstIter := ⟨other.node_, none⟩

/-- Operator `++iter`. -/
def preInc (m : Map K V) (it : ConstIter) : Call ConstIter ConstIter :=
  match it.node_ with
  | none => .throws it .invalid_iterator
  | some p =>
    match FindNext m.root_ p with
    | .fail f => .undefined f
    | .ok q => .returns ⟨q, it.map_ptr_⟩ ⟨q, it.map_ptr_⟩

/-- Operator `iter++`: `old` is built by the copy constructor. -/
def postInc (m : Map K V) (it : ConstIter) : Call ConstIter ConstIter :=
  match it.node_ with
  | none => .throws it .invalid_iterator
  | some p =>
    match FindNext m.root_ p with
    | .fail f => .undefined f
    | .ok q => .returns ⟨q, it.map_ptr_⟩ (copy it)

/-- Operator `--iter`; from the sentinel it reads `map_ptr_->root_`. -/
def preDec (m : Map K V) (it : ConstIter) : Call ConstIter ConstIter :=
  match it.node_ with
  | none =>
    match it.map_ptr_ with
    | none => .undefined .uninitialised
    | some _ =>
      if m.root_.isNil then .throws it .invalid_iterator
      else .returns ⟨m.max_node_, it.map_ptr_⟩ ⟨m.max_node_, it.map_ptr_⟩
  | some p =>
    match FindPrev m.root_ p with
    | .fail f => .undefined f
    | .ok none => .throws ⟨none, it.map_ptr_⟩ .invalid_iterator
    | .ok (some q) => .returns ⟨some q, it.map_ptr_⟩ ⟨some q, it.map_ptr_⟩

/-- Operator `iter--`; the value returned is built by the copy constructor. -/
def postDec (m : Map K V) (it : ConstIter) : Call ConstIter ConstIter :=
  match it.node_ with
  | none =>
    match it.map_ptr_ with
    | none => .undefined .uninitialised
    | some _ =>
      if m.root_.isNil then .throws it .invalid_iterator
      else .returns ⟨m.max_node_, it.map_ptr_⟩ (copy ⟨m.max_node_, it.map_ptr_⟩)
  | some p =>
    match FindPrev m.root_ p with
    | .fail f => .undefined f
    | .ok none => .throws ⟨none, it.map_ptr_⟩ .invalid_iterator
    | .ok (some q) => .returns ⟨some q, it.map_ptr_⟩ (copy it)

/-- Operator `a == b` of two `const_iterator`s: it reads both `map_ptr_` members. -/
def eq (a b : ConstIter) : Outcome Bool :=
  match a.map_ptr_, b.map_ptr_ with
  | some x, some y => .ok (x = y && a.node_ = b.node_)
  | _, _ => .fail .uninitialised

/-- Operator `a != b` of two `const_iterator`s. -/
def ne (a b : ConstIter) : Outcome Bool :=
  match a.map_ptr_, b.map_ptr_ with
  | some x, some y => .ok (x ≠ y || a.node_ ≠ b.node_)
  | _, _ => .fail .uninitialised

/-- Operator `a == b` of a `const_iterator` and an `iterator`. -/
def eqIter (a : ConstIter) (b : Iter) : Outcome Bool :=
  match a.map_ptr_ with
  | some x => .ok (x = b.map_ptr_ && a.node_ = b.node_)
  | none => .fail .uninitialised

/-- Operator `a != b` of a `const_iterator` and an `iterator`. -/
def neIter (a : ConstIter) (b : Iter) : Outcome Bool :=
  match a.map_ptr_ with
  | some x => .ok (x ≠ b.map_ptr_ || a.node_ ≠ b.node_)
  | none => .fail .uninitialised

end ConstIter

/-- Operator `a == b` of an `iterator` and a `const_iterator`. -/
def Iter.eqConst (a : Iter) (b : ConstIter) : Outcome Bool :=
  match b.map_ptr_ with
  | some y => .ok (a.map_ptr_ = y && a.node_ = b.node_)
  | none => .fail .uninitialised

/-- Operator `a != b` of an `iterator` and a `const_iterator`. -/
def Iter.neConst (a : Iter) (b : ConstIter) : Outcome Bool :=
  match b.map_ptr_ with
  | some y => .ok (a.map_ptr_ ≠ y || a.node_ ≠ b.node_)
  | none => .fail .uninitialised

/-! ## More members of `map` -/

namespace Map

/-- Member `begin()` of the map at address `this`. -/
def begin_ (this : Nat) (m : Map K V) : Iter := ⟨m.min_node_, this⟩

/-- Member `cbegin()` of the map at address `this`. -/
def cbegin (this : Nat) (m : Map K V) : ConstIter := ⟨m.min_node_, some this⟩

/-- Member `cend()` of the map at address `this`. -/
def cend (this : Nat) (_m : Map K V) : ConstIter := ⟨none, some this⟩

/-- Member `empty()`. -/
def empty_ (m : Map K V) : Bool := decide (m.size_ = 0)

/-- Member `clear()`. -/
def clear (_m : Map K V) : Map K V := ⟨nil, none, none, 0⟩

end Map

/-- A node graph with the `parent_` member of every node written out, as `CopyTree` builds
it. -/
inductive Linked (K V : Type) where
  | nil
  | node (colour_ : Colour) (addr : Nat) (parent_ : Option Nat) (key : K) (val : V)
      (left_ right_ : Linked K V)
deriving DecidableEq

namespace Linked

/-- Assignment `t->parent_ = par`, done by the caller only when `t != nullptr`. -/
def setParent (par : Option Nat) : Linked K V → Linked K V
  | nil => nil
  | node c a _ k v l r => node c a par k v l r

/-- The child links alone. -/
def toTree : Linked K V → Tree K V
  | nil => Tree.nil
  | node c a _ k v l r => Tree.node c a k v (toTree l) (toTree r)

end Linked

/-- Function `CopyTree(other_root)`; `alloc a` is the address `new` returns for the copy of the
node at address `a`. -/
def CopyTree (alloc : Nat → Nat) : Tree K V → Linked K V
  | nil => .nil
  | node c a k v l r =>
    .node c (alloc a) none k v
      ((CopyTree alloc l).setParent (some (alloc a)))
      ((CopyTree alloc r).setParent (some (alloc a)))

namespace Map

/-- Copy constructor `map(const map &other)`. -/
def copy (other : Map K V) (alloc : Nat → Nat) : Map K V :=
  let root_ := (CopyTree alloc other.root_).toTree
  ⟨root_, if root_.isNil then none else GetMinimum root_,
    if root_.isNil then none else GetMaximum root_, other.size_⟩

/-- Copy assignment `operator=(const map &other)` on the map `m` at address `this`, where
`other` is the map `mo` at address `that`. -/
def assign (this : Nat) (m : Map K V) (that : Nat) (mo : Map K V) (alloc : Nat → Nat) :
    Map K V :=
  if this = that then m
  else
    let root_ := (CopyTree alloc mo.root_).toTree
    ⟨root_, if root_.isNil then none else GetMinimum root_,
      if root_.isNil then none else GetMaximum root_, mo.size_⟩

/-- The loop `for (; it != end(); ++it) visit(*it)` on the map at address `this`: the entries
visited, in the order of the visits. -/
def traverse (this : Nat) (m : Map K V) : Nat → Iter → Call Iter (List (K × V))
  | 0, _ => .undefined .out_of_fuel
  | fuel + 1, it =>
    if it.ne (m.end_ this) then
      match it.deref m with
      | .fail f => .undefined f
      | .ok e =>
        match it.preInc m with
        | .undefined f => .undefined f
        | .throws s x => .throws s x
        | .returns it' _ =>
          match traverse this m fuel it' with
          | .returns s es => .returns s (e :: es)
          | other => other
    else .returns it []

/-- Full forward iteration `for (it = begin(); it != end(); ++it)`. -/
def forward (this : Nat) (m : Map K V) : Call Iter (List (K × V)) :=
  traverse this m (m.root_.size + 1) (m.begin_ this)

/-- The loop `while (n--) erase(begin())` on the map at address `this`. -/
def eraseFront [LinearOrder K] (this : Nat) : Nat → Map K V → Call (Map K V) Unit
  | 0, m => .returns m ()
  | n + 1, m =>
    match m.erase this (m.begin_ this) with
    | .returns m' _ => eraseFront this n m'
    | other => other

end Map

/-! ## More notions used to state and prove the properties -/

/-- The cached minimum is the leftmost node, and is absent when the tree is empty. -/
def MinInv (m : Map K V) : Prop := m.min_node_ = GetMinimum m.root_

/-- The allocator gives distinct nodes of `t` distinct addresses for their copies. -/
def FreshOn (alloc : Nat → Nat) (t : Tree K V) : Prop :=
  ∀ a ∈ t.addrs, ∀ b ∈ t.addrs, alloc a = alloc b → a = b

/-- States reachable from the empty map by `insert`, `operator[]`, `erase`, `clear`, copy
construction and copy assignment; the first index is the address of the map. -/
inductive ReachableAll [LinearOrder K] : Nat → Map K V → Prop
  | empty (this : Nat) : ReachableAll this Map.empty
  | step (this : Nat) (m m' : Map K V) (op : Op K V) :
      ReachableAll this m → Map.step this m op = some m' → ReachableAll this m'
  | clear (this : Nat) (m : Map K V) : ReachableAll this m → ReachableAll this m.clear
  | copy (this that : Nat) (mo : Map K V) (alloc : Nat → Nat) :
      ReachableAll that mo → FreshOn alloc mo.root_ → ReachableAll this (Map.copy mo alloc)
  | assign (this that : Nat) (m mo : Map K V) (alloc : Nat → Nat) :
      ReachableAll this m → ReachableAll that mo → FreshOn alloc mo.root_ →
      ReachableAll this (Map.assign this m that mo alloc)

/-- The same tree with every address `a` replaced by `f a`. -/
def Tree.rename (f : Nat → Nat) : Tree K V → Tree K V
  | nil => nil
  | node c a k v l r => node c (f a) k v (rename f l) (rename f r)

/-- Every `parent_` member holds the address of the node whose child slot holds the node;
`par` is what the root of the graph must hold. -/
def Linked.Consistent (par : Option Nat) : Linked K V → Prop
  | .nil => True
  | .node _ a p _ _ l r => p = par ∧ Consistent (some a) l ∧ Consistent (some a) r

/-- The pointer `node_` references the entry with the least key of the tree. -/
def AtLeastKey [LinearOrder K] (t : Tree K V) (node_ : Option Nat) : Prop :=
  ∃ p k v, node_ = some p ∧ (p, k, v) ∈ t.toList ∧ ∀ e ∈ t.toList, k ≤ e.2.1

/-- The pointer `node_` references the entry with the greatest key of the tree. -/
def AtGreatestKey [LinearOrder K] (t : Tree K V) (node_ : Option Nat) : Prop :=
  ∃ p k v, node_ = some p ∧ (p, k, v) ∈ t.toList ∧ ∀ e ∈ t.toList, e.2.1 ≤ k

/-- The pointer `node_` is `nullptr` or references a node of the tree. -/
def InTree (t : Tree K V) (node_ : Option Nat) : Prop :=
  node_ = none ∨ ∃ p, p ∈ t.addrs ∧ node_ = some p

/-- The call throws the exception `e`. -/
def Call.Throws {σ ρ : Type} (c : Call σ ρ) (e : Exn) : Prop := ∃ s, c = .throws s e

/-- The call returns. -/
def Call.Returns {σ ρ : Type} (c : Call σ ρ) : Prop := ∃ s r, c = .returns s r

/-- The call returns and leaves the state `s`. -/
def Call.ReturnsAt {σ ρ : Type} (c : Call σ ρ) (s : σ) : Prop := ∃ r, c = .returns s r

/-! ### More concrete inputs -/

/-- The call `m[1]` on the empty map. -/
def opsIndex : List (Op Nat Nat) := [.index 1 0 1]

/-- The state after `opsIndex`: one entry, and `max_node_` still `nullptr`. -/
def mapIndex : Map Nat Nat := ⟨node .kBlack 1 1 0 nil nil, some 1, none, 1⟩

/-- The calls `insert(1)` and then `m[2]`. -/
def opsInsertIndex : List (Op Nat Nat) := [.insert 1 0 1, .index 2 0 2]

/-- The state after `opsInsertIndex`: `max_node_` still references the node of key 1. -/
def mapInsertIndex : Map Nat Nat :=
  ⟨node .kBlack 1 1 0 nil (node .kRed 2 2 0 nil nil), some 1, some 1, 2⟩

/-- Inserts of the keys 5, 3, 8, 1, 4, 7, 9 in that order. -/
def opsSeven : List (Op Nat Nat) :=
  [.insert 5 50 1, .insert 3 30 2, .insert 8 80 3, .insert 1 10 4, .insert 4 40 5,
   .insert 7 70 6, .insert 9 90 7]

/-- The state after `opsSeven`: black root 5, black children 3 and 8, four red leaves. -/
def mapSeven : Map Nat Nat :=
  ⟨node .kBlack 1 5 50
      (node .kBlack 2 3 30 (node .kRed 4 1 10 nil nil) (node .kRed 5 4 40 nil nil))
      (node .kBlack 3 8 80 (node .kRed 6 7 70 nil nil) (node .kRed 7 9 90 nil nil)),
    some 4, some 7, 7⟩

/-- The state `insert(1)` leaves from `mapSeven`: node 3 is now red, its children black. -/
def mapSevenAgain : Map Nat Nat :=
  ⟨node .kBlack 1 5 50
      (node .kRed 2 3 30 (node .kBlack 4 1 10 nil nil) (node .kBlack 5 4 40 nil nil))
      (node .kBlack 3 8 80 (node .kRed 6 7 70 nil nil) (node .kRed 7 9 90 nil nil)),
    some 4, some 7, 7⟩

/-! ## sjtu::priority_queue — a skew heap

`Compare()(a, b)` is the function `cmp`, which is total and does not throw. -/

/-- A heap `Node` and the subtree hanging from it; `nil` is `nullptr`. -/
inductive Node (T : Type) where
  | nil
  | node (data_ : T) (left_ right_ : Node T)
deriving DecidableEq

namespace Node

variable {T : Type}

/-- Number of nodes reachable from the root. -/
def size : Node T → Nat
  | nil => 0
  | node _ l r => size l + 1 + size r

/-- Elements stored, in pre-order. -/
def elems : Node T → List T
  | nil => []
  | node d l r => d :: (elems l ++ elems r)

end Node

/-- Function `MergeTree(root1, root2)`. -/
def MergeTree {T : Type} (cmp : T → T → Bool) : Node T → Node T → Node T
  | .nil, root2 => root2
  | .node d1 l1 r1, .nil => .node d1 l1 r1
  | .node d1 l1 r1, .node d2 l2 r2 =>
    if cmp d1 d2 then
      let new_root := MergeTree cmp (.node d1 l1 r1) r2
      .node d2 new_root l2
    else
      let new_root := MergeTree cmp r1 (.node d2 l2 r2)
      .node d1 new_root l1
termination_by root1 root2 => root1.size + root2.size
decreasing_by
  all_goals simp_wf
  all_goals simp only [Node.size]
  all_goals omega

/-- Data members of `priority_queue`. -/
structure priority_queue (T : Type) where
  root_ : Node T
  size_ : Nat
deriving DecidableEq

namespace priority_queue

variable {T : Type}

/-- Constructor `priority_queue()`. -/
def empty : priority_queue T := ⟨.nil, 0⟩

/-- Member `size()`. -/
def size (q : priority_queue T) : Nat := q.size_

/-- Member `top()`. -/
def top (q : priority_queue T) : Call (priority_queue T) T :=
  if q.size_ = 0 then .throws q .container_is_empty
  else
    match q.root_ with
    | .nil => .undefined .null_access
    | .node d _ _ => .returns q d

/-- Member `push(e)`. -/
def push (cmp : T → T → Bool) (q : priority_queue T) (e : T) : priority_queue T :=
  ⟨MergeTree cmp q.root_ (.node e .nil .nil), q.size_ + 1⟩

/-- Member `pop()`. -/
def pop (cmp : T → T → Bool) (q : priority_queue T) : Call (priority_queue T) Unit :=
  if q.size_ = 0 then .throws q .container_is_empty
  else
    match q.root_ with
    | .nil => .undefined .null_access
    | .node _ l r => .returns ⟨MergeTree cmp l r, q.size_ - 1⟩ ()

/-- Member `merge(other)` for `other` a queue distinct from this one: the new state of this
queue and the new state of `other`. -/
def merge (cmp : T → T → Bool) (q other : priority_queue T) :
    priority_queue T × priority_queue T :=
  (⟨MergeTree cmp q.root_ other.root_, q.size_ + other.size_⟩, ⟨.nil, 0⟩)

end priority_queue

/-! ### Notions used to state and prove the properties of the priority queue -/

/-- Heap order: no element below a node is greater than the element of the node, that is,
`Compare()(d, x)` is false for every `x` below `d`. -/
def HeapOrdered {T : Type} (cmp : T → T → Bool) : Node T → Prop
  | .nil => True
  | .node d l r =>
    (∀ x ∈ l.elems, cmp d x = false) ∧ (∀ x ∈ r.elems, cmp d x = false) ∧
      HeapOrdered cmp l ∧ HeapOrdered cmp r

/-- The elements held by the queue, as a multiset. -/
def priority_queue.contents {T : Type} (q : priority_queue T) : Multiset T :=
  (q.root_.elems : Multiset T)

/-- States reachable from the empty queue by `push`, `pop` and `merge`, each with the multiset
of the elements pushed or merged in and not yet popped. -/
inductive Built {T : Type} [DecidableEq T] (cmp : T → T → Bool) :
    priority_queue T → Multiset T → Prop
  | empty : Built cmp priority_queue.empty 0
  | push (q : priority_queue T) (M : Multiset T) (e : T) :
      Built cmp q M → Built cmp (q.push cmp e) (e ::ₘ M)
  | pop (q q' : priority_queue T) (M : Multiset T) (e : T) :
      Built cmp q M → q.top = .returns q e → q.pop cmp = .returns q' () →
      Built cmp q' (M.erase e)
  | merge (q other : priority_queue T) (M N : Multiset T) :
      Built cmp q M → Built cmp other N → Built cmp (q.merge cmp other).1 (M + N)
  | merged (q other : priority_queue T) (M N : Multiset T) :
      Built cmp q M → Built cmp other N → Built cmp (q.merge cmp other).2 0

/-- The comparison `std::less<int>` on natural numbers. -/
def natLess (a b : Nat) : Bool := decide (a < b)

end sjtu


/-!
# Further members and the pointer level

More members of `priority_queue`; the rotations of `src/map/src/map.hpp` written as the
assignments to `parent_`, `left_`, `right_` and `root_` that the source makes, on a store of
nodes; and `src/vector/src/vector.hpp`.
-/

namespace sjtu

/-- Member `empty()` of `priority_queue`. -/
def priority_queue.empty_ {T : Type} (q : priority_queue T) : Bool := decide (q.size_ = 0)

/-! ## The rotations on a store of nodes

Here a node is a cell of a store at its address, with the members `parent_`, `left_` and
`right_` written out, and each rotation is the sequence of assignments of the source. -/

/-- Sequencing of private operations: the second runs on what the first returns, and a fault
ends the sequence. -/
instance : Monad Outcome where
  pure := Outcome.ok
  bind x f :=
    match x with
    | .ok a => f a
    | .fail e => .fail e

/-- The members of an `RBTreeNode`. -/
structure Cell (K V : Type) where
  colour_ : Colour
  key : K
  val : V
  parent_ : Option Nat
  left_ : Option Nat
  right_ : Option Nat
deriving DecidableEq

/-- The nodes in memory, by address, and the member `root_` of the map. -/
structure Store (K V : Type) where
  cell : Nat → Option (Cell K V)
  root_ : Option Nat

namespace Store

variable {K V : Type}

/-- The node a pointer designates; an access through `nullptr` is a fault. -/
def read (s : Store K V) (p : Option Nat) : Outcome (Cell K V) :=
  match p with
  | none => .fail .null_access
  | some a =>
    match s.cell a with
    | none => .fail .dangling
    | some c => .ok c

/-- Expression `p->parent_`. -/
def parent (s : Store K V) (p : Option Nat) : Outcome (Option Nat) := do
  let c ← s.read p
  pure c.parent_

/-- Expression `p->left_`. -/
def left (s : Store K V) (p : Option Nat) : Outcome (Option Nat) := do
  let c ← s.read p
  pure c.left_

/-- Expression `p->right_`. -/
def right (s : Store K V) (p : Option Nat) : Outcome (Option Nat) := do
  let c ← s.read p
  pure c.right_

/-- Assignment to members of the node `p` designates. -/
def write (s : Store K V) (p : Option Nat) (f : Cell K V → Cell K V) :
    Outcome (Store K V) :=
  match p with
  | none => .fail .null_access
  | some a =>
    match s.cell a with
    | none => .fail .dangling
    | some c => .ok ⟨Function.update s.cell a (some (f c)), s.root_⟩

/-- Assignment `p->parent_ = x`. -/
def setParent (s : Store K V) (p x : Option Nat) : Outcome (Store K V) :=
  s.write p (fun c => ⟨c.colour_, c.key, c.val, x, c.left_, c.right_⟩)

/-- Assignment `p->left_ = x`. -/
def setLeft (s : Store K V) (p x : Option Nat) : Outcome (Store K V) :=
  s.write p (fun c => ⟨c.colour_, c.key, c.val, c.parent_, x, c.right_⟩)

/-- Assignment `p->right_ = x`. -/
def setRight (s : Store K V) (p x : Option Nat) : Outcome (Store K V) :=
  s.write p (fun c => ⟨c.colour_, c.key, c.val, c.parent_, c.left_, x⟩)

/-- The end of every rotation: the node `top` takes the place of `g` under `g_par`, or in
`root_` when `g_par` is `nullptr`. -/
def relink (s : Store K V) (g_par g top : Option Nat) : Outcome (Store K V) :=
  if g_par ≠ none then do
    let l ← s.left g_par
    if l = g then s.setLeft g_par top else s.setRight g_par top
  else pure ⟨s.cell, top⟩

/-- Member `LL(g)`. -/
def LL (s : Store K V) (g : Option Nat) : Outcome (Store K V) := do
  let g_par ← s.parent g
  let p ← s.left g
  let p_r ← s.right p
  let s ← s.setRight p g
  let s ← s.setParent g p
  let s ← s.setParent p g_par
  let s ← s.setLeft g p_r
  let s ← if p_r ≠ none then s.setParent p_r g else pure s
  s.relink g_par g p

/-- Member `RR(g)`. -/
def RR (s : Store K V) (g : Option Nat) : Outcome (Store K V) := do
  let g_par ← s.parent g
  let p ← s.right g
  let p_l ← s.left p
  let s ← s.setLeft p g
  let s ← s.setParent g p
  let s ← s.setParent p g_par
  let s ← s.setRight g p_l
  let s ← if p_l ≠ none then s.setParent p_l g else pure s
  s.relink g_par g p

/-- Member `LR(g)`. -/
def LR (s : Store K V) (g : Option Nat) : Outcome (Store K V) := do
  let g_par ← s.parent g
  let p ← s.left g
  let x ← s.right p
  let x_l ← s.left x
  let x_r ← s.right x
  let s ← s.setParent g x
  let s ← s.setLeft g x_r
  let s ← s.setParent p x
  let s ← s.setRight p x_l
  let s ← s.setParent x g_par
  let s ← s.setLeft x p
  let s ← s.setRight x g
  let s ← if x_l ≠ none then s.setParent x_l p else pure s
  let s ← if x_r ≠ none then s.setParent x_r g else pure s
  s.relink g_par g x

/-- Member `RL(g)`. -/
def RL (s : Store K V) (g : Option Nat) : Outcome (Store K V) := do
  let g_par ← s.parent g
  let p ← s.right g
  let x ← s.left p
  let x_l ← s.left x
  let x_r ← s.right x
  let s ← s.setParent g x
  let s ← s.setRight g x_l
  let s ← s.setParent p x
  let s ← s.setLeft p x_r
  let s ← s.setParent x g_par
  let s ← s.setLeft x g
  let s ← s.setRight x p
  let s ← if x_l ≠ none then s.setParent x_l g else pure s
  let s ← if x_r ≠ none then s.setParent x_r p else pure s
  s.relink g_par g x

end Store

/-- The cells of the store are the nodes of the tree `t`, whose root has `par` in `parent_`:
every node is at its address with its colour, key and value, its `left_` and `right_` hold
the addresses of the roots of its subtrees and its `parent_` the address of the node above. -/
def Repr {K V : Type} (h : Nat → Option (Cell K V)) : Option Nat → Tree K V → Prop
  | _, .nil => True
  | par, .node c a k v l r =>
    h a = some ⟨c, k, v, par, l.rootAddr, r.rootAddr⟩ ∧ Repr h (some a) l ∧ Repr h (some a) r

/-- The store holds the tree `t`: `root_` designates its root, whose `parent_` is `nullptr`,
and all links below are consistent. -/
def Store.Holds {K V : Type} (s : Store K V) (t : Tree K V) : Prop :=
  s.root_ = t.rootAddr ∧ Repr s.cell none t

/-- The address in `parent_` of the node in focus: that of the innermost ancestor. -/
def parentOf {K V : Type} (path : Path K V) : Option Nat := path.head?.map (fun f => f.addr)

/-- The cells of the store are the ancestors of the focus and the subtrees beside it, when the
root of the focus is at `hole`. -/
def ReprCtx {K V : Type} (h : Nat → Option (Cell K V)) : Path K V → Option Nat → Prop
  | [], _ => True
  | f :: rest, hole =>
    h f.addr = some ⟨f.colour_, f.key, f.val, parentOf rest,
      (match f.dir with | .L => hole | .R => f.sib.rootAddr),
      (match f.dir with | .L => f.sib.rootAddr | .R => hole)⟩ ∧
    Repr h (some f.addr) f.sib ∧ ReprCtx h rest (some f.addr)

/-- The cell the tree `t`, whose root has `par` in `parent_`, prescribes at the address `a`. -/
def Tree.cellAt {K V : Type} (a : Nat) : Option Nat → Tree K V → Option (Cell K V)
  | _, .nil => none
  | par, .node c b k v l r =>
    if a = b then some ⟨c, k, v, par, l.rootAddr, r.rootAddr⟩
    else
      match cellAt a (some b) l with
      | some x => some x
      | none => cellAt a (some b) r

/-- The store that holds the tree `t` and nothing else. -/
def Store.ofTree {K V : Type} (t : Tree K V) : Store K V :=
  ⟨fun a => t.cellAt a none, t.rootAddr⟩

/-- The address of the root changes. -/
def RootMoved {K V : Type} (s s' : Store K V) : Prop := s'.root_ ≠ s.root_

end sjtu


/-!
# `vector` (`src/vector/src/vector.hpp`)

The block of a vector is a sequence of slots, each holding an object or none. The counters of
the loops are `int` in the source and are kept so here: the conversion of a `size_t` to `int`
wraps, the comparison of an `int` with a `size_t` converts the `int`, and an `int` sum outside
the range of `int` is a fault. The members `size_` and `capacity_` are `size_t`: naturals
below `SIZE_MOD`, with arithmetic modulo `SIZE_MOD`. `allocate` always returns a block. The
argument `value` of `insert` and `push_back` is a `const T &`: it designates an object outside
the block or an element of the vector itself, and every use of it reads that object. The
argument `ind`, a `const size_t &`, is an index passed by value: this is what the source does
unless `T` is `size_t` and the argument is an element of the vector itself.
-/

namespace sjtu

/-! ## A concrete tree for the rotations -/

/-- A subtree on which each of the four rotations applies: the node at address 1 has two
children, and each of them has two children. -/
def rotSub : Tree Nat Nat :=
  .node .kBlack 1 20 0
    (.node .kRed 2 10 0 (.node .kBlack 4 5 0 .nil .nil) (.node .kBlack 5 15 0 .nil .nil))
    (.node .kRed 3 30 0 (.node .kBlack 6 25 0 .nil .nil) (.node .kBlack 7 35 0 .nil .nil))

/-- The ancestors of `rotSub` in a tree: the root, at address 8, has `rotSub` as its left
child and the node at address 9 as its right child. -/
def rotPath : Path Nat Nat := [⟨.kBlack, 8, 50, 0, .L, .node .kBlack 9 60 0 .nil .nil⟩]

/-! ## Integers of the source -/

/-- Static member `minCapacity`. -/
def minCapacity : Nat := 8

/-- The number of values of `size_t` (64 bits). -/
def SIZE_MOD : Nat := 18446744073709551616

/-- Constant `INT_MAX` for an `int` of 32 bits. -/
def INT_MAX : Int := 2147483647

/-- Constant `INT_MIN` for an `int` of 32 bits. -/
def INT_MIN : Int := -2147483648

/-- Sum `a + b` of two `size_t`. -/
def uadd (a b : Nat) : Nat := (a + b) % SIZE_MOD

/-- Difference `a - b` of two `size_t`. -/
def usub (a b : Nat) : Nat := (a + SIZE_MOD - b % SIZE_MOD) % SIZE_MOD

/-- Product `a * b` of two `size_t`. -/
def umul (a b : Nat) : Nat := (a * b) % SIZE_MOD

/-- Conversion of a `size_t` to `int`, as in `int i = size_`: the `int` congruent to it
modulo 2^32. -/
def toInt (n : Nat) : Int :=
  if n % 4294967296 < 2147483648 then ((n % 4294967296 : Nat) : Int)
  else ((n % 4294967296 : Nat) : Int) - 4294967296

/-- Conversion of an `int` to `size_t`, made where an `int` is compared with a `size_t`. -/
def toSize (i : Int) : Nat := (i % 18446744073709551616).toNat

/-- Sum `i + j` of two `int`. -/
def intAdd (i j : Int) : Outcome Int :=
  if INT_MIN ≤ i + j ∧ i + j ≤ INT_MAX then .ok (i + j) else .fail .int_overflow

/-- Difference `i - j` of two `int`. -/
def intSub (i j : Int) : Outcome Int :=
  if INT_MIN ≤ i - j ∧ i - j ≤ INT_MAX then .ok (i - j) else .fail .int_overflow

/-! ## Blocks -/

/-- A block returned by `allocate(len)`: `len` slots, each holding an object or none. -/
structure Block (T : Type) where
  len : Nat
  slot : Nat → Option T

/-- An argument of type `const T &` of a member of a vector: an object outside the block of
the vector, or the element `first_[j]` of the vector itself, as in `v.insert(ind, v[j])`. -/
inductive Ref (T : Type) where
  | object (x : T)
  | element (j : Nat)

/-- Call `alloc_.allocate(n)`: a block of `n` slots without objects. -/
def allocate {T : Type} (n : Nat) : Block T := ⟨n, fun _ => none⟩

namespace Block

variable {T : Type}

/-- The value of the object `first[i]`, for `first` the start of the block. -/
def read (b : Block T) (i : Int) : Outcome T :=
  if 0 ≤ i ∧ i < b.len then
    match b.slot i.toNat with
    | some x => .ok x
    | none => .fail .uninitialised
  else .fail .out_of_block

/-- Placement `new (first + i) T(x)`. -/
def construct (b : Block T) (i : Int) (x : T) : Outcome (Block T) :=
  if 0 ≤ i ∧ i < b.len then .ok ⟨b.len, Function.update b.slot i.toNat (some x)⟩
  else .fail .out_of_block

/-- Assignment `first[i] = x` to an object. -/
def assign (b : Block T) (i : Int) (x : T) : Outcome (Block T) :=
  if 0 ≤ i ∧ i < b.len then
    match b.slot i.toNat with
    | some _ => .ok ⟨b.len, Function.update b.slot i.toNat (some x)⟩
    | none => .fail .uninitialised
  else .fail .out_of_block

/-- The value of the object an argument of type `const T &` designates, read while the block
of the vector is `b`. -/
def load (b : Block T) : Ref T → Outcome T
  | .object x => .ok x
  | .element j => b.read j

/-- Destructor call `(first + i)->~T()`. -/
def destroy (b : Block T) (i : Int) : Outcome (Block T) :=
  if 0 ≤ i ∧ i < b.len then
    match b.slot i.toNat with
    | some _ => .ok ⟨b.len, Function.update b.slot i.toNat none⟩
    | none => .fail .uninitialised
  else .fail .out_of_block

end Block

/-! ## The class -/

/-- The data members of a `vector`: `first_` is the address of its block, `block` the block
at that address. -/
structure vector (T : Type) where
  first_ : Nat
  block : Block T
  size_ : Nat
  capacity_ : Nat

/-- A `T *`: the address of a block and an offset in it, counted in objects. -/
structure Ptr where
  base : Nat
  off : Int
deriving DecidableEq

/-- Class `vector::iterator`. -/
structure vector.iterator where
  data_ : Ptr
  vec_ptr_ : Nat
deriving DecidableEq

/-- A public member whose body is the computation `x`: a fault in it is undefined
behaviour. -/
def Call.ofOutcome {σ ρ : Type} (x : Outcome (σ × ρ)) : Call σ ρ :=
  match x with
  | .ok (s, r) => .returns s r
  | .fail f => .undefined f

variable {T : Type}

/-- The loop of `Copy(dest, src, n)` from the value `i` of its counter on; `dest` is at the
offset `doff` of the block `d` and `src` at the offset `soff` of the block `b`. -/
def CopyLoop : Nat → Int → Block T → Nat → Block T → Nat → Nat → Outcome (Block T)
  | 0, _, _, _, _, _, _ => .fail .out_of_fuel
  | fuel + 1, i, d, doff, b, soff, n =>
    if toSize i < n then do
      let x ← b.read ((soff : Int) + i)
      let d ← d.construct ((doff : Int) + i) x
      let i ← intAdd i 1
      CopyLoop fuel i d doff b soff n
    else pure d

/-- Member `Copy(dest, src, n)`. -/
def Copy (d : Block T) (doff : Nat) (b : Block T) (soff : Nat) (n : Nat) : Outcome (Block T) :=
  CopyLoop (n + 1) 0 d doff b soff n

/-- The loop of `Release()` from the value `i` of its counter on. -/
def ReleaseLoop : Nat → Int → Block T → Nat → Outcome (Block T)
  | 0, _, _, _ => .fail .out_of_fuel
  | fuel + 1, i, b, size_ =>
    if toSize i < size_ then do
      let b ← b.destroy i
      let i ← intAdd i 1
      ReleaseLoop fuel i b size_
    else pure b

/-- The loop of the first branch of `insert` from the value `i` of its counter on. -/
def insertLoop : Nat → Int → Block T → Nat → Outcome (Block T)
  | 0, _, _, _ => .fail .out_of_fuel
  | fuel + 1, i, b, ind =>
    if toSize i > ind then do
      let j ← intSub i 1
      let x ← b.read j
      let b ← b.assign i x
      let i ← intSub i 1
      insertLoop fuel i b ind
    else pure b

/-- The loop of the second branch of `erase` from the value `i` of its counter on. -/
def eraseLoop : Nat → Int → Block T → Nat → Outcome (Block T)
  | 0, _, _, _ => .fail .out_of_fuel
  | fuel + 1, i, b, size_ => do
    let i2 ← intAdd i 2
    if toSize i2 ≤ size_ then do
      let j ← intAdd i 1
      let x ← b.read j
      let b ← b.construct i x
      let i ← intAdd i 1
      eraseLoop fuel i b size_
    else pure b

namespace vector

/-- Constructor `vector()`; `first` is the address `allocate` returns. -/
def empty (first : Nat) : vector T := ⟨first, allocate minCapacity, 0, minCapacity⟩

/-- Member `Release()`: the objects are destroyed and the block is given back. -/
def Release (v : vector T) : Outcome Unit := do
  let _ ← ReleaseLoop (v.size_ + 1) 0 v.block v.size_
  pure ()

/-- Constructor `vector(const vector &other)`; `first` is the address `allocate` returns. -/
def copy (other : vector T) (first : Nat) : Outcome (vector T) := do
  let b ← Copy (allocate other.capacity_) 0 other.block 0 other.size_
  pure ⟨first, b, other.size_, other.capacity_⟩

/-- Member `at(pos)`. -/
def at_ (v : vector T) (pos : Nat) : Call (vector T) T :=
  if pos ≥ v.size_ then .throws v .index_out_of_bound
  else
    match v.block.read pos with
    | .ok x => .returns v x
    | .fail f => .undefined f

/-- Member `size()`. -/
def size (v : vector T) : Nat := v.size_

/-- Member `begin()` of the vector at address `this`. -/
def begin_ (v : vector T) (this : Nat) : iterator := ⟨⟨v.first_, 0⟩, this⟩

/-- Member `end()` of the vector at address `this`. -/
def end_ (v : vector T) (this : Nat) : iterator := ⟨⟨v.first_, v.size_⟩, this⟩

/-- Operator `*it` of an iterator, in the state `v` of its vector. -/
def iterator.deref (it : iterator) (v : vector T) : Outcome T :=
  if it.data_.base = v.first_ then v.block.read it.data_.off else .fail .dangling

/-- Member `clear()`; `first` is the address `allocate` returns. -/
def clear (v : vector T) (first : Nat) : Call (vector T) Unit :=
  Call.ofOutcome (do
    v.Release
    pure (⟨first, allocate minCapacity, 0, minCapacity⟩, ()))

/-- Member `insert(ind, value)` of the vector at address `this`; `new_space` is the address
`allocate` returns. -/
def insert (v : vector T) (this ind : Nat) (value : Ref T) (new_space : Nat) :
    Call (vector T) iterator :=
  if ind > v.size_ then .throws v .index_out_of_bound
  else if v.size_ < usub v.capacity_ 1 then
    Call.ofOutcome (do
      let x ← v.block.load value
      let b ← v.block.construct v.size_ x
      let b ← insertLoop (v.size_ + 1) (toInt v.size_) b ind
      let y ← b.load value
      let b ← b.assign ind y
      pure (⟨v.first_, b, uadd v.size_ 1, v.capacity_⟩, ⟨⟨v.first_, ind⟩, this⟩))
  else
    Call.ofOutcome (do
      let d ← Copy (allocate (umul 2 v.capacity_)) 0 v.block 0 ind
      let x ← v.block.load value
      let d ← d.construct ind x
      let d ← Copy d (ind + 1) v.block ind (usub v.size_ ind)
      v.Release
      pure (⟨new_space, d, uadd v.size_ 1, umul v.capacity_ 2⟩, ⟨⟨new_space, ind⟩, this⟩))

/-- Member `erase(ind)` of the vector at address `this`; `new_space` is the address
`allocate` returns. -/
def erase (v : vector T) (this ind : Nat) (new_space : Nat) : Call (vector T) iterator :=
  if ind ≥ v.size_ then .throws v .index_out_of_bound
  else if v.capacity_ > minCapacity ∧ uadd v.size_ 1 ≤ v.capacity_ / 4 then
    Call.ofOutcome (do
      let d ← Copy (allocate (max (v.capacity_ / 4) minCapacity)) 0 v.block 0 ind
      let d ← Copy d ind v.block (ind + 1) (usub (usub v.size_ 1) ind)
      v.Release
      pure (⟨new_space, d, usub v.size_ 1, max (v.capacity_ / 4) minCapacity⟩,
        ⟨⟨new_space, ind⟩, this⟩))
  else
    Call.ofOutcome (do
      let b ← eraseLoop (v.size_ + 1) (toInt ind) v.block v.size_
      let b ← b.destroy ((v.size_ : Int) - 1)
      pure (⟨v.first_, b, usub v.size_ 1, v.capacity_⟩, ⟨⟨v.first_, ind⟩, this⟩))

/-- Member `push_back(value)`. -/
def push_back (v : vector T) (this : Nat) (value : Ref T) (new_space : Nat) :
    Call (vector T) Unit :=
  match v.insert this v.size_ value new_space with
  | .returns s _ => .returns s ()
  | .throws s e => .throws s e
  | .undefined f => .undefined f

/-- Member `pop_back()`. -/
def pop_back (v : vector T) (this : Nat) (new_space : Nat) : Call (vector T) Unit :=
  if v.size_ = 0 then .throws v .container_is_empty
  else
    match v.erase this (usub v.size_ 1) new_space with
    | .returns s _ => .returns s ()
    | .throws s e => .throws s e
    | .undefined f => .undefined f

/-- The vector holds the sequence `s`: `size_` is its length and the first `size_` slots of
the block hold its elements; the block has `capacity_` slots, more than `size_` and not fewer
than `minCapacity`. -/
def Holds (v : vector T) (s : List T) : Prop :=
  v.size_ = s.length ∧ v.block.len = v.capacity_ ∧ v.size_ < v.capacity_ ∧
    minCapacity ≤ v.capacity_ ∧ v.capacity_ < SIZE_MOD ∧
    ∀ i, i < v.size_ → v.block.slot i = s[i]?

/-- The states of a vector reached by the constructors and by returning calls of `insert`,
`push_back`, `erase`, `pop_back` and `clear`. -/
inductive Reachable : vector T → Prop
  | ctor (first : Nat) : Reachable (empty first)
  | copy (other v : vector T) (first : Nat) (hr : Reachable other)
      (h : other.copy first = .ok v) : Reachable v
  | insert (v s : vector T) (this ind : Nat) (value : Ref T) (new_space : Nat) (r : iterator)
      (hr : Reachable v) (h : v.insert this ind value new_space = .returns s r) : Reachable s
  | push_back (v s : vector T) (this : Nat) (value : Ref T) (new_space : Nat)
      (hr : Reachable v) (h : v.push_back this value new_space = .returns s ()) : Reachable s
  | erase (v s : vector T) (this ind : Nat) (new_space : Nat) (r : iterator)
      (hr : Reachable v) (h : v.erase this ind new_space = .returns s r) : Reachable s
  | pop_back (v s : vector T) (this : Nat) (new_space : Nat)
      (hr : Reachable v) (h : v.pop_back this new_space = .returns s ()) : Reachable s
  | clear (v s : vector T) (first : Nat)
      (hr : Reachable v) (h : v.clear first = .returns s ()) : Reachable s

end vector

/-- The argument designates an object of value `x` while the vector holds `s`: an object
outside the block has its own value, the element at `j` is `s[j]`. -/
def Ref.Designates {T : Type} (r : Ref T) (s : List T) (x : T) : Prop :=
  match r with
  | .object y => y = x
  | .element j => s[j]? = some x

/-! ### Concrete vectors -/

/-- A vector that holds 10, 20, 30 in a block of 8 slots. -/
def vecSmall : vector Nat := ⟨0, ⟨8, fun i => [10, 20, 30][i]?⟩, 3, 8⟩

/-- A vector that holds seven elements in a block of 8 slots: the next `insert` takes a new
block. -/
def vecFull : vector Nat := ⟨0, ⟨8, fun i => [1, 2, 3, 4, 5, 6, 7][i]?⟩, 7, 8⟩

/-- A vector that holds two elements in a block of 32 slots: the next `erase` takes a
smaller block. -/
def vecSparse : vector Nat := ⟨0, ⟨32, fun i => [10, 20][i]?⟩, 2, 32⟩

end sjtu


namespace sjtu

variable {K V : Type}

open Tree

@[simp] theorem isRed_nil : (nil : Tree K V).isRed = false := rfl

@[simp] theorem isRed_red (a : Nat) (k : K) (v : V) (l r : Tree K V) :
    (node .kRed a k v l r).isRed = true := rfl

@[simp] theorem isRed_black (a : Nat) (k : K) (v : V) (l r : Tree K V) :
    (node .kBlack a k v l r).isRed = false := rfl

theorem isRed_node (c : Colour) (a : Nat) (k : K) (v : V) (l r : Tree K V) :
    (node c a k v l r).isRed = decide (c = .kRed) := by
  cases c <;> rfl

@[simp] theorem isNil_nil : (nil : Tree K V).isNil = true := rfl

@[simp] theorem isNil_node (c : Colour) (a : Nat) (k : K) (v : V) (l r : Tree K V) :
    (node c a k v l r).isNil = false := rfl

@[simp] theorem noRedKids_nil : (nil : Tree K V).noRedKids = true := rfl

@[simp] theorem noRedKids_node (c : Colour) (a : Nat) (k : K) (v : V) (l r : Tree K V) :
    (node c a k v l r).noRedKids = (!l.isRed && !r.isRed) := rfl

@[simp] theorem blackHeight_nil : (nil : Tree K V).blackHeight = 0 := rfl

@[simp] theorem blackHeight_black (a : Nat) (k : K) (v : V) (l r : Tree K V) :
    (node .kBlack a k v l r).blackHeight = l.blackHeight + 1 := rfl

@[simp] theorem blackHeight_red (a : Nat) (k : K) (v : V) (l r : Tree K V) :
    (node .kRed a k v l r).blackHeight = l.blackHeight := rfl

@[simp] theorem setBlack_node (c : Colour) (a : Nat) (k : K) (v : V) (l r : Tree K V) :
    (node c a k v l r).setBlack = node .kBlack a k v l r := rfl

@[simp] theorem noRedRed_nil : NoRedRed (nil : Tree K V) := trivial

@[simp] theorem balanced_nil : Balanced (nil : Tree K V) := trivial

@[simp] theorem noRedRed_node (c : Colour) (a : Nat) (k : K) (v : V) (l r : Tree K V) :
    NoRedRed (node c a k v l r) ↔
      (c = .kRed → l.isRed = false ∧ r.isRed = false) ∧ NoRedRed l ∧ NoRedRed r := Iff.rfl

@[simp] theorem balanced_node (c : Colour) (a : Nat) (k : K) (v : V) (l r : Tree K V) :
    Balanced (node c a k v l r) ↔ l.blackHeight = r.blackHeight ∧ Balanced l ∧ Balanced r :=
  Iff.rfl

@[simp] theorem hole_nil (h : Nat) (red : Bool) : Hole ([] : Path K V) h red := trivial

@[simp] theorem hole_cons (f : Frame K V) (rest : Path K V) (h : Nat) (red : Bool) :
    Hole (f :: rest) h red ↔
      NoRedRed f.sib ∧ Balanced f.sib ∧ f.sib.blackHeight = h ∧
      (f.colour_ = .kRed → red = false ∧ f.sib.isRed = false) ∧
      Hole rest (if f.colour_ = .kBlack then h + 1 else h) (decide (f.colour_ = .kRed)) := Iff.rfl

theorem nil_of_blackHeight_zero {t : Tree K V} (h1 : t.isRed = false) (h2 : t.blackHeight = 0) :
    t = nil := by
  cases t with
  | nil => rfl
  | node c a k v l r => cases c <;> simp at h1 h2

@[simp] theorem toList_nil : (nil : Tree K V).toList = [] := rfl

@[simp] theorem toList_node (c : Colour) (a : Nat) (k : K) (v : V) (l r : Tree K V) :
    (node c a k v l r).toList = l.toList ++ (a, k, v) :: r.toList := rfl

theorem toList_fill (f : Frame K V) (t : Tree K V) :
    (f.fill t).toList =
      match f.dir with
      | .L => t.toList ++ (f.addr, f.key, f.val) :: f.sib.toList
      | .R => f.sib.toList ++ (f.addr, f.key, f.val) :: t.toList := by
  unfold Frame.fill; cases f.dir <;> simp

theorem toList_plug (t : Tree K V) (path : Path K V) :
    (plug t path).toList = before path ++ (t.toList ++ after path) := by
  induction path generalizing t with
  | nil => simp [plug, before, after]
  | cons f rest ih =>
    simp only [plug, ih, toList_fill, before, after]
    cases f.dir <;> simp

theorem size_eq_length (t : Tree K V) : t.size = t.toList.length := by
  induction t with
  | nil => rfl
  | node c a k v l r ihl ihr => simp [Tree.size, ihl, ihr]; omega

theorem isRed_setBlack (t : Tree K V) : t.setBlack.isRed = false := by
  cases t <;> rfl

@[simp] theorem toList_setBlack (t : Tree K V) : t.setBlack.toList = t.toList := by
  cases t <;> rfl

theorem good_fill (f : Frame K V) (t : Tree K V) :
    Good (f.fill t) ↔ Good t ∧ NoRedRed f.sib ∧ Balanced f.sib ∧ f.sib.blackHeight = t.blackHeight ∧
      (f.colour_ = .kRed → t.isRed = false ∧ f.sib.isRed = false) := by
  unfold Frame.fill Good
  cases f.dir <;> simp only [NoRedRed, Balanced] <;> constructor <;> intro h <;> simp_all

theorem blackHeight_fill (f : Frame K V) (t : Tree K V) (h : f.sib.blackHeight = t.blackHeight) :
    (f.fill t).blackHeight = if f.colour_ = .kBlack then t.blackHeight + 1 else t.blackHeight := by
  unfold Frame.fill
  cases hd : f.dir <;> cases hc : f.colour_ <;> simp [h]

theorem isRed_fill (f : Frame K V) (t : Tree K V) :
    (f.fill t).isRed = decide (f.colour_ = .kRed) := by
  unfold Frame.fill
  cases hd : f.dir <;> cases hc : f.colour_ <;> simp

theorem good_plug (t : Tree K V) (path : Path K V) :
    Good (plug t path) ↔ Good t ∧ Hole path t.blackHeight t.isRed := by
  induction path generalizing t with
  | nil => simp [plug, Hole]
  | cons f rest ih =>
    simp only [plug, ih, good_fill, Hole, isRed_fill]
    constructor
    · rintro ⟨⟨h1, h2, h3, h4, h5⟩, h6⟩
      rw [blackHeight_fill f t h4] at h6
      exact ⟨h1, h2, h3, h4, h5, h6⟩
    · rintro ⟨h1, h2, h3, h4, h5, h6⟩
      rw [← blackHeight_fill f t h4] at h6
      exact ⟨⟨h1, h2, h3, h4, h5⟩, h6⟩

theorem hole_mono {path : Path K V} {h : Nat} (hh : Hole path h true) : Hole path h false := by
  cases path with
  | nil => trivial
  | cons f rest =>
    simp only [hole_cons] at *
    obtain ⟨h1, h2, h3, h4, h5⟩ := hh
    refine ⟨h1, h2, h3, ?_, h5⟩
    intro hc
    exact absurd (h4 hc).1 (by simp)

theorem hole_weaken {path : Path K V} {h : Nat} {red : Bool} (hh : Hole path h red) :
    Hole path h false := by
  cases red
  · exact hh
  · exact hole_mono hh

/-- Replacing the focus by a tree of the same black height that is red only if the hole
admits it keeps the whole tree good. -/
theorem good_plug_of {path : Path K V} {h : Nat} {red : Bool} {t : Tree K V}
    (hh : Hole path h red) (hg : Good t) (hb : t.blackHeight = h)
    (hr : t.isRed = true → red = true) : Good (plug t path) := by
  rw [good_plug]
  refine ⟨hg, ?_⟩
  subst hb
  cases hred : t.isRed
  · exact hole_weaken hh
  · rw [hr hred] at hh; exact hh

theorem good_setBlack {t : Tree K V} (h : Good t) : Good t.setBlack := by
  cases t with
  | nil => exact h
  | node c a k v l r =>
    unfold Good at *
    simp only [setBlack_node, noRedRed_node, balanced_node] at *
    exact ⟨⟨by simp, h.1.2⟩, h.2⟩

end sjtu


namespace sjtu

variable {K V : Type}

open Tree

/-- Attaching the new red leaf on the left of `now` leaves a good tree. -/
theorem attach_left_good [LinearOrder K] (strict : Bool) (k : K) (v : V) (a : Nat)
    (path : Path K V) (c : Colour) (p : Nat) (nk : K) (nv : V) (r : Tree K V)
    (hlt : k < nk) :
    Good (node c p nk nv nil r) →
    Hole path (node c p nk nv nil r).blackHeight (node c p nk nv nil r).isRed →
    Extra strict k path (node c p nk nv nil r) →
    match (if c = .kBlack then
            Outcome.ok (⟨(plug (node c p nk nv (node .kRed a k v nil nil) r) path).setBlack, a, true⟩ :
              InsertResult K V)
          else
            match path with
            | [] => .fail .null_access
            | g :: up =>
              match (match g.dir with
                     | .L => LLb (g.fill (node c p nk nv (node .kRed a k v nil nil) r))
                     | .R => RLb (g.fill (node c p nk nv (node .kRed a k v nil nil) r))) with
              | .ok t => .ok ⟨(plug t up).setBlack, a, true⟩
              | .fail f => .fail f) with
    | .ok res => Good res.root_
    | .fail _ => strict = false := by
  intro hgood hhole hextra
  cases c with
  | kBlack =>
    simp only [if_true]
    refine good_setBlack (good_plug_of hhole ?_ (by simp) (by simp))
    simp only [Good, noRedRed_node, balanced_node] at hgood ⊢
    simp_all
  | kRed =>
    cases path with
    | nil =>
      simp only [Extra, isRed_red] at hextra
      cases strict <;> simp_all
    | cons g up =>
      obtain ⟨gc, ga, gk, gv, gd, gs⟩ := g
      simp only [Good, noRedRed_node, balanced_node, blackHeight_nil] at hgood
      obtain ⟨⟨hr1, -, hr2⟩, hr3, -, hr4⟩ := hgood
      have hrnil : r = nil := nil_of_blackHeight_zero (hr1 trivial).2 hr3.symm
      subst hrnil
      simp only [hole_cons, isRed_red, blackHeight_red, blackHeight_nil] at hhole
      obtain ⟨hs1, hs2, hs3, hs4, hs5⟩ := hhole
      cases gc with
      | kRed => simp at hs4
      | kBlack =>
        simp only [if_true] at hs5
        have hsib : gs.isRed = false := by
          simp only [Extra, isRed_red] at hextra
          rcases hextra.1 trivial trivial with h | h
          · exact h
          · simp [AfterDouble, towards, hlt] at h
        cases gd
        · simp only [Frame.fill, LLb]
          refine good_setBlack (good_plug_of hs5 ?_ (by simp) (by simp))
          simp only [Good, noRedRed_node, balanced_node]
          simp_all
        · simp only [Frame.fill, RLb]
          refine good_setBlack (good_plug_of hs5 ?_ (by simp [hs3]) (by simp))
          simp only [Good, noRedRed_node, balanced_node]
          simp_all

/-- Attaching the new red leaf on the right of `now` leaves a good tree. -/
theorem attach_right_good [LinearOrder K] (strict : Bool) (k : K) (v : V) (a : Nat)
    (path : Path K V) (c : Colour) (p : Nat) (nk : K) (nv : V) (l : Tree K V)
    (hgt : nk < k) :
    Good (node c p nk nv l nil) →
    Hole path (node c p nk nv l nil).blackHeight (node c p nk nv l nil).isRed →
    Extra strict k path (node c p nk nv l nil) →
    match (if c = .kBlack then
            Outcome.ok (⟨(plug (node c p nk nv l (node .kRed a k v nil nil)) path).setBlack, a, true⟩ :
              InsertResult K V)
          else
            match path with
            | [] => .fail .null_access
            | g :: up =>
              match (match g.dir with
                     | .L => LRb (g.fill (node c p nk nv l (node .kRed a k v nil nil)))
                     | .R => RRb (g.fill (node c p nk nv l (node .kRed a k v nil nil)))) with
              | .ok t => .ok ⟨(plug t up).setBlack, a, true⟩
              | .fail f => .fail f) with
    | .ok res => Good res.root_
    | .fail _ => strict = false := by
  intro hgood hhole hextra
  have hnlt : ¬ k < nk := not_lt.mpr (le_of_lt hgt)
  cases c with
  | kBlack =>
    simp only [if_true]
    refine good_setBlack (good_plug_of hhole ?_ (by simp) (by simp))
    simp only [Good, noRedRed_node, balanced_node] at hgood ⊢
    simp_all
  | kRed =>
    cases path with
    | nil =>
      simp only [Extra, isRed_red] at hextra
      cases strict <;> simp_all
    | cons g up =>
      obtain ⟨gc, ga, gk, gv, gd, gs⟩ := g
      simp only [Good, noRedRed_node, balanced_node, blackHeight_nil] at hgood
      obtain ⟨⟨hr1, hr2, -⟩, hr3, hr4, -⟩ := hgood
      have hlnil : l = nil := nil_of_blackHeight_zero (hr1 trivial).1 hr3
      subst hlnil
      simp only [hole_cons, isRed_red, blackHeight_red, blackHeight_nil] at hhole
      obtain ⟨hs1, hs2, hs3, hs4, hs5⟩ := hhole
      cases gc with
      | kRed => simp at hs4
      | kBlack =>
        simp only [if_true] at hs5
        have hsib : gs.isRed = false := by
          simp only [Extra, isRed_red] at hextra
          rcases hextra.1 trivial trivial with h | h
          · exact h
          · simp [AfterDouble, towards, hnlt] at h
        cases gd
        · simp only [Frame.fill, LRb]
          refine good_setBlack (good_plug_of hs5 ?_ (by simp) (by simp))
          simp only [Good, noRedRed_node, balanced_node]
          simp_all
        · simp only [Frame.fill, RRb]
          refine good_setBlack (good_plug_of hs5 ?_ (by simp [hs3]) (by simp))
          simp only [Good, noRedRed_node, balanced_node]
          simp_all

end sjtu


namespace sjtu

variable {K V : Type}

open Tree

theorem size_towards_lt [LinearOrder K] (k : K) (t : Tree K V) (h : t.isNil = false) :
    (t.towards k).size < t.size := by
  cases t with
  | nil => simp at h
  | node c a nk v l r =>
    simp only [towards, Tree.size]
    split <;> omega

theorem insPot_child_lt [LinearOrder K] (k : K) (t : Tree K V) (n : Nat) (h : t.isNil = false)
    (hn : 2 * t.size + 1 ≤ n) : insPot k t < n := by
  have := size_towards_lt k t h
  unfold insPot
  split <;> omega

theorem insPot_ge [LinearOrder K] (k : K) (t : Tree K V) :
    2 * (t.towards k).size + 1 ≤ insPot k t := by
  unfold insPot
  split <;> omega

theorem insPot_left [LinearOrder K] (k : K) (c : Colour) (p : Nat) (nk : K) (nv : V)
    (l r : Tree K V) (hlt : k < nk) (hnil : l.isNil = false) :
    insPot k l < insPot k (node c p nk nv l r) := by
  have h1 := insPot_child_lt k l _ hnil le_rfl
  have h2 := insPot_ge k (node c p nk nv l r)
  have h3 : (node c p nk nv l r).towards k = l := by simp [towards, hlt]
  rw [h3] at h2
  omega

theorem insPot_right [LinearOrder K] (k : K) (c : Colour) (p : Nat) (nk : K) (nv : V)
    (l r : Tree K V) (hgt : nk < k) (hnil : r.isNil = false) :
    insPot k r < insPot k (node c p nk nv l r) := by
  have hnlt : ¬ k < nk := not_lt.mpr (le_of_lt hgt)
  have h1 := insPot_child_lt k r _ hnil le_rfl
  have h2 := insPot_ge k (node c p nk nv l r)
  have h3 : (node c p nk nv l r).towards k = r := by simp [towards, hnlt]
  rw [h3] at h2
  omega

/-- One iteration of the descent that neither returns nor attaches: no flip is made. -/
theorem descend_plain [LinearOrder K] (strict : Bool) (k : K)
    (path : Path K V) (c : Colour) (p : Nat) (nk : K) (nv : V) (l r : Tree K V)
    (hinv : InsInv strict k path (node c p nk nv l r))
    (hflip : ¬ (c = .kBlack ∧ l.isRed = true ∧ r.isRed = true)) :
    (k < nk → l.isNil = false →
      InsInv strict k (⟨c, p, nk, nv, .L, r⟩ :: path) l ∧ insPot k l < insPot k (node c p nk nv l r)) ∧
    (nk < k → r.isNil = false →
      InsInv strict k (⟨c, p, nk, nv, .R, l⟩ :: path) r ∧ insPot k r < insPot k (node c p nk nv l r)) := by
  obtain ⟨-, hgood, hhole, hdir, hextra⟩ := hinv
  simp only [Good, noRedRed_node, balanced_node] at hgood
  obtain ⟨⟨hc, hl1, hr1⟩, hb, hl2, hr2⟩ := hgood
  constructor
  · intro hlt hnil
    have hnlt : ¬ nk < k := not_lt.mpr (le_of_lt hlt)
    refine ⟨⟨hnil, ⟨hl1, hl2⟩, ?_, ?_, ?_⟩, ?_⟩
    · simp only [hole_cons]
      refine ⟨hr1, hr2, hb.symm, ?_, ?_⟩
      · intro hcr; exact hc hcr
      · cases c <;> simpa using hhole
    · intro f hf
      rcases List.mem_cons.mp hf with rfl | hf
      · simp [hlt]
      · exact hdir f hf
    · simp only [Extra]
      constructor
      · intro hcb hlr
        left
        by_contra hrr
        exact hflip ⟨hcb, hlr, by simpa using hrr⟩
      · intro hcr
        subst hcr
        cases path with
        | nil =>
          simp only [Extra, isRed_red] at hextra
          right; cases strict <;> simp_all
        | cons par rest =>
          simp only [hole_cons, isRed_red] at hhole
          have hpb : par.colour_ = .kBlack := by
            cases hpc : par.colour_
            · have := hhole.2.2.2.1 hpc; simp at this
            · rfl
          simp only [Extra, isRed_red] at hextra
          rcases hextra.1 hpb trivial with h | h
          · right; exact h
          · left
            simpa [AfterDouble, towards, hlt] using h.2.2.2.2
    · exact insPot_left k c p nk nv l r hlt hnil
  · intro hgt hnil
    have hnlt : ¬ k < nk := not_lt.mpr (le_of_lt hgt)
    refine ⟨⟨hnil, ⟨hr1, hr2⟩, ?_, ?_, ?_⟩, ?_⟩
    · simp only [hole_cons]
      refine ⟨hl1, hl2, hb, ?_, ?_⟩
      · intro hcr; exact (hc hcr).symm
      · rw [← hb]; cases c <;> simpa using hhole
    · intro f hf
      rcases List.mem_cons.mp hf with rfl | hf
      · simp [hgt]
      · exact hdir f hf
    · simp only [Extra]
      constructor
      · intro hcb hrr
        left
        by_contra hlr
        exact hflip ⟨hcb, by simpa using hlr, hrr⟩
      · intro hcr
        subst hcr
        cases path with
        | nil =>
          simp only [Extra, isRed_red] at hextra
          right; cases strict <;> simp_all
        | cons par rest =>
          simp only [hole_cons, isRed_red] at hhole
          have hpb : par.colour_ = .kBlack := by
            cases hpc : par.colour_
            · have := hhole.2.2.2.1 hpc; simp at this
            · rfl
          simp only [Extra, isRed_red] at hextra
          rcases hextra.1 hpb trivial with h | h
          · right; exact h
          · left
            simpa [AfterDouble, towards, hnlt] using h.2.2.2.2
    · exact insPot_right k c p nk nv l r hgt hnil

end sjtu


namespace sjtu

variable {K V : Type}

open Tree

/-- One iteration of the descent that makes the colour flip (and the rotation after it). -/
theorem descend_flip [LinearOrder K] (strict : Bool) (k : K)
    (path : Path K V) (p : Nat) (nk : K) (nv : V)
    (la : Nat) (lk : K) (lv : V) (ll lr : Tree K V)
    (ra : Nat) (rk : K) (rv : V) (rl rr : Tree K V)
    (hinv : InsInv strict k path
      (node .kBlack p nk nv (node .kRed la lk lv ll lr) (node .kRed ra rk rv rl rr))) :
    match flipFix path (node .kRed p nk nv (node .kBlack la lk lv ll lr)
        (node .kBlack ra rk rv rl rr)) with
    | .fail _ => strict = false
    | .ok (_, nil) => False
    | .ok (path', node c' p' k' v' l' r') =>
      (k < nk → InsInv strict k (⟨c', p', k', v', .L, r'⟩ :: path') l' ∧
        insPot k l' < insPot k
          (node .kBlack p nk nv (node .kRed la lk lv ll lr) (node .kRed ra rk rv rl rr))) ∧
      (nk < k → InsInv strict k (⟨c', p', k', v', .R, l'⟩ :: path') r' ∧
        insPot k r' < insPot k
          (node .kBlack p nk nv (node .kRed la lk lv ll lr) (node .kRed ra rk rv rl rr))) := by
  obtain ⟨-, hgood, hhole, hdir, hextra⟩ := hinv
  simp only [Good, noRedRed_node, balanced_node, blackHeight_red] at hgood
  obtain ⟨⟨-, ⟨hlk, hll1, hlr1⟩, ⟨hrk, hrl1, hrr1⟩⟩, hb, ⟨hlb, hll2, hlr2⟩, ⟨hrb, hrl2, hrr2⟩⟩ := hgood
  have hlk := hlk trivial
  have hrk := hrk trivial
  simp only [blackHeight_black, blackHeight_red, isRed_black] at hhole
  have hpotL : k < nk → insPot k (node .kBlack la lk lv ll lr) <
      insPot k (node .kBlack p nk nv (node .kRed la lk lv ll lr) (node .kRed ra rk rv rl rr)) := by
    intro hlt
    have h1 := insPot_child_lt k (node .kBlack la lk lv ll lr) _ rfl le_rfl
    have h2 := insPot_ge k (node .kBlack p nk nv (node .kRed la lk lv ll lr) (node .kRed ra rk rv rl rr))
    simp only [towards, hlt, if_true, Tree.size] at h1 h2 ⊢
    omega
  have hpotR : nk < k → insPot k (node .kBlack ra rk rv rl rr) <
      insPot k (node .kBlack p nk nv (node .kRed la lk lv ll lr) (node .kRed ra rk rv rl rr)) := by
    intro hgt
    have hnlt : ¬ k < nk := not_lt.mpr (le_of_lt hgt)
    have h1 := insPot_child_lt k (node .kBlack ra rk rv rl rr) _ rfl le_rfl
    have h2 := insPot_ge k (node .kBlack p nk nv (node .kRed la lk lv ll lr) (node .kRed ra rk rv rl rr))
    simp only [towards, hnlt, if_false, Tree.size] at h1 h2 ⊢
    omega
  cases path with
  | nil =>
    simp only [flipFix]
    constructor
    · intro hlt
      refine ⟨⟨rfl, ?_, ?_, ?_, ?_⟩, hpotL hlt⟩
      · simp only [Good, noRedRed_node, balanced_node]; simp_all
      · simp only [hole_cons, noRedRed_node, balanced_node]; simp_all
      · intro f hf; simp at hf; subst hf; simp [hlt]
      · simp only [Extra]; simp_all
    · intro hgt
      refine ⟨⟨rfl, ?_, ?_, ?_, ?_⟩, hpotR hgt⟩
      · simp only [Good, noRedRed_node, balanced_node]; simp_all
      · simp only [hole_cons, noRedRed_node, balanced_node]; simp_all
      · intro f hf; simp at hf; subst hf; simp [hgt]
      · simp only [Extra]; simp_all
  | cons par rest =>
    obtain ⟨pc, pa, pk, pv, pd, ps⟩ := par
    have hpar := hdir _ (List.mem_cons_self _ _)
    have hdir' : PathDir k rest := fun f hf => hdir f (List.mem_cons_of_mem _ hf)
    cases pc with
    | kBlack =>
      simp only [flipFix]
      simp only [hole_cons] at hhole
      constructor
      · intro hlt
        refine ⟨⟨rfl, ?_, ?_, ?_, ?_⟩, hpotL hlt⟩
        · simp only [Good, noRedRed_node, balanced_node]; simp_all
        · simp only [hole_cons, noRedRed_node, balanced_node]; simp_all
        · intro f hf
          rcases List.mem_cons.mp hf with rfl | hf
          · simp [hlt]
          · exact hdir f hf
        · simp only [Extra]; simp_all
      · intro hgt
        refine ⟨⟨rfl, ?_, ?_, ?_, ?_⟩, hpotR hgt⟩
        · simp only [Good, noRedRed_node, balanced_node]; simp_all
        · simp only [hole_cons, noRedRed_node, balanced_node]; simp_all
        · intro f hf
          rcases List.mem_cons.mp hf with rfl | hf
          · simp [hgt]
          · exact hdir f hf
        · simp only [Extra]; simp_all
    | kRed =>
      cases rest with
      | nil =>
        simp only [flipFix]
        simp only [Extra] at hextra
        cases strict <;> simp_all
      | cons g up =>
        obtain ⟨gc, ga, gk, gv, gd, gs⟩ := g
        have hg := hdir' _ (List.mem_cons_self _ _)
        have hdir'' : PathDir k up := fun f hf => hdir' f (List.mem_cons_of_mem _ hf)
        simp only [hole_cons] at hhole
        obtain ⟨hp1, hp2, hp3, hp4, hg1, hg2, hg3, hg4, hup⟩ := hhole
        have hp4 := hp4 trivial
        cases gc with
        | kRed => simp at hg4
        | kBlack =>
          have hgs : gs.isRed = false := by
            simp only [Extra] at hextra
            simpa using hextra.2 trivial
          cases pd <;> cases gd
          all_goals simp only [flipFix]
          all_goals simp only [if_true, isRed_red, decide_True] at hup hpar hg hp3 hg3
          all_goals (constructor <;> intro hcmp <;> refine ⟨⟨rfl, ?_, ?_, ?_, ?_⟩, ?_⟩)
          all_goals first
            | (simp only [Good, noRedRed_node, balanced_node]; simp_all; done)
            | (simp only [hole_cons, noRedRed_node, balanced_node]; simp_all; done)
            | (simp only [Extra, AfterDouble, towards]; simp_all; done)
            | exact hpotL hcmp
            | exact hpotR hcmp
            | (intro f hf
               simp only [List.mem_cons] at hf
               rcases hf with rfl | hf
               · simp_all
               · first
                 | exact hdir'' f hf
                 | (rcases hf with rfl | hf
                    · simp_all
                    · exact hdir'' f hf))
            | skip
          all_goals clear hpotL hpotR
          all_goals simp only [true_implies, false_implies, and_true, true_and, reduceCtorEq] at hpar hg
          all_goals have e1 := not_lt.mpr (le_of_lt hpar)
          all_goals have e2 := not_lt.mpr (le_of_lt hg)
          all_goals have e3 := ne_of_lt hpar
          all_goals have e4 := ne_of_lt hg
          all_goals have e5 := lt_asymm hcmp
          all_goals simp only [Extra, AfterDouble, towards, rootKey, insPot, Tree.size, isRed_red,
            isRed_black, if_true, if_false, hcmp, hpar, hg, e1, e2, e5]
          all_goals first
            | omega
            | (simp [hlk, hrk, e3, e4, e3.symm, e4.symm]; done)

end sjtu


namespace sjtu

variable {K V : Type}

open Tree

theorem red_node_of_isRed {t : Tree K V} (h : t.isRed = true) :
    ∃ a k v l r, t = node .kRed a k v l r := by
  cases t with
  | nil => simp at h
  | node c a k v l r =>
    cases c
    · exact ⟨a, k, v, l, r, rfl⟩
    · simp at h

/-- The descent loop of `InsertNode` keeps invariants 3 and 4; it returns when the root was
black at the start (`strict`) and the fuel covers the remaining iterations. -/
theorem InsertLoop_inv [LinearOrder K] (strict : Bool) (k : K) (v : V) (a : Nat) :
    ∀ (fuel : Nat) (path : Path K V) (now : Tree K V), InsInv strict k path now →
      (strict = true → insPot k now < fuel) →
      match InsertLoop k v a fuel path now with
      | .ok res => Good res.root_
      | .fail _ => strict = false := by
  intro fuel
  induction fuel with
  | zero =>
    intro path now _ hp
    cases strict
    · simp [InsertLoop]
    · simpa using hp rfl
  | succ n ih =>
    intro path now hinv hp
    have hinv' := hinv
    obtain ⟨hnil, hgood, hhole, hdir, hextra⟩ := hinv
    cases now with
    | nil => simp at hnil
    | node c p nk nv l r =>
      rcases lt_trichotomy k nk with hlt | heq | hgt
      · -- k < nk
        have hngt : ¬ nk < k := not_lt.mpr (le_of_lt hlt)
        cases l with
        | nil =>
          simp only [InsertLoop, hlt, hngt, decide_True, decide_False, isNil_nil]
          simp only [Bool.not_true, Bool.not_false, Bool.and_true, Bool.false_and, Bool.and_self,
            Bool.false_eq_true, if_false, if_true]
          exact attach_left_good strict k v a path c p nk nv r hlt hgood hhole hextra
        | node lc la lk lv ll lr =>
          simp only [InsertLoop, hlt, hngt, decide_True, decide_False, isNil_node]
          simp only [Bool.not_true, Bool.not_false, Bool.and_true, Bool.false_and, Bool.and_self,
            Bool.and_false, Bool.false_eq_true, if_false, if_true]
          by_cases hflip : c = .kBlack ∧ (node lc la lk lv ll lr).isRed = true ∧ r.isRed = true
          · obtain ⟨hc, hl, hr⟩ := hflip
            subst hc
            obtain ⟨ra, rk, rv, rl, rr, rfl⟩ := red_node_of_isRed hr
            cases lc with
            | kBlack => simp at hl
            | kRed =>
              have hstep := descend_flip strict k path p nk nv la lk lv ll lr ra rk rv rl rr hinv'
              simp only [isRed_red, decide_True, Bool.and_self, if_true, setBlack_node]
              revert hstep
              generalize flipFix path (node .kRed p nk nv (node .kBlack la lk lv ll lr)
                (node .kBlack ra rk rv rl rr)) = X
              intro hstep
              match X, hstep with
              | .fail _, h => exact h
              | .ok (_, nil), h => exact h.elim
              | .ok (path', node c' p' k' v' l' r'), h =>
                obtain ⟨h1, h2⟩ := h.1 hlt
                exact ih _ _ h1 (fun hs => by have := hp hs; omega)
          · have hcond : ¬ ((c = .kBlack && (node lc la lk lv ll lr).isRed && r.isRed) = true) := by
              simp only [Bool.and_eq_true, decide_eq_true_eq]
              tauto
            simp only [hcond, if_false]
            obtain ⟨h1, h2⟩ := (descend_plain strict k path c p nk nv _ r hinv' hflip).1 hlt rfl
            exact ih _ _ h1 (fun hs => by have := hp hs; omega)
      · subst heq
        simp only [InsertLoop, lt_irrefl, decide_False]
        simp only [Bool.not_false, Bool.and_self, if_true]
        exact (good_plug _ _).mpr ⟨hgood, hhole⟩
      · -- nk < k
        have hnlt : ¬ k < nk := not_lt.mpr (le_of_lt hgt)
        cases r with
        | nil =>
          simp only [InsertLoop, hgt, hnlt, decide_True, decide_False, isNil_nil]
          simp only [Bool.not_true, Bool.not_false, Bool.and_true, Bool.false_and, Bool.and_self,
            Bool.and_false, Bool.false_eq_true, if_false, if_true]
          exact attach_right_good strict k v a path c p nk nv l hgt hgood hhole hextra
        | node rc ra rk rv rl rr =>
          simp only [InsertLoop, hgt, hnlt, decide_True, decide_False, isNil_node]
          simp only [Bool.not_true, Bool.not_false, Bool.and_true, Bool.false_and, Bool.and_self,
            Bool.and_false, Bool.false_eq_true, if_false, if_true]
          by_cases hflip : c = .kBlack ∧ l.isRed = true ∧ (node rc ra rk rv rl rr).isRed = true
          · obtain ⟨hc, hl, hr⟩ := hflip
            subst hc
            obtain ⟨la, lk, lv, ll, lr, rfl⟩ := red_node_of_isRed hl
            cases rc with
            | kBlack => simp at hr
            | kRed =>
              have hstep := descend_flip strict k path p nk nv la lk lv ll lr ra rk rv rl rr hinv'
              simp only [isRed_red, decide_True, Bool.and_self, if_true, setBlack_node]
              revert hstep
              generalize flipFix path (node .kRed p nk nv (node .kBlack la lk lv ll lr)
                (node .kBlack ra rk rv rl rr)) = X
              intro hstep
              match X, hstep with
              | .fail _, h => exact h
              | .ok (_, nil), h => exact h.elim
              | .ok (path', node c' p' k' v' l' r'), h =>
                obtain ⟨h1, h2⟩ := h.2 hgt
                exact ih _ _ h1 (fun hs => by have := hp hs; omega)
          · have hcond : ¬ ((c = .kBlack && l.isRed && (node rc ra rk rv rl rr).isRed) = true) := by
              simp only [Bool.and_eq_true, decide_eq_true_eq]
              tauto
            simp only [hcond, if_false]
            obtain ⟨h1, h2⟩ := (descend_plain strict k path c p nk nv l _ hinv' hflip).2 hgt rfl
            exact ih _ _ h1 (fun hs => by have := hp hs; omega)

end sjtu


namespace sjtu

variable {K V : Type}

open Tree

theorem blackHeight_mem_pathCounts (t : Tree K V) : t.blackHeight ∈ t.pathCounts := by
  induction t with
  | nil => simp [pathCounts]
  | node c a k v l r ihl _ =>
    cases c
    · simp only [pathCounts, blackHeight_red, List.mem_append]
      exact Or.inl ihl
    · simp only [pathCounts, blackHeight_black, List.mem_map, List.mem_append]
      exact ⟨l.blackHeight, Or.inl ihl, rfl⟩

theorem pathCounts_of_balanced {t : Tree K V} (h : Balanced t) :
    ∀ n ∈ t.pathCounts, n = t.blackHeight := by
  induction t with
  | nil => simp [pathCounts]
  | node c a k v l r ihl ihr =>
    obtain ⟨hb, hl, hr⟩ := h
    intro n hn
    cases c
    · simp only [pathCounts, List.mem_append] at hn
      simp only [blackHeight_red]
      rcases hn with hn | hn
      · exact ihl hl n hn
      · rw [hb]; exact ihr hr n hn
    · simp only [pathCounts, List.mem_map, List.mem_append] at hn
      obtain ⟨m, hm, rfl⟩ := hn
      simp only [blackHeight_black]
      rcases hm with hm | hm
      · rw [ihl hl m hm]
      · rw [hb, ihr hr m hm]

theorem balanced_of_uniformBlack {t : Tree K V} (h : UniformBlack t) : Balanced t := by
  induction t with
  | nil => trivial
  | node c a k v l r ihl ihr =>
    have hl := blackHeight_mem_pathCounts l
    have hr := blackHeight_mem_pathCounts r
    cases c
    · simp only [UniformBlack, pathCounts, List.mem_append] at h
      refine ⟨h _ (Or.inl hl) _ (Or.inr hr), ihl ?_, ihr ?_⟩
      · intro n hn m hm; exact h n (Or.inl hn) m (Or.inl hm)
      · intro n hn m hm; exact h n (Or.inr hn) m (Or.inr hm)
    · simp only [UniformBlack, pathCounts, List.mem_map, List.mem_append] at h
      have key : ∀ n, (n ∈ l.pathCounts ∨ n ∈ r.pathCounts) →
          ∀ m, (m ∈ l.pathCounts ∨ m ∈ r.pathCounts) → n = m := by
        intro n hn m hm
        have := h (n + 1) ⟨n, hn, rfl⟩ (m + 1) ⟨m, hm, rfl⟩
        omega
      refine ⟨key _ (Or.inl hl) _ (Or.inr hr), ihl ?_, ihr ?_⟩
      · intro n hn m hm; exact key n (Or.inl hn) m (Or.inl hm)
      · intro n hn m hm; exact key n (Or.inr hn) m (Or.inr hm)

/-- Invariant 4 stated on paths is the same as equal black heights at every node. -/
theorem uniformBlack_iff_balanced (t : Tree K V) : UniformBlack t ↔ Balanced t := by
  constructor
  · exact balanced_of_uniformBlack
  · intro h n hn m hm
    rw [pathCounts_of_balanced h n hn, pathCounts_of_balanced h m hm]

theorem good_iff (t : Tree K V) : Good t ↔ NoRedRed t ∧ UniformBlack t := by
  unfold Good; rw [uniformBlack_iff_balanced]

/-- `InsertNode` on a tree with invariants 3 and 4 and a black root returns, and the tree it
leaves has invariants 3 and 4. -/
theorem InsertNode_good [LinearOrder K] (t : Tree K V) (k : K) (v : V) (a : Nat)
    (hg : Good t) (hroot : RootBlack t) :
    ∃ res, InsertNode t k v a = .ok res ∧ Good res.root_ := by
  cases t with
  | nil =>
    refine ⟨_, rfl, ?_⟩
    simp [Good]
  | node c p nk nv l r =>
    have hinv : InsInv true k [] (node c p nk nv l r) :=
      ⟨rfl, hg, trivial, fun f hf => by simp at hf, fun _ => hroot⟩
    have hpot : insPot k (node c p nk nv l r) < 2 * (node c p nk nv l r).size + 1 := by
      have := size_towards_lt k (node c p nk nv l r) rfl
      unfold insPot
      split <;> omega
    have h := InsertLoop_inv true k v a _ [] _ hinv (fun _ => hpot)
    simp only [InsertNode]
    revert h
    generalize InsertLoop k v a (2 * (node c p nk nv l r).size + 1) [] (node c p nk nv l r) = X
    intro h
    match X, h with
    | .ok res, h => exact ⟨res, rfl, h⟩
    | .fail _, h => simp at h

/-- Whatever the colour of the root: when `InsertNode` returns, the tree it leaves has
invariants 3 and 4. -/
theorem InsertNode_good_of_ok [LinearOrder K] (t : Tree K V) (k : K) (v : V) (a : Nat)
    (hg : Good t) (res : InsertResult K V) (h : InsertNode t k v a = .ok res) :
    Good res.root_ := by
  cases t with
  | nil =>
    simp only [InsertNode, Outcome.ok.injEq] at h
    subst h
    simp [Good]
  | node c p nk nv l r =>
    have hinv : InsInv false k [] (node c p nk nv l r) :=
      ⟨rfl, hg, trivial, fun f hf => by simp at hf, fun hs => by simp at hs⟩
    have h' := InsertLoop_inv false k v a (2 * (node c p nk nv l r).size + 1) [] _ hinv
      (fun hs => by simp at hs)
    simp only [InsertNode] at h
    rw [h] at h'
    exact h'

end sjtu


namespace sjtu

variable {K V : Type}

open Tree

@[simp] theorem before_nil : before ([] : Path K V) = [] := rfl
@[simp] theorem after_nil : after ([] : Path K V) = [] := rfl

@[simp] theorem before_cons_L (c : Colour) (a : Nat) (k : K) (v : V) (s : Tree K V)
    (rest : Path K V) : before (⟨c, a, k, v, .L, s⟩ :: rest) = before rest := rfl

@[simp] theorem before_cons_R (c : Colour) (a : Nat) (k : K) (v : V) (s : Tree K V)
    (rest : Path K V) :
    before (⟨c, a, k, v, .R, s⟩ :: rest) = before rest ++ (s.toList ++ [(a, k, v)]) := rfl

@[simp] theorem after_cons_L (c : Colour) (a : Nat) (k : K) (v : V) (s : Tree K V)
    (rest : Path K V) :
    after (⟨c, a, k, v, .L, s⟩ :: rest) = (a, k, v) :: s.toList ++ after rest := rfl

@[simp] theorem after_cons_R (c : Colour) (a : Nat) (k : K) (v : V) (s : Tree K V)
    (rest : Path K V) : after (⟨c, a, k, v, .R, s⟩ :: rest) = after rest := rfl

/-- The walk of `EraseNode` only recolours and rotates: the in-order sequence of the whole
tree is unchanged. -/
theorem EraseWalk_toList [LinearOrder K] (nk : K) (target : Nat) (fs : Bool) :
    ∀ (fuel : Nat) (path : Path K V) (now : Tree K V) (path' : Path K V) (now' : Tree K V),
      EraseWalk nk target fs fuel path now = .ok (path', now') →
      (plug now' path').toList = (plug now path).toList := by
  intro fuel
  induction fuel with
  | zero => intro path now path' now' h; simp [EraseWalk] at h
  | succ n ih =>
    intro path now path' now' h
    cases now with
    | nil => simp [EraseWalk] at h
    | node c a k v l r =>
      simp only [EraseWalk] at h
      repeat' split at h
      all_goals first
        | (simp only [Outcome.ok.injEq, Prod.mk.injEq] at h
           obtain ⟨rfl, rfl⟩ := h
           simp [toList_plug, before, after, *]
           done)
        | (rw [ih _ _ _ _ h]
           simp [toList_plug, before, after, *]
           done)
        | (simp at h; done)

/-- While the successor is looked for, the walk keeps the erased node above the focus. -/
theorem EraseWalk_succ [LinearOrder K] (nk : K) (target : Nat) :
    ∀ (fuel : Nat) (path : Path K V) (now : Tree K V) (path' : Path K V) (now' : Tree K V),
      EraseWalk nk target true fuel path now = .ok (path', now') →
      SuccPath target path → SuccPath target path' := by
  intro fuel
  induction fuel with
  | zero => intro path now path' now' h; simp [EraseWalk] at h
  | succ n ih =>
    intro path now path' now' h hs
    cases now with
    | nil => simp [EraseWalk] at h
    | node c a k v l r =>
      simp only [EraseWalk] at h
      repeat' split at h
      all_goals first
        | (simp only [Outcome.ok.injEq, Prod.mk.injEq] at h
           obtain ⟨rfl, rfl⟩ := h
           simp_all [SuccPath]
           done)
        | (refine ih _ _ _ _ h ?_
           simp_all [SuccPath]
           done)
        | (simp at h; done)

end sjtu


namespace sjtu

variable {K V : Type}

open Tree

@[simp] theorem Colour.ne_red_iff (c : Colour) : ¬ c = .kRed ↔ c = .kBlack := by
  cases c <;> simp

@[simp] theorem Colour.ne_black_iff (c : Colour) : ¬ c = .kBlack ↔ c = .kRed := by
  cases c <;> simp

theorem isRed_eq_false_iff (c : Colour) (a : Nat) (k : K) (v : V) (l r : Tree K V) :
    (node c a k v l r).isRed = false ↔ c = .kBlack := by
  cases c <;> simp

theorem isRed_eq_true_iff (c : Colour) (a : Nat) (k : K) (v : V) (l r : Tree K V) :
    (node c a k v l r).isRed = true ↔ c = .kRed := by
  cases c <;> simp

theorem isNil_eq_true_iff (t : Tree K V) : t.isNil = true ↔ t = nil := by
  cases t <;> simp

theorem blackHeight_node (c : Colour) (a : Nat) (k : K) (v : V) (l r : Tree K V) :
    (node c a k v l r).blackHeight = if c = .kBlack then l.blackHeight + 1 else l.blackHeight := by
  cases c <;> simp

theorem hole_cast {path : Path K V} {h h' : Nat} {red : Bool} (hh : Hole path h red)
    (e : h = h') : Hole path h' red := e ▸ hh

theorem noRedRed_setBlack {t : Tree K V} (h : NoRedRed t) : NoRedRed t.setBlack := by
  cases t with
  | nil => trivial
  | node c a k v l r => exact ⟨by simp, h.2⟩

@[simp] theorem balanced_setBlack (t : Tree K V) : Balanced t.setBlack ↔ Balanced t := by
  cases t <;> simp [setBlack]

theorem blackHeight_setBlack_of_red {t : Tree K V} (h : t.isRed = true) :
    t.setBlack.blackHeight = t.blackHeight + 1 := by
  obtain ⟨a, k, v, l, r, rfl⟩ := red_node_of_isRed h
  simp

@[simp] theorem size_setBlack (t : Tree K V) : t.setBlack.size = t.size := by
  cases t <;> simp [setBlack, Tree.size]

set_option maxHeartbeats 2000000 in
/-- The walk of `EraseNode` stops, in a state from which the removal can be made. -/
theorem EraseWalk_spec [LinearOrder K] (nk : K) (target : Nat) (fs : Bool) :
    ∀ (fuel : Nat) (path : Path K V) (now : Tree K V),
      WalkInv path now → (fs = false → Leads nk target now) → now.size < fuel →
      ∃ path' now', EraseWalk nk target fs fuel path now = .ok (path', now') ∧
        WalkOut fs target path' now' ∧ now'.size ≤ now.size ∧
        (fs = false → Leads nk target now') := by
  intro fuel
  induction fuel with
  | zero => intro path now _ _ h; omega
  | succ n ih =>
    intro path now hinv hleads hsize
    cases now with
    | nil => simp [WalkInv] at hinv
    | node c a k v l r =>
      simp only [EraseWalk]
      cases c with
      | kRed =>
        refine ⟨path, _, by simp, ?_, le_rfl, hleads⟩
        simp_all [WalkInv, WalkOut]
      | kBlack =>
        simp only [reduceCtorEq, if_false]
        simp only [WalkInv, Good, isNil_node, true_and, isRed_black, blackHeight_black,
          forall_true_left] at hinv
        obtain ⟨⟨hrr, hbal⟩, hhole, habove⟩ := hinv
        simp only [noRedRed_node, balanced_node] at hrr hbal
        by_cases h2 : l.isRed = false ∧ r.isRed = false
        · -- a black node without red child
          obtain ⟨hl, hr⟩ := h2
          simp only [hl, hr, Bool.not_false, Bool.and_self, if_true]
          cases path with
          | nil =>
            refine ⟨_, _, rfl, ?_, ?_, ?_⟩
            · simp_all [WalkOut, Good]
            · simp [Tree.size]
            · simp_all [Leads]
          | cons par rest =>
            obtain ⟨pc, pa, pk, pv, pd, ps⟩ := par
            simp only [redAbove] at habove
            subst habove
            simp only [hole_cons, reduceCtorEq, if_false, decide_True, true_implies, true_and] at hhole
            obtain ⟨hs1, hs2, hs3, hs4, hup⟩ := hhole
            cases ps with
            | nil => simp at hs3
            | node sc sa sk sv sl sr =>
              cases sc with
              | kRed => simp at hs4
              | kBlack =>
                simp only [noRedRed_node, balanced_node, blackHeight_black] at hs1 hs2 hs3
                simp only []
                have hup' := hole_weaken hup
                by_cases hs : sl.isRed = false ∧ sr.isRed = false
                · simp only [hs.1, hs.2, Bool.not_false, Bool.and_self, if_true]
                  refine ⟨_, _, rfl, ⟨rfl, ?_, ?_, Or.inl rfl⟩, ?_, ?_⟩
                  · simp only [Good, noRedRed_node, balanced_node]
                    exact ⟨⟨fun _ => ⟨hl, hr⟩, hrr.2⟩, hbal⟩
                  · simp only [hole_cons, noRedRed_node, balanced_node, blackHeight_red,
                      reduceCtorEq, if_true, false_implies, decide_False, true_and]
                    refine ⟨⟨fun _ => hs, hs1.2⟩, hs2, by omega, hup'⟩
                  · simp [Tree.size]
                  · simp_all [Leads]
                have hs' : ¬ ((!sl.isRed && !sr.isRed) = true) := by
                  simp only [Bool.and_eq_true, Bool.not_eq_true']
                  exact hs
                simp only [hs', if_false]
                repeat' split
                all_goals first
                  | (refine ⟨_, _, rfl, ?_, ?_, ?_⟩
                     · simp_all [WalkOut, Good, isRed_eq_false_iff, isRed_eq_true_iff,
                         blackHeight_node, noRedRed_setBlack, blackHeight_setBlack_of_red,
                         isRed_setBlack]
                     · simp [Tree.size]
                     · simp_all [Leads]
                     done)
                  | (exfalso
                     simp_all [isRed_eq_false_iff, isRed_eq_true_iff, blackHeight_node]
                     done)
        · have hcond2 : ¬ ((!l.isRed && !r.isRed) = true) := by
            simp only [Bool.and_eq_true, Bool.not_eq_true']
            exact h2
          simp only [hcond2, Bool.false_eq_true, if_false]
          by_cases htc : ((!fs && decide (a = target)) || (fs && l.isNil)) = true
          · -- the node to unlink has a red child: rotate it down
            simp only [htc, if_true, eq_self_iff_true]
            have hat : fs = false → a = target := by
              intro hfs; subst hfs; simpa using htc
            cases l with
            | nil =>
              cases r with
              | nil => simp at h2
              | node rc ra rk rv rl rr =>
                cases rc with
                | kBlack => simp at h2
                | kRed =>
                  simp only [noRedRed_node, balanced_node, blackHeight_nil, blackHeight_red,
                    true_implies] at hrr hbal
                  refine ⟨_, _, rfl, ⟨rfl, ?_, ?_, Or.inl rfl⟩, ?_, ?_⟩
                  · simp only [Good, noRedRed_node, balanced_node, blackHeight_black, blackHeight_red,
                      blackHeight_nil, isRed_nil, isRed_black, isRed_red, noRedRed_nil, balanced_nil]
                    split_ands <;> first | omega | (simp_all; done)
                  · simp only [hole_cons, blackHeight_black, blackHeight_red, blackHeight_nil,
                      reduceCtorEq, if_true, if_false, false_implies, true_implies, decide_False,
                      decide_True, isRed_red, isRed_black, true_and, and_true]
                    split_ands <;> first
                      | exact hole_cast hhole (by first | omega | (simp; omega) | simp)
                      | omega
                      | (simp_all; done)
                  · simp [Tree.size]; try omega
                  · intro hfs; simp [Leads, hat hfs]
            | node lc la lk lv ll lr =>
              have hat : fs = false ∧ a = target := by
                cases fs <;> simp_all
              cases r with
              | nil =>
                cases lc with
                | kBlack => simp at h2
                | kRed =>
                  simp only [noRedRed_node, balanced_node, blackHeight_nil, blackHeight_red,
                    true_implies] at hrr hbal
                  refine ⟨_, _, rfl, ⟨rfl, ?_, ?_, Or.inl rfl⟩, ?_, ?_⟩
                  · simp only [Good, noRedRed_node, balanced_node, blackHeight_black, blackHeight_red,
                      blackHeight_nil, isRed_nil, isRed_black, isRed_red, noRedRed_nil, balanced_nil]
                    split_ands <;> first | omega | (simp_all; done)
                  · simp only [hole_cons, blackHeight_black, blackHeight_red, blackHeight_nil,
                      reduceCtorEq, if_true, if_false, false_implies, true_implies, decide_False,
                      decide_True, isRed_red, isRed_black, true_and, and_true]
                    split_ands <;> first
                      | exact hole_cast hhole (by first | omega | (simp; omega) | simp)
                      | omega
                      | (simp_all; done)
                  · simp [Tree.size]; try omega
                  · intro _; simp [Leads, hat.2]
              | node rc ra rk rv rl rr =>
                cases rc with
                | kRed =>
                  simp only [if_true]
                  refine ⟨_, _, rfl, ⟨rfl, ⟨hrr, hbal⟩, hhole, Or.inr ⟨hat.1, ?_⟩⟩, le_rfl, hleads⟩
                  simp [AtTarget, hat.2]
                | kBlack =>
                  cases lc with
                  | kBlack => simp at h2
                  | kRed =>
                    simp only [reduceCtorEq, if_false]
                    simp only [noRedRed_node, balanced_node, blackHeight_black, blackHeight_red,
                      true_implies, false_implies, reduceCtorEq, true_and] at hrr hbal
                    refine ⟨_, _, rfl, ⟨rfl, ?_, ?_, Or.inl rfl⟩, ?_, ?_⟩
                    · simp only [Good, noRedRed_node, balanced_node, blackHeight_black, blackHeight_red,
                        blackHeight_nil, isRed_nil, isRed_black, isRed_red, noRedRed_nil, balanced_nil]
                      split_ands <;> first | omega | (simp_all; done)
                    · simp only [hole_cons, blackHeight_black, blackHeight_red, blackHeight_nil,
                        reduceCtorEq, if_true, if_false, false_implies, true_implies, decide_False,
                        decide_True, isRed_red, isRed_black, true_and, and_true]
                      split_ands <;> first
                        | exact hole_cast hhole (by first | omega | (simp; omega) | simp)
                        | omega
                        | (simp_all; done)
                    · simp [Tree.size]; try omega
                    · intro _; simp [Leads, hat.2]
          · -- step down, rotating the red sibling up when the child is black
            simp only [htc, if_false, Bool.false_eq_true]
            have hnt : fs = false → ¬ a = target := by
              intro hfs; subst hfs; simpa using htc
            have hlnil : fs = true → l.isNil = false := by
              intro hfs; subst hfs; simpa using htc
            by_cases hsm : (fs || decide (nk < k)) = true
            · simp only [hsm, if_true]
              have hleadsL : fs = false → Leads nk target l := by
                intro hfs
                have h := hleads hfs
                subst hfs
                simp only [Bool.false_or, decide_eq_true_eq] at hsm
                simpa [Leads, hnt rfl, hsm] using h
              cases l with
              | nil =>
                exfalso
                cases fs
                · exact hleadsL rfl
                · simpa using hlnil rfl
              | node lc la lk lv ll lr =>
                cases lc with
                | kRed =>
                  simp only [if_true]
                  simp only [noRedRed_node, balanced_node, blackHeight_black, blackHeight_red,
                    true_implies, false_implies, reduceCtorEq, true_and] at hrr hbal
                  refine ⟨_, _, rfl, ⟨rfl, ?_, ?_, Or.inl rfl⟩, ?_, hleadsL⟩
                  · simp only [Good, noRedRed_node, balanced_node, blackHeight_black, blackHeight_red,
                      blackHeight_nil, isRed_nil, isRed_black, isRed_red, noRedRed_nil, balanced_nil]
                    split_ands <;> first | omega | (simp_all; done)
                  · simp only [hole_cons, blackHeight_black, blackHeight_red, blackHeight_nil,
                      reduceCtorEq, if_true, if_false, false_implies, true_implies, decide_False,
                      decide_True, isRed_red, isRed_black, true_and, and_true]
                    split_ands <;> first
                      | exact hole_cast hhole (by first | omega | (simp; omega) | simp)
                      | omega
                      | (simp_all; done)
                  · simp [Tree.size]; omega
                | kBlack =>
                  simp only [reduceCtorEq, if_false]
                  cases r with
                  | nil => simp at h2
                  | node rc ra rk rv rl rr =>
                    cases rc with
                    | kBlack => simp at h2
                    | kRed =>
                      simp only []
                      simp only [noRedRed_node, balanced_node, blackHeight_black, blackHeight_red,
                        true_implies, false_implies, reduceCtorEq, true_and] at hrr hbal
                      have hrec := ih (⟨.kRed, a, k, v, .L, rl⟩ :: ⟨.kBlack, ra, rk, rv, .L, rr⟩ :: path)
                        (node .kBlack la lk lv ll lr)
                        (by
                          refine ⟨rfl, ?_, ?_, fun _ => rfl⟩
                          · simp only [Good, noRedRed_node, balanced_node, blackHeight_black, blackHeight_red,
                              blackHeight_nil, isRed_nil, isRed_black, isRed_red, noRedRed_nil, balanced_nil]
                            split_ands <;> first | omega | (simp_all; done)
                          · simp only [hole_cons, blackHeight_black, blackHeight_red, blackHeight_nil,
                              reduceCtorEq, if_true, if_false, false_implies, true_implies, decide_False,
                              decide_True, isRed_red, isRed_black, true_and, and_true]
                            split_ands <;> first
                              | exact hole_cast hhole (by first | omega | (simp; omega) | simp)
                              | omega
                              | (simp_all; done))
                        hleadsL
                        (by simp [Tree.size] at hsize ⊢; omega)
                      obtain ⟨p', n', e1, e2, e3, e4⟩ := hrec
                      exact ⟨p', n', e1, e2, by simp [Tree.size] at e3 ⊢; omega, e4⟩
            · simp only [hsm, if_false, Bool.false_eq_true]
              have hfs : fs = false := by
                cases fs
                · rfl
                · simp at hsm
              subst hfs
              simp only [Bool.false_or, decide_eq_true_eq] at hsm
              have hleadsR : false = false → Leads nk target r := by
                intro _
                have h := hleads rfl
                simpa [Leads, hnt rfl, hsm] using h
              cases r with
              | nil => exact (hleadsR rfl).elim
              | node rc ra rk rv rl rr =>
                cases rc with
                | kRed =>
                  simp only [if_true]
                  simp only [noRedRed_node, balanced_node, blackHeight_black, blackHeight_red,
                    true_implies, false_implies, reduceCtorEq, true_and] at hrr hbal
                  refine ⟨_, _, rfl, ⟨rfl, ?_, ?_, Or.inl rfl⟩, ?_, fun _ => hleadsR rfl⟩
                  · simp only [Good, noRedRed_node, balanced_node, blackHeight_black, blackHeight_red,
                      blackHeight_nil, isRed_nil, isRed_black, isRed_red, noRedRed_nil, balanced_nil]
                    split_ands <;> first | omega | (simp_all; done)
                  · simp only [hole_cons, blackHeight_black, blackHeight_red, blackHeight_nil,
                      reduceCtorEq, if_true, if_false, false_implies, true_implies, decide_False,
                      decide_True, isRed_red, isRed_black, true_and, and_true]
                    split_ands <;> first
                      | exact hole_cast hhole (by first | omega | (simp; omega) | simp)
                      | omega
                      | (simp_all; done)
                  · simp [Tree.size]
                | kBlack =>
                  simp only [reduceCtorEq, if_false]
                  cases l with
                  | nil => simp at h2
                  | node lc la lk lv ll lr =>
                    cases lc with
                    | kBlack => simp at h2
                    | kRed =>
                      simp only []
                      simp only [noRedRed_node, balanced_node, blackHeight_black, blackHeight_red,
                        true_implies, false_implies, reduceCtorEq, true_and] at hrr hbal
                      have hrec := ih (⟨.kRed, a, k, v, .R, lr⟩ :: ⟨.kBlack, la, lk, lv, .R, ll⟩ :: path)
                        (node .kBlack ra rk rv rl rr)
                        (by
                          refine ⟨rfl, ?_, ?_, fun _ => rfl⟩
                          · simp only [Good, noRedRed_node, balanced_node, blackHeight_black, blackHeight_red,
                              blackHeight_nil, isRed_nil, isRed_black, isRed_red, noRedRed_nil, balanced_nil]
                            split_ands <;> first | omega | (simp_all; done)
                          · simp only [hole_cons, blackHeight_black, blackHeight_red, blackHeight_nil,
                              reduceCtorEq, if_true, if_false, false_implies, true_implies, decide_False,
                              decide_True, isRed_red, isRed_black, true_and, and_true]
                            split_ands <;> first
                              | exact hole_cast hhole (by first | omega | (simp; omega) | simp)
                              | omega
                              | (simp_all; done))
                        hleadsR
                        (by simp [Tree.size] at hsize ⊢; omega)
                      obtain ⟨p', n', e1, e2, e3, e4⟩ := hrec
                      exact ⟨p', n', e1, e2, by simp [Tree.size] at e3 ⊢; omega, fun _ => e4 rfl⟩

end sjtu


namespace sjtu

variable {K V : Type}

open Tree

theorem plug_cons (t : Tree K V) (f : Frame K V) (path : Path K V) :
    plug t (f :: path) = plug (f.fill t) path := rfl

/-- The relinking of the successor into the place of the erased node succeeds; it changes no
colour and no subtree, and in the in-order sequence it replaces the entry of the erased node,
which is the last one before the successor, by the entry of the successor. -/
theorem spliceInto_spec (target a : Nat) (k : K) (v : V) :
    ∀ (path : Path K V), SuccPath target path → (∀ e ∈ after path, e.1 ≠ target) →
      ∃ path', spliceInto target a k v path = .ok path' ∧
        (∀ h red, Hole path h red → Hole path' h red) ∧ after path' = after path ∧
        ∃ X e, before path = X ++ [e] ∧ e.1 = target ∧ before path' = X ++ [(a, k, v)] := by
  intro path
  induction path with
  | nil => intro h; exact h.elim
  | cons f rest ih =>
    intro hs hafter
    obtain ⟨fc, fa, fk, fv, fd, fsib⟩ := f
    rcases hs with ⟨h1, h2⟩ | ⟨h1, h2⟩
    · simp only at h1 h2
      subst h1 h2
      refine ⟨⟨fc, a, k, v, .R, fsib⟩ :: rest, by simp [spliceInto], ?_, rfl,
        before rest ++ fsib.toList, (fa, fk, fv), ?_, rfl, ?_⟩
      · intro h red hh; simpa using hh
      · simp
      · simp
    · simp only at h1
      subst h1
      have hne : fa ≠ target := hafter (fa, fk, fv) (by simp)
      obtain ⟨rest', e1, e2, e3, X, e, e4, e5, e6⟩ := ih h2 (fun e he => hafter e (by simp [he]))
      refine ⟨⟨fc, fa, fk, fv, .L, fsib⟩ :: rest', by simp [spliceInto, hne, e1], ?_, ?_,
        X, e, ?_, e5, ?_⟩
      · intro h red hh
        simp only [hole_cons] at hh ⊢
        exact ⟨hh.1, hh.2.1, hh.2.2.1, hh.2.2.2.1, e2 _ _ hh.2.2.2.2⟩
      · simp [e3]
      · simpa using e4
      · simpa using e6

theorem succPath_before (target : Nat) :
    ∀ (path : Path K V), SuccPath target path → ∃ e ∈ before path, e.1 = target := by
  intro path
  induction path with
  | nil => intro h; exact h.elim
  | cons f rest ih =>
    intro hs
    obtain ⟨fc, fa, fk, fv, fd, fsib⟩ := f
    rcases hs with ⟨h1, h2⟩ | ⟨h1, h2⟩
    · simp only at h1 h2
      subst h1 h2
      exact ⟨(fa, fk, fv), by simp, rfl⟩
    · simp only at h1
      subst h1
      obtain ⟨e, he, h⟩ := ih h2
      exact ⟨e, by simpa using he, h⟩

/-- With distinct addresses, no node after the focus is the erased node while the successor
is looked for. -/
theorem after_ne_target (target : Nat) (path : Path K V) (now : Tree K V)
    (hs : SuccPath target path) (hnd : (plug now path).addrs.Nodup) :
    ∀ e ∈ after path, e.1 ≠ target := by
  obtain ⟨e0, he0, h0⟩ := succPath_before target path hs
  intro e he heq
  simp only [addrs, toList_plug, List.map_append] at hnd
  rw [List.nodup_append] at hnd
  have hdis := hnd.2.2
  have h1 : target ∈ List.map (fun e => e.1) (before path) :=
    List.mem_map.mpr ⟨e0, he0, h0⟩
  have h2 : target ∈ List.map (fun e => e.1) now.toList ++ List.map (fun e => e.1) (after path) :=
    List.mem_append.mpr (Or.inr (List.mem_map.mpr ⟨e, he, heq⟩))
  exact hdis h1 h2

end sjtu


namespace sjtu

variable {K V : Type}

open Tree

theorem Leads_ne_nil [LinearOrder K] {nk : K} {target : Nat} {t : Tree K V}
    (h : Leads nk target t) : t.isNil = false := by
  cases t with
  | nil => exact h.elim
  | node c a k v l r => rfl

set_option maxHeartbeats 2000000 in
/-- The outer loop of `EraseNode` returns; the tree it leaves has invariants 3 and 4, and its
in-order sequence is the previous one without the entry of the erased node. -/
theorem EraseLoop_spec [LinearOrder K] (nk : K) (target : Nat) :
    ∀ (fuel : Nat) (fs : Bool) (path : Path K V) (now : Tree K V),
      WalkInv path now → (fs = false → Leads nk target now) →
      (fs = true → SuccPath target path) →
      (plug now path).addrs.Nodup → 2 ≤ (plug now path).toList.length → now.size < fuel →
      ∃ t', EraseLoop nk target fuel fs path now = .ok t' ∧ Good t' ∧
        ∃ L₁ e L₂, (plug now path).toList = L₁ ++ e :: L₂ ∧ e.1 = target ∧
          t'.toList = L₁ ++ L₂ := by
  intro fuel
  induction fuel with
  | zero => intro fs path now _ _ _ _ _ h; omega
  | succ n ih =>
    intro fs path now hinv hleads hsucc hnd hsz hfuel
    obtain ⟨path', now', hw, hout, hsize', hleads'⟩ :=
      EraseWalk_spec nk target fs (n + 1) path now hinv hleads hfuel
    have hlist := EraseWalk_toList nk target fs (n + 1) path now path' now' hw
    have hsucc' : fs = true → SuccPath target path' := by
      intro h; subst h; exact EraseWalk_succ _ _ _ _ _ _ _ hw (hsucc rfl)
    have hnd' : (plug now' path').addrs.Nodup := by
      simpa only [addrs, hlist] using hnd
    rw [← hlist] at hsz ⊢
    simp only [EraseLoop, hw]
    clear hw hlist hinv hleads hsucc hnd
    obtain ⟨hnn, hgood, hhole, hcol⟩ := hout
    cases now' with
    | nil => simp at hnn
    | node c a k v l r =>
      simp only []
      by_cases hat : a = target
      · subst hat
        simp only [if_true]
        simp only [Good, noRedRed_node, balanced_node] at hgood
        cases l with
        | nil =>
          have hred : c = .kRed := by
            rcases hcol with h | ⟨_, h⟩
            · simpa [isRed_eq_true_iff] using h
            · simp [AtTarget] at h
          subst hred
          cases r with
          | nil =>
            cases path' with
            | nil => simp [plug] at hsz
            | cons par rest =>
              simp only []
              refine ⟨_, rfl, good_plug_of hhole (by simp [Good]) (by simp) (by simp), ?_⟩
              exact ⟨before (par :: rest), (a, k, v), after (par :: rest), by simp [toList_plug],
                rfl, by simp [toList_plug]⟩
          | node rc ra rk rv rl rr =>
            exfalso
            cases rc <;> simp_all
        | node lc la lk lv ll lr =>
          cases r with
          | nil =>
            exfalso
            have hred : c = .kRed := by
              rcases hcol with h | ⟨_, h⟩
              · simpa [isRed_eq_true_iff] using h
              · simp [AtTarget] at h
            subst hred
            cases lc <;> simp_all
          | node rc ra rk rv rl rr =>
            simp only []
            have hrec := ih true (⟨c, a, k, v, .R, node lc la lk lv ll lr⟩ :: path')
              (node rc ra rk rv rl rr)
              (by
                refine ⟨rfl, ⟨hgood.1.2.2, hgood.2.2.2⟩, ?_, ?_⟩
                · simp only [hole_cons]
                  refine ⟨hgood.1.2.1, hgood.2.2.1, hgood.2.1, ?_, ?_⟩
                  · intro hc; exact ⟨(hgood.1.1 hc).2, (hgood.1.1 hc).1⟩
                  · rw [← hgood.2.1]
                    cases c <;> simpa using hhole
                · intro hr
                  rcases hcol with h | ⟨_, h⟩
                  · simpa [redAbove, isRed_eq_true_iff] using h
                  · simp [AtTarget, hr] at h)
              (by simp)
              (fun _ => Or.inl ⟨rfl, rfl⟩)
              hnd'
              hsz
              (by simp [Tree.size] at hsize' ⊢; omega)
            exact hrec
      · simp only [hat, if_false]
        have hred : c = .kRed := by
          rcases hcol with h | ⟨_, h⟩
          · simpa [isRed_eq_true_iff] using h
          · exact absurd h.1 hat
        subst hred
        simp only [Good, noRedRed_node, balanced_node, true_implies] at hgood
        obtain ⟨⟨⟨hlr, hrr⟩, hl1, hr1⟩, hb, hl2, hr2⟩ := hgood
        simp only [blackHeight_red, isRed_red] at hhole
        by_cases hfl : fs = true ∧ l.isNil = true
        · -- the successor is found: put it in the place of the erased node
          obtain ⟨hfs, hl⟩ := hfl
          subst hfs
          rw [isNil_eq_true_iff] at hl
          subst hl
          have hr : r = nil := nil_of_blackHeight_zero hrr (by simpa using hb.symm)
          subst hr
          simp only [isNil_nil, Bool.and_self, if_true]
          have hs := hsucc' rfl
          cases path' with
          | nil => exact hs.elim
          | cons par rest =>
            obtain ⟨pc, pa, pk, pv, pd, ps⟩ := par
            simp only [hole_cons, blackHeight_nil] at hhole
            obtain ⟨hp1, hp2, hp3, hp4, hup⟩ := hhole
            have hpc : pc = .kBlack := by
              cases pc
              · simpa using hp4 rfl
              · rfl
            subst hpc
            simp only [if_true] at hup
            simp only []
            have hafter := after_ne_target target _ _ hs hnd'
            by_cases hp : pa = target
            · subst hp
              simp only [if_true]
              have hpd : pd = .R := by
                rcases hs with ⟨_, h2⟩ | ⟨h1, _⟩
                · exact h2
                · simp only at h1
                  subst h1
                  exact absurd rfl (hafter (pa, pk, pv) (by simp))
              subst hpd
              simp only []
              refine ⟨_, rfl, good_plug_of hup ?_ (by simp [hp3]) (by simp), ?_⟩
              · simp only [Good, noRedRed_node, balanced_node]
                simp [hp1, hp2, hp3]
              · exact ⟨before rest ++ ps.toList, (pa, pk, pv), (a, k, v) :: after rest,
                  by simp [toList_plug], rfl, by simp [toList_plug]⟩
            · simp only [hp, if_false]
              have hpd : pd = .L := by
                rcases hs with ⟨h1, _⟩ | ⟨h1, _⟩
                · exact absurd h1 hp
                · exact h1
              subst hpd
              simp only []
              obtain ⟨path'', e1, e2, e3, X, e, e4, e5, e6⟩ :=
                spliceInto_spec target a k v _ hs hafter
              simp only [e1]
              have hh : Hole (⟨.kBlack, pa, pk, pv, .L, ps⟩ :: rest) 0 true := by
                simp only [hole_cons]
                exact ⟨hp1, hp2, hp3, hp4, by simpa using hup⟩
              refine ⟨_, rfl, good_plug_of (e2 _ _ hh) (by simp [Good]) (by simp) (by simp), ?_⟩
              refine ⟨X, e, (a, k, v) :: after (⟨.kBlack, pa, pk, pv, .L, ps⟩ :: rest), ?_, e5, ?_⟩
              · rw [toList_plug, e4]; simp
              · rw [toList_plug, e6, e3]; simp
        · -- keep walking down
          have hcond : ¬ ((fs && l.isNil) = true) := by
            simpa [Bool.and_eq_true] using hfl
          simp only [hcond, if_false]
          by_cases hsm : (fs || decide (nk < k)) = true
          · simp only [hsm, if_true]
            have hleadsL : fs = false → Leads nk target l := by
              intro hfs
              have h := hleads' hfs
              subst hfs
              simp only [Bool.false_or, decide_eq_true_eq] at hsm
              simpa [Leads, hat, hsm] using h
            have hlnil : l.isNil = false := by
              cases hfs : fs
              · exact Leads_ne_nil (hleadsL hfs)
              · cases hl : l.isNil
                · rfl
                · exact absurd ⟨hfs, hl⟩ hfl
            refine ih fs (⟨.kRed, a, k, v, .L, r⟩ :: path') l ⟨hlnil, ⟨hl1, hl2⟩, ?_, fun _ => rfl⟩
              hleadsL (fun hfs => Or.inr ⟨rfl, hsucc' hfs⟩) hnd' hsz
              (by simp [Tree.size] at hsize' ⊢; omega)
            simp only [hole_cons, true_implies, reduceCtorEq, if_false, decide_True]
            exact ⟨hr1, hr2, hb.symm, ⟨by simpa using hlr, hrr⟩, hhole⟩
          · simp only [hsm, if_false]
            have hfs : fs = false := by
              cases fs
              · rfl
              · simp at hsm
            subst hfs
            simp only [Bool.false_or, decide_eq_true_eq] at hsm
            have hleadsR : Leads nk target r := by
              have h := hleads' rfl
              simpa [Leads, hat, hsm] using h
            refine ih false (⟨.kRed, a, k, v, .R, l⟩ :: path') r
              ⟨Leads_ne_nil hleadsR, ⟨hr1, hr2⟩, ?_, fun _ => rfl⟩
              (fun _ => hleadsR) (fun h => by simp at h) hnd' hsz
              (by simp [Tree.size] at hsize' ⊢; omega)
            simp only [hole_cons, true_implies, reduceCtorEq, if_false, decide_True]
            exact ⟨hl1, hl2, hb, ⟨by simpa using hrr, hlr⟩, by rw [← hb]; exact hhole⟩

end sjtu


namespace sjtu

variable {K V : Type}

open Tree

@[simp] theorem keys_nil : (nil : Tree K V).keys = [] := rfl

@[simp] theorem keys_node (c : Colour) (a : Nat) (k : K) (v : V) (l r : Tree K V) :
    (node c a k v l r).keys = l.keys ++ k :: r.keys := by
  simp [keys]

@[simp] theorem addrs_nil : (nil : Tree K V).addrs = [] := rfl

@[simp] theorem addrs_node (c : Colour) (a : Nat) (k : K) (v : V) (l r : Tree K V) :
    (node c a k v l r).addrs = l.addrs ++ a :: r.addrs := by
  simp [addrs]

theorem bst_node [LinearOrder K] (c : Colour) (a : Nat) (k : K) (v : V) (l r : Tree K V) :
    BST (node c a k v l r) ↔
      BST l ∧ BST r ∧ (∀ x ∈ l.keys, x < k) ∧ (∀ y ∈ r.keys, k < y) ∧
        ∀ x ∈ l.keys, ∀ y ∈ r.keys, x < y := by
  simp only [BST, keys_node, List.pairwise_append, List.pairwise_cons, List.mem_cons]
  constructor
  · rintro ⟨h1, ⟨h2, h3⟩, h4⟩
    exact ⟨h1, h3, fun x hx => h4 x hx k (Or.inl rfl), h2,
      fun x hx y hy => h4 x hx y (Or.inr hy)⟩
  · rintro ⟨h1, h2, h3, h4, h5⟩
    refine ⟨h1, ⟨h4, h2⟩, ?_⟩
    intro x hx y hy
    rcases hy with rfl | hy
    · exact h3 x hx
    · exact h5 x hx y hy

theorem keyAt_mem {t : Tree K V} {p : Nat} {nk : K} (h : t.keyAt p = some nk) :
    ∃ v, (p, nk, v) ∈ t.toList := by
  induction t with
  | nil => simp [keyAt] at h
  | node c a k v l r ihl ihr =>
    simp only [keyAt] at h
    split at h
    · rename_i hap
      simp only [Option.some.injEq] at h
      subst hap h
      exact ⟨v, by simp⟩
    · split at h
      · rename_i x hx
        simp only [Option.some.injEq] at h
        subst h
        obtain ⟨w, hw⟩ := ihl hx
        exact ⟨w, by simp [hw]⟩
      · obtain ⟨w, hw⟩ := ihr h
        exact ⟨w, by simp [hw]⟩

theorem keyAt_mem_keys {t : Tree K V} {p : Nat} {nk : K} (h : t.keyAt p = some nk) :
    nk ∈ t.keys := by
  obtain ⟨v, hv⟩ := keyAt_mem h
  exact List.mem_map.mpr ⟨_, hv, rfl⟩

theorem keyAt_isSome_of_mem {t : Tree K V} {p : Nat} (h : p ∈ t.addrs) :
    ∃ nk, t.keyAt p = some nk := by
  induction t with
  | nil => simp at h
  | node c a k v l r ihl ihr =>
    simp only [keyAt]
    by_cases hap : a = p
    · exact ⟨k, by simp [hap]⟩
    · simp only [hap, if_false]
      cases hl : l.keyAt p with
      | some x => exact ⟨x, rfl⟩
      | none =>
        simp only [addrs_node, List.mem_append, List.mem_cons] at h
        rcases h with h | h | h
        · obtain ⟨x, hx⟩ := ihl h
          rw [hl] at hx; simp at hx
        · exact absurd h.symm hap
        · exact ihr h

/-- In a search tree the descent comparing the key of a node with the keys on the way reaches
that node. -/
theorem leads_of_keyAt [LinearOrder K] {t : Tree K V} {p : Nat} {nk : K} (hb : BST t)
    (h : t.keyAt p = some nk) : Leads nk p t := by
  induction t with
  | nil => simp [keyAt] at h
  | node c a k v l r ihl ihr =>
    rw [bst_node] at hb
    obtain ⟨hbl, hbr, hlk, hrk, -⟩ := hb
    simp only [keyAt] at h
    simp only [Leads]
    by_cases hap : a = p
    · exact Or.inl hap
    · right
      simp only [hap, if_false] at h
      cases hl : l.keyAt p with
      | some x =>
        rw [hl] at h
        simp only [Option.some.injEq] at h
        subst h
        have := hlk x (keyAt_mem_keys hl)
        simp only [this, if_true]
        exact ihl hbl hl
      | none =>
        rw [hl] at h
        have := hrk nk (keyAt_mem_keys h)
        simp only [not_lt.mpr (le_of_lt this), if_false]
        exact ihr hbr h

/-- On a search tree with invariants 3 and 4, `EraseNode` of a node of the tree returns; the tree
it leaves has invariants 2, 3 and 4, and its in-order sequence is the previous one without
the entry of that node. -/
theorem EraseNode_spec [LinearOrder K] (t : Tree K V) (target : Nat)
    (hgood : Good t) (hbst : BST t) (hnd : t.addrs.Nodup) (hmem : target ∈ t.addrs) :
    ∃ t', EraseNode t t.size target = .ok t' ∧ Good t' ∧ RootBlack t' ∧
      ∃ L₁ e L₂, t.toList = L₁ ++ e :: L₂ ∧ e.1 = target ∧ t'.toList = L₁ ++ L₂ := by
  obtain ⟨e, he, hee⟩ := List.mem_map.mp hmem
  obtain ⟨L₁, L₂, hsplit⟩ := List.append_of_mem he
  unfold EraseNode
  by_cases h1 : t.size = 1
  · simp only [h1, if_true]
    refine ⟨nil, rfl, by simp [Good], rfl, L₁, e, L₂, hsplit, hee, ?_⟩
    have hlen : (L₁ ++ e :: L₂).length = 1 := by rw [← hsplit, ← size_eq_length, h1]
    simp only [List.length_append, List.length_cons] at hlen
    have e1 : L₁ = [] := List.length_eq_zero.mp (by omega)
    have e2 : L₂ = [] := List.length_eq_zero.mp (by omega)
    simp [e1, e2]
  · simp only [h1, if_false]
    obtain ⟨nk, hnk⟩ := keyAt_isSome_of_mem hmem
    simp only [hnk]
    have hsz : 2 ≤ t.toList.length := by
      have : t.toList.length = t.size := (size_eq_length t).symm
      have h0 : 0 < t.toList.length := List.length_pos_of_mem he
      omega
    have hnil : t.isNil = false := by
      cases t with
      | nil => simp at he
      | node _ _ _ _ _ _ => rfl
    obtain ⟨t', h2, h3, M₁, e', M₂, h4, h5, h6⟩ :=
      EraseLoop_spec nk target (t.size + 1) false [] t
        ⟨hnil, hgood, trivial, fun _ => trivial⟩
        (fun _ => leads_of_keyAt hbst hnk) (fun h => by simp at h) hnd hsz (by omega)
    simp only [h2]
    simp only [plug] at h4
    cases t' with
    | nil =>
      exfalso
      have : (M₁ ++ e' :: M₂).length = M₁.length + M₂.length + 1 := by simp; omega
      rw [← h4] at this
      simp only [toList_nil] at h6
      have h7 : (M₁ ++ M₂).length = 0 := by rw [← h6]; rfl
      simp only [List.length_append] at h7
      omega
    | node c a k v l r =>
      exact ⟨_, rfl, good_setBlack h3, rfl, M₁, e', M₂, h4, h5, by simpa using h6⟩

end sjtu


namespace sjtu

variable {K V : Type}

open Tree

theorem LLb_toList {t t' : Tree K V} (h : LLb t = .ok t') : t'.toList = t.toList := by
  unfold LLb at h
  split at h
  · simp only [Outcome.ok.injEq] at h; subst h; simp
  · simp at h

theorem RRb_toList {t t' : Tree K V} (h : RRb t = .ok t') : t'.toList = t.toList := by
  unfold RRb at h
  split at h
  · simp only [Outcome.ok.injEq] at h; subst h; simp
  · simp at h

theorem LRb_toList {t t' : Tree K V} (h : LRb t = .ok t') : t'.toList = t.toList := by
  unfold LRb at h
  split at h
  · simp only [Outcome.ok.injEq] at h; subst h; simp
  · simp at h

theorem RLb_toList {t t' : Tree K V} (h : RLb t = .ok t') : t'.toList = t.toList := by
  unfold RLb at h
  split at h
  · simp only [Outcome.ok.injEq] at h; subst h; simp
  · simp at h

@[simp] theorem toList_setRed (t : Tree K V) : t.setRed.toList = t.toList := by
  cases t <;> rfl

/-- The colour flip and the rotation after it keep the key in focus and the in-order sequence
of the whole tree; nothing new comes before or after the focus. -/
theorem flipFix_content (path : Path K V) (c : Colour) (p : Nat) (nk : K) (nv : V)
    (l r : Tree K V) (path' : Path K V) (now' : Tree K V)
    (h : flipFix path (node c p nk nv l r) = .ok (path', now')) :
    (∃ c' l' r', now' = node c' p nk nv l' r') ∧
      (plug now' path').toList = (plug (node c p nk nv l r) path).toList ∧
      (∀ e ∈ before path', e ∈ before path) ∧ (∀ e ∈ after path', e ∈ after path) := by
  cases path with
  | nil =>
    simp only [flipFix, Outcome.ok.injEq, Prod.mk.injEq] at h
    obtain ⟨rfl, rfl⟩ := h
    exact ⟨⟨_, _, _, rfl⟩, rfl, fun _ h => h, fun _ h => h⟩
  | cons par rest =>
    obtain ⟨pc, pa, pk, pv, pd, ps⟩ := par
    cases pc with
    | kBlack =>
      simp only [flipFix, reduceCtorEq, if_false, Outcome.ok.injEq, Prod.mk.injEq] at h
      obtain ⟨rfl, rfl⟩ := h
      exact ⟨⟨_, _, _, rfl⟩, rfl, fun _ h => h, fun _ h => h⟩
    | kRed =>
      cases rest with
      | nil => simp [flipFix] at h
      | cons g up =>
        obtain ⟨gc, ga, gk, gv, gd, gs⟩ := g
        cases pd <;> cases gd
        all_goals simp only [flipFix, if_true, Outcome.ok.injEq, Prod.mk.injEq] at h
        all_goals obtain ⟨rfl, rfl⟩ := h
        all_goals refine ⟨⟨_, _, _, rfl⟩, ?_, ?_, ?_⟩
        all_goals simp [toList_plug]
        all_goals tauto

end sjtu


namespace sjtu

variable {K V : Type}

open Tree

/-- The flip-and-rotate step of one iteration of the insertion descent, flip made or not. -/
theorem step_content (path : Path K V) (c : Colour) (p : Nat) (nk : K) (nv : V)
    (l r : Tree K V) (b : Bool) (path' : Path K V) (now' : Tree K V)
    (h : (if b = true then flipFix path (node .kRed p nk nv l.setBlack r.setBlack)
          else .ok (path, node c p nk nv l r)) = .ok (path', now')) :
    (∃ c' l' r', now' = node c' p nk nv l' r') ∧
      (plug now' path').toList = (plug (node c p nk nv l r) path).toList ∧
      (∀ e ∈ before path', e ∈ before path) ∧ (∀ e ∈ after path', e ∈ after path) := by
  cases b with
  | true =>
    simp only [if_true] at h
    obtain ⟨h1, h2, h3, h4⟩ := flipFix_content path _ p nk nv _ _ path' now' h
    refine ⟨h1, ?_, h3, h4⟩
    rw [h2]; simp [toList_plug]
  | false =>
    simp only [Bool.false_eq_true, if_false, Outcome.ok.injEq, Prod.mk.injEq] at h
    obtain ⟨rfl, rfl⟩ := h
    exact ⟨⟨_, _, _, rfl⟩, rfl, fun _ h => h, fun _ h => h⟩

/-- Attaching on the left: what is returned. -/
theorem attach_left_content (a : Nat) (k : K) (v : V) (path : Path K V) (c : Colour)
    (now : Tree K V) (res : InsertResult K V) :
    (if c = .kBlack then Outcome.ok (⟨(plug now path).setBlack, a, true⟩ : InsertResult K V)
      else
        match path with
        | [] => .fail .null_access
        | g :: up =>
          match (match g.dir with
                 | .L => LLb (g.fill now)
                 | .R => RLb (g.fill now)) with
          | .ok t => .ok ⟨(plug t up).setBlack, a, true⟩
          | .fail f => .fail f) = .ok res →
    res.second = true ∧ res.first = a ∧ res.root_.toList = (plug now path).toList := by
  intro h
  split at h
  · simp only [Outcome.ok.injEq] at h; subst h; simp
  · split at h
    · simp at h
    · rename_i g up
      split at h
      · rename_i t ht
        simp only [Outcome.ok.injEq] at h
        subst h
        refine ⟨rfl, rfl, ?_⟩
        split at ht
        · simp [plug_cons, toList_plug, LLb_toList ht]
        · simp [plug_cons, toList_plug, RLb_toList ht]
      · simp at h

/-- Attaching on the right: what is returned. -/
theorem attach_right_content (a : Nat) (k : K) (v : V) (path : Path K V) (c : Colour)
    (now : Tree K V) (res : InsertResult K V) :
    (if c = .kBlack then Outcome.ok (⟨(plug now path).setBlack, a, true⟩ : InsertResult K V)
      else
        match path with
        | [] => .fail .null_access
        | g :: up =>
          match (match g.dir with
                 | .L => LRb (g.fill now)
                 | .R => RRb (g.fill now)) with
          | .ok t => .ok ⟨(plug t up).setBlack, a, true⟩
          | .fail f => .fail f) = .ok res →
    res.second = true ∧ res.first = a ∧ res.root_.toList = (plug now path).toList := by
  intro h
  split at h
  · simp only [Outcome.ok.injEq] at h; subst h; simp
  · split at h
    · simp at h
    · rename_i g up
      split at h
      · rename_i t ht
        simp only [Outcome.ok.injEq] at h
        subst h
        refine ⟨rfl, rfl, ?_⟩
        split at ht
        · simp [plug_cons, toList_plug, LRb_toList ht]
        · simp [plug_cons, toList_plug, RRb_toList ht]
      · simp at h

end sjtu


namespace sjtu

variable {K V : Type}

open Tree

theorem bst_focus [LinearOrder K] {now : Tree K V} {path : Path K V}
    (h : BST (plug now path)) : BST now := by
  simp only [BST, keys, toList_plug, List.map_append] at h ⊢
  exact (List.pairwise_append.mp (List.pairwise_append.mp h).2.1).1

theorem bst_focus_bounds [LinearOrder K] {c : Colour} {p : Nat} {nk : K} {nv : V}
    {l r : Tree K V} {path : Path K V} (h : BST (plug (node c p nk nv l r) path)) :
    (∀ e ∈ l.toList, e.2.1 < nk) ∧ (∀ e ∈ r.toList, nk < e.2.1) := by
  have h' := (bst_node c p nk nv l r).mp (bst_focus h)
  exact ⟨fun e he => h'.2.2.1 _ (List.mem_map.mpr ⟨e, he, rfl⟩),
    fun e he => h'.2.2.2.1 _ (List.mem_map.mpr ⟨e, he, rfl⟩)⟩

theorem InsertLoop_content [LinearOrder K] (k : K) (v : V) (a : Nat) :
    ∀ (fuel : Nat) (path : Path K V) (now : Tree K V) (res : InsertResult K V),
      InsertLoop k v a fuel path now = .ok res → BST (plug now path) →
      (∀ e ∈ before path, e.2.1 < k) → (∀ e ∈ after path, k < e.2.1) →
      InsertPost k v a (plug now path).toList res := by
  intro fuel
  induction fuel with
  | zero => intro path now res h; simp [InsertLoop] at h
  | succ n ih =>
    intro path now res h hbst hbefore hafter
    cases now with
    | nil => simp [InsertLoop] at h
    | node c p nk nv l r =>
      have hsorted := bst_focus_bounds hbst
      rcases lt_trichotomy k nk with hlt | heq | hgt
      · have hngt : ¬ nk < k := not_lt.mpr (le_of_lt hlt)
        have hr : ∀ e ∈ r.toList, k < e.2.1 := by
          intro e he
          exact lt_trans hlt (hsorted.2 e he)
        cases l with
        | nil =>
          simp only [InsertLoop, hlt, hngt, decide_True, decide_False, isNil_nil,
            Bool.not_true, Bool.not_false, Bool.and_true, Bool.false_and, Bool.and_self,
            Bool.false_eq_true, if_false, if_true] at h
          obtain ⟨h1, h2, h3⟩ := attach_left_content a k v path c _ res h
          refine Or.inr ⟨h1, h2, before path, (p, nk, nv) :: r.toList ++ after path, ?_, ?_,
            hbefore, ?_⟩
          · simp [toList_plug]
          · rw [h3]; simp [toList_plug]
          · intro e he
            simp only [List.cons_append, List.mem_cons, List.mem_append] at he
            rcases he with rfl | he | he
            · exact hlt
            · exact hr e he
            · exact hafter e he
        | node lc la lk lv ll lr =>
          simp only [InsertLoop, hlt, hngt, decide_True, decide_False, isNil_node,
            Bool.not_true, Bool.not_false, Bool.and_true, Bool.false_and, Bool.and_self,
            Bool.and_false, Bool.false_eq_true, if_false, if_true] at h
          split at h
          · simp at h
          · simp at h
          · rename_i path' c' p' k' v' l' r' hX
            obtain ⟨⟨c'', l'', r'', e1⟩, e2, e3, e4⟩ :=
              step_content path c p nk nv _ r _ path' _ hX
            simp only [node.injEq] at e1
            obtain ⟨rfl, rfl, rfl, rfl, rfl, rfl⟩ := e1
            have hplug : plug l' (⟨c', p', k', v', .L, r'⟩ :: path') =
                plug (node c' p' k' v' l' r') path' := rfl
            have hbst' : BST (plug (node c' p' k' v' l' r') path') := by
              simp only [BST, keys, e2]; exact hbst
            have hs' := bst_focus_bounds hbst'
            have := ih _ _ res h (by rw [hplug]; exact hbst')
              (fun e he => hbefore e (e3 e (by simpa using he)))
              (by
                intro e he
                simp only [after_cons_L, List.cons_append, List.mem_cons, List.mem_append] at he
                rcases he with rfl | he | he
                · exact hlt
                · exact lt_trans hlt (hs'.2 e he)
                · exact hafter e (e4 e he))
            rw [hplug, e2] at this
            exact this
      · subst heq
        simp only [InsertLoop, lt_irrefl, decide_False, Bool.not_false, Bool.and_self,
          if_true, Outcome.ok.injEq] at h
        subst h
        exact Or.inl ⟨rfl, rfl, nv, by simp [toList_plug]⟩
      · have hnlt : ¬ k < nk := not_lt.mpr (le_of_lt hgt)
        have hl : ∀ e ∈ l.toList, e.2.1 < k := by
          intro e he
          exact lt_trans (hsorted.1 e he) hgt
        cases r with
        | nil =>
          simp only [InsertLoop, hgt, hnlt, decide_True, decide_False, isNil_nil,
            Bool.not_true, Bool.not_false, Bool.and_true, Bool.false_and, Bool.and_self,
            Bool.and_false, Bool.false_eq_true, if_false, if_true] at h
          obtain ⟨h1, h2, h3⟩ := attach_right_content a k v path c _ res h
          refine Or.inr ⟨h1, h2, before path ++ l.toList ++ [(p, nk, nv)], after path, ?_, ?_,
            ?_, hafter⟩
          · simp [toList_plug]
          · rw [h3]; simp [toList_plug]
          · intro e he
            simp only [List.mem_append, List.mem_singleton] at he
            rcases he with (he | he) | rfl
            · exact hbefore e he
            · exact hl e he
            · exact hgt
        | node rc ra rk rv rl rr =>
          simp only [InsertLoop, hgt, hnlt, decide_True, decide_False, isNil_node,
            Bool.not_true, Bool.not_false, Bool.and_true, Bool.false_and, Bool.and_self,
            Bool.and_false, Bool.false_eq_true, if_false, if_true] at h
          split at h
          · simp at h
          · simp at h
          · rename_i path' c' p' k' v' l' r' hX
            obtain ⟨⟨c'', l'', r'', e1⟩, e2, e3, e4⟩ :=
              step_content path c p nk nv l _ _ path' _ hX
            simp only [node.injEq] at e1
            obtain ⟨rfl, rfl, rfl, rfl, rfl, rfl⟩ := e1
            have hplug : plug r' (⟨c', p', k', v', .R, l'⟩ :: path') =
                plug (node c' p' k' v' l' r') path' := rfl
            have hbst' : BST (plug (node c' p' k' v' l' r') path') := by
              simp only [BST, keys, e2]; exact hbst
            have hs' := bst_focus_bounds hbst'
            have := ih _ _ res h (by rw [hplug]; exact hbst')
              (by
                intro e he
                simp only [before_cons_R, List.mem_append, List.mem_singleton] at he
                rcases he with he | he | rfl
                · exact hbefore e (e3 e he)
                · exact lt_trans (hs'.1 e he) hgt
                · exact hgt)
              (fun e he => hafter e (e4 e (by simpa using he)))
            rw [hplug, e2] at this
            exact this

end sjtu


namespace sjtu

variable {K V : Type}

open Tree

/-- A node returned by `FindNode` is a node of the tree and holds the key looked for. -/
theorem FindNode_sound [LinearOrder K] (key : K) (t : Tree K V) (c : Colour) (p : Nat) (k : K)
    (v : V) (l r : Tree K V) (h : FindNode key t = node c p k v l r) :
    k = key ∧ (p, k, v) ∈ t.toList := by
  induction t with
  | nil => simp [FindNode] at h
  | node c' a' k' v' l' r' ihl ihr =>
    simp only [FindNode] at h
    split at h
    · rename_i hc
      simp only [node.injEq] at h
      obtain ⟨-, rfl, rfl, rfl, -, -⟩ := h
      simp only [Bool.and_eq_true, Bool.not_eq_true', decide_eq_false_iff_not] at hc
      refine ⟨?_, by simp⟩
      rcases lt_trichotomy key k' with h1 | h1 | h1
      · exact absurd h1 hc.1
      · exact h1.symm
      · exact absurd h1 hc.2
    · split at h
      · obtain ⟨h1, h2⟩ := ihl h
        exact ⟨h1, by simp [h2]⟩
      · obtain ⟨h1, h2⟩ := ihr h
        exact ⟨h1, by simp [h2]⟩

/-- In a search tree `FindNode` returns the node that holds the key, when there is one. -/
theorem FindNode_complete [LinearOrder K] (key : K) (t : Tree K V) (hb : BST t) (p : Nat)
    (v : V) (h : (p, key, v) ∈ t.toList) :
    ∃ c l r, FindNode key t = node c p key v l r := by
  induction t with
  | nil => simp at h
  | node c' a' k' v' l' r' ihl ihr =>
    rw [bst_node] at hb
    obtain ⟨hbl, hbr, hlk, hrk, -⟩ := hb
    simp only [toList_node, List.mem_append, List.mem_cons, Prod.mk.injEq] at h
    simp only [FindNode]
    rcases h with h | ⟨rfl, rfl, rfl⟩ | h
    · have hlt : key < k' := hlk key (List.mem_map.mpr ⟨_, h, rfl⟩)
      have hngt : ¬ k' < key := not_lt.mpr (le_of_lt hlt)
      simp only [hlt, hngt, decide_True, decide_False, Bool.not_true, Bool.false_and,
        Bool.false_eq_true, if_false, if_true]
      exact ihl hbl h
    · simp only [lt_irrefl, decide_False, Bool.not_false, Bool.and_self, if_true]
      exact ⟨_, _, _, rfl⟩
    · have hgt : k' < key := hrk key (List.mem_map.mpr ⟨_, h, rfl⟩)
      have hnlt : ¬ key < k' := not_lt.mpr (le_of_lt hgt)
      simp only [hgt, hnlt, decide_True, decide_False, Bool.not_true, Bool.not_false,
        Bool.and_false, Bool.false_eq_true, if_false]
      exact ihr hbr h

/-- When no node holds the key, `FindNode` returns `nullptr`. -/
theorem FindNode_absent [LinearOrder K] (key : K) (t : Tree K V) (h : key ∉ t.keys) :
    FindNode key t = nil := by
  cases hf : FindNode key t with
  | nil => rfl
  | node c p k v l r =>
    obtain ⟨h1, h2⟩ := FindNode_sound key t c p k v l r hf
    subst h1
    exact absurd (List.mem_map.mpr ⟨_, h2, rfl⟩) h

end sjtu


namespace sjtu

variable {K V : Type}

open Tree

/-- When `InsertNode` returns on a search tree, either the key was present and the in-order
sequence is unchanged, or the new entry has been put at its place in the order. -/
theorem InsertNode_content [LinearOrder K] (t : Tree K V) (k : K) (v : V) (a : Nat)
    (res : InsertResult K V) (h : InsertNode t k v a = .ok res) (hb : BST t) :
    InsertPost k v a t.toList res := by
  cases t with
  | nil =>
    simp only [InsertNode, Outcome.ok.injEq] at h
    subst h
    exact Or.inr ⟨rfl, rfl, [], [], rfl, rfl, by simp, by simp⟩
  | node c p nk nv l r =>
    simp only [InsertNode] at h
    exact InsertLoop_content k v a _ [] _ res h hb (by simp) (by simp)

theorem bst_of_insertPost [LinearOrder K] {k : K} {v : V} {a : Nat} {t : Tree K V}
    {res : InsertResult K V} (hb : BST t) (h : InsertPost k v a t.toList res) :
    BST res.root_ := by
  rcases h with ⟨-, h, -⟩ | ⟨-, -, L₁, L₂, h1, h2, h3, h4⟩
  · simpa only [BST, keys, h] using hb
  · simp only [BST, keys, h1, h2, List.map_append, List.map_cons, List.pairwise_append,
      List.pairwise_cons, List.mem_map, List.mem_cons] at hb ⊢
    obtain ⟨hb1, hb2, hb3⟩ := hb
    refine ⟨hb1, ⟨?_, hb2⟩, ?_⟩
    · rintro x ⟨e, he, rfl⟩
      exact h4 e he
    · rintro x ⟨e, he, rfl⟩ y (rfl | ⟨e', he', rfl⟩)
      · exact h3 e he
      · exact hb3 _ ⟨e, he, rfl⟩ _ ⟨e', he', rfl⟩

theorem nodup_of_insertPost [LinearOrder K] {k : K} {v : V} {a : Nat} {t : Tree K V}
    {res : InsertResult K V} (hn : t.addrs.Nodup) (ha : a ∉ t.addrs)
    (h : InsertPost k v a t.toList res) : res.root_.addrs.Nodup := by
  rcases h with ⟨-, h, -⟩ | ⟨-, -, L₁, L₂, h1, h2, -, -⟩
  · simpa only [addrs, h] using hn
  · simp only [addrs, h1, h2, List.map_append, List.map_cons] at hn ha ⊢
    rw [List.nodup_append] at hn ⊢
    simp only [List.mem_append, not_or] at ha
    refine ⟨hn.1, List.nodup_cons.mpr ⟨ha.2, hn.2.1⟩, ?_⟩
    intro x hx hy
    rcases List.mem_cons.mp hy with rfl | hy
    · exact ha.1 hx
    · exact hn.2.2 hx hy

theorem size_of_insertPost [LinearOrder K] {k : K} {v : V} {a : Nat} {t : Tree K V}
    {res : InsertResult K V} (h : InsertPost k v a t.toList res) :
    res.root_.size = if res.second = true then t.size + 1 else t.size := by
  rcases h with ⟨h0, h, -⟩ | ⟨h0, -, L₁, L₂, h1, h2, -, -⟩
  · simp [h0, size_eq_length, h]
  · simp [h0, size_eq_length, h1, h2]; omega

/-- What `insert` does to the tree and the counter. -/
theorem Map.insert_returns [LinearOrder K] (this : Nat) (m m' : Map K V) (k : K) (v : V)
    (a : Nat) (r : Iter × Bool) (h : Map.insert this m k v a = .returns m' r) :
    ∃ res, InsertNode m.root_ k v a = .ok res ∧ m'.root_ = res.root_ ∧
      m'.size_ = (if res.second = true then m.size_ + 1 else m.size_) ∧
      r = (⟨some res.first, this⟩, res.second) := by
  unfold Map.insert at h
  split at h
  · simp at h
  · rename_i res hres
    refine ⟨res, hres, ?_⟩
    split at h
    · rename_i hsec
      split at h
      · simp at h
      · split at h
        · simp at h
        · simp only [Call.returns.injEq] at h
          obtain ⟨rfl, rfl⟩ := h
          simp [hsec]
    · rename_i hsec
      simp only [Call.returns.injEq] at h
      obtain ⟨rfl, rfl⟩ := h
      simp at hsec
      simp [hsec]

theorem Map.insert_not_throws [LinearOrder K] (this : Nat) (m m' : Map K V) (k : K) (v : V)
    (a : Nat) (e : Exn) : Map.insert this m k v a ≠ .throws m' e := by
  unfold Map.insert
  repeat' split
  all_goals simp

/-- The call `insert` keeps the invariants of reachable states. -/
theorem Map.insert_inv [LinearOrder K] (this : Nat) (m m' : Map K V) (k : K) (v : V)
    (a : Nat) (r : Iter × Bool) (hinv : MapInv m) (ha : a ∉ m.root_.addrs)
    (h : Map.insert this m k v a = .returns m' r) : MapInv m' := by
  obtain ⟨res, h1, h2, h3, -⟩ := Map.insert_returns this m m' k v a r h
  obtain ⟨hb, hg, hn, hs⟩ := hinv
  have hpost := InsertNode_content m.root_ k v a res h1 hb
  refine ⟨?_, ?_, ?_, ?_⟩
  · rw [h2]; exact bst_of_insertPost hb hpost
  · rw [h2]; exact InsertNode_good_of_ok m.root_ k v a hg res h1
  · rw [h2]; exact nodup_of_insertPost hn ha hpost
  · rw [h2, h3, size_of_insertPost hpost, hs]

end sjtu


namespace sjtu

variable {K V : Type}

open Tree

/-- What the mutable `operator[]` does to the tree and the counter. -/
theorem Map.getOrInsert_returns [LinearOrder K] (m m' : Map K V) (key : K) (dflt : V)
    (a : Nat) (r : Nat × V) (h : Map.getOrInsert m key dflt a = .returns m' r) :
    (m' = m ∧ ∃ c l r', FindNode key m.root_ = node c r.1 key r.2 l r') ∨
    (FindNode key m.root_ = nil ∧ ∃ res, InsertNode m.root_ key dflt a = .ok res ∧
      m'.root_ = res.root_ ∧ m'.size_ = m.size_ + 1 ∧ r.1 = res.first ∧
      res.root_.valAt res.first = some r.2) := by
  unfold Map.getOrInsert at h
  split at h
  · rename_i c p k v l r' hfind
    simp only [Call.returns.injEq] at h
    obtain ⟨rfl, rfl⟩ := h
    obtain ⟨hk, -⟩ := FindNode_sound key m.root_ c p k v l r' hfind
    subst hk
    exact Or.inl ⟨rfl, c, l, r', hfind⟩
  · rename_i hfind
    right
    refine ⟨hfind, ?_⟩
    split at h
    · simp at h
    · rename_i res hres
      refine ⟨res, hres, ?_⟩
      split at h
      · rename_i rk rv hk hv
        split at h
        · simp at h
        · simp only [Call.returns.injEq] at h
          obtain ⟨rfl, rfl⟩ := h
          exact ⟨rfl, rfl, rfl, hv⟩
      · simp at h

theorem Map.getOrInsert_not_throws [LinearOrder K] (m m' : Map K V) (key : K) (dflt : V)
    (a : Nat) (e : Exn) : Map.getOrInsert m key dflt a ≠ .throws m' e := by
  unfold Map.getOrInsert
  repeat' split
  all_goals simp

/-- The mutable `operator[]` keeps the invariants of reachable states. -/
theorem Map.getOrInsert_inv [LinearOrder K] (m m' : Map K V) (key : K) (dflt : V)
    (a : Nat) (r : Nat × V) (hinv : MapInv m) (ha : a ∉ m.root_.addrs)
    (h : Map.getOrInsert m key dflt a = .returns m' r) : MapInv m' := by
  rcases Map.getOrInsert_returns m m' key dflt a r h with ⟨rfl, -⟩ | ⟨hf, res, h1, h2, h3, -⟩
  · exact hinv
  · obtain ⟨hb, hg, hn, hs⟩ := hinv
    have hpost := InsertNode_content m.root_ key dflt a res h1 hb
    have hsec : res.second = true := by
      rcases hpost with ⟨-, -, v', hv'⟩ | ⟨h0, -⟩
      · obtain ⟨c, l, r', hc⟩ := FindNode_complete key m.root_ hb _ _ hv'
        rw [hf] at hc; simp at hc
      · exact h0
    refine ⟨?_, ?_, ?_, ?_⟩
    · rw [h2]; exact bst_of_insertPost hb hpost
    · rw [h2]; exact InsertNode_good_of_ok m.root_ key dflt a hg res h1
    · rw [h2]; exact nodup_of_insertPost hn ha hpost
    · rw [h2, h3, size_of_insertPost hpost, hs]; simp [hsec]

/-- What `erase` does when it returns. -/
theorem Map.erase_returns [LinearOrder K] (this : Nat) (m m' : Map K V) (pos : Iter)
    (u : Unit) (h : Map.erase this m pos = .returns m' u) :
    ∃ p t, pos.node_ = some p ∧ pos.map_ptr_ = this ∧ EraseNode m.root_ m.size_ p = .ok t ∧
      m'.root_ = t ∧ m'.size_ = (if m.size_ = 0 then 2 ^ 64 - 1 else m.size_ - 1) := by
  unfold Map.erase at h
  split at h
  · simp at h
  · rename_i hcond
    simp only [not_or, ne_eq, not_not] at hcond
    split at h
    · simp at h
    · rename_i p hp
      split at h
      · simp at h
      · rename_i t ht
        simp only [Call.returns.injEq] at h
        obtain ⟨rfl, -⟩ := h
        exact ⟨p, t, hp, hcond.1, ht, rfl, rfl⟩

/-- A call of `erase` that throws has changed nothing. -/
theorem Map.erase_throws [LinearOrder K] (this : Nat) (m m' : Map K V) (pos : Iter)
    (e : Exn) (h : Map.erase this m pos = .throws m' e) :
    m' = m ∧ e = .invalid_iterator ∧ (pos.node_ = none ∨ pos.map_ptr_ ≠ this) := by
  unfold Map.erase at h
  split at h
  · rename_i hcond
    simp only [Call.throws.injEq] at h
    exact ⟨h.1.symm, h.2.symm, hcond.symm⟩
  · rename_i hcond
    split at h
    · rename_i hp
      exact absurd (Or.inr hp) hcond
    · split at h <;> simp at h

theorem sublist_of_remove {α : Type} {L₁ L₂ : List α} {e : α} :
    (L₁ ++ L₂).Sublist (L₁ ++ e :: L₂) :=
  List.Sublist.append_left (List.sublist_cons_self e L₂) L₁

/-- The call `erase` on a node of the map keeps the invariants of reachable states. -/
theorem Map.erase_inv [LinearOrder K] (this : Nat) (m m' : Map K V) (pos : Iter) (p : Nat)
    (u : Unit) (hinv : MapInv m) (hp : pos.node_ = some p) (hmem : p ∈ m.root_.addrs)
    (h : Map.erase this m pos = .returns m' u) : MapInv m' := by
  obtain ⟨p', t, h1, -, h2, h3, h4⟩ := Map.erase_returns this m m' pos u h
  rw [hp] at h1
  simp only [Option.some.injEq] at h1
  subst h1
  obtain ⟨hb, hg, hn, hs⟩ := hinv
  obtain ⟨t', e1, e2, e3, L₁, e, L₂, e4, e5, e6⟩ := EraseNode_spec m.root_ p hg hb hn hmem
  rw [hs, e1] at h2
  simp only [Outcome.ok.injEq] at h2
  subst h2
  have hlen : m.root_.size = t'.size + 1 := by
    simp [size_eq_length, e4, e6]; omega
  refine ⟨?_, ?_, ?_, ?_⟩
  · rw [h3]
    simp only [BST, keys, e4, e6] at hb ⊢
    exact hb.sublist (sublist_of_remove.map _)
  · rw [h3]; exact e2
  · rw [h3]
    simp only [addrs, e4, e6] at hn ⊢
    exact hn.sublist (sublist_of_remove.map _)
  · rw [h3, h4, hs, hlen]; simp

/-- Every call that is well defined keeps the invariants. -/
theorem Map.step_inv [LinearOrder K] (this : Nat) (m m' : Map K V) (op : Op K V)
    (hinv : MapInv m) (h : Map.step this m op = some m') : MapInv m' := by
  cases op with
  | insert k v a =>
    simp only [Map.step] at h
    split at h
    · simp at h
    · rename_i ha
      split at h
      · rename_i m'' r hr
        simp only [Option.some.injEq] at h
        subst h
        exact Map.insert_inv this m _ k v a r hinv ha hr
      · rename_i m'' e he
        exact absurd he (Map.insert_not_throws this m m'' k v a e)
      · simp at h
  | index k dflt a =>
    simp only [Map.step] at h
    split at h
    · simp at h
    · rename_i ha
      split at h
      · rename_i m'' r hr
        simp only [Option.some.injEq] at h
        subst h
        exact Map.getOrInsert_inv m _ k dflt a r hinv ha hr
      · rename_i m'' e he
        exact absurd he (Map.getOrInsert_not_throws m m'' k dflt a e)
      · simp at h
  | erase pos =>
    simp only [Map.step] at h
    split at h
    · rename_i m'' e he
      simp only [Option.some.injEq] at h
      subst h
      rw [(Map.erase_throws this m _ pos e he).1]
      exact hinv
    · rename_i m'' u hu
      split at h
      · rename_i p hp
        split at h
        · rename_i hmem
          simp only [Option.some.injEq] at h
          subst h
          exact Map.erase_inv this m _ pos p u hinv hp hmem hu
        · simp at h
      · simp at h
    · simp at h

theorem Map.run_inv [LinearOrder K] (this : Nat) (ops : List (Op K V)) :
    ∀ (m m' : Map K V), MapInv m → Map.run this m ops = some m' → MapInv m' := by
  induction ops with
  | nil =>
    intro m m' hinv h
    simp only [Map.run, Option.some.injEq] at h
    subst h
    exact hinv
  | cons op ops ih =>
    intro m m' hinv h
    simp only [Map.run] at h
    split at h
    · rename_i m1 h1
      exact ih m1 m' (Map.step_inv this m m1 op hinv h1) h
    · simp at h

theorem MapInv_empty [LinearOrder K] : MapInv (Map.empty : Map K V) := by
  refine ⟨?_, ?_, ?_, rfl⟩
  · simp [BST, Map.empty]
  · simp [Good, Map.empty]
  · simp [Map.empty]

/-- Every reachable state has invariants 1, 3, 4 and 5. -/
theorem reachable_inv [LinearOrder K] (this : Nat) (m : Map K V) (h : Reachable this m) :
    MapInv m := by
  obtain ⟨ops, hops⟩ := h
  exact Map.run_inv this ops _ m MapInv_empty hops

end sjtu


namespace sjtu

variable {K V : Type}

open Tree

theorem reachable_mapDup : Reachable 0 mapDup := ⟨opsDup, by decide⟩

theorem reachable_mapRedRoot : Reachable 0 mapRedRoot := ⟨opsRedRoot, by decide⟩

theorem reachable_mapSmall : Reachable 0 mapSmall :=
  ⟨[.insert 2 20 1, .insert 1 10 2, .insert 3 30 3], by decide⟩

theorem keys_nodup_of_bst [LinearOrder K] {t : Tree K V} (h : BST t) : t.keys.Nodup :=
  List.Pairwise.imp (fun hab => ne_of_lt hab) h

/-- In a list of entries with distinct addresses, the entry at an address is determined. -/
theorem entry_unique {L₁ L₂ : List (Nat × K × V)} {e x : Nat × K × V}
    (hn : ((L₁ ++ e :: L₂).map (fun y => y.1)).Nodup) (hx : x ∈ L₁ ++ e :: L₂)
    (hxe : x.1 = e.1) : x = e := by
  simp only [List.map_append, List.map_cons] at hn
  rw [List.nodup_append] at hn
  obtain ⟨-, h2, h3⟩ := hn
  rcases List.mem_append.mp hx with h | h
  · exact absurd (List.mem_cons_self _ _) (hxe ▸ h3 (List.mem_map.mpr ⟨x, h, rfl⟩))
  · rcases List.mem_cons.mp h with h | h
    · exact h
    · have := (List.nodup_cons.mp h2).1
      exact absurd (List.mem_map.mpr ⟨x, h, hxe⟩) this

/-- Removing one entry from a strictly sorted sequence removes exactly the entries with its
key. -/
theorem filter_remove [LinearOrder K] {L₁ L₂ : List (Nat × K × V)} {e : Nat × K × V}
    (hs : ((L₁ ++ e :: L₂).map (fun y => y.2.1)).Pairwise (· < ·)) :
    ((L₁ ++ e :: L₂).map (fun y => y.2)).filter (fun y => decide (y.1 ≠ e.2.1)) =
      (L₁ ++ L₂).map (fun y => y.2) := by
  simp only [List.map_append, List.map_cons, List.pairwise_append, List.pairwise_cons,
    List.mem_map, List.mem_cons] at hs
  obtain ⟨-, ⟨h2, -⟩, h3⟩ := hs
  simp only [List.map_append, List.map_cons, List.filter_append, List.filter_cons, ne_eq,
    not_true_eq_false, decide_False, Bool.false_eq_true, if_false]
  congr 1
  · rw [List.filter_eq_self]
    rintro y hy
    obtain ⟨x, hx, rfl⟩ := List.mem_map.mp hy
    simpa using ne_of_lt (h3 _ ⟨x, hx, rfl⟩ _ (Or.inl rfl))
  · rw [List.filter_eq_self]
    rintro y hy
    obtain ⟨x, hx, rfl⟩ := List.mem_map.mp hy
    simpa using ne_of_gt (h2 _ ⟨x, hx, rfl⟩)

/-- C1: in every state reachable from the empty map by `insert`, `operator[]` and `erase`
calls, the in-order traversal of the tree yields strictly increasing keys, so no two nodes
hold the same key. -/
theorem reachable_bst [LinearOrder K] (this : Nat) (m : Map K V) (h : Reachable this m) :
    BST m.root_ ∧ m.root_.keys.Nodup :=
  ⟨(reachable_inv this m h).1, keys_nodup_of_bst (reachable_inv this m h).1⟩

theorem reachable_bst_witness :
    Reachable 0 mapDup ∧ BST mapDup.root_ ∧ mapDup.root_.keys.Nodup :=
  ⟨reachable_mapDup, reachable_bst 0 mapDup reachable_mapDup⟩

/-- C2: on a tree that satisfies invariants 1 to 4 (search-tree order, black root, no red node
with a red child, the same number of black nodes on every path), `InsertNode` of any key,
present or absent, returns, and the tree it leaves has no red node with a red child and the
same number of black nodes on every path from the root to an absent leaf. -/
theorem InsertNode_keeps_colours [LinearOrder K] (t : Tree K V) (k : K) (v : V) (a : Nat)
    (_h1 : BST t) (h2 : RootBlack t) (h3 : NoRedRed t) (h4 : UniformBlack t) :
    ∃ res, InsertNode t k v a = .ok res ∧ NoRedRed res.root_ ∧ UniformBlack res.root_ := by
  obtain ⟨res, hres, hg⟩ := InsertNode_good t k v a ((good_iff t).mpr ⟨h3, h4⟩) h2
  exact ⟨res, hres, (good_iff _).mp hg⟩

theorem InsertNode_keeps_colours_witness :
    BST treeSmall ∧ RootBlack treeSmall ∧ NoRedRed treeSmall ∧ UniformBlack treeSmall ∧
      ∃ res, InsertNode treeSmall 1 11 4 = .ok res ∧ NoRedRed res.root_ ∧
        UniformBlack res.root_ :=
  ⟨by decide, by decide, by decide, by decide,
    InsertNode_keeps_colours treeSmall 1 11 4 (by decide) (by decide) (by decide) (by decide)⟩

/-- C3: on a non-empty tree that satisfies invariants 1 to 4, whose nodes have distinct
addresses and whose `size_` is its node count, `EraseNode` of any node of the tree returns,
and the tree it leaves has no red node with a red child and the same number of black nodes on
every path from the root to an absent leaf. -/
theorem EraseNode_keeps_colours [LinearOrder K] (t : Tree K V) (size_ target : Nat)
    (h1 : BST t) (_h2 : RootBlack t) (h3 : NoRedRed t) (h4 : UniformBlack t)
    (hs : size_ = t.size) (hn : t.addrs.Nodup) (hmem : target ∈ t.addrs) :
    ∃ t', EraseNode t size_ target = .ok t' ∧ NoRedRed t' ∧ UniformBlack t' := by
  obtain ⟨t', e1, e2, -⟩ := EraseNode_spec t target ((good_iff t).mpr ⟨h3, h4⟩) h1 hn hmem
  subst hs
  exact ⟨t', e1, (good_iff _).mp e2⟩

theorem EraseNode_keeps_colours_witness :
    BST treeSmall ∧ RootBlack treeSmall ∧ NoRedRed treeSmall ∧ UniformBlack treeSmall ∧
      3 = treeSmall.size ∧ treeSmall.addrs.Nodup ∧ 1 ∈ treeSmall.addrs ∧
      ∃ t', EraseNode treeSmall 3 1 = .ok t' ∧ NoRedRed t' ∧ UniformBlack t' :=
  ⟨by decide, by decide, by decide, by decide, by decide, by decide, by decide,
    EraseNode_keeps_colours treeSmall 3 1 (by decide) (by decide) (by decide) (by decide)
      (by decide) (by decide) (by decide)⟩

/-- C4: the claim that the root is black in every reachable state fails on the code: after
`insert(2), insert(1), insert(3)` the call `insert(1)`, of a key already present, flips the
colours at the root on the way down and returns at the node found, before the statement
that blackens the root; the root is left red. -/
theorem insert_present_key_leaves_red_root :
    Map.run 0 (Map.empty : Map Nat Nat) opsDup = some mapDup ∧ Reachable 0 mapDup ∧
      ¬ RootBlack mapDup.root_ :=
  ⟨by decide, reachable_mapDup, by decide⟩

/-- C5: the claim fails on the code in a reachable state: `mapRedRoot` is reached by `insert`
calls only, its root is red, and `insert` of the absent key 7 does not return: after the
colour flip at the black child of the root it reads `now_par->parent_->left_` with
`now_par` the root. -/
theorem insert_undefined_under_red_root :
    Reachable 0 mapRedRoot ∧ 7 ∉ mapRedRoot.root_.keys ∧
      Map.insert 0 mapRedRoot 7 0 15 = .undefined .null_access :=
  ⟨reachable_mapRedRoot, by decide, by decide⟩

/-- C6: for a reachable map and an iterator of that map that references the entry with key
`k`, `erase` returns; afterwards the entries are the previous entries without the one for
`k`, in the same order, which is sorted; the size has gone down by exactly one; and
`find(k)` is `end()`. -/
theorem erase_removes_entry [LinearOrder K] (this : Nat) (m : Map K V) (p : Nat) (k : K)
    (h : Reachable this m) (hk : m.root_.keyAt p = some k) :
    ∃ m', Map.erase this m ⟨some p, this⟩ = .returns m' () ∧
      m'.root_.entries = m.root_.entries.filter (fun e => decide (e.1 ≠ k)) ∧
      BST m'.root_ ∧ m'.size_ + 1 = m.size_ ∧ Map.find this m' k = Map.end_ this m' := by
  obtain ⟨hb, hg, hn, hs⟩ := reachable_inv this m h
  obtain ⟨v, hv⟩ := keyAt_mem hk
  have hmem : p ∈ m.root_.addrs := List.mem_map.mpr ⟨_, hv, rfl⟩
  obtain ⟨t', e1, e2, e3, L₁, e, L₂, e4, e5, e6⟩ := EraseNode_spec m.root_ p hg hb hn hmem
  have hee : (p, k, v) = e := by
    refine @entry_unique K V L₁ L₂ e (p, k, v) ?_ ?_ e5.symm
    · simpa only [addrs, e4] using hn
    · rw [← e4]; exact hv
  have hek : e.2.1 = k := by rw [← hee]
  have hlen : m.root_.size = t'.size + 1 := by
    simp [size_eq_length, e4, e6]; omega
  have hsorted : ((L₁ ++ e :: L₂).map (fun y => y.2.1)).Pairwise (· < ·) := by
    simpa only [BST, keys, e4] using hb
  have hb' : BST t' := by
    simp only [BST, keys, e6]
    exact hsorted.sublist (sublist_of_remove.map _)
  have hnot : k ∉ t'.keys := by
    intro hmem'
    have h1 := filter_remove hsorted
    simp only [keys, e6] at hmem'
    obtain ⟨x, hx, hxk⟩ := List.mem_map.mp hmem'
    have h2 : x.2 ∈ (L₁ ++ L₂).map (fun y => y.2) := List.mem_map.mpr ⟨x, hx, rfl⟩
    rw [← h1, List.mem_filter] at h2
    simp only [ne_eq, decide_eq_true_eq, hek] at h2
    exact h2.2 hxk
  refine ⟨⟨t', if (some p : Option Nat) = m.min_node_ then GetMinimum t' else m.min_node_,
    if (some p : Option Nat) = m.max_node_ then GetMaximum t' else m.max_node_,
    if m.size_ = 0 then 2 ^ 64 - 1 else m.size_ - 1⟩, ?_, ?_, hb', ?_, ?_⟩
  · simp only [Map.erase, ne_eq, not_true_eq_false, reduceCtorEq, or_self, if_false, hs, e1]
  · simp only [entries, e4, e6]
    rw [← hek]
    exact (filter_remove hsorted).symm
  · simp only [hs, hlen]; simp
  · simp only [Map.find, Map.end_, FindNode_absent k t' hnot, rootAddr]

theorem erase_removes_entry_witness :
    Reachable 0 mapSmall ∧ mapSmall.root_.keyAt 1 = some 2 ∧
      ∃ m', Map.erase 0 mapSmall ⟨some 1, 0⟩ = .returns m' () ∧
        m'.root_.entries = mapSmall.root_.entries.filter (fun e => decide (e.1 ≠ 2)) ∧
        BST m'.root_ ∧ m'.size_ + 1 = mapSmall.size_ ∧ Map.find 0 m' 2 = Map.end_ 0 m' :=
  ⟨reachable_mapSmall, by decide,
    erase_removes_entry 0 mapSmall 1 2 reachable_mapSmall (by decide)⟩

/-- C7: on a map whose tree is a search tree, `find(k)` returns an iterator at the node that
holds `k` when there is one and `end()` otherwise, and `count(k)` is 1 in the first case and
0 in the second. -/
theorem find_count_spec [LinearOrder K] (this : Nat) (m : Map K V) (key : K)
    (hb : BST m.root_) :
    (key ∈ m.root_.keys → ∃ p v, (p, key, v) ∈ m.root_.toList ∧
      Map.find this m key = ⟨some p, this⟩ ∧ Map.count m key = 1) ∧
    (key ∉ m.root_.keys → Map.find this m key = Map.end_ this m ∧ Map.count m key = 0) := by
  constructor
  · intro hmem
    obtain ⟨e, he, hek⟩ := List.mem_map.mp hmem
    obtain ⟨p, k, v⟩ := e
    simp only at hek
    subst hek
    obtain ⟨c, l, r, hf⟩ := FindNode_complete k m.root_ hb p v he
    exact ⟨p, v, he, by simp [Map.find, hf, rootAddr], by simp [Map.count, hf]⟩
  · intro hmem
    have hf := FindNode_absent key m.root_ hmem
    exact ⟨by simp [Map.find, Map.end_, hf, rootAddr], by simp [Map.count, hf]⟩

theorem find_count_spec_witness :
    BST mapSmall.root_ ∧
      (3 ∈ mapSmall.root_.keys → ∃ p v, (p, 3, v) ∈ mapSmall.root_.toList ∧
        Map.find 0 mapSmall 3 = ⟨some p, 0⟩ ∧ Map.count mapSmall 3 = 1) ∧
      (3 ∉ mapSmall.root_.keys → Map.find 0 mapSmall 3 = Map.end_ 0 mapSmall ∧
        Map.count mapSmall 3 = 0) :=
  ⟨by decide, find_count_spec 0 mapSmall 3 (by decide)⟩

/-- C8: for a reachable map, `at(k)` in both forms and the const `operator[](k)` throw
`index_out_of_bound` exactly when no entry has the key `k`, and otherwise return the value
mapped to `k`; in both cases the state of the map is what it was. -/
theorem at_spec [LinearOrder K] (this : Nat) (m : Map K V) (key : K)
    (h : Reachable this m) :
    ((∃ s e, Map.at_ m key = .throws s e) ↔ key ∉ m.root_.keys) ∧
    ((∃ s e, Map.getConst m key = .throws s e) ↔ key ∉ m.root_.keys) ∧
    (key ∉ m.root_.keys → Map.at_ m key = .throws m .index_out_of_bound ∧
      Map.getConst m key = .throws m .index_out_of_bound) ∧
    (∀ v, (key, v) ∈ m.root_.entries → Map.at_ m key = .returns m v ∧
      Map.getConst m key = .returns m v) := by
  have hb := (reachable_inv this m h).1
  have hthrow : key ∉ m.root_.keys → Map.at_ m key = .throws m .index_out_of_bound ∧
      Map.getConst m key = .throws m .index_out_of_bound := by
    intro hmem
    have hf := FindNode_absent key m.root_ hmem
    exact ⟨by simp [Map.at_, hf], by simp [Map.getConst, hf]⟩
  have hret : ∀ v, (key, v) ∈ m.root_.entries → Map.at_ m key = .returns m v ∧
      Map.getConst m key = .returns m v := by
    intro v hv
    obtain ⟨e, he, hek⟩ := List.mem_map.mp hv
    obtain ⟨p, k, v'⟩ := e
    simp only [Prod.mk.injEq] at hek
    obtain ⟨rfl, rfl⟩ := hek
    obtain ⟨c, l, r, hf⟩ := FindNode_complete k m.root_ hb p v' he
    exact ⟨by simp [Map.at_, hf], by simp [Map.getConst, hf]⟩
  have hin : key ∈ m.root_.keys → ∃ v, (key, v) ∈ m.root_.entries := by
    intro hmem
    obtain ⟨e, he, hek⟩ := List.mem_map.mp hmem
    exact ⟨e.2.2, List.mem_map.mpr ⟨e, he, by rw [← hek]⟩⟩
  refine ⟨⟨?_, fun hmem => ⟨m, _, (hthrow hmem).1⟩⟩, ⟨?_, fun hmem => ⟨m, _, (hthrow hmem).2⟩⟩,
    hthrow, hret⟩
  · rintro ⟨s, e, hs⟩ hmem
    obtain ⟨v, hv⟩ := hin hmem
    rw [(hret v hv).1] at hs
    simp at hs
  · rintro ⟨s, e, hs⟩ hmem
    obtain ⟨v, hv⟩ := hin hmem
    rw [(hret v hv).2] at hs
    simp at hs

theorem at_spec_witness :
    Reachable 0 mapSmall ∧
      ((∃ s e, Map.at_ mapSmall 3 = .throws s e) ↔ 3 ∉ mapSmall.root_.keys) ∧
      ((∃ s e, Map.getConst mapSmall 3 = .throws s e) ↔ 3 ∉ mapSmall.root_.keys) ∧
      (3 ∉ mapSmall.root_.keys → Map.at_ mapSmall 3 = .throws mapSmall .index_out_of_bound ∧
        Map.getConst mapSmall 3 = .throws mapSmall .index_out_of_bound) ∧
      (∀ v, (3, v) ∈ mapSmall.root_.entries → Map.at_ mapSmall 3 = .returns mapSmall v ∧
        Map.getConst mapSmall 3 = .returns mapSmall v) :=
  ⟨reachable_mapSmall, at_spec 0 mapSmall 3 reachable_mapSmall⟩

/-- C9: the claim that the mutable `operator[]` never fails does not hold on the code:
`mapRedRoot` is reachable, its root is red, and `operator[]` of the absent key 7 does not
return: `InsertNode` reads `now_par->parent_->left_` with `now_par` the root. -/
theorem index_undefined_under_red_root :
    Reachable 0 mapRedRoot ∧ 7 ∉ mapRedRoot.root_.keys ∧
      Map.getOrInsert mapRedRoot 7 0 15 = .undefined .null_access :=
  ⟨reachable_mapRedRoot, by decide, by decide⟩

/-- C10: `erase(pos)` throws `invalid_iterator` exactly when `pos` is the end sentinel or was
made by another map, and when it throws the state of the map (tree, size, cached minimum and
maximum) is what it was before the call. -/
theorem erase_invalid_iterator [LinearOrder K] (this : Nat) (m : Map K V) (pos : Iter) :
    ((∃ s e, Map.erase this m pos = .throws s e) ↔
      (pos.node_ = none ∨ pos.map_ptr_ ≠ this)) ∧
    (∀ s e, Map.erase this m pos = .throws s e → s = m ∧ e = .invalid_iterator) := by
  refine ⟨⟨?_, ?_⟩, ?_⟩
  · rintro ⟨s, e, hs⟩
    exact (Map.erase_throws this m s pos e hs).2.2
  · intro hpos
    refine ⟨m, .invalid_iterator, ?_⟩
    unfold Map.erase
    rw [if_pos hpos.symm]
  · intro s e hs
    exact ⟨(Map.erase_throws this m s pos e hs).1, (Map.erase_throws this m s pos e hs).2.1⟩

end sjtu


namespace sjtu

variable {K V : Type}

open Tree

/-! ## Following node pointers -/

theorem getMinimum_eq (t : Tree K V) : GetMinimum t = t.toList.head?.map (fun e => e.1) := by
  induction t with
  | nil => rfl
  | node c a k v l r ihl _ =>
    cases l with
    | nil => simp [GetMinimum, Tree.toList]
    | node c' a' k' v' l' r' =>
      rw [GetMinimum, ihl]
      simp [Tree.toList, List.head?_append]
      cases l'.toList <;> simp

theorem getMaximum_eq (t : Tree K V) :
    GetMaximum t = t.toList.getLast?.map (fun e => e.1) := by
  induction t with
  | nil => rfl
  | node c a k v l r _ ihr =>
    cases r with
    | nil => simp [GetMaximum, Tree.toList]
    | node c' a' k' v' l' r' =>
      rw [GetMaximum, ihr]
      · simp [Tree.toList, List.getLast?_append, List.getLast?_cons_cons]
        cases hr : r'.toList.getLast? <;> simp [hr, List.getLast?_cons]
      · simp

theorem climbWhileRight_eq (path : Path K V) :
    climbWhileRight path = (after path).head?.map (fun e => e.1) := by
  induction path with
  | nil => rfl
  | cons f rest ih =>
    cases hd : f.dir <;> simp [climbWhileRight, after, hd, ih]

theorem climbWhileLeft_eq (path : Path K V) :
    climbWhileLeft path = (before path).getLast?.map (fun e => e.1) := by
  induction path with
  | nil => rfl
  | cons f rest ih =>
    cases hd : f.dir <;> simp [climbWhileLeft, before, hd, ih, List.getLast?_append]

theorem nodeAt_plug (p : Nat) (t : Tree K V) :
    ∀ (path : Path K V) (sub : Tree K V) (path' : Path K V),
      t.nodeAt p path = some (sub, path') →
      plug sub path' = plug t path ∧ ∃ c k v l r, sub = node c p k v l r := by
  induction t with
  | nil => intro path sub path' h; simp [Tree.nodeAt] at h
  | node c a k v l r ihl ihr =>
    intro path sub path' h
    unfold Tree.nodeAt at h
    split at h
    · rename_i hap
      simp only [Option.some.injEq, Prod.mk.injEq] at h
      obtain ⟨rfl, rfl⟩ := h
      exact ⟨rfl, c, k, v, l, r, by rw [hap]⟩
    · split at h
      · rename_i x hx
        simp only [Option.some.injEq] at h
        subst h
        have := ihl _ _ _ hx
        simpa [plug, Frame.fill] using this
      · have := ihr _ _ _ h
        simpa [plug, Frame.fill] using this

theorem nodeAt_isSome (p : Nat) (t : Tree K V) :
    ∀ (path : Path K V), p ∈ t.addrs → ∃ x, t.nodeAt p path = some x := by
  induction t with
  | nil => intro path h; simp [Tree.addrs, Tree.toList] at h
  | node c a k v l r ihl ihr =>
    intro path h
    unfold Tree.nodeAt
    split
    · exact ⟨_, rfl⟩
    · rename_i hap
      simp only [addrs_node, List.mem_append, List.mem_cons] at h
      cases hl : l.nodeAt p (⟨c, a, k, v, .L, r⟩ :: path) with
      | some x => exact ⟨x, rfl⟩
      | none =>
        simp only
        rcases h with h | h | h
        · obtain ⟨x, hx⟩ := ihl (⟨c, a, k, v, .L, r⟩ :: path) h
          rw [hx] at hl
          cases hl
        · exact absurd h.symm hap
        · exact ihr _ h

/-- In a sequence of entries with distinct addresses, the split around an address is
determined. -/
theorem split_unique {A B A' B' : List (Nat × K × V)} {e e' : Nat × K × V}
    (hn : ((A ++ e :: B).map (fun y => y.1)).Nodup) (h : A ++ e :: B = A' ++ e' :: B')
    (hee : e.1 = e'.1) : A = A' ∧ e = e' ∧ B = B' := by
  induction A generalizing A' with
  | nil =>
    cases A' with
    | nil => simp at h; exact ⟨rfl, h.1, h.2⟩
    | cons x A' =>
      simp only [List.nil_append, List.cons_append, List.cons.injEq] at h
      obtain ⟨rfl, rfl⟩ := h
      simp only [List.nil_append, List.map_cons, List.map_append, List.nodup_cons,
        List.mem_append, List.mem_cons, List.mem_map] at hn
      exact absurd (Or.inr (Or.inl hee)) hn.1
  | cons x A ih =>
    cases A' with
    | nil =>
      simp only [List.nil_append, List.cons_append, List.cons.injEq] at h
      obtain ⟨rfl, rfl⟩ := h
      simp only [List.cons_append, List.map_cons, List.map_append, List.nodup_cons,
        List.mem_append, List.mem_cons, List.mem_map] at hn
      exact absurd (Or.inr (Or.inl hee.symm)) hn.1
    | cons x' A' =>
      simp only [List.cons_append, List.cons.injEq] at h
      obtain ⟨rfl, h⟩ := h
      simp only [List.cons_append, List.map_cons, List.nodup_cons] at hn
      obtain ⟨rfl, h2, h3⟩ := ih hn.2 h
      exact ⟨rfl, h2, h3⟩

/-- Following the pointer to the node at a given place of the in-order sequence gives that
node, with the entries before it and after it where the zipper keeps them. -/
theorem nodeAt_split (t : Tree K V) (hnd : t.addrs.Nodup) (L₁ L₂ : List (Nat × K × V))
    (p : Nat) (k : K) (v : V) (h : t.toList = L₁ ++ (p, k, v) :: L₂) :
    ∃ c l r path, t.nodeAt p [] = some (node c p k v l r, path) ∧
      L₁ = before path ++ l.toList ∧ L₂ = r.toList ++ after path := by
  have hmem : p ∈ t.addrs := by
    simp [Tree.addrs, h]
  obtain ⟨⟨sub, path⟩, hx⟩ := nodeAt_isSome p t [] hmem
  obtain ⟨hplug, c, k', v', l, r, rfl⟩ := nodeAt_plug p t [] _ _ hx
  have hl := congrArg Tree.toList hplug
  rw [toList_plug] at hl
  simp only [plug, toList_node, h] at hl
  have hl' : L₁ ++ (p, k, v) :: L₂ =
      (before path ++ l.toList) ++ (p, k', v') :: (r.toList ++ after path) := by
    rw [← hl]; simp
  have hn : ((L₁ ++ (p, k, v) :: L₂).map (fun y => y.1)).Nodup := by
    rw [← h]; exact hnd
  obtain ⟨h1, h2, h3⟩ := split_unique hn hl' rfl
  simp only [Prod.mk.injEq, true_and] at h2
  obtain ⟨rfl, rfl⟩ := h2
  exact ⟨c, l, r, path, hx, h1, h3⟩

theorem isNil_iff_toList (t : Tree K V) : t.isNil = true ↔ t.toList = [] := by
  cases t <;> simp [Tree.isNil, Tree.toList]

/-- `FindNext` gives the node that follows in the in-order sequence, `nullptr` after the
last. -/
theorem FindNext_spec (t : Tree K V) (hnd : t.addrs.Nodup) (L₁ L₂ : List (Nat × K × V))
    (p : Nat) (k : K) (v : V) (h : t.toList = L₁ ++ (p, k, v) :: L₂) :
    FindNext t p = .ok (L₂.head?.map (fun e => e.1)) := by
  obtain ⟨c, l, r, path, hx, -, h2⟩ := nodeAt_split t hnd L₁ L₂ p k v h
  unfold FindNext
  rw [hx]
  simp only
  split
  · rename_i hr
    rw [isNil_iff_toList] at hr
    rw [h2, hr, climbWhileRight_eq]
    simp
  · rename_i hr
    rw [isNil_iff_toList] at hr
    rw [h2, getMinimum_eq, List.head?_append]
    cases hrl : r.toList with
    | nil => exact absurd hrl hr
    | cons x xs => simp

/-- `FindPrev` gives the node that precedes in the in-order sequence, `nullptr` before the
first. -/
theorem FindPrev_spec (t : Tree K V) (hnd : t.addrs.Nodup) (L₁ L₂ : List (Nat × K × V))
    (p : Nat) (k : K) (v : V) (h : t.toList = L₁ ++ (p, k, v) :: L₂) :
    FindPrev t p = .ok (L₁.getLast?.map (fun e => e.1)) := by
  obtain ⟨c, l, r, path, hx, h1, -⟩ := nodeAt_split t hnd L₁ L₂ p k v h
  unfold FindPrev
  rw [hx]
  simp only
  split
  · rename_i hl
    rw [isNil_iff_toList] at hl
    rw [h1, hl, climbWhileLeft_eq]
    simp
  · rename_i hl
    rw [isNil_iff_toList] at hl
    rw [h1, getMaximum_eq, List.getLast?_append]
    cases hll : l.toList.getLast? with
    | none => exact absurd (List.getLast?_eq_none_iff.mp hll) hl
    | some x => simp

theorem deref_spec (this : Nat) (m : Map K V) (hnd : m.root_.addrs.Nodup)
    (L₁ L₂ : List (Nat × K × V)) (p : Nat) (k : K) (v : V)
    (h : m.root_.toList = L₁ ++ (p, k, v) :: L₂) :
    Iter.deref m ⟨some p, this⟩ = .ok (k, v) := by
  obtain ⟨c, l, r, path, hx, -, -⟩ := nodeAt_split m.root_ hnd L₁ L₂ p k v h
  simp [Iter.deref, hx]

end sjtu


namespace sjtu

variable {K V : Type}

open Tree

/-! ## Forward iteration -/

/-- From the iterator at the first entry of a suffix of the in-order sequence, the loop visits
exactly the entries of that suffix and stops at the end sentinel. -/
theorem traverse_spec (this : Nat) (m : Map K V) (hnd : m.root_.addrs.Nodup) :
    ∀ (rest L₁ : List (Nat × K × V)) (fuel : Nat), m.root_.toList = L₁ ++ rest →
      rest.length < fuel →
      m.traverse this fuel ⟨rest.head?.map (fun e => e.1), this⟩ =
        .returns ⟨none, this⟩ (rest.map (fun e => e.2)) := by
  intro rest
  induction rest with
  | nil =>
    intro L₁ fuel _ hf
    cases fuel with
    | zero => simp at hf
    | succ fuel => simp [Map.traverse, Iter.ne, Map.end_]
  | cons e rest ih =>
    intro L₁ fuel h hf
    cases fuel with
    | zero => simp at hf
    | succ fuel =>
      obtain ⟨p, k, v⟩ := e
      have hd := deref_spec this m hnd L₁ rest p k v h
      have hn := FindNext_spec m.root_ hnd L₁ rest p k v h
      have hrec := ih (L₁ ++ [(p, k, v)]) fuel (by simp [h]) (by simpa using hf)
      simp only [List.head?_cons, Option.map_some', Map.traverse, Iter.ne, Map.end_, ne_eq,
        not_true_eq_false, decide_False, reduceCtorEq, not_false_eq_true, decide_True,
        Bool.or_true, if_true, hd, Iter.preInc, hn, hrec, List.map_cons]

/-- Full forward iteration visits the in-order sequence of the tree. -/
theorem forward_spec [LinearOrder K] (this : Nat) (m : Map K V) (hinv : MapInv m)
    (hmin : MinInv m) :
    m.forward this = .returns ⟨none, this⟩ m.root_.entries := by
  unfold Map.forward Map.begin_
  rw [hmin, getMinimum_eq]
  exact traverse_spec this m hinv.2.2.1 m.root_.toList [] _ (by simp)
    (by rw [size_eq_length]; omega)

end sjtu


namespace sjtu

variable {K V : Type}

open Tree

/-! ## The cached minimum -/

theorem entry_eq_of_nodup {L : List (Nat × K × V)} (hn : (L.map (fun y => y.1)).Nodup)
    {x y : Nat × K × V} (hx : x ∈ L) (hy : y ∈ L) (hxy : x.1 = y.1) : x = y := by
  obtain ⟨A, B, rfl⟩ := List.append_of_mem hy
  exact entry_unique hn hx hxy

theorem keyAt_eq_of_mem {t : Tree K V} (hn : t.addrs.Nodup) {p : Nat} {k pk : K} {v : V}
    (hmem : (p, k, v) ∈ t.toList) (h : t.keyAt p = some pk) : pk = k := by
  obtain ⟨v', hv'⟩ := keyAt_mem h
  have := entry_eq_of_nodup hn hv' hmem rfl
  simp only [Prod.mk.injEq, true_and] at this
  exact this.1

/-- What `insert` does to the cached minimum when it returns. -/
theorem Map.insert_min [LinearOrder K] (this : Nat) (m m' : Map K V) (k : K) (v : V)
    (a : Nat) (r : Iter × Bool) (h : Map.insert this m k v a = .returns m' r) :
    ∃ res, InsertNode m.root_ k v a = .ok res ∧
      (res.second = false → m'.min_node_ = m.min_node_) ∧
      (res.second = true →
        (m.min_node_ = none ∧ m'.min_node_ = some res.first) ∨
        ∃ p pk, m.min_node_ = some p ∧ res.root_.keyAt p = some pk ∧
          m'.min_node_ = if k < pk then some res.first else some p) := by
  unfold Map.insert at h
  split at h
  · simp at h
  · rename_i res hres
    refine ⟨res, hres, ?_⟩
    split at h
    · rename_i hsec
      split at h
      · simp at h
      · rename_i lo hlo
        split at h
        · simp at h
        · simp only [Call.returns.injEq] at h
          obtain ⟨rfl, rfl⟩ := h
          refine ⟨fun h0 => by simp [hsec] at h0, fun _ => ?_⟩
          split at hlo
          · rename_i hmin
            simp only [Outcome.ok.injEq] at hlo
            subst hlo
            exact Or.inl ⟨hmin, by simp⟩
          · rename_i p hmin
            right
            unfold Map.ltAt at hlo
            split at hlo
            · simp at hlo
            · rename_i pk hpk
              simp only [Outcome.ok.injEq] at hlo
              subst hlo
              refine ⟨p, pk, hmin, hpk, ?_⟩
              by_cases hk : k < pk <;> simp [hk, hmin]
    · rename_i hsec
      simp only [Call.returns.injEq] at h
      obtain ⟨rfl, rfl⟩ := h
      exact ⟨fun _ => rfl, fun h0 => absurd h0 hsec⟩

/-- After a new entry has been put at its place, the update rule of `insert` and
`operator[]` leaves the cached minimum right. -/
theorem min_after_insert [LinearOrder K] {t t' : Tree K V} {k : K} {v : V} {a : Nat}
    {L₁ L₂ : List (Nat × K × V)} (hn' : t'.addrs.Nodup) (hold : t.toList = L₁ ++ L₂)
    (hnew : t'.toList = L₁ ++ (a, k, v) :: L₂) (h1 : ∀ e ∈ L₁, e.2.1 < k)
    (h2 : ∀ e ∈ L₂, k < e.2.1) (mn mn' : Option Nat) (hmn : mn = GetMinimum t)
    (hup : (mn = none ∧ mn' = some a) ∨
      ∃ p pk, mn = some p ∧ t'.keyAt p = some pk ∧ mn' = if k < pk then some a else some p) :
    mn' = GetMinimum t' := by
  rw [getMinimum_eq, hold] at hmn
  rw [getMinimum_eq, hnew]
  rcases hup with ⟨h0, h0'⟩ | ⟨p, pk, hp, hpk, hmn'⟩
  · rw [h0] at hmn
    cases L₁ with
    | nil => simp [h0']
    | cons x xs => simp at hmn
  · rw [hp] at hmn
    cases L₁ with
    | nil =>
      cases L₂ with
      | nil => simp at hmn
      | cons x xs =>
        simp only [List.nil_append, List.head?_cons, Option.map_some', Option.some.injEq] at hmn
        have hx : (p, x.2.1, x.2.2) ∈ t'.toList := by
          rw [hnew, hmn]; simp
        have := keyAt_eq_of_mem hn' hx hpk
        subst this
        have := h2 x (List.mem_cons_self _ _)
        simp [hmn', this]
    | cons x xs =>
      simp only [List.cons_append, List.head?_cons, Option.map_some', Option.some.injEq] at hmn
      have hx : (p, x.2.1, x.2.2) ∈ t'.toList := by
        rw [hnew, hmn]; simp
      have := keyAt_eq_of_mem hn' hx hpk
      subst this
      have := h1 x (List.mem_cons_self _ _)
      simp [hmn', not_lt_of_gt this, hmn]

/-- The call `insert` keeps the cached minimum right. -/
theorem Map.insert_minInv [LinearOrder K] (this : Nat) (m m' : Map K V) (k : K) (v : V)
    (a : Nat) (r : Iter × Bool) (hinv : MapInv m) (hmin : MinInv m) (ha : a ∉ m.root_.addrs)
    (h : Map.insert this m k v a = .returns m' r) : MinInv m' := by
  have hinv' := Map.insert_inv this m m' k v a r hinv ha h
  obtain ⟨res, h1, h2, -, -⟩ := Map.insert_returns this m m' k v a r h
  obtain ⟨res', h1', h3, h4⟩ := Map.insert_min this m m' k v a r h
  rw [h1] at h1'
  simp only [Outcome.ok.injEq] at h1'
  subst h1'
  have hpost := InsertNode_content m.root_ k v a res h1 hinv.1
  unfold MinInv
  rcases hpost with ⟨hs, hl, -⟩ | ⟨hs, hf, L₁, L₂, e1, e2, e3, e4⟩
  · rw [h3 hs, hmin, getMinimum_eq, getMinimum_eq, h2, hl]
  · have hup := h4 hs
    rw [hf] at hup
    have hn' : res.root_.addrs.Nodup := h2 ▸ hinv'.2.2.1
    rw [h2]
    exact min_after_insert hn' e1 e2 e3 e4 _ _ hmin hup

/-- What the mutable `operator[]` does to the cached minimum and maximum when it inserts. -/
theorem Map.getOrInsert_min [LinearOrder K] (m m' : Map K V) (key : K) (dflt : V)
    (a : Nat) (r : Nat × V) (hf : FindNode key m.root_ = nil)
    (h : Map.getOrInsert m key dflt a = .returns m' r) :
    ∃ res rk, InsertNode m.root_ key dflt a = .ok res ∧ res.root_.keyAt res.first = some rk ∧
      m'.max_node_ = m.max_node_ ∧
      ((m.min_node_ = none ∧ m'.min_node_ = some res.first) ∨
        ∃ p pk, m.min_node_ = some p ∧ res.root_.keyAt p = some pk ∧
          m'.min_node_ = if rk < pk then some res.first else some p) := by
  unfold Map.getOrInsert at h
  rw [hf] at h
  simp only at h
  split at h
  · simp at h
  · rename_i res hres
    split at h
    · rename_i rk rv hk hv
      refine ⟨res, rk, hres, hk, ?_⟩
      split at h
      · simp at h
      · rename_i lo hlo
        simp only [Call.returns.injEq] at h
        obtain ⟨rfl, rfl⟩ := h
        refine ⟨rfl, ?_⟩
        split at hlo
        · rename_i hmin
          simp only [Outcome.ok.injEq] at hlo
          subst hlo
          exact Or.inl ⟨hmin, by simp⟩
        · rename_i p hmin
          right
          unfold Map.ltAt at hlo
          split at hlo
          · simp at hlo
          · rename_i pk hpk
            simp only [Outcome.ok.injEq] at hlo
            subst hlo
            refine ⟨p, pk, hmin, hpk, ?_⟩
            by_cases hk' : rk < pk <;> simp [hk', hmin]
    · simp at h

/-- The mutable `operator[]` keeps the cached minimum right. -/
theorem Map.getOrInsert_minInv [LinearOrder K] (m m' : Map K V) (key : K) (dflt : V)
    (a : Nat) (r : Nat × V) (hinv : MapInv m) (hmin : MinInv m) (ha : a ∉ m.root_.addrs)
    (h : Map.getOrInsert m key dflt a = .returns m' r) : MinInv m' := by
  have hinv' := Map.getOrInsert_inv m m' key dflt a r hinv ha h
  rcases Map.getOrInsert_returns m m' key dflt a r h with ⟨rfl, -⟩ | ⟨hf, res, h1, h2, -, -, -⟩
  · exact hmin
  · obtain ⟨res', rk, h1', hrk, -, hup⟩ := Map.getOrInsert_min m m' key dflt a r hf h
    rw [h1] at h1'
    simp only [Outcome.ok.injEq] at h1'
    subst h1'
    have hpost := InsertNode_content m.root_ key dflt a res h1 hinv.1
    have hn' : res.root_.addrs.Nodup := h2 ▸ hinv'.2.2.1
    unfold MinInv
    rcases hpost with ⟨-, -, v', hv'⟩ | ⟨hs, hfst, L₁, L₂, e1, e2, e3, e4⟩
    · obtain ⟨c, l, r', hc⟩ := FindNode_complete key m.root_ hinv.1 _ _ hv'
      rw [hf] at hc; simp at hc
    · rw [hfst] at hup hrk
      have hmem : (a, key, dflt) ∈ res.root_.toList := by rw [e2]; simp
      have := keyAt_eq_of_mem hn' hmem hrk
      subst this
      rw [h2]
      exact min_after_insert hn' e1 e2 e3 e4 _ _ hmin hup

/-- What `erase` does to the cached minimum and maximum when it returns. -/
theorem Map.erase_minmax [LinearOrder K] (this : Nat) (m m' : Map K V) (pos : Iter)
    (u : Unit) (h : Map.erase this m pos = .returns m' u) :
    m'.min_node_ = (if pos.node_ = m.min_node_ then GetMinimum m'.root_ else m.min_node_) ∧
    m'.max_node_ = (if pos.node_ = m.max_node_ then GetMaximum m'.root_ else m.max_node_) := by
  unfold Map.erase at h
  split at h
  · simp at h
  · split at h
    · simp at h
    · split at h
      · simp at h
      · simp only [Call.returns.injEq] at h
        obtain ⟨rfl, -⟩ := h
        exact ⟨rfl, rfl⟩

/-- The call `erase` keeps the cached minimum right. -/
theorem Map.erase_minInv [LinearOrder K] (this : Nat) (m m' : Map K V) (pos : Iter) (p : Nat)
    (u : Unit) (hinv : MapInv m) (hmin : MinInv m) (hp : pos.node_ = some p)
    (hmem : p ∈ m.root_.addrs) (h : Map.erase this m pos = .returns m' u) : MinInv m' := by
  obtain ⟨p', t, h1, -, h2, h3, -⟩ := Map.erase_returns this m m' pos u h
  rw [hp] at h1
  simp only [Option.some.injEq] at h1
  subst h1
  obtain ⟨hb, hg, hn, hs⟩ := hinv
  obtain ⟨t', e1, -, -, L₁, e, L₂, e4, e5, e6⟩ := EraseNode_spec m.root_ p hg hb hn hmem
  rw [hs, e1] at h2
  simp only [Outcome.ok.injEq] at h2
  subst h2
  have hmm := (Map.erase_minmax this m m' pos u h).1
  unfold MinInv at hmin ⊢
  rw [hmm]
  split
  · rfl
  · rename_i hne
    rw [hp, hmin, getMinimum_eq, e4] at hne
    rw [hmin, h3, getMinimum_eq, getMinimum_eq, e4, e6]
    cases L₁ with
    | nil => simp [e5] at hne
    | cons x xs => simp

end sjtu


namespace sjtu

variable {K V : Type}

open Tree

/-! ## Invariants of all reachable states -/

/-- Every call that is well defined keeps the cached minimum right. -/
theorem Map.step_minInv [LinearOrder K] (this : Nat) (m m' : Map K V) (op : Op K V)
    (hinv : MapInv m) (hmin : MinInv m) (h : Map.step this m op = some m') : MinInv m' := by
  cases op with
  | insert k v a =>
    simp only [Map.step] at h
    split at h
    · simp at h
    · rename_i ha
      split at h
      · rename_i m'' r hr
        simp only [Option.some.injEq] at h
        subst h
        exact Map.insert_minInv this m _ k v a r hinv hmin ha hr
      · rename_i m'' e he
        exact absurd he (Map.insert_not_throws this m m'' k v a e)
      · simp at h
  | index k dflt a =>
    simp only [Map.step] at h
    split at h
    · simp at h
    · rename_i ha
      split at h
      · rename_i m'' r hr
        simp only [Option.some.injEq] at h
        subst h
        exact Map.getOrInsert_minInv m _ k dflt a r hinv hmin ha hr
      · rename_i m'' e he
        exact absurd he (Map.getOrInsert_not_throws m m'' k dflt a e)
      · simp at h
  | erase pos =>
    simp only [Map.step] at h
    split at h
    · rename_i m'' e he
      simp only [Option.some.injEq] at h
      subst h
      rw [(Map.erase_throws this m _ pos e he).1]
      exact hmin
    · rename_i m'' u hu
      split at h
      · rename_i p hp
        split at h
        · rename_i hmem
          simp only [Option.some.injEq] at h
          subst h
          exact Map.erase_minInv this m _ pos p u hinv hmin hp hmem hu
        · simp at h
      · simp at h
    · simp at h

theorem Map.run_minInv [LinearOrder K] (this : Nat) (ops : List (Op K V)) :
    ∀ (m m' : Map K V), MapInv m → MinInv m → Map.run this m ops = some m' → MinInv m' := by
  induction ops with
  | nil =>
    intro m m' _ hmin h
    simp only [Map.run, Option.some.injEq] at h
    exact h ▸ hmin
  | cons op ops ih =>
    intro m m' hinv hmin h
    simp only [Map.run] at h
    split at h
    · rename_i m'' hm''
      exact ih m'' m' (Map.step_inv this m m'' op hinv hm'')
        (Map.step_minInv this m m'' op hinv hmin hm'') h
    · simp at h

theorem reachable_minInv [LinearOrder K] (this : Nat) (m : Map K V) (h : Reachable this m) :
    MinInv m := by
  obtain ⟨ops, hops⟩ := h
  exact Map.run_minInv this ops _ m MapInv_empty rfl hops

/-! ### Copies -/

theorem toTree_setParent (par : Option Nat) (x : Linked K V) :
    (x.setParent par).toTree = x.toTree := by
  cases x <;> rfl

theorem toTree_CopyTree (alloc : Nat → Nat) (t : Tree K V) :
    (CopyTree alloc t).toTree = t.rename alloc := by
  induction t with
  | nil => rfl
  | node c a k v l r ihl ihr =>
    simp [CopyTree, Linked.toTree, Tree.rename, toTree_setParent, ihl, ihr]

theorem consistent_setParent (par q : Option Nat) (x : Linked K V) (h : x.Consistent q) :
    (x.setParent par).Consistent par := by
  cases x with
  | nil => trivial
  | node c a p k v l r => exact ⟨rfl, h.2.1, h.2.2⟩

theorem consistent_CopyTree (alloc : Nat → Nat) (t : Tree K V) :
    (CopyTree alloc t).Consistent none := by
  induction t with
  | nil => trivial
  | node c a k v l r ihl ihr =>
    exact ⟨rfl, consistent_setParent _ _ _ ihl, consistent_setParent _ _ _ ihr⟩

theorem toList_rename (f : Nat → Nat) (t : Tree K V) :
    (t.rename f).toList = t.toList.map (fun e => (f e.1, e.2)) := by
  induction t with
  | nil => rfl
  | node c a k v l r ihl ihr => simp [Tree.rename, ihl, ihr]

theorem keys_rename (f : Nat → Nat) (t : Tree K V) : (t.rename f).keys = t.keys := by
  simp [Tree.keys, toList_rename, Function.comp_def]

theorem entries_rename (f : Nat → Nat) (t : Tree K V) : (t.rename f).entries = t.entries := by
  simp [Tree.entries, toList_rename, Function.comp_def]

theorem addrs_rename (f : Nat → Nat) (t : Tree K V) : (t.rename f).addrs = t.addrs.map f := by
  simp [Tree.addrs, toList_rename, Function.comp_def]

theorem size_rename (f : Nat → Nat) (t : Tree K V) : (t.rename f).size = t.size := by
  simp [size_eq_length, toList_rename]

theorem isRed_rename (f : Nat → Nat) (t : Tree K V) : (t.rename f).isRed = t.isRed := by
  cases t with
  | nil => rfl
  | node c a k v l r => cases c <;> rfl

theorem isNil_rename (f : Nat → Nat) (t : Tree K V) : (t.rename f).isNil = t.isNil := by
  cases t <;> rfl

theorem blackHeight_rename (f : Nat → Nat) (t : Tree K V) :
    (t.rename f).blackHeight = t.blackHeight := by
  induction t with
  | nil => rfl
  | node c a k v l r ihl _ => cases c <;> simp [Tree.rename, ihl]

theorem good_rename (f : Nat → Nat) (t : Tree K V) (h : Good t) : Good (t.rename f) := by
  induction t with
  | nil => exact h
  | node c a k v l r ihl ihr =>
    obtain ⟨h1, h2⟩ := h
    simp only [noRedRed_node, balanced_node] at h1 h2
    have hl := ihl ⟨h1.2.1, h2.2.1⟩
    have hr := ihr ⟨h1.2.2, h2.2.2⟩
    refine ⟨?_, ?_⟩
    · simp only [Tree.rename, noRedRed_node, isRed_rename]
      exact ⟨h1.1, hl.1, hr.1⟩
    · simp only [Tree.rename, balanced_node, blackHeight_rename]
      exact ⟨h2.1, hl.2, hr.2⟩

theorem nodup_rename (f : Nat → Nat) (t : Tree K V) (hf : FreshOn f t) (h : t.addrs.Nodup) :
    (t.rename f).addrs.Nodup := by
  rw [addrs_rename]
  exact List.Nodup.map_on (fun a ha b hb hab => hf a ha b hb hab) h

/-- The copy constructor builds a state with the invariants of the source. -/
theorem Map.copy_inv [LinearOrder K] (mo : Map K V) (alloc : Nat → Nat) (hinv : MapInv mo)
    (hf : FreshOn alloc mo.root_) : MapInv (Map.copy mo alloc) ∧ MinInv (Map.copy mo alloc) := by
  obtain ⟨hb, hg, hn, hs⟩ := hinv
  refine ⟨⟨?_, ?_, ?_, ?_⟩, ?_⟩
  · simp only [Map.copy, toTree_CopyTree, BST, keys_rename]; exact hb
  · simp only [Map.copy, toTree_CopyTree]; exact good_rename _ _ hg
  · simp only [Map.copy, toTree_CopyTree]; exact nodup_rename _ _ hf hn
  · simp only [Map.copy, toTree_CopyTree, size_rename]; exact hs
  · simp only [Map.copy, MinInv]
    split
    · rename_i hnil
      rw [isNil_iff_toList] at hnil
      rw [getMinimum_eq, hnil]; rfl
    · rfl

/-- Copy assignment leaves or builds a state with the invariants. -/
theorem Map.assign_inv [LinearOrder K] (this that : Nat) (m mo : Map K V) (alloc : Nat → Nat)
    (hm : MapInv m ∧ MinInv m) (hinv : MapInv mo) (hf : FreshOn alloc mo.root_) :
    MapInv (Map.assign this m that mo alloc) ∧ MinInv (Map.assign this m that mo alloc) := by
  unfold Map.assign
  split
  · exact hm
  · exact Map.copy_inv mo alloc hinv hf

theorem reachableAll_inv [LinearOrder K] (this : Nat) (m : Map K V)
    (h : ReachableAll this m) : MapInv m ∧ MinInv m := by
  induction h with
  | empty this => exact ⟨MapInv_empty, rfl⟩
  | step this m m' op _ hstep ih =>
    exact ⟨Map.step_inv this m m' op ih.1 hstep, Map.step_minInv this m m' op ih.1 ih.2 hstep⟩
  | clear this m _ _ => exact ⟨MapInv_empty, rfl⟩
  | copy this that mo alloc _ hf ih => exact Map.copy_inv mo alloc ih.1 hf
  | assign this that m mo alloc _ _ hf ih1 ih2 =>
    exact Map.assign_inv this that m mo alloc ih1 ih2.1 hf

end sjtu


namespace sjtu

/-! ## The priority queue -/

variable {T : Type}

theorem Node.size_eq_elems_length (t : Node T) : t.size = t.elems.length := by
  induction t with
  | nil => rfl
  | node d l r ihl ihr => simp [Node.size, Node.elems, ihl, ihr]; omega

/-- Merging keeps the elements of both heaps, each as many times as it occurs. -/
theorem MergeTree_elems (cmp : T → T → Bool) (root1 root2 : Node T) :
    ((MergeTree cmp root1 root2).elems : Multiset T) =
      (root1.elems : Multiset T) + root2.elems := by
  induction root1, root2 using MergeTree.induct cmp with
  | case1 root2 => simp [MergeTree, Node.elems]
  | case2 d1 l1 r1 => simp [MergeTree, Node.elems]
  | case3 d1 l1 r1 d2 l2 r2 hc ih =>
    rw [MergeTree]
    simp only [hc, if_true, Node.elems, ← Multiset.cons_coe, ← Multiset.coe_add, ih,
      ← Multiset.singleton_add]
    abel
  | case4 d1 l1 r1 d2 l2 r2 hc ih =>
    rw [MergeTree]
    simp only [hc, if_false, Node.elems, ← Multiset.cons_coe, ← Multiset.coe_add, ih,
      ← Multiset.singleton_add]
    abel

theorem mem_MergeTree (cmp : T → T → Bool) (root1 root2 : Node T) (x : T) :
    x ∈ (MergeTree cmp root1 root2).elems ↔ x ∈ root1.elems ∨ x ∈ root2.elems := by
  have h := MergeTree_elems cmp root1 root2
  rw [← Multiset.mem_coe, h, Multiset.mem_add, Multiset.mem_coe, Multiset.mem_coe]

/-- In a strict weak ordering "not less than" is transitive. -/
theorem not_cmp_trans (cmp : T → T → Bool)
    (hc : IsStrictWeakOrder T (fun a b => cmp a b = true)) {a b c : T}
    (hab : cmp a b = false) (hbc : cmp b c = false) : cmp a c = false := by
  by_contra hac
  simp only [Bool.not_eq_false] at hac
  have hba : cmp b a = false := by
    by_contra hba
    simp only [Bool.not_eq_false] at hba
    have := hc.trans b a c hba hac
    simp [hbc] at this
  have hcb : cmp c b = false := by
    by_contra hcb
    simp only [Bool.not_eq_false] at hcb
    have := hc.trans a c b hac hcb
    simp [hab] at this
  have := hc.incomp_trans a b c ⟨by simp [hab], by simp [hba]⟩ ⟨by simp [hbc], by simp [hcb]⟩
  exact this.1 hac

theorem cmp_asymm (cmp : T → T → Bool)
    (hc : IsStrictWeakOrder T (fun a b => cmp a b = true)) {a b : T}
    (hab : cmp a b = true) : cmp b a = false := by
  by_contra hba
  simp only [Bool.not_eq_false] at hba
  exact hc.irrefl a (hc.trans a b a hab hba)

/-- The root of a heap-ordered tree is not less than any element of the tree. -/
theorem HeapOrdered.root_max (cmp : T → T → Bool)
    (hc : IsStrictWeakOrder T (fun a b => cmp a b = true)) (d : T) (l r : Node T)
    (h : HeapOrdered cmp (.node d l r)) : ∀ x ∈ (Node.node d l r).elems, cmp d x = false := by
  intro x hx
  simp only [Node.elems, List.mem_cons, List.mem_append] at hx
  rcases hx with rfl | hx | hx
  · have := hc.irrefl x
    simpa using this
  · exact h.1 x hx
  · exact h.2.1 x hx

/-- Merging two heap-ordered trees gives a heap-ordered tree. -/
theorem MergeTree_heapOrdered (cmp : T → T → Bool)
    (hc : IsStrictWeakOrder T (fun a b => cmp a b = true)) (root1 root2 : Node T) :
    HeapOrdered cmp root1 → HeapOrdered cmp root2 →
      HeapOrdered cmp (MergeTree cmp root1 root2) := by
  induction root1, root2 using MergeTree.induct cmp with
  | case1 root2 => intro _ h2; simpa [MergeTree] using h2
  | case2 d1 l1 r1 => intro h1 _; simpa [MergeTree] using h1
  | case3 d1 l1 r1 d2 l2 r2 hlt ih =>
    intro h1 h2
    rw [MergeTree]
    simp only [hlt, if_true]
    refine ⟨?_, h2.1, ih h1 h2.2.2.2, h2.2.2.1⟩
    intro x hx
    rw [mem_MergeTree] at hx
    rcases hx with hx | hx
    · exact not_cmp_trans cmp hc (cmp_asymm cmp hc hlt) (HeapOrdered.root_max cmp hc d1 l1 r1 h1 x hx)
    · exact h2.2.1 x hx
  | case4 d1 l1 r1 d2 l2 r2 hlt ih =>
    intro h1 h2
    rw [MergeTree]
    simp only [hlt, if_false]
    refine ⟨?_, h1.1, ih h1.2.2.2 h2, h1.2.2.1⟩
    intro x hx
    rw [mem_MergeTree] at hx
    rcases hx with hx | hx
    · exact h1.2.1 x hx
    · exact not_cmp_trans cmp hc (by simpa using hlt) (HeapOrdered.root_max cmp hc d2 l2 r2 h2 x hx)

/-- What holds of every reachable queue: heap order, the elements stored are the ones the
history of calls leaves, and `size_` counts them. -/
theorem built_inv [DecidableEq T] (cmp : T → T → Bool)
    (hc : IsStrictWeakOrder T (fun a b => cmp a b = true)) (q : priority_queue T)
    (M : Multiset T) (h : Built cmp q M) :
    HeapOrdered cmp q.root_ ∧ q.contents = M ∧ q.size_ = Multiset.card M := by
  induction h with
  | empty => exact ⟨trivial, rfl, rfl⟩
  | push q M e _ ih =>
    obtain ⟨h1, h2, h3⟩ := ih
    refine ⟨MergeTree_heapOrdered cmp hc _ _ h1 ⟨by simp [Node.elems], by simp [Node.elems],
      trivial, trivial⟩, ?_, ?_⟩
    · simp only [priority_queue.contents, priority_queue.push] at h2 ⊢
      rw [MergeTree_elems, h2]
      simp only [Node.elems, List.append_nil, Multiset.coe_singleton]
      rw [add_comm, Multiset.singleton_add]
    · simp [priority_queue.push, h3]
  | pop q q' M e _ htop hpop ih =>
    obtain ⟨h1, h2, h3⟩ := ih
    unfold priority_queue.top at htop
    unfold priority_queue.pop at hpop
    split at htop
    · simp at htop
    · rename_i hsz
      simp only [hsz, if_false] at hpop
      cases hr : q.root_ with
      | nil => simp [hr] at htop
      | node d l r =>
        rw [hr] at htop hpop h1
        simp only [Call.returns.injEq, true_and] at htop
        simp only [Call.returns.injEq, and_true] at hpop
        subst htop hpop
        simp only [priority_queue.contents, hr, Node.elems] at h2
        refine ⟨MergeTree_heapOrdered cmp hc _ _ h1.2.2.1 h1.2.2.2, ?_, ?_⟩
        · simp only [priority_queue.contents]
          rw [MergeTree_elems, ← h2, ← Multiset.cons_coe, Multiset.erase_cons_head,
            Multiset.coe_add]
        · simp only
          rw [h3, ← h2]
          simp
  | merge q other M N _ _ ih1 ih2 =>
    obtain ⟨h1, h2, h3⟩ := ih1
    obtain ⟨g1, g2, g3⟩ := ih2
    refine ⟨MergeTree_heapOrdered cmp hc _ _ h1 g1, ?_, ?_⟩
    · simp only [priority_queue.contents, priority_queue.merge] at h2 g2 ⊢
      rw [MergeTree_elems, h2, g2]
    · simp [priority_queue.merge, h3, g3]
  | merged q other M N _ _ _ _ => exact ⟨trivial, rfl, rfl⟩

end sjtu


namespace sjtu

variable {K V : Type}

open Tree

/-! ## Stepping an iterator -/

theorem split_of_mem_addrs {t : Tree K V} {p : Nat} (h : p ∈ t.addrs) :
    ∃ L₁ k v L₂, t.toList = L₁ ++ (p, k, v) :: L₂ := by
  obtain ⟨⟨p', k, v⟩, he, hp⟩ := List.mem_map.mp h
  simp only at hp
  subst hp
  obtain ⟨L₁, L₂, hl⟩ := List.append_of_mem he
  exact ⟨L₁, k, v, L₂, hl⟩

/-- In a search tree the entry with the least key is the first of the in-order sequence. -/
theorem atLeastKey_iff [LinearOrder K] {t : Tree K V} (hb : BST t) (hn : t.addrs.Nodup)
    {L₁ L₂ : List (Nat × K × V)} {p : Nat} {k : K} {v : V}
    (h : t.toList = L₁ ++ (p, k, v) :: L₂) : AtLeastKey t (some p) ↔ L₁ = [] := by
  have hs : ((L₁ ++ (p, k, v) :: L₂).map (fun y => y.2.1)).Pairwise (· < ·) := by
    simpa only [BST, keys, h] using hb
  constructor
  · rintro ⟨p', k', v', hp, hmem, hle⟩
    simp only [Option.some.injEq] at hp
    subst hp
    have hmem' : (p, k, v) ∈ t.toList := by rw [h]; simp
    have := entry_eq_of_nodup hn hmem hmem' rfl
    simp only [Prod.mk.injEq, true_and] at this
    obtain ⟨rfl, rfl⟩ := this
    cases L₁ with
    | nil => rfl
    | cons x xs =>
      have h1 := hle x (by rw [h]; simp)
      simp only [List.cons_append, List.map_cons, List.pairwise_cons, List.map_append,
        List.mem_append, List.mem_map, List.mem_cons] at hs
      have h2 := hs.1 k' (Or.inr (Or.inl rfl))
      exact absurd h1 (not_le_of_gt h2)
  · rintro rfl
    refine ⟨p, k, v, rfl, by rw [h]; simp, ?_⟩
    intro e he
    rw [h] at he
    simp only [List.nil_append, List.mem_cons] at he
    simp only [List.nil_append, List.map_cons, List.pairwise_cons, List.mem_map] at hs
    rcases he with rfl | he
    · exact le_refl _
    · exact le_of_lt (hs.1 _ ⟨e, he, rfl⟩)

/-- In a search tree the entry with the greatest key is the last of the in-order sequence. -/
theorem atGreatestKey_iff [LinearOrder K] {t : Tree K V} (hb : BST t) (hn : t.addrs.Nodup)
    {L₁ L₂ : List (Nat × K × V)} {p : Nat} {k : K} {v : V}
    (h : t.toList = L₁ ++ (p, k, v) :: L₂) : AtGreatestKey t (some p) ↔ L₂ = [] := by
  have hs : ((L₁ ++ (p, k, v) :: L₂).map (fun y => y.2.1)).Pairwise (· < ·) := by
    simpa only [BST, keys, h] using hb
  simp only [List.map_append, List.map_cons, List.pairwise_append, List.pairwise_cons,
    List.mem_map, List.mem_cons] at hs
  obtain ⟨-, ⟨h2, -⟩, h3⟩ := hs
  constructor
  · rintro ⟨p', k', v', hp, hmem, hle⟩
    simp only [Option.some.injEq] at hp
    subst hp
    have hmem' : (p, k, v) ∈ t.toList := by rw [h]; simp
    have := entry_eq_of_nodup hn hmem hmem' rfl
    simp only [Prod.mk.injEq, true_and] at this
    obtain ⟨rfl, rfl⟩ := this
    cases L₂ with
    | nil => rfl
    | cons x xs =>
      have h1 := hle x (by rw [h]; simp)
      have h4 := h2 x.2.1 ⟨x, List.mem_cons_self _ _, rfl⟩
      exact absurd h1 (not_le_of_gt h4)
  · rintro rfl
    refine ⟨p, k, v, rfl, by rw [h]; simp, ?_⟩
    intro e he
    rw [h] at he
    simp only [List.mem_append, List.mem_cons, List.mem_nil_iff, or_false] at he
    rcases he with he | rfl
    · exact le_of_lt (h3 _ ⟨e, he, rfl⟩ _ (Or.inl rfl))
    · exact le_refl _

theorem not_atLeastKey_none [LinearOrder K] (t : Tree K V) : ¬ AtLeastKey t none := by
  rintro ⟨p, k, v, hp, -⟩
  cases hp

theorem not_atGreatestKey_none [LinearOrder K] (t : Tree K V) : ¬ AtGreatestKey t none := by
  rintro ⟨p, k, v, hp, -⟩
  cases hp

end sjtu


namespace sjtu

variable {K V : Type}

open Tree

/-- What `++` and `--` do on an `iterator` that is the sentinel or references a node of a
map with the invariants of reachable states. -/
theorem iter_errors [LinearOrder K] (m : Map K V) (hinv : MapInv m) (it : Iter)
    (hit : InTree m.root_ it.node_) :
    (((it.preInc m).Throws .invalid_iterator ↔ it.node_ = none) ∧
      ((it.preInc m).Throws .invalid_iterator ∨ (it.preInc m).Returns)) ∧
    (((it.postInc m).Throws .invalid_iterator ↔ it.node_ = none) ∧
      ((it.postInc m).Throws .invalid_iterator ∨ (it.postInc m).Returns)) ∧
    (AtGreatestKey m.root_ it.node_ →
      (it.preInc m).ReturnsAt ⟨none, it.map_ptr_⟩ ∧
      (it.postInc m).ReturnsAt ⟨none, it.map_ptr_⟩) ∧
    (((it.preDec m).Throws .invalid_iterator ↔
        (AtLeastKey m.root_ it.node_ ∨ (it.node_ = none ∧ m.root_ = nil))) ∧
      ((it.preDec m).Throws .invalid_iterator ∨ (it.preDec m).Returns)) ∧
    (((it.postDec m).Throws .invalid_iterator ↔
        (AtLeastKey m.root_ it.node_ ∨ (it.node_ = none ∧ m.root_ = nil))) ∧
      ((it.postDec m).Throws .invalid_iterator ∨ (it.postDec m).Returns)) := by
  obtain ⟨hb, -, hn, -⟩ := hinv
  obtain ⟨node_, mp⟩ := it
  simp only at hit ⊢
  rcases hit with hnone | ⟨p, hp, hsome⟩
  · subst hnone
    have hnil : m.root_.isNil = true ↔ m.root_ = nil := by cases m.root_ <;> simp
    by_cases hr : m.root_ = nil
    · have hr' := hnil.mpr hr
      simp [Iter.preInc, Iter.postInc, Iter.preDec, Iter.postDec, Call.Throws,
        Call.Returns, hr', not_atLeastKey_none, not_atGreatestKey_none, hr]
    · have hr' : ¬ m.root_.isNil = true := fun h => hr (hnil.mp h)
      simp [Iter.preInc, Iter.postInc, Iter.preDec, Iter.postDec, Call.Throws,
        Call.Returns, hr', not_atLeastKey_none, not_atGreatestKey_none, hr]
  · subst hsome
    obtain ⟨L₁, k, v, L₂, hsplit⟩ := split_of_mem_addrs hp
    have hfn := FindNext_spec m.root_ hn L₁ L₂ p k v hsplit
    have hfp := FindPrev_spec m.root_ hn L₁ L₂ p k v hsplit
    have hl := atLeastKey_iff hb hn hsplit
    have hg := atGreatestKey_iff hb hn hsplit
    refine ⟨?_, ?_, ?_, ?_, ?_⟩
    · simp [Iter.preInc, Call.Throws, Call.Returns, hfn]
    · simp [Iter.postInc, Call.Throws, Call.Returns, hfn]
    · intro hgr
      rw [hg] at hgr
      subst hgr
      simp [Iter.preInc, Iter.postInc, Call.ReturnsAt, hfn]
    · rw [hl]
      cases hL : L₁.getLast? with
      | none =>
        have := List.getLast?_eq_none_iff.mp hL
        simp [Iter.preDec, Call.Throws, Call.Returns, hfp, hL, this]
      | some x =>
        have : L₁ ≠ [] := by rintro rfl; simp at hL
        simp [Iter.preDec, Call.Throws, Call.Returns, hfp, hL, this]
    · rw [hl]
      cases hL : L₁.getLast? with
      | none =>
        have := List.getLast?_eq_none_iff.mp hL
        simp [Iter.postDec, Call.Throws, Call.Returns, hfp, hL, this]
      | some x =>
        have : L₁ ≠ [] := by rintro rfl; simp at hL
        simp [Iter.postDec, Call.Throws, Call.Returns, hfp, hL, this]

/-- What `++` and `--` do on a `const_iterator` whose `map_ptr_` has a value and that is the
sentinel or references a node of a map with the invariants of reachable states. -/
theorem constIter_errors [LinearOrder K] (m : Map K V) (hinv : MapInv m) (it : ConstIter)
    (hit : InTree m.root_ it.node_) (hmp : it.map_ptr_ ≠ none) :
    (((it.preInc m).Throws .invalid_iterator ↔ it.node_ = none) ∧
      ((it.preInc m).Throws .invalid_iterator ∨ (it.preInc m).Returns)) ∧
    (((it.postInc m).Throws .invalid_iterator ↔ it.node_ = none) ∧
      ((it.postInc m).Throws .invalid_iterator ∨ (it.postInc m).Returns)) ∧
    (AtGreatestKey m.root_ it.node_ →
      (it.preInc m).ReturnsAt ⟨none, it.map_ptr_⟩ ∧
      (it.postInc m).ReturnsAt ⟨none, it.map_ptr_⟩) ∧
    (((it.preDec m).Throws .invalid_iterator ↔
        (AtLeastKey m.root_ it.node_ ∨ (it.node_ = none ∧ m.root_ = nil))) ∧
      ((it.preDec m).Throws .invalid_iterator ∨ (it.preDec m).Returns)) ∧
    (((it.postDec m).Throws .invalid_iterator ↔
        (AtLeastKey m.root_ it.node_ ∨ (it.node_ = none ∧ m.root_ = nil))) ∧
      ((it.postDec m).Throws .invalid_iterator ∨ (it.postDec m).Returns)) := by
  obtain ⟨hb, -, hn, -⟩ := hinv
  obtain ⟨node_, mp⟩ := it
  simp only at hit hmp ⊢
  obtain ⟨q, rfl⟩ := Option.ne_none_iff_exists'.mp hmp
  rcases hit with hnone | ⟨p, hp, hsome⟩
  · subst hnone
    have hnil : m.root_.isNil = true ↔ m.root_ = nil := by cases m.root_ <;> simp
    by_cases hr : m.root_ = nil
    · have hr' := hnil.mpr hr
      simp [ConstIter.preInc, ConstIter.postInc, ConstIter.preDec, ConstIter.postDec, Call.Throws,
        Call.Returns, hr', not_atLeastKey_none, not_atGreatestKey_none, hr]
    · have hr' : ¬ m.root_.isNil = true := fun h => hr (hnil.mp h)
      simp [ConstIter.preInc, ConstIter.postInc, ConstIter.preDec, ConstIter.postDec, Call.Throws,
        Call.Returns, hr', not_atLeastKey_none, not_atGreatestKey_none, hr]
  · subst hsome
    obtain ⟨L₁, k, v, L₂, hsplit⟩ := split_of_mem_addrs hp
    have hfn := FindNext_spec m.root_ hn L₁ L₂ p k v hsplit
    have hfp := FindPrev_spec m.root_ hn L₁ L₂ p k v hsplit
    have hl := atLeastKey_iff hb hn hsplit
    have hg := atGreatestKey_iff hb hn hsplit
    refine ⟨?_, ?_, ?_, ?_, ?_⟩
    · simp [ConstIter.preInc, Call.Throws, Call.Returns, hfn]
    · simp [ConstIter.postInc, Call.Throws, Call.Returns, hfn]
    · intro hgr
      rw [hg] at hgr
      subst hgr
      simp [ConstIter.preInc, ConstIter.postInc, Call.ReturnsAt, hfn]
    · rw [hl]
      cases hL : L₁.getLast? with
      | none =>
        have := List.getLast?_eq_none_iff.mp hL
        simp [ConstIter.preDec, Call.Throws, Call.Returns, hfp, hL, this]
      | some x =>
        have : L₁ ≠ [] := by rintro rfl; simp at hL
        simp [ConstIter.preDec, Call.Throws, Call.Returns, hfp, hL, this]
    · rw [hl]
      cases hL : L₁.getLast? with
      | none =>
        have := List.getLast?_eq_none_iff.mp hL
        simp [ConstIter.postDec, Call.Throws, Call.Returns, hfp, hL, this]
      | some x =>
        have : L₁ ≠ [] := by rintro rfl; simp at hL
        simp [ConstIter.postDec, Call.Throws, Call.Returns, hfp, hL, this]

end sjtu


namespace sjtu

variable {K V : Type}

open Tree

/-! ## Erasing from the front -/

/-- On a non-empty map with the invariants, `erase(begin())` returns and takes one node out. -/
theorem Map.erase_begin [LinearOrder K] (this : Nat) (m : Map K V) (n : Nat)
    (hinv : MapInv m) (hmin : MinInv m) (hsz : m.root_.size = n + 1) :
    ∃ m', m.erase this (m.begin_ this) = .returns m' () ∧ MapInv m' ∧ MinInv m' ∧
      m'.root_.size = n := by
  have hne : m.root_.toList ≠ [] := by
    intro h
    rw [size_eq_length, h] at hsz
    simp at hsz
  obtain ⟨⟨p, k, v⟩, rest, hl⟩ := List.exists_cons_of_ne_nil hne
  have hmp : m.min_node_ = some p := by
    rw [hmin, getMinimum_eq, hl]; rfl
  have hmem : p ∈ m.root_.addrs := by
    simp [Tree.addrs, hl]
  obtain ⟨hb, hg, hn, hs⟩ := hinv
  obtain ⟨t', e1, -, -, L₁, e, L₂, e4, -, e6⟩ := EraseNode_spec m.root_ p hg hb hn hmem
  have hcall : m.erase this (m.begin_ this) =
      .returns ⟨t', if (some p : Option Nat) = m.min_node_ then GetMinimum t' else m.min_node_,
        if (some p : Option Nat) = m.max_node_ then GetMaximum t' else m.max_node_,
        if m.size_ = 0 then 2 ^ 64 - 1 else m.size_ - 1⟩ () := by
    simp only [Map.erase, Map.begin_, hmp, ne_eq, not_true_eq_false, reduceCtorEq, or_self,
      if_false, hs, e1]
  refine ⟨_, hcall, ?_, ?_, ?_⟩
  · exact Map.erase_inv this m _ (m.begin_ this) p () ⟨hb, hg, hn, hs⟩ hmp hmem hcall
  · exact Map.erase_minInv this m _ (m.begin_ this) p () ⟨hb, hg, hn, hs⟩ hmin hmp hmem hcall
  · have h1 : m.root_.size = t'.size + 1 := by
      simp [size_eq_length, e4, e6]; omega
    simp only
    omega

/-- Erasing the first entry as many times as there are nodes returns every time and leaves
the empty tree. -/
theorem Map.eraseFront_spec [LinearOrder K] (this : Nat) (n : Nat) :
    ∀ (m : Map K V), MapInv m → MinInv m → m.root_.size = n →
      ∃ m', Map.eraseFront this n m = .returns m' () ∧ MapInv m' ∧ MinInv m' ∧
        m'.root_.size = 0 := by
  induction n with
  | zero =>
    intro m hinv hmin hsz
    exact ⟨m, rfl, hinv, hmin, hsz⟩
  | succ n ih =>
    intro m hinv hmin hsz
    obtain ⟨m₁, h1, h2, h3, h4⟩ := Map.erase_begin this m n hinv hmin hsz
    obtain ⟨m', g1, g2, g3, g4⟩ := ih m₁ h2 h3 h4
    refine ⟨m', ?_, g2, g3, g4⟩
    simp only [Map.eraseFront, h1, g1]

/-! ## Inserting a key that is present -/

/-- On a map with the invariants and a black root, `insert` of a present key returns and
changes nothing but colours and shape. -/
theorem Map.insert_present [LinearOrder K] (this : Nat) (m : Map K V) (k : K) (v : V)
    (a : Nat) (hinv : MapInv m) (hroot : RootBlack m.root_) (hk : k ∈ m.root_.keys) :
    ∃ m' p v', Map.insert this m k v a = .returns m' (⟨some p, this⟩, false) ∧
      (p, k, v') ∈ m.root_.toList ∧ m'.root_.toList = m.root_.toList ∧
      m'.size_ = m.size_ ∧ m'.min_node_ = m.min_node_ ∧ m'.max_node_ = m.max_node_ ∧
      Good m'.root_ := by
  obtain ⟨hb, hg, hn, hs⟩ := hinv
  obtain ⟨res, hres, hgood⟩ := InsertNode_good m.root_ k v a hg hroot
  have hpost := InsertNode_content m.root_ k v a res hres hb
  rcases hpost with ⟨hsec, hl, v', hv'⟩ | ⟨-, -, L₁, L₂, e1, -, e3, e4⟩
  · refine ⟨⟨res.root_, m.min_node_, m.max_node_, m.size_⟩, res.first, v', ?_, hv', hl, rfl,
      rfl, rfl, hgood⟩
    simp [Map.insert, hres, hsec]
  · exfalso
    simp only [Tree.keys, e1, List.map_append, List.mem_append, List.mem_map] at hk
    rcases hk with ⟨e, he, hek⟩ | ⟨e, he, hek⟩
    · exact absurd (hek ▸ e3 e he) (lt_irrefl _)
    · exact absurd (hek ▸ e4 e he) (lt_irrefl _)

end sjtu


namespace sjtu

variable {K V : Type}

open Tree

/-! ## Iteration, whole-map operations and the priority queue: the properties -/

theorem reachable_mapSeven : Reachable 0 mapSeven := ⟨opsSeven, by decide⟩

theorem reachableAll_of_run [LinearOrder K] (this : Nat) (ops : List (Op K V)) :
    ∀ (m m' : Map K V), ReachableAll this m → Map.run this m ops = some m' →
      ReachableAll this m' := by
  induction ops with
  | nil =>
    intro m m' hm h
    simp only [Map.run, Option.some.injEq] at h
    exact h ▸ hm
  | cons op ops ih =>
    intro m m' hm h
    simp only [Map.run] at h
    split at h
    · rename_i m'' hm''
      exact ih m'' m' (ReachableAll.step this m m'' op hm hm'') h
    · simp at h

theorem reachableAll_of_reachable [LinearOrder K] (this : Nat) (m : Map K V)
    (h : Reachable this m) : ReachableAll this m := by
  obtain ⟨ops, hops⟩ := h
  exact reachableAll_of_run this ops _ m (ReachableAll.empty this) hops

theorem reachableAll_copySmall :
    ReachableAll 1 (Map.copy mapSmall (fun a => a + 10)) :=
  ReachableAll.copy 1 0 mapSmall (fun a => a + 10)
    (reachableAll_of_reachable 0 mapSmall reachable_mapSmall)
    (fun a _ b _ hab => by simpa using hab)

theorem size_zero_iff (t : Tree K V) : t.size = 0 ↔ t = nil := by
  cases t with
  | nil => simp [Tree.size]
  | node c a k v l r => simp [Tree.size]

theorem atLeastKey_first [LinearOrder K] {t : Tree K V} (hb : BST t)
    {L₂ : List (Nat × K × V)} {p : Nat} {k : K} {v : V} (h : t.toList = (p, k, v) :: L₂) :
    AtLeastKey t (some p) := by
  have hs : (((p, k, v) :: L₂).map (fun y => y.2.1)).Pairwise (· < ·) := by
    simpa only [BST, keys, h] using hb
  refine ⟨p, k, v, rfl, by rw [h]; simp, ?_⟩
  intro e he
  rw [h] at he
  simp only [List.mem_cons] at he
  simp only [List.map_cons, List.pairwise_cons, List.mem_map] at hs
  rcases he with rfl | he
  · exact le_refl _
  · exact le_of_lt (hs.1 _ ⟨e, he, rfl⟩)

theorem atGreatestKey_last [LinearOrder K] {t : Tree K V} (hb : BST t)
    {L₁ : List (Nat × K × V)} {p : Nat} {k : K} {v : V} (h : t.toList = L₁ ++ [(p, k, v)]) :
    AtGreatestKey t (some p) := by
  have hs : ((L₁ ++ [(p, k, v)]).map (fun y => y.2.1)).Pairwise (· < ·) := by
    simpa only [BST, keys, h] using hb
  simp only [List.map_append, List.map_cons, List.map_nil, List.pairwise_append,
    List.mem_map, List.mem_singleton] at hs
  refine ⟨p, k, v, rfl, by rw [h]; simp, ?_⟩
  intro e he
  rw [h] at he
  simp only [List.mem_append, List.mem_singleton] at he
  rcases he with he | rfl
  · exact le_of_lt (hs.2.2 _ ⟨e, he, rfl⟩ _ rfl)
  · exact le_refl _

theorem natLess_swo : IsStrictWeakOrder Nat (fun a b => natLess a b = true) where
  irrefl := by intro a; simp [natLess]
  trans := by intro a b c; simp only [natLess, decide_eq_true_eq]; omega
  incomp_trans := by intro a b c; simp only [natLess, decide_eq_true_eq]; omega

/-- C11: in every state reachable by `insert`, `operator[]` and `erase`, the loop that starts
at `begin()` and applies `++` until the iterator equals `end()` stops, at `end()`, within as
many steps as the tree has nodes; the entries it visits are the in-order traversal of the
tree, each node once, and their keys are strictly increasing. -/
theorem forward_iteration_in_order [LinearOrder K] (this : Nat) (m : Map K V)
    (h : Reachable this m) :
    m.forward this = .returns (m.end_ this) m.root_.entries ∧
      (m.root_.entries.map (fun e => e.1)).Pairwise (· < ·) ∧
      m.root_.entries.length = m.root_.size := by
  have hinv := reachable_inv this m h
  refine ⟨forward_spec this m hinv (reachable_minInv this m h), ?_, ?_⟩
  · have := hinv.1
    simpa only [BST, Tree.keys, Tree.entries, List.map_map, Function.comp_def] using this
  · simp [Tree.entries, size_eq_length]

theorem forward_iteration_in_order_witness :
    Reachable 0 mapSeven ∧
      (mapSeven.forward 0 = .returns (mapSeven.end_ 0) mapSeven.root_.entries ∧
        (mapSeven.root_.entries.map (fun e => e.1)).Pairwise (· < ·) ∧
        mapSeven.root_.entries.length = mapSeven.root_.size) :=
  ⟨reachable_mapSeven, forward_iteration_in_order 0 mapSeven reachable_mapSeven⟩

/-- C12: the claim fails on the code: after `m[1]` on the empty map the tree holds the entry
of key 1 and `max_node_` is still `nullptr`, so `--` applied to `end()` returns the end
sentinel again instead of an iterator at the entry with the greatest key. -/
theorem decrement_end_after_index :
    Map.run 0 (Map.empty : Map Nat Nat) opsIndex = some mapIndex ∧
      mapIndex.root_.entries = [(1, 0)] ∧
      (mapIndex.end_ 0).preDec mapIndex = .returns (mapIndex.end_ 0) (mapIndex.end_ 0) ∧
      ¬ AtGreatestKey mapIndex.root_ (mapIndex.end_ 0).node_ := by
  refine ⟨by decide, by decide, by decide, ?_⟩
  exact not_atGreatestKey_none _

/-- C13: in every state reachable by `insert`, `operator[]`, `erase`, `clear`, copy
construction and copy assignment, `size()` is the number of nodes reachable from the root,
full forward iteration from `begin()` to `end()` returns and produces that many elements, and
`empty()` holds exactly when that number is 0. -/
theorem size_counts_nodes [LinearOrder K] (this : Nat) (m : Map K V)
    (h : ReachableAll this m) :
    m.size = m.root_.size ∧
      (∃ es, m.forward this = .returns (m.end_ this) es ∧ es.length = m.size) ∧
      (m.empty_ = true ↔ m.root_.size = 0) := by
  obtain ⟨hinv, hmin⟩ := reachableAll_inv this m h
  have hs : m.size_ = m.root_.size := hinv.2.2.2
  refine ⟨hs, ⟨m.root_.entries, forward_spec this m hinv hmin, ?_⟩, ?_⟩
  · simp [Tree.entries, Map.size, hs, size_eq_length]
  · simp [Map.empty_, hs]

theorem size_counts_nodes_witness :
    ReachableAll 1 (Map.copy mapSmall (fun a => a + 10)) ∧
      ((Map.copy mapSmall (fun a => a + 10)).size =
          (Map.copy mapSmall (fun a => a + 10)).root_.size ∧
        (∃ es, (Map.copy mapSmall (fun a => a + 10)).forward 1 =
            .returns ((Map.copy mapSmall (fun a => a + 10)).end_ 1) es ∧
          es.length = (Map.copy mapSmall (fun a => a + 10)).size) ∧
        ((Map.copy mapSmall (fun a => a + 10)).empty_ = true ↔
          (Map.copy mapSmall (fun a => a + 10)).root_.size = 0)) :=
  ⟨reachableAll_copySmall, size_counts_nodes 1 _ reachableAll_copySmall⟩

/-- C14: the claim fails on the code: after `insert(1)` and then `m[2]` the node with the
greatest key is the one of key 2, at address 2, and `max_node_` still references the node of
key 1, at address 1; `operator[]` updates `min_node_` only. -/
theorem index_leaves_max_node_stale :
    Map.run 0 (Map.empty : Map Nat Nat) opsInsertIndex = some mapInsertIndex ∧
      mapInsertIndex.max_node_ = some 1 ∧ mapInsertIndex.root_.keyAt 1 = some 1 ∧
      GetMaximum mapInsertIndex.root_ = some 2 ∧ mapInsertIndex.root_.keyAt 2 = some 2 := by
  decide

/-- Beside C15, what the code does keep: for a reachable map and an `iterator`, or a
`const_iterator` whose `map_ptr_` has a value, as `cbegin()` and `cend()` build it, that is
the end sentinel or references a node of the map: `++iter` and `iter++` throw
`invalid_iterator` exactly from the end sentinel and return otherwise, and from the entry
with the greatest key they leave the iterator at the end sentinel; `--iter` and `iter--`
throw `invalid_iterator` exactly when the iterator is at the entry with the least key or is
the sentinel of an empty map, and return otherwise. -/
theorem iterator_step_errors [LinearOrder K] (this : Nat) (m : Map K V)
    (h : Reachable this m) (it : Iter) (c : ConstIter) (hit : InTree m.root_ it.node_)
    (hc : InTree m.root_ c.node_) (hcm : c.map_ptr_ ≠ none) :
    ((((it.preInc m).Throws .invalid_iterator ↔ it.node_ = none) ∧
        ((it.preInc m).Throws .invalid_iterator ∨ (it.preInc m).Returns)) ∧
      (((it.postInc m).Throws .invalid_iterator ↔ it.node_ = none) ∧
        ((it.postInc m).Throws .invalid_iterator ∨ (it.postInc m).Returns)) ∧
      (AtGreatestKey m.root_ it.node_ →
        (it.preInc m).ReturnsAt ⟨none, it.map_ptr_⟩ ∧
        (it.postInc m).ReturnsAt ⟨none, it.map_ptr_⟩) ∧
      (((it.preDec m).Throws .invalid_iterator ↔
          (AtLeastKey m.root_ it.node_ ∨ (it.node_ = none ∧ m.root_ = nil))) ∧
        ((it.preDec m).Throws .invalid_iterator ∨ (it.preDec m).Returns)) ∧
      (((it.postDec m).Throws .invalid_iterator ↔
          (AtLeastKey m.root_ it.node_ ∨ (it.node_ = none ∧ m.root_ = nil))) ∧
        ((it.postDec m).Throws .invalid_iterator ∨ (it.postDec m).Returns))) ∧
    ((((c.preInc m).Throws .invalid_iterator ↔ c.node_ = none) ∧
        ((c.preInc m).Throws .invalid_iterator ∨ (c.preInc m).Returns)) ∧
      (((c.postInc m).Throws .invalid_iterator ↔ c.node_ = none) ∧
        ((c.postInc m).Throws .invalid_iterator ∨ (c.postInc m).Returns)) ∧
      (AtGreatestKey m.root_ c.node_ →
        (c.preInc m).ReturnsAt ⟨none, c.map_ptr_⟩ ∧
        (c.postInc m).ReturnsAt ⟨none, c.map_ptr_⟩) ∧
      (((c.preDec m).Throws .invalid_iterator ↔
          (AtLeastKey m.root_ c.node_ ∨ (c.node_ = none ∧ m.root_ = nil))) ∧
        ((c.preDec m).Throws .invalid_iterator ∨ (c.preDec m).Returns)) ∧
      (((c.postDec m).Throws .invalid_iterator ↔
          (AtLeastKey m.root_ c.node_ ∨ (c.node_ = none ∧ m.root_ = nil))) ∧
        ((c.postDec m).Throws .invalid_iterator ∨ (c.postDec m).Returns))) :=
  ⟨iter_errors m (reachable_inv this m h) it hit,
    constIter_errors m (reachable_inv this m h) c hc hcm⟩

theorem iterator_step_errors_witness :
    Reachable 0 mapSeven ∧ InTree mapSeven.root_ (mapSeven.begin_ 0).node_ ∧
      InTree mapSeven.root_ (mapSeven.cbegin 0).node_ ∧ (mapSeven.cbegin 0).map_ptr_ ≠ none ∧
    (((((mapSeven.begin_ 0).preInc mapSeven).Throws .invalid_iterator ↔ (mapSeven.begin_ 0).node_ = none) ∧
        (((mapSeven.begin_ 0).preInc mapSeven).Throws .invalid_iterator ∨ ((mapSeven.begin_ 0).preInc mapSeven).Returns)) ∧
      ((((mapSeven.begin_ 0).postInc mapSeven).Throws .invalid_iterator ↔ (mapSeven.begin_ 0).node_ = none) ∧
        (((mapSeven.begin_ 0).postInc mapSeven).Throws .invalid_iterator ∨ ((mapSeven.begin_ 0).postInc mapSeven).Returns)) ∧
      (AtGreatestKey mapSeven.root_ (mapSeven.begin_ 0).node_ →
        ((mapSeven.begin_ 0).preInc mapSeven).ReturnsAt ⟨none, (mapSeven.begin_ 0).map_ptr_⟩ ∧
        ((mapSeven.begin_ 0).postInc mapSeven).ReturnsAt ⟨none, (mapSeven.begin_ 0).map_ptr_⟩) ∧
      ((((mapSeven.begin_ 0).preDec mapSeven).Throws .invalid_iterator ↔
          (AtLeastKey mapSeven.root_ (mapSeven.begin_ 0).node_ ∨ ((mapSeven.begin_ 0).node_ = none ∧ mapSeven.root_ = nil))) ∧
        (((mapSeven.begin_ 0).preDec mapSeven).Throws .invalid_iterator ∨ ((mapSeven.begin_ 0).preDec mapSeven).Returns)) ∧
      ((((mapSeven.begin_ 0).postDec mapSeven).Throws .invalid_iterator ↔
          (AtLeastKey mapSeven.root_ (mapSeven.begin_ 0).node_ ∨ ((mapSeven.begin_ 0).node_ = none ∧ mapSeven.root_ = nil))) ∧
        (((mapSeven.begin_ 0).postDec mapSeven).Throws .invalid_iterator ∨ ((mapSeven.begin_ 0).postDec mapSeven).Returns))) ∧
    (((((mapSeven.cbegin 0).preInc mapSeven).Throws .invalid_iterator ↔ (mapSeven.cbegin 0).node_ = none) ∧
        (((mapSeven.cbegin 0).preInc mapSeven).Throws .invalid_iterator ∨ ((mapSeven.cbegin 0).preInc mapSeven).Returns)) ∧
      ((((mapSeven.cbegin 0).postInc mapSeven).Throws .invalid_iterator ↔ (mapSeven.cbegin 0).node_ = none) ∧
        (((mapSeven.cbegin 0).postInc mapSeven).Throws .invalid_iterator ∨ ((mapSeven.cbegin 0).postInc mapSeven).Returns)) ∧
      (AtGreatestKey mapSeven.root_ (mapSeven.cbegin 0).node_ →
        ((mapSeven.cbegin 0).preInc mapSeven).ReturnsAt ⟨none, (mapSeven.cbegin 0).map_ptr_⟩ ∧
        ((mapSeven.cbegin 0).postInc mapSeven).ReturnsAt ⟨none, (mapSeven.cbegin 0).map_ptr_⟩) ∧
      ((((mapSeven.cbegin 0).preDec mapSeven).Throws .invalid_iterator ↔
          (AtLeastKey mapSeven.root_ (mapSeven.cbegin 0).node_ ∨ ((mapSeven.cbegin 0).node_ = none ∧ mapSeven.root_ = nil))) ∧
        (((mapSeven.cbegin 0).preDec mapSeven).Throws .invalid_iterator ∨ ((mapSeven.cbegin 0).preDec mapSeven).Returns)) ∧
      ((((mapSeven.cbegin 0).postDec mapSeven).Throws .invalid_iterator ↔
          (AtLeastKey mapSeven.root_ (mapSeven.cbegin 0).node_ ∨ ((mapSeven.cbegin 0).node_ = none ∧ mapSeven.root_ = nil))) ∧
        (((mapSeven.cbegin 0).postDec mapSeven).Throws .invalid_iterator ∨ ((mapSeven.cbegin 0).postDec mapSeven).Returns))) :=
  ⟨reachable_mapSeven, Or.inr ⟨4, by decide, rfl⟩, Or.inr ⟨4, by decide, rfl⟩, by decide,
    iterator_step_errors 0 mapSeven reachable_mapSeven (mapSeven.begin_ 0) (mapSeven.cbegin 0)
      (Or.inr ⟨4, by decide, rfl⟩) (Or.inr ⟨4, by decide, rfl⟩) (by decide)⟩

/-- C15: the claim fails on the code for a `const_iterator` built by the copy constructor or
by the conversion from `iterator`, which give `map_ptr_` no value (the defect of C16): from
the end sentinel `--iter` and `iter--` read `map_ptr_->root_`, which is undefined. On the
reachable map `mapSmall`, of three entries, `--` from `cend()` returns at the entry of the
greatest key, but from a copy of `cend()`, or from `end()` converted, it is undefined where
the claim has it return; on the empty map `--` from `cend()` throws `invalid_iterator`, but
from a copy of `cend()` it is undefined where the claim has it throw. -/
theorem copied_const_iterator_decrement :
    Reachable 0 mapSmall ∧ Reachable 0 (Map.empty : Map Nat Nat) ∧
      (mapSmall.cend 0).preDec mapSmall = .returns ⟨some 3, some 0⟩ ⟨some 3, some 0⟩ ∧
      (ConstIter.copy (mapSmall.cend 0)).preDec mapSmall = .undefined .uninitialised ∧
      (ConstIter.copy (mapSmall.cend 0)).postDec mapSmall = .undefined .uninitialised ∧
      (ConstIter.ofIter (mapSmall.end_ 0)).preDec mapSmall = .undefined .uninitialised ∧
      (ConstIter.ofIter (mapSmall.end_ 0)).postDec mapSmall = .undefined .uninitialised ∧
      ((Map.empty : Map Nat Nat).cend 0).preDec (Map.empty : Map Nat Nat) =
        .throws ((Map.empty : Map Nat Nat).cend 0) .invalid_iterator ∧
      (ConstIter.copy ((Map.empty : Map Nat Nat).cend 0)).preDec (Map.empty : Map Nat Nat) =
        .undefined .uninitialised ∧
      (ConstIter.copy ((Map.empty : Map Nat Nat).cend 0)).postDec (Map.empty : Map Nat Nat) =
        .undefined .uninitialised :=
  ⟨reachable_mapSmall, ⟨[], rfl⟩, by decide, by decide, by decide, by decide, by decide,
    by decide, by decide, by decide⟩

/-- C16: the claim fails on the code: a `const_iterator` built by the copy constructor or by
the conversion from `iterator` has no value in `map_ptr_`, so comparing it with the iterator
it was built from reads an uninitialised member instead of giving `true`. -/
theorem copied_const_iterator_compare :
    (ConstIter.copy (mapSmall.cbegin 0)).eq (mapSmall.cbegin 0) = .fail .uninitialised ∧
      (ConstIter.copy (mapSmall.cbegin 0)).ne (mapSmall.cbegin 0) = .fail .uninitialised ∧
      (mapSmall.begin_ 0).eqConst (ConstIter.ofIter (mapSmall.begin_ 0)) =
        .fail .uninitialised ∧
      (ConstIter.ofIter (mapSmall.begin_ 0)).eqIter (mapSmall.begin_ 0) =
        .fail .uninitialised := by
  decide

/-- C17: on a reachable map holding `n` entries, `erase(begin())` called `n` times returns
every time, and the state it ends in has `size() == 0`, an empty root and
`begin() == end()`. -/
theorem erase_begin_until_empty [LinearOrder K] (this : Nat) (m : Map K V)
    (h : Reachable this m) :
    ∃ m', Map.eraseFront this m.size m = .returns m' () ∧ m'.size = 0 ∧ m'.root_ = nil ∧
      (m'.begin_ this).eq (m'.end_ this) = true := by
  have hinv := reachable_inv this m h
  have hmin := reachable_minInv this m h
  obtain ⟨m', h1, h2, h3, h4⟩ :=
    Map.eraseFront_spec this m.size m hinv hmin hinv.2.2.2.symm
  have hnil := (size_zero_iff m'.root_).mp h4
  refine ⟨m', h1, ?_, hnil, ?_⟩
  · have := h2.2.2.2
    simp only [Map.size, this, h4]
  · unfold MinInv at h3
    rw [hnil] at h3
    simp [Iter.eq, Map.begin_, Map.end_, h3, GetMinimum]

theorem erase_begin_until_empty_witness :
    Reachable 0 mapSeven ∧
      ∃ m', Map.eraseFront 0 mapSeven.size mapSeven = .returns m' () ∧ m'.size = 0 ∧
        m'.root_ = nil ∧ (m'.begin_ 0).eq (m'.end_ 0) = true :=
  ⟨reachable_mapSeven, erase_begin_until_empty 0 mapSeven reachable_mapSeven⟩

/-- C18: for every map `m`, the copy constructor builds a tree with the shape, colours, keys
and values of the tree of `m`, every node at the address the allocator gave it, with every
`parent_` member holding the address of the node above and `nullptr` at the root; the size
is that of `m`; the cached minimum and maximum reference the first and the last node of the
in-order sequence of the copy, which hold the least and the greatest key when the tree of `m`
is a search tree, and are `nullptr` when it is empty. Copy assignment from another map builds
the same state, and assignment of a map to itself leaves it as it is. -/
theorem copy_is_structural [LinearOrder K] (m m₀ : Map K V) (alloc : Nat → Nat)
    (this that : Nat) :
    (CopyTree alloc m.root_).Consistent none ∧
      (Map.copy m alloc).root_ = (CopyTree alloc m.root_).toTree ∧
      (Map.copy m alloc).root_ = m.root_.rename alloc ∧
      (Map.copy m alloc).root_.entries = m.root_.entries ∧
      (Map.copy m alloc).size_ = m.size_ ∧
      (Map.copy m alloc).min_node_ =
        (Map.copy m alloc).root_.toList.head?.map (fun e => e.1) ∧
      (Map.copy m alloc).max_node_ =
        (Map.copy m alloc).root_.toList.getLast?.map (fun e => e.1) ∧
      (BST m.root_ → m.root_ ≠ nil →
        AtLeastKey (Map.copy m alloc).root_ (Map.copy m alloc).min_node_ ∧
        AtGreatestKey (Map.copy m alloc).root_ (Map.copy m alloc).max_node_) ∧
      (this ≠ that → Map.assign this m₀ that m alloc = Map.copy m alloc) ∧
      Map.assign this m this m alloc = m := by
  have hroot : (Map.copy m alloc).root_ = m.root_.rename alloc := by
    simp only [Map.copy, toTree_CopyTree]
  have hmin : (Map.copy m alloc).min_node_ =
      (Map.copy m alloc).root_.toList.head?.map (fun e => e.1) := by
    simp only [Map.copy]
    split
    · rename_i hnil
      rw [isNil_iff_toList] at hnil
      rw [hnil]; rfl
    · exact getMinimum_eq _
  have hmax : (Map.copy m alloc).max_node_ =
      (Map.copy m alloc).root_.toList.getLast?.map (fun e => e.1) := by
    simp only [Map.copy]
    split
    · rename_i hnil
      rw [isNil_iff_toList] at hnil
      rw [hnil]; rfl
    · exact getMaximum_eq _
  refine ⟨consistent_CopyTree alloc m.root_, rfl, hroot, ?_, rfl, hmin, hmax, ?_, ?_, ?_⟩
  · rw [hroot, entries_rename]
  · intro hb hne
    have hb' : BST (Map.copy m alloc).root_ := by
      rw [hroot]; simpa only [BST, keys_rename] using hb
    have hne' : (Map.copy m alloc).root_.toList ≠ [] := by
      rw [hroot, toList_rename]
      intro h0
      have : m.root_.toList = [] := by simpa using h0
      exact hne (by
        cases hm : m.root_ with
        | nil => rfl
        | node c a k v l r => rw [hm] at this; simp at this)
    constructor
    · obtain ⟨⟨p, k, v⟩, rest, hl⟩ := List.exists_cons_of_ne_nil hne'
      rw [hmin, hl]
      exact atLeastKey_first hb' hl
    · obtain ⟨front, ⟨p, k, v⟩, hl⟩ := (List.eq_nil_or_concat _).resolve_left hne'
      have hl' : (Map.copy m alloc).root_.toList = front ++ [(p, k, v)] := by simpa using hl
      have hlast : (Map.copy m alloc).root_.toList.getLast? = some (p, k, v) := by
        rw [hl']; simp
      rw [hmax, hlast]
      exact atGreatestKey_last hb' hl'
  · intro hne
    simp [Map.assign, Map.copy, hne]
  · simp [Map.assign]

/-- C19, the claim as stated fails on the code: in the reachable state `mapSeven`, whose root
is black, `insert` of the key 1, which is present, returns `inserted = false` and leaves a
tree in which node 3 has turned red and its children 1 and 4 black. -/
theorem insert_present_key_recolours :
    Reachable 0 mapSeven ∧ RootBlack mapSeven.root_ ∧ 1 ∈ mapSeven.root_.keys ∧
      Map.insert 0 mapSeven 1 11 8 = .returns mapSevenAgain (⟨some 4, 0⟩, false) ∧
      mapSevenAgain.root_ ≠ mapSeven.root_ := by
  refine ⟨reachable_mapSeven, by decide, by decide, by decide, by decide⟩

/-- C19 as amended: on a reachable map whose root is black, `insert` of a key that is present
returns `inserted = false` with an iterator at the node that holds the key; the in-order
sequence of nodes with their keys and values, the size and the cached minimum and maximum are
what they were, and the tree still has no red node with a red child and the same number of
black nodes on every path. Colours and shape may differ. -/
theorem insert_present_key_keeps_entries [LinearOrder K] (this : Nat) (m : Map K V) (k : K)
    (v : V) (a : Nat) (h : Reachable this m) (hroot : RootBlack m.root_)
    (hk : k ∈ m.root_.keys) :
    ∃ m' p v', Map.insert this m k v a = .returns m' (⟨some p, this⟩, false) ∧
      (p, k, v') ∈ m.root_.toList ∧ m'.root_.toList = m.root_.toList ∧
      m'.size_ = m.size_ ∧ m'.min_node_ = m.min_node_ ∧ m'.max_node_ = m.max_node_ ∧
      NoRedRed m'.root_ ∧ UniformBlack m'.root_ := by
  obtain ⟨m', p, v', h1, h2, h3, h4, h5, h6, h7⟩ :=
    Map.insert_present this m k v a (reachable_inv this m h) hroot hk
  exact ⟨m', p, v', h1, h2, h3, h4, h5, h6, (good_iff _).mp h7⟩

theorem insert_present_key_keeps_entries_witness :
    Reachable 0 mapSeven ∧ RootBlack mapSeven.root_ ∧ 1 ∈ mapSeven.root_.keys ∧
      ∃ m' p v', Map.insert 0 mapSeven 1 11 8 = .returns m' (⟨some p, 0⟩, false) ∧
        (p, 1, v') ∈ mapSeven.root_.toList ∧ m'.root_.toList = mapSeven.root_.toList ∧
        m'.size_ = mapSeven.size_ ∧ m'.min_node_ = mapSeven.min_node_ ∧
        m'.max_node_ = mapSeven.max_node_ ∧ NoRedRed m'.root_ ∧ UniformBlack m'.root_ :=
  ⟨reachable_mapSeven, by decide, by decide,
    insert_present_key_keeps_entries 0 mapSeven 1 11 8 reachable_mapSeven (by decide)
      (by decide)⟩

end sjtu


namespace sjtu

variable {K V : Type}

open Tree

/-! ## Queue errors and merge, navigation, and what `EraseNode` leaves alone -/

theorem natHeap_ordered :
    HeapOrdered natLess ((priority_queue.empty.push natLess 3).push natLess 5).root_ :=
  (built_inv natLess natLess_swo _ _ (Built.push _ _ 5 (Built.push _ _ 3 Built.empty))).1

theorem natHeap_ordered_one :
    HeapOrdered natLess (priority_queue.empty.push natLess 4).root_ :=
  (built_inv natLess natLess_swo _ _ (Built.push _ _ 4 Built.empty)).1

/-- Sorted keys around an entry: everything before it is smaller, everything after it is
greater. -/
theorem sorted_split [LinearOrder K] {t : Tree K V} (hb : BST t)
    {L₁ L₂ : List (Nat × K × V)} {p : Nat} {k : K} {v : V}
    (h : t.toList = L₁ ++ (p, k, v) :: L₂) :
    (∀ e ∈ L₁, e.2.1 < k) ∧ (∀ e ∈ L₂, k < e.2.1) ∧
      (L₂.map (fun y => y.2.1)).Pairwise (· < ·) ∧
      (L₁.map (fun y => y.2.1)).Pairwise (· < ·) := by
  have hs : ((L₁ ++ (p, k, v) :: L₂).map (fun y => y.2.1)).Pairwise (· < ·) := by
    simpa only [BST, keys, h] using hb
  simp only [List.map_append, List.map_cons, List.pairwise_append, List.pairwise_cons,
    List.mem_map, List.mem_cons] at hs
  obtain ⟨h1, ⟨h2, h4⟩, h3⟩ := hs
  exact ⟨fun e he => h3 _ ⟨e, he, rfl⟩ _ (Or.inl rfl), fun e he => h2 _ ⟨e, he, rfl⟩, h4, h1⟩

/-- C21: for every queue, `top()` and `pop()` throw `container_is_empty` exactly when
`size()` is 0, which is when `empty()` holds and, for a queue reached by `push`, `pop` and
`merge`, when it holds no element; they throw nothing else, and a call that throws leaves
the queue as it was. -/
theorem top_pop_empty_errors {T : Type} [DecidableEq T] (cmp : T → T → Bool)
    (q : priority_queue T) :
    ((q.top).Throws .container_is_empty ↔ q.size = 0) ∧
      ((q.pop cmp).Throws .container_is_empty ↔ q.size = 0) ∧
      (∀ s e, q.top = .throws s e → s = q ∧ e = .container_is_empty) ∧
      (∀ s e, q.pop cmp = .throws s e → s = q ∧ e = .container_is_empty) ∧
      (q.empty_ = true ↔ q.size = 0) ∧
      (∀ M, IsStrictWeakOrder T (fun a b => cmp a b = true) → Built cmp q M →
        (q.size = 0 ↔ M = 0)) := by
  refine ⟨?_, ?_, ?_, ?_, ?_, ?_⟩
  · unfold priority_queue.top Call.Throws priority_queue.size
    by_cases h : q.size_ = 0
    · simp [h]
    · cases hr : q.root_ <;> simp [h]
  · unfold priority_queue.pop Call.Throws priority_queue.size
    by_cases h : q.size_ = 0
    · simp [h]
    · cases hr : q.root_ <;> simp [h]
  · intro s e h
    unfold priority_queue.top at h
    split at h
    · simp only [Call.throws.injEq] at h
      exact ⟨h.1.symm, h.2.symm⟩
    · split at h <;> simp at h
  · intro s e h
    unfold priority_queue.pop at h
    split at h
    · simp only [Call.throws.injEq] at h
      exact ⟨h.1.symm, h.2.symm⟩
    · split at h <;> simp at h
  · simp [priority_queue.empty_, priority_queue.size]
  · intro M hc hM
    obtain ⟨-, -, h3⟩ := built_inv cmp hc q M hM
    simp [priority_queue.size, h3]

/-- C22: for a strict weak ordering and two distinct heap-ordered queues `a` and `b`,
`a.merge(b)` leaves `a` holding the multiset union of the two previous contents, with
`a.size()` the sum of the two previous sizes and the heap order intact, and leaves `b` with
no element, `b.size() == 0` and `b.empty()`. -/
theorem merge_unites_contents {T : Type} (cmp : T → T → Bool)
    (hc : IsStrictWeakOrder T (fun a b => cmp a b = true)) (a b : priority_queue T)
    (ha : HeapOrdered cmp a.root_) (hb : HeapOrdered cmp b.root_) :
    (a.merge cmp b).1.contents = a.contents + b.contents ∧
      (a.merge cmp b).1.size = a.size + b.size ∧
      HeapOrdered cmp (a.merge cmp b).1.root_ ∧
      (a.merge cmp b).2.contents = 0 ∧ (a.merge cmp b).2.size = 0 ∧
      (a.merge cmp b).2.empty_ = true := by
  refine ⟨?_, rfl, MergeTree_heapOrdered cmp hc _ _ ha hb, rfl, rfl, rfl⟩
  simp only [priority_queue.contents, priority_queue.merge]
  exact MergeTree_elems cmp a.root_ b.root_

theorem merge_unites_contents_witness :
    IsStrictWeakOrder Nat (fun a b => natLess a b = true) ∧
      HeapOrdered natLess ((priority_queue.empty.push natLess 3).push natLess 5).root_ ∧
      HeapOrdered natLess (priority_queue.empty.push natLess 4).root_ ∧
      ((((priority_queue.empty.push natLess 3).push natLess 5).merge natLess
            (priority_queue.empty.push natLess 4)).1.contents =
          ((priority_queue.empty.push natLess 3).push natLess 5).contents +
            (priority_queue.empty.push natLess 4).contents ∧
        (((priority_queue.empty.push natLess 3).push natLess 5).merge natLess
            (priority_queue.empty.push natLess 4)).1.size =
          ((priority_queue.empty.push natLess 3).push natLess 5).size +
            (priority_queue.empty.push natLess 4).size ∧
        HeapOrdered natLess
          (((priority_queue.empty.push natLess 3).push natLess 5).merge natLess
            (priority_queue.empty.push natLess 4)).1.root_ ∧
        (((priority_queue.empty.push natLess 3).push natLess 5).merge natLess
            (priority_queue.empty.push natLess 4)).2.contents = 0 ∧
        (((priority_queue.empty.push natLess 3).push natLess 5).merge natLess
            (priority_queue.empty.push natLess 4)).2.size = 0 ∧
        (((priority_queue.empty.push natLess 3).push natLess 5).merge natLess
            (priority_queue.empty.push natLess 4)).2.empty_ = true) :=
  ⟨natLess_swo, natHeap_ordered, natHeap_ordered_one,
    merge_unites_contents natLess natLess_swo _ _ natHeap_ordered natHeap_ordered_one⟩

/-- C25: in a search tree whose nodes have distinct addresses, for the node `p` holding the
key `k`: `FindNext(p)` returns the node holding the smallest key greater than `k`, and
`nullptr` exactly when no key is greater than `k`; `FindPrev(p)` returns the node holding the
greatest key smaller than `k`, and `nullptr` exactly when no key is smaller than `k`;
`FindPrev` of the node `FindNext` returns is `p`, and `FindNext` of the node `FindPrev`
returns is `p`. -/
theorem findNext_findPrev_spec [LinearOrder K] (t : Tree K V) (hb : BST t)
    (hn : t.addrs.Nodup) (p : Nat) (k : K) (v : V) (hp : (p, k, v) ∈ t.toList) :
    ∃ nx pv, FindNext t p = .ok nx ∧ FindPrev t p = .ok pv ∧
      (nx = none ↔ ∀ e ∈ t.toList, e.2.1 ≤ k) ∧
      (∀ q, nx = some q → ∃ k' v', (q, k', v') ∈ t.toList ∧ k < k' ∧
        (∀ e ∈ t.toList, k < e.2.1 → k' ≤ e.2.1) ∧ FindPrev t q = .ok (some p)) ∧
      (pv = none ↔ ∀ e ∈ t.toList, k ≤ e.2.1) ∧
      (∀ q, pv = some q → ∃ k' v', (q, k', v') ∈ t.toList ∧ k' < k ∧
        (∀ e ∈ t.toList, e.2.1 < k → e.2.1 ≤ k') ∧ FindNext t q = .ok (some p)) := by
  obtain ⟨L₁, L₂, hsplit⟩ := List.append_of_mem hp
  obtain ⟨h1, h2, h3, h4⟩ := sorted_split hb hsplit
  refine ⟨_, _, FindNext_spec t hn L₁ L₂ p k v hsplit, FindPrev_spec t hn L₁ L₂ p k v hsplit,
    ?_, ?_, ?_, ?_⟩
  · constructor
    · intro hnone e he
      have hL₂ : L₂ = [] := by
        cases L₂ with
        | nil => rfl
        | cons x xs => simp at hnone
      rw [hsplit, hL₂] at he
      simp only [List.mem_append, List.mem_singleton] at he
      rcases he with he | rfl
      · exact le_of_lt (h1 e he)
      · exact le_refl _
    · intro hall
      cases L₂ with
      | nil => rfl
      | cons x xs =>
        have := hall x (by rw [hsplit]; simp)
        exact absurd (h2 x (List.mem_cons_self _ _)) (not_lt_of_ge this)
  · intro q hq
    cases L₂ with
    | nil => simp at hq
    | cons x xs =>
      obtain ⟨q', k', v'⟩ := x
      simp only [List.head?_cons, Option.map_some', Option.some.injEq] at hq
      subst hq
      refine ⟨k', v', by rw [hsplit]; simp, h2 _ (List.mem_cons_self _ _), ?_, ?_⟩
      · intro e he hke
        rw [hsplit] at he
        simp only [List.mem_append, List.mem_cons] at he
        rcases he with he | rfl | rfl | he
        · exact absurd hke (not_lt_of_gt (h1 e he))
        · exact absurd hke (lt_irrefl _)
        · exact le_refl _
        · simp only [List.map_cons, List.pairwise_cons, List.mem_map] at h3
          exact le_of_lt (h3.1 _ ⟨e, he, rfl⟩)
      · have hsplit' : t.toList = (L₁ ++ [(p, k, v)]) ++ (q', k', v') :: xs := by
          rw [hsplit]; simp
        rw [FindPrev_spec t hn _ _ q' k' v' hsplit']
        simp
  · constructor
    · intro hnone e he
      have hL₁ : L₁ = [] := by
        cases hl : L₁.getLast? with
        | none => exact List.getLast?_eq_none_iff.mp hl
        | some x => rw [hl] at hnone; simp at hnone
      rw [hsplit, hL₁] at he
      simp only [List.nil_append, List.mem_cons] at he
      rcases he with rfl | he
      · exact le_refl _
      · exact le_of_lt (h2 e he)
    · intro hall
      cases L₁ with
      | nil => rfl
      | cons x xs =>
        have := hall x (by rw [hsplit]; simp)
        exact absurd (h1 x (List.mem_cons_self _ _)) (not_lt_of_ge this)
  · intro q hq
    rcases List.eq_nil_or_concat L₁ with hnil | ⟨front, x, hx⟩
    · rw [hnil] at hq; simp at hq
    · obtain ⟨q', k', v'⟩ := x
      have hx' : L₁ = front ++ [(q', k', v')] := by simpa using hx
      subst hx'
      simp only [List.getLast?_append, List.getLast?_singleton, Option.some_orElse,
        Option.map_some', Option.some.injEq] at hq
      have hq' : q' = q := by simpa using hq
      subst hq'
      have hlt : k' < k := h1 (q', k', v') (by simp)
      refine ⟨k', v', by rw [hsplit]; simp, hlt, ?_, ?_⟩
      · intro e he hek
        rw [hsplit] at he
        simp only [List.mem_append, List.mem_singleton, List.mem_cons, List.mem_nil_iff,
          or_false] at he
        rcases he with (he | rfl) | rfl | he
        · simp only [List.map_append, List.map_cons, List.map_nil, List.pairwise_append,
            List.mem_map, List.mem_singleton] at h4
          exact le_of_lt (h4.2.2 _ ⟨e, he, rfl⟩ _ rfl)
        · exact le_refl _
        · exact absurd hek (lt_irrefl _)
        · exact absurd hek (not_lt_of_gt (h2 e he))
      · have hsplit' : t.toList = front ++ (q', k', v') :: ((p, k, v) :: L₂) := by
          rw [hsplit]; simp
        rw [FindNext_spec t hn _ _ q' k' v' hsplit']
        simp

theorem findNext_findPrev_spec_witness :
    BST treeSmall ∧ treeSmall.addrs.Nodup ∧ (1, 2, 20) ∈ treeSmall.toList ∧
      ∃ nx pv, FindNext treeSmall 1 = .ok nx ∧ FindPrev treeSmall 1 = .ok pv ∧
        (nx = none ↔ ∀ e ∈ treeSmall.toList, e.2.1 ≤ 2) ∧
        (∀ q, nx = some q → ∃ k' v', (q, k', v') ∈ treeSmall.toList ∧ 2 < k' ∧
          (∀ e ∈ treeSmall.toList, 2 < e.2.1 → k' ≤ e.2.1) ∧
          FindPrev treeSmall q = .ok (some 1)) ∧
        (pv = none ↔ ∀ e ∈ treeSmall.toList, 2 ≤ e.2.1) ∧
        (∀ q, pv = some q → ∃ k' v', (q, k', v') ∈ treeSmall.toList ∧ k' < 2 ∧
          (∀ e ∈ treeSmall.toList, e.2.1 < 2 → e.2.1 ≤ k') ∧
          FindNext treeSmall q = .ok (some 1)) :=
  ⟨by decide, by decide, by decide,
    findNext_findPrev_spec treeSmall (by decide) (by decide) 1 2 20 (by decide)⟩

/-- C27 as stated fails on the code: in the reachable map `mapSevenAgain` the root, at
address 1 with key 5, is black and has the children at addresses 2 and 3; its in-order
successor is the node at address 6 with key 7. After `EraseNode` of the root that node still
holds key 7 and value 70, but it is red, its parent is the node at address 2, which is the
new root, and its left child is the node at address 5: neither the colour nor the place the
erased node had at the call. The walk down to the node rotates it under its left child and
paints it red before the successor takes its place and its colour. -/
theorem erase_successor_colour_and_place :
    Reachable 0 mapSevenAgain ∧
      Tree.cellAt 1 none mapSevenAgain.root_ = some ⟨.kBlack, 5, 50, none, some 2, some 3⟩ ∧
      FindNext mapSevenAgain.root_ 1 = .ok (some 6) ∧
      Tree.cellAt 6 none mapSevenAgain.root_ = some ⟨.kRed, 7, 70, some 3, none, none⟩ ∧
      ∃ t', EraseNode mapSevenAgain.root_ mapSevenAgain.size_ 1 = .ok t' ∧
        t'.rootAddr = some 2 ∧
        Tree.cellAt 6 none t' = some ⟨.kRed, 7, 70, some 2, some 5, some 3⟩ :=
  ⟨⟨opsSeven ++ [.insert 1 11 8], by decide⟩, by decide, by decide, by decide,
    ⟨.node .kBlack 2 3 30 (.node .kBlack 4 1 10 .nil .nil)
      (.node .kRed 6 7 70 (.node .kBlack 5 4 40 .nil .nil)
        (.node .kBlack 3 8 80 .nil (.node .kRed 7 9 90 .nil .nil))),
      by decide, by decide, by decide⟩⟩

/-- C27, amended: for a reachable map and a node `p` of it, `EraseNode(p)` returns; the node
`p` is no longer in the tree, and every other node, the in-order successor among them, is
still in it at its address with the key and the value it held before, nothing else being in
the tree; so an iterator at another entry still dereferences to the entry it dereferenced to
before the call. Nothing is said of the colour and the place of the successor. -/
theorem erase_keeps_other_nodes [LinearOrder K] (this : Nat) (m : Map K V) (p : Nat)
    (h : Reachable this m) (hp : p ∈ m.root_.addrs) :
    ∃ t', EraseNode m.root_ m.size_ p = .ok t' ∧ p ∉ t'.addrs ∧
      (∀ e, e ∈ t'.toList ↔ (e ∈ m.root_.toList ∧ e.1 ≠ p)) ∧
      (∀ a, a ∈ m.root_.addrs → a ≠ p → ∀ (mn mx : Option Nat) (sz mp : Nat),
        (∃ e, Iter.deref m ⟨some a, mp⟩ = .ok e) ∧
        Iter.deref ⟨t', mn, mx, sz⟩ ⟨some a, mp⟩ = Iter.deref m ⟨some a, mp⟩) := by
  obtain ⟨hb, hg, hn, hs⟩ := reachable_inv this m h
  obtain ⟨t', e1, -, -, L₁, e0, L₂, e4, e5, e6⟩ := EraseNode_spec m.root_ p hg hb hn hp
  have hn0 : ((L₁ ++ e0 :: L₂).map (fun y => y.1)).Nodup := by
    simpa only [Tree.addrs, e4] using hn
  have hn' : t'.addrs.Nodup := by
    simp only [Tree.addrs, e6]
    exact hn0.sublist (sublist_of_remove.map _)
  have hmem : ∀ e, e ∈ t'.toList ↔ (e ∈ m.root_.toList ∧ e.1 ≠ p) := by
    intro e
    rw [e4, e6]
    constructor
    · intro he
      have he' : e ∈ L₁ ++ e0 :: L₂ := by
        rcases List.mem_append.mp he with h1 | h1
        · exact List.mem_append.mpr (Or.inl h1)
        · exact List.mem_append.mpr (Or.inr (List.mem_cons_of_mem _ h1))
      refine ⟨he', ?_⟩
      intro hep
      have := entry_unique hn0 he' (hep.trans e5.symm)
      subst this
      simp only [List.map_append, List.map_cons] at hn0
      rw [List.nodup_append] at hn0
      obtain ⟨-, h2, h3⟩ := hn0
      rcases List.mem_append.mp he with h1 | h1
      · exact h3 (List.mem_map.mpr ⟨e, h1, rfl⟩) (List.mem_cons_self _ _)
      · exact (List.nodup_cons.mp h2).1 (List.mem_map.mpr ⟨e, h1, rfl⟩)
    · rintro ⟨he, hep⟩
      rcases List.mem_append.mp he with h1 | h1
      · exact List.mem_append.mpr (Or.inl h1)
      · rcases List.mem_cons.mp h1 with h1 | h1
        · exact absurd (h1 ▸ e5) hep
        · exact List.mem_append.mpr (Or.inr h1)
  refine ⟨t', by rw [hs]; exact e1, ?_, hmem, ?_⟩
  · intro hp'
    obtain ⟨e, he, hep⟩ := List.mem_map.mp hp'
    exact ((hmem e).mp he).2 hep
  · intro a ha hap mn mx sz mp
    obtain ⟨A, k, v, B, hsplit⟩ := split_of_mem_addrs ha
    have hin : (a, k, v) ∈ t'.toList := (hmem _).mpr ⟨by rw [hsplit]; simp, hap⟩
    obtain ⟨A', B', hsplit'⟩ := List.append_of_mem hin
    have h1 := deref_spec mp m hn A B a k v hsplit
    have h2 := deref_spec mp ⟨t', mn, mx, sz⟩ hn' A' B' a k v hsplit'
    exact ⟨⟨_, h1⟩, h2.trans h1.symm⟩

theorem erase_keeps_other_nodes_witness :
    Reachable 0 mapSeven ∧ 2 ∈ mapSeven.root_.addrs ∧
      ∃ t', EraseNode mapSeven.root_ mapSeven.size_ 2 = .ok t' ∧ 2 ∉ t'.addrs ∧
        (∀ e, e ∈ t'.toList ↔ (e ∈ mapSeven.root_.toList ∧ e.1 ≠ 2)) ∧
        (∀ a, a ∈ mapSeven.root_.addrs → a ≠ 2 → ∀ (mn mx : Option Nat) (sz mp : Nat),
          (∃ e, Iter.deref mapSeven ⟨some a, mp⟩ = .ok e) ∧
          Iter.deref ⟨t', mn, mx, sz⟩ ⟨some a, mp⟩ = Iter.deref mapSeven ⟨some a, mp⟩) :=
  ⟨reachable_mapSeven, by decide,
    erase_keeps_other_nodes 0 mapSeven 2 reachable_mapSeven (by decide)⟩

/-- C28: the claim fails on the code: in the reachable state `mapSmall` (keys 1, 2, 3, the
greatest at address 3) the postfix `it--` applied to `end()` moves the iterator to the entry
of key 3 and returns that new position, not the end sentinel held before the call; the
`const_iterator` form does the same. -/
theorem postfix_decrement_from_end :
    Reachable 0 mapSmall ∧
      (mapSmall.end_ 0).postDec mapSmall = .returns ⟨some 3, 0⟩ ⟨some 3, 0⟩ ∧
      Iter.eq ⟨some 3, 0⟩ (mapSmall.end_ 0) = false ∧
      (mapSmall.cend 0).postDec mapSmall = .returns ⟨some 3, some 0⟩ ⟨some 3, none⟩ :=
  ⟨reachable_mapSmall, by decide, by decide, by decide⟩

/-- C29: the claim fails on the code: `mapRedRoot` is reached by `insert` calls, the last
three of keys already present; its root is red; and `InsertNode` of the key 4, which is
present, flips the colours at the black child of the root and then reads
`now_par->parent_->left_` with `now_par` the root, whose `parent_` is `nullptr`. -/
theorem insertNode_null_access_under_red_root :
    Reachable 0 mapRedRoot ∧ 4 ∈ mapRedRoot.root_.keys ∧
      InsertNode mapRedRoot.root_ 4 0 15 = .fail .null_access :=
  ⟨reachable_mapRedRoot, by decide, by decide⟩

end sjtu


namespace sjtu

variable {K V : Type}

open Tree

/-! ## The rotations on the store -/

@[simp] theorem Outcome.ok_bind {α β : Type} (a : α) (f : α → Outcome β) :
    (Outcome.ok a >>= f) = f a := rfl

@[simp] theorem Outcome.fail_bind {α β : Type} (e : Fault) (f : α → Outcome β) :
    ((Outcome.fail e : Outcome α) >>= f) = .fail e := rfl

@[simp] theorem Outcome.pure_eq {α : Type} (a : α) : (pure a : Outcome α) = .ok a := rfl

@[simp] theorem repr_nil (h : Nat → Option (Cell K V)) (par : Option Nat) :
    Repr h par (nil : Tree K V) := trivial

@[simp] theorem repr_node (h : Nat → Option (Cell K V)) (par : Option Nat) (c : Colour)
    (a : Nat) (k : K) (v : V) (l r : Tree K V) :
    Repr h par (node c a k v l r) ↔
      h a = some ⟨c, k, v, par, l.rootAddr, r.rootAddr⟩ ∧ Repr h (some a) l ∧
        Repr h (some a) r := Iff.rfl

@[simp] theorem rootAddr_nil : (nil : Tree K V).rootAddr = none := rfl

@[simp] theorem rootAddr_node (c : Colour) (a : Nat) (k : K) (v : V) (l r : Tree K V) :
    (node c a k v l r).rootAddr = some a := rfl

/-- Cells that agree on the addresses of a tree represent it alike. -/
theorem repr_congr {h h' : Nat → Option (Cell K V)} (t : Tree K V) :
    ∀ (par : Option Nat), (∀ a ∈ t.addrs, h' a = h a) → Repr h par t → Repr h' par t := by
  induction t with
  | nil => intro _ _ _; trivial
  | node c a k v l r ihl ihr =>
    intro par hag hr
    simp only [addrs_node, List.mem_append, List.mem_cons] at hag
    obtain ⟨h1, h2, h3⟩ := hr
    exact ⟨by rw [hag a (Or.inr (Or.inl rfl))]; exact h1,
      ihl _ (fun b hb => hag b (Or.inl hb)) h2,
      ihr _ (fun b hb => hag b (Or.inr (Or.inr hb))) h3⟩

/-- Addresses of the ancestors of the focus and of the subtrees beside it. -/
theorem reprCtx_congr {h h' : Nat → Option (Cell K V)} (path : Path K V) :
    ∀ (hole : Option Nat),
      (∀ a, (a ∈ (before path).map (fun e => e.1) ∨ a ∈ (after path).map (fun e => e.1)) →
        h' a = h a) →
      ReprCtx h path hole → ReprCtx h' path hole := by
  induction path with
  | nil => intro _ _ _; trivial
  | cons f rest ih =>
    intro hole hag hr
    obtain ⟨h1, h2, h3⟩ := hr
    have hf : h' f.addr = h f.addr := by
      apply hag
      cases hd : f.dir <;> simp [before, after, hd]
    have hsib : ∀ a ∈ f.sib.addrs, h' a = h a := by
      intro a ha
      apply hag
      have ha' : a ∈ f.sib.toList.map (fun e => e.1) := ha
      cases hd : f.dir
      · right
        simp only [after, hd, List.map_cons, List.map_append, List.mem_cons, List.mem_append]
        exact Or.inl (Or.inr ha')
      · left
        simp only [before, hd, List.map_append, List.mem_append]
        exact Or.inr (Or.inl ha')
    have hrest : ∀ a, (a ∈ (before rest).map (fun e => e.1) ∨
        a ∈ (after rest).map (fun e => e.1)) → h' a = h a := by
      intro a ha
      apply hag
      cases hd : f.dir
      · rcases ha with ha | ha
        · left; simpa [before, hd] using ha
        · right
          simp only [after, hd, List.map_cons, List.map_append, List.mem_cons,
            List.mem_append]
          exact Or.inr ha
      · rcases ha with ha | ha
        · left
          simp only [before, hd, List.map_append, List.mem_append]
          exact Or.inl ha
        · right; simpa [after, hd] using ha
    exact ⟨by rw [hf]; exact h1, repr_congr _ _ hsib h2, ih _ hrest h3⟩

/-- A tree is represented exactly when the subtree in focus and its context are. -/
theorem repr_plug (h : Nat → Option (Cell K V)) (path : Path K V) :
    ∀ (t : Tree K V), Repr h none (plug t path) ↔
      Repr h (parentOf path) t ∧ ReprCtx h path t.rootAddr := by
  induction path with
  | nil => intro t; simp [plug, parentOf, ReprCtx]
  | cons f rest ih =>
    intro t
    rw [plug, ih]
    obtain ⟨fc, fa, fk, fv, fd, fs⟩ := f
    cases fd <;>
      simp only [Frame.fill, repr_node, rootAddr_node, ReprCtx, parentOf, List.head?_cons,
        Option.map_some'] <;> tauto

theorem rootAddr_plug_cons (t t' : Tree K V) (f : Frame K V) (rest : Path K V) :
    (plug t (f :: rest)).rootAddr = (plug t' (f :: rest)).rootAddr := by
  induction rest generalizing t t' f with
  | nil => cases hd : f.dir <;> simp [plug, Frame.fill, hd]
  | cons f' rest ih =>
    rw [plug, plug]
    exact ih _ _ f'

end sjtu


namespace sjtu

variable {K V : Type}

open Tree

/-- Distinct addresses in the whole tree: also in the focus, in its context, and none in
both. -/
theorem nodup_plug (t : Tree K V) (path : Path K V) (h : (plug t path).addrs.Nodup) :
    t.addrs.Nodup ∧ ((before path ++ after path).map (fun e => e.1)).Nodup ∧
      ∀ a ∈ t.addrs, a ∉ (before path ++ after path).map (fun e => e.1) := by
  simp only [Tree.addrs, toList_plug, List.map_append] at h ⊢
  have hc := List.nodup_iff_count_le_one.mp h
  simp only [List.count_append] at hc
  refine ⟨?_, ?_, ?_⟩
  · rw [List.nodup_iff_count_le_one]
    intro a; have := hc a; omega
  · rw [List.nodup_iff_count_le_one]
    intro a; have := hc a
    simp only [List.count_append]; omega
  · intro a ha hb
    have h1 := List.count_pos_iff.mpr ha
    rcases List.mem_append.mp hb with hb | hb
    · have h2 := List.count_pos_iff.mpr hb
      have := hc a; omega
    · have h2 := List.count_pos_iff.mpr hb
      have := hc a; omega

theorem parentOf_mem (f : Frame K V) (rest : Path K V) :
    f.addr ∈ (before (f :: rest) ++ after (f :: rest)).map (fun e => e.1) := by
  cases hd : f.dir <;> simp [before, after, hd]

/-- The end of a rotation seen from the context: when the cell of the parent of the focus has
been relinked from `g` to `top` and nothing else of the context has changed, the context is
represented with the focus rooted at `top`. -/
theorem reprCtx_relink {h h' : Nat → Option (Cell K V)} (path : Path K V) (g top : Nat)
    (hctx : ReprCtx h path (some g))
    (hnd : ((before path ++ after path).map (fun e => e.1)).Nodup)
    (hg : g ∉ (before path ++ after path).map (fun e => e.1))
    (hrel : ∀ fa c, parentOf path = some fa → h fa = some c →
      h' fa = some ⟨c.colour_, c.key, c.val, c.parent_,
        if c.left_ = some g then some top else c.left_,
        if c.left_ = some g then c.right_ else some top⟩)
    (hother : ∀ a ∈ (before path ++ after path).map (fun e => e.1),
      some a ≠ parentOf path → h' a = h a) :
    ReprCtx h' path (some top) := by
  cases path with
  | nil => trivial
  | cons f rest =>
    obtain ⟨fc, fa, fk, fv, fd, fs⟩ := f
    obtain ⟨h1, h2, h3⟩ := hctx
    simp only at h1 h2 h3
    have hrel' := hrel fa _ (by simp [parentOf]) h1
    have hc := List.nodup_iff_count_le_one.mp hnd
    have hsg : fs.rootAddr ≠ some g := by
      intro hsg
      apply hg
      cases fs with
      | nil => simp at hsg
      | node c a k v l r =>
        simp only [rootAddr_node, Option.some.injEq] at hsg
        subst hsg
        cases fd <;> simp [before, after]
    have hsib : ∀ a ∈ fs.addrs, h' a = h a := by
      intro a ha
      unfold Tree.addrs at ha
      have hpos := List.count_pos_iff.mpr ha
      apply hother a
      · cases fd <;> simp [before, after] <;> simp_all
      · simp only [parentOf, List.head?_cons, Option.map_some', ne_eq, Option.some.injEq]
        intro hfa
        have hx := hc a
        rw [hfa] at hx hpos
        cases fd <;>
          simp only [before, after, List.map_append, List.map_cons, List.count_append,
            List.count_cons, List.cons_append, beq_self_eq_true, if_true, List.map_nil,
            List.count_nil] at hx <;> omega
    have hrest : ∀ a, (a ∈ (before rest).map (fun e => e.1) ∨
        a ∈ (after rest).map (fun e => e.1)) → h' a = h a := by
      intro a ha
      have hpos : 0 < ((before rest).map (fun e => e.1)).count a +
          ((after rest).map (fun e => e.1)).count a := by
        rcases ha with ha | ha
        · have := List.count_pos_iff.mpr ha; omega
        · have := List.count_pos_iff.mpr ha; omega
      apply hother a
      · cases fd <;>
          simp only [before, after, List.map_append, List.map_cons, List.mem_append,
            List.mem_cons, List.cons_append] <;> tauto
      · simp only [parentOf, List.head?_cons, Option.map_some', ne_eq, Option.some.injEq]
        intro hfa
        have hx := hc a
        rw [hfa] at hx hpos
        cases fd <;>
          simp only [before, after, List.map_append, List.map_cons, List.count_append,
            List.count_cons, List.cons_append, beq_self_eq_true, if_true, List.map_nil,
            List.count_nil] at hx <;> omega
    refine ⟨?_, repr_congr fs _ hsib h2, reprCtx_congr rest _ hrest h3⟩
    simp only
    rw [hrel']
    cases fd
    · simp
    · simp [hsg]

/-- With an ancestor, the root of the whole tree is a node of the context. -/
theorem rootAddr_plug_mem (rest : Path K V) :
    ∀ (f : Frame K V) (t : Tree K V), ∃ a, (plug t (f :: rest)).rootAddr = some a ∧
      a ∈ (before (f :: rest) ++ after (f :: rest)).map (fun e => e.1) := by
  induction rest with
  | nil =>
    intro f t
    refine ⟨f.addr, ?_, parentOf_mem f []⟩
    cases hd : f.dir <;> simp [plug, Frame.fill, hd]
  | cons f' rest ih =>
    intro f t
    obtain ⟨a, h1, h2⟩ := ih f' (f.fill t)
    refine ⟨a, by rw [plug]; exact h1, ?_⟩
    simp only [List.map_append, List.mem_append] at h2 ⊢
    cases hd : f.dir
    · rcases h2 with h2 | h2
      · left; simpa [before, hd] using h2
      · right
        rw [after, hd]
        simp only [List.cons_append, List.map_cons, List.map_append, List.mem_cons,
          List.mem_append]
        exact Or.inr (Or.inr h2)
    · rcases h2 with h2 | h2
      · left
        rw [before, hd]
        simp only [List.map_append, List.mem_append]
        exact Or.inl h2
      · right; simpa [after, hd] using h2

/-- The root of the whole tree is the root of the focus exactly when the focus has no
ancestor. -/
theorem rootAddr_plug_eq_iff (t : Tree K V) (path : Path K V) (g : Nat)
    (ht : t.rootAddr = some g) (hg : g ∉ (before path ++ after path).map (fun e => e.1)) :
    (plug t path).rootAddr = some g ↔ path = [] := by
  constructor
  · intro h
    cases path with
    | nil => rfl
    | cons f rest =>
      exfalso
      obtain ⟨a, h1, h2⟩ := rootAddr_plug_mem rest f t
      rw [h] at h1
      simp only [Option.some.injEq] at h1
      exact hg (h1 ▸ h2)
  · rintro rfl; exact ht

theorem ne_parentOf (t : Tree K V) (path : Path K V) (h : (plug t path).addrs.Nodup)
    (a : Nat) (ha : a ∈ t.addrs) : some a ≠ parentOf path := by
  cases path with
  | nil => simp [parentOf]
  | cons f rest =>
    simp only [parentOf, List.head?_cons, Option.map_some', ne_eq, Option.some.injEq]
    intro hfa
    exact (nodup_plug t _ h).2.2 a ha (hfa ▸ parentOf_mem f rest)

theorem parentOf_cell {h : Nat → Option (Cell K V)} (path : Path K V) (hole : Option Nat)
    (hctx : ReprCtx h path hole) (fa : Nat) (hfa : parentOf path = some fa) : h fa ≠ none := by
  cases path with
  | nil => simp [parentOf] at hfa
  | cons f rest =>
    simp only [parentOf, List.head?_cons, Option.map_some', Option.some.injEq] at hfa
    subst hfa
    rw [hctx.1]
    simp

theorem rootAddr_mem_addrs (t : Tree K V) (a : Nat) (h : t.rootAddr = some a) :
    a ∈ t.addrs := by
  cases t with
  | nil => simp at h
  | node c b k v l r =>
    simp only [rootAddr_node, Option.some.injEq] at h
    subst h; simp

/-- The common end of the four proofs: when the cells of the focus have been rearranged into
`sub'`, the parent of the focus relinked, `root_` assigned when there is no parent, and
nothing else touched, the store holds the tree with `sub'` in the place of `sub`. -/
theorem rotation_holds (s s' : Store K V) (path : Path K V) (sub sub' : Tree K V)
    (g top : Nat) (hg : sub.rootAddr = some g) (htop : sub'.rootAddr = some top)
    (hnd : (plug sub path).addrs.Nodup) (hs : s.Holds (plug sub path))
    (hroot : s'.root_ = if parentOf path = none then some top else s.root_)
    (hsub : Repr s'.cell (parentOf path) sub')
    (hrel : ∀ fa c, parentOf path = some fa → s.cell fa = some c →
      s'.cell fa = some ⟨c.colour_, c.key, c.val, c.parent_,
        if c.left_ = some g then some top else c.left_,
        if c.left_ = some g then c.right_ else some top⟩)
    (hother : ∀ a, a ∉ sub.addrs → some a ≠ parentOf path → s'.cell a = s.cell a) :
    s'.Holds (plug sub' path) ∧
      s'.root_ = (if s.root_ = sub.rootAddr then sub'.rootAddr else s.root_) := by
  obtain ⟨hr, hrep⟩ := hs
  rw [repr_plug] at hrep
  obtain ⟨-, hctx⟩ := hrep
  rw [hg] at hctx
  obtain ⟨-, hn2, hn3⟩ := nodup_plug sub path hnd
  have hgctx : g ∉ (before path ++ after path).map (fun e => e.1) :=
    hn3 g (rootAddr_mem_addrs sub g hg)
  have hiff := rootAddr_plug_eq_iff sub path g hg hgctx
  have hctx' : ReprCtx s'.cell path (some top) := by
    refine reprCtx_relink path g top hctx hn2 hgctx hrel ?_
    intro a ha hne
    exact hother a (fun hmem => hn3 a hmem ha) hne
  refine ⟨⟨?_, ?_⟩, ?_⟩
  · cases path with
    | nil => simpa [plug, parentOf, htop] using hroot
    | cons f rest =>
      rw [hroot, hr]
      simp only [parentOf, List.head?_cons, Option.map_some', reduceCtorEq, if_false]
      exact rootAddr_plug_cons sub sub' f rest
  · rw [repr_plug, htop]
    exact ⟨hsub, hctx'⟩
  · rw [hroot, hr, hg, htop]
    cases path with
    | nil => simp [plug, parentOf, hg]
    | cons f rest =>
      have : ¬ (plug sub (f :: rest)).rootAddr = some g := by
        rw [hiff]; simp
      simp [parentOf, this]

end sjtu


namespace sjtu

variable {K V : Type}

open Tree

/-- What `LL(g)` does to the store: it returns, and it assigns to members of `g`, of
`p = g->left_`, of `p_r = p->right_` and of `g_par = g->parent_` only. -/
theorem Store.LL_effect (s : Store K V) (g p : Nat) (g_par p_r pl gr : Option Nat)
    (cg cp : Colour) (kg kp : K) (vg vp : V)
    (hg : s.cell g = some ⟨cg, kg, vg, g_par, some p, gr⟩)
    (hp : s.cell p = some ⟨cp, kp, vp, some g, pl, p_r⟩)
    (hr : ∀ r, p_r = some r → s.cell r ≠ none)
    (hf : ∀ fa, g_par = some fa → s.cell fa ≠ none)
    (h1 : g ≠ p) (h2 : p_r ≠ some g) (h3 : p_r ≠ some p) (h4 : g_par ≠ some g)
    (h5 : g_par ≠ some p) (h6 : g_par = none ∨ g_par ≠ p_r) :
    ∃ s', s.LL (some g) = .ok s' ∧
      s'.root_ = (if g_par = none then some p else s.root_) ∧
      s'.cell g = some ⟨cg, kg, vg, some p, p_r, gr⟩ ∧
      s'.cell p = some ⟨cp, kp, vp, g_par, pl, some g⟩ ∧
      (∀ r c, p_r = some r → s.cell r = some c →
        s'.cell r = some ⟨c.colour_, c.key, c.val, some g, c.left_, c.right_⟩) ∧
      (∀ fa c, g_par = some fa → s.cell fa = some c →
        s'.cell fa = some ⟨c.colour_, c.key, c.val, c.parent_,
          if c.left_ = some g then some p else c.left_,
          if c.left_ = some g then c.right_ else some p⟩) ∧
      (∀ a, a ≠ g → a ≠ p → some a ≠ p_r → some a ≠ g_par → s'.cell a = s.cell a) := by
  have h1' : p ≠ g := h1.symm
  cases p_r with
  | none =>
    cases g_par with
    | none =>
      simp [Store.LL, Store.parent, Store.left, Store.right, Store.read, Store.setRight,
        Store.setParent, Store.setLeft, Store.write, Store.relink, hg, hp,
        Function.update_apply, h1, h1']
      intro a ha hb
      simp [ha, hb]
    | some fa =>
      have h4' : fa ≠ g := fun h => h4 (by rw [h])
      have h5' : fa ≠ p := fun h => h5 (by rw [h])
      cases hfa : s.cell fa with
      | none => exact absurd hfa (hf fa rfl)
      | some cf =>
        by_cases hl : cf.left_ = some g <;>
        · simp [Store.LL, Store.parent, Store.left, Store.right, Store.read, Store.setRight,
            Store.setParent, Store.setLeft, Store.write, Store.relink, hg, hp, hfa,
            Function.update_apply, h1, h1', h4', h5', h4'.symm, h5'.symm, hl]
          split_ands <;> (intros; subst_vars; simp_all)
  | some r =>
    have h2' : r ≠ g := fun h => h2 (by rw [h])
    have h3' : r ≠ p := fun h => h3 (by rw [h])
    cases hcr : s.cell r with
    | none => exact absurd hcr (hr r rfl)
    | some cr =>
      cases g_par with
      | none =>
        simp [Store.LL, Store.parent, Store.left, Store.right, Store.read, Store.setRight,
          Store.setParent, Store.setLeft, Store.write, Store.relink, hg, hp, hcr,
          Function.update_apply, h1, h1', h2', h3', h2'.symm, h3'.symm]
        split_ands <;> (intros; subst_vars; simp_all)
      | some fa =>
        have h4' : fa ≠ g := fun h => h4 (by rw [h])
        have h5' : fa ≠ p := fun h => h5 (by rw [h])
        have h6' : fa ≠ r := by
          rcases h6 with h6 | h6
          · cases h6
          · exact fun h => h6 (by rw [h])
        have h6'' : r ≠ fa := h6'.symm
        cases hfa : s.cell fa with
        | none => exact absurd hfa (hf fa rfl)
        | some cf =>
          by_cases hl : cf.left_ = some g <;>
          · simp [Store.LL, Store.parent, Store.left, Store.right, Store.read, Store.setRight,
              Store.setParent, Store.setLeft, Store.write, Store.relink, hg, hp, hfa, hcr,
              Function.update_apply, h1, h1', h4', h5', h4'.symm, h5'.symm, hl, h2', h3',
              h2'.symm, h3'.symm, h6', h6'.symm]
            split_ands <;> (intros; subst_vars; simp_all)

/-- On a store that holds a tree, `LL(g)` at a node `g` with a left child returns, and the
store then holds the tree with the rotated subtree in the place of the old one. -/
theorem Store.LL_holds (s : Store K V) (path : Path K V) (cg cp : Colour) (kg kp : K)
    (vg vp : V) (g p : Nat) (pl pr gr : Tree K V)
    (hnd : (plug (node cg g kg vg (node cp p kp vp pl pr) gr) path).addrs.Nodup)
    (hs : s.Holds (plug (node cg g kg vg (node cp p kp vp pl pr) gr) path)) :
    ∃ s', s.LL (some g) = .ok s' ∧
      s'.Holds (plug (node cp p kp vp pl (node cg g kg vg pr gr)) path) ∧
      s'.root_ = (if s.root_ = some g then some p else s.root_) := by
  have hrep := hs.2
  rw [repr_plug] at hrep
  obtain ⟨hsub, hctx⟩ := hrep
  simp only [repr_node, rootAddr_node] at hsub
  obtain ⟨hg, ⟨hp, hpl, hpr⟩, hgr⟩ := hsub
  obtain ⟨hn1, -, -⟩ := nodup_plug _ path hnd
  have hpar := ne_parentOf _ path hnd
  simp only [Tree.addrs, toList_node, List.map_append, List.map_cons, List.mem_append,
    List.mem_cons, List.append_assoc, List.cons_append] at hn1 hpar
  have hc := List.nodup_iff_count_le_one.mp hn1
  simp only [List.count_append, List.count_cons] at hc
  have hgp : g ≠ p := by
    intro h; have hx := hc g; rw [h] at hx
    simp only [beq_self_eq_true, if_true] at hx; omega
  have hprg : pr.rootAddr ≠ some g ∧ pr.rootAddr ≠ some p ∧
      (parentOf path = none ∨ parentOf path ≠ pr.rootAddr) ∧
      ∀ r, pr.rootAddr = some r → s.cell r ≠ none := by
    cases pr with
    | nil =>
      simp only [rootAddr_nil]
      exact ⟨by simp, by simp, Classical.em _, by simp⟩
    | node cr r kr vr rl rr =>
      simp only [rootAddr_node, ne_eq, Option.some.injEq, toList_node, List.map_append,
        List.map_cons, List.count_append, List.count_cons] at hc hpr ⊢
      refine ⟨?_, ?_, ?_, ?_⟩
      · intro h; have hx := hc r; rw [h] at hx
        simp only [beq_self_eq_true, if_true] at hx; omega
      · intro h; have hx := hc r; rw [h] at hx
        simp only [beq_self_eq_true, if_true] at hx; omega
      · right
        intro h
        exact hpar r (by simp) h.symm
      · rintro _ rfl
        rw [hpr.1]; simp
  obtain ⟨s', hrun, hroot', hg', hp', hr', hf', hother⟩ :=
    Store.LL_effect s g p (parentOf path) pr.rootAddr pl.rootAddr gr.rootAddr cg cp kg kp
      vg vp hg hp hprg.2.2.2 (parentOf_cell path _ hctx) hgp hprg.1 hprg.2.1
      (fun h => hpar g (by simp) h.symm) (fun h => hpar p (by simp) h.symm) hprg.2.2.1
  have hfinal := rotation_holds s s' path (node cg g kg vg (node cp p kp vp pl pr) gr)
    (node cp p kp vp pl (node cg g kg vg pr gr)) g p
    rfl rfl hnd hs hroot' ?_ hf' ?_
  · exact ⟨s', hrun, hfinal.1, by simpa using hfinal.2⟩
  · simp only [repr_node, rootAddr_node]
    refine ⟨hp', ?_, hg', ?_, ?_⟩
    · refine repr_congr pl _ ?_ hpl
      intro a ha
      unfold Tree.addrs at ha
      have hpos := List.count_pos_iff.mpr ha
      apply hother a
      · intro h; have hx := hc a; rw [h] at hx hpos
        simp only [beq_self_eq_true, if_true] at hx; omega
      · intro h; have hx := hc a; rw [h] at hx hpos
        simp only [beq_self_eq_true, if_true] at hx; omega
      · intro h
        have hx := hc a
        have hr := List.count_pos_iff.mpr (rootAddr_mem_addrs pr a h.symm)
        unfold Tree.addrs at hr
        omega
      · exact hpar a (Or.inl ha)
    · cases pr with
      | nil => trivial
      | node cr r kr vr rl rr =>
        simp only [repr_node, rootAddr_node, toList_node, List.map_append, List.map_cons,
          List.count_append, List.count_cons, List.mem_append, List.mem_cons] at hpr hc hpar ⊢
        obtain ⟨hcr, hrl, hrr⟩ := hpr
        refine ⟨hr' r _ rfl hcr, ?_, ?_⟩
        · refine repr_congr rl _ ?_ hrl
          intro a ha
          unfold Tree.addrs at ha
          have hpos := List.count_pos_iff.mpr ha
          apply hother a
          · intro h; have hx := hc a; rw [h] at hx hpos
            simp only [beq_self_eq_true, if_true] at hx; omega
          · intro h; have hx := hc a; rw [h] at hx hpos
            simp only [beq_self_eq_true, if_true] at hx; omega
          · simp only [rootAddr_node, ne_eq, Option.some.injEq]
            intro h; have hx := hc a; rw [h] at hx hpos
            simp only [beq_self_eq_true, if_true] at hx; omega
          · exact hpar a (by tauto)
        · refine repr_congr rr _ ?_ hrr
          intro a ha
          unfold Tree.addrs at ha
          have hpos := List.count_pos_iff.mpr ha
          apply hother a
          · intro h; have hx := hc a; rw [h] at hx hpos
            simp only [beq_self_eq_true, if_true] at hx; omega
          · intro h; have hx := hc a; rw [h] at hx hpos
            simp only [beq_self_eq_true, if_true] at hx; omega
          · simp only [rootAddr_node, ne_eq, Option.some.injEq]
            intro h; have hx := hc a; rw [h] at hx hpos
            simp only [beq_self_eq_true, if_true] at hx; omega
          · exact hpar a (by tauto)
    · refine repr_congr gr _ ?_ hgr
      intro a ha
      unfold Tree.addrs at ha
      have hpos := List.count_pos_iff.mpr ha
      apply hother a
      · intro h; have hx := hc a; rw [h] at hx hpos
        simp only [beq_self_eq_true, if_true] at hx; omega
      · intro h; have hx := hc a; rw [h] at hx hpos
        simp only [beq_self_eq_true, if_true] at hx; omega
      · intro h
        have hx := hc a
        have hr := List.count_pos_iff.mpr (rootAddr_mem_addrs pr a h.symm)
        unfold Tree.addrs at hr
        omega
      · exact hpar a (by tauto)
  · intro a ha hne
    simp only [Tree.addrs, toList_node, List.map_append, List.map_cons, List.mem_append,
      List.mem_cons, not_or] at ha
    apply hother a
    · tauto
    · tauto
    · intro h
      have := rootAddr_mem_addrs pr a h.symm
      unfold Tree.addrs at this
      tauto
    · exact hne

end sjtu


namespace sjtu

variable {K V : Type}

open Tree

/-- What `RR(g)` does to the store: it returns, and it assigns to members of `g`, of
`p = g->right_`, of `p_l = p->left_` and of `g_par = g->parent_` only. -/
theorem Store.RR_effect (s : Store K V) (g p : Nat) (g_par p_l pr gl : Option Nat)
    (cg cp : Colour) (kg kp : K) (vg vp : V)
    (hg : s.cell g = some ⟨cg, kg, vg, g_par, gl, some p⟩)
    (hp : s.cell p = some ⟨cp, kp, vp, some g, p_l, pr⟩)
    (hr : ∀ r, p_l = some r → s.cell r ≠ none)
    (hf : ∀ fa, g_par = some fa → s.cell fa ≠ none)
    (h1 : g ≠ p) (h2 : p_l ≠ some g) (h3 : p_l ≠ some p) (h4 : g_par ≠ some g)
    (h5 : g_par ≠ some p) (h6 : g_par = none ∨ g_par ≠ p_l) :
    ∃ s', s.RR (some g) = .ok s' ∧
      s'.root_ = (if g_par = none then some p else s.root_) ∧
      s'.cell g = some ⟨cg, kg, vg, some p, gl, p_l⟩ ∧
      s'.cell p = some ⟨cp, kp, vp, g_par, some g, pr⟩ ∧
      (∀ r c, p_l = some r → s.cell r = some c →
        s'.cell r = some ⟨c.colour_, c.key, c.val, some g, c.left_, c.right_⟩) ∧
      (∀ fa c, g_par = some fa → s.cell fa = some c →
        s'.cell fa = some ⟨c.colour_, c.key, c.val, c.parent_,
          if c.left_ = some g then some p else c.left_,
          if c.left_ = some g then c.right_ else some p⟩) ∧
      (∀ a, a ≠ g → a ≠ p → some a ≠ p_l → some a ≠ g_par → s'.cell a = s.cell a) := by
  have h1' : p ≠ g := h1.symm
  cases p_l with
  | none =>
    cases g_par with
    | none =>
      simp [Store.RR, Store.parent, Store.left, Store.right, Store.read, Store.setRight,
        Store.setParent, Store.setLeft, Store.write, Store.relink, hg, hp,
        Function.update_apply, h1, h1']
      intro a ha hb
      simp [ha, hb]
    | some fa =>
      have h4' : fa ≠ g := fun h => h4 (by rw [h])
      have h5' : fa ≠ p := fun h => h5 (by rw [h])
      cases hfa : s.cell fa with
      | none => exact absurd hfa (hf fa rfl)
      | some cf =>
        by_cases hl : cf.left_ = some g <;>
        · simp [Store.RR, Store.parent, Store.left, Store.right, Store.read, Store.setRight,
            Store.setParent, Store.setLeft, Store.write, Store.relink, hg, hp, hfa,
            Function.update_apply, h1, h1', h4', h5', h4'.symm, h5'.symm, hl]
          split_ands <;> (intros; subst_vars; simp_all)
  | some r =>
    have h2' : r ≠ g := fun h => h2 (by rw [h])
    have h3' : r ≠ p := fun h => h3 (by rw [h])
    cases hcr : s.cell r with
    | none => exact absurd hcr (hr r rfl)
    | some cr =>
      cases g_par with
      | none =>
        simp [Store.RR, Store.parent, Store.left, Store.right, Store.read, Store.setRight,
          Store.setParent, Store.setLeft, Store.write, Store.relink, hg, hp, hcr,
          Function.update_apply, h1, h1', h2', h3', h2'.symm, h3'.symm]
        split_ands <;> (intros; subst_vars; simp_all)
      | some fa =>
        have h4' : fa ≠ g := fun h => h4 (by rw [h])
        have h5' : fa ≠ p := fun h => h5 (by rw [h])
        have h6' : fa ≠ r := by
          rcases h6 with h6 | h6
          · cases h6
          · exact fun h => h6 (by rw [h])
        have h6'' : r ≠ fa := h6'.symm
        cases hfa : s.cell fa with
        | none => exact absurd hfa (hf fa rfl)
        | some cf =>
          by_cases hl : cf.left_ = some g <;>
          · simp [Store.RR, Store.parent, Store.left, Store.right, Store.read, Store.setRight,
              Store.setParent, Store.setLeft, Store.write, Store.relink, hg, hp, hfa, hcr,
              Function.update_apply, h1, h1', h4', h5', h4'.symm, h5'.symm, hl, h2', h3',
              h2'.symm, h3'.symm, h6', h6'.symm]
            split_ands <;> (intros; subst_vars; simp_all)

/-- On a store that holds a tree, `RR(g)` at a node `g` with a right child returns, and the
store then holds the tree with the rotated subtree in the place of the old one. -/
theorem Store.RR_holds (s : Store K V) (path : Path K V) (cg cp : Colour) (kg kp : K)
    (vg vp : V) (g p : Nat) (gl pl pr : Tree K V)
    (hnd : (plug (node cg g kg vg gl (node cp p kp vp pl pr)) path).addrs.Nodup)
    (hs : s.Holds (plug (node cg g kg vg gl (node cp p kp vp pl pr)) path)) :
    ∃ s', s.RR (some g) = .ok s' ∧
      s'.Holds (plug (node cp p kp vp (node cg g kg vg gl pl) pr) path) ∧
      s'.root_ = (if s.root_ = some g then some p else s.root_) := by
  have hrep := hs.2
  rw [repr_plug] at hrep
  obtain ⟨hsub, hctx⟩ := hrep
  simp only [repr_node, rootAddr_node] at hsub
  obtain ⟨hg, hgl, hp, hpl, hpr⟩ := hsub
  obtain ⟨hn1, -, -⟩ := nodup_plug _ path hnd
  have hpar := ne_parentOf _ path hnd
  simp only [Tree.addrs, toList_node, List.map_append, List.map_cons, List.mem_append,
    List.mem_cons, List.append_assoc, List.cons_append] at hn1 hpar
  have hc := List.nodup_iff_count_le_one.mp hn1
  simp only [List.count_append, List.count_cons] at hc
  have hgp : g ≠ p := by
    intro h; have hx := hc g; rw [h] at hx
    simp only [beq_self_eq_true, if_true] at hx; omega
  have hplg : pl.rootAddr ≠ some g ∧ pl.rootAddr ≠ some p ∧
      (parentOf path = none ∨ parentOf path ≠ pl.rootAddr) ∧
      ∀ r, pl.rootAddr = some r → s.cell r ≠ none := by
    cases pl with
    | nil =>
      simp only [rootAddr_nil]
      exact ⟨by simp, by simp, Classical.em _, by simp⟩
    | node cr r kr vr rl rr =>
      simp only [rootAddr_node, ne_eq, Option.some.injEq, toList_node, List.map_append,
        List.map_cons, List.count_append, List.count_cons] at hc hpl ⊢
      refine ⟨?_, ?_, ?_, ?_⟩
      · intro h; have hx := hc r; rw [h] at hx
        simp only [beq_self_eq_true, if_true] at hx; omega
      · intro h; have hx := hc r; rw [h] at hx
        simp only [beq_self_eq_true, if_true] at hx; omega
      · right
        intro h
        exact hpar r (by simp) h.symm
      · rintro _ rfl
        rw [hpl.1]; simp
  obtain ⟨s', hrun, hroot', hg', hp', hr', hf', hother⟩ :=
    Store.RR_effect s g p (parentOf path) pl.rootAddr pr.rootAddr gl.rootAddr cg cp kg kp
      vg vp hg hp hplg.2.2.2 (parentOf_cell path _ hctx) hgp hplg.1 hplg.2.1
      (fun h => hpar g (by simp) h.symm) (fun h => hpar p (by simp) h.symm) hplg.2.2.1
  have hfinal := rotation_holds s s' path (node cg g kg vg gl (node cp p kp vp pl pr))
    (node cp p kp vp (node cg g kg vg gl pl) pr) g p
    rfl rfl hnd hs hroot' ?_ hf' ?_
  · exact ⟨s', hrun, hfinal.1, by simpa using hfinal.2⟩
  · simp only [repr_node, rootAddr_node]
    refine ⟨hp', ⟨hg', ?_, ?_⟩, ?_⟩
    · refine repr_congr gl _ ?_ hgl
      intro a ha
      unfold Tree.addrs at ha
      have hpos := List.count_pos_iff.mpr ha
      apply hother a
      · intro h; have hx := hc a; rw [h] at hx hpos
        simp only [beq_self_eq_true, if_true] at hx; omega
      · intro h; have hx := hc a; rw [h] at hx hpos
        simp only [beq_self_eq_true, if_true] at hx; omega
      · intro h
        have hx := hc a
        have hr := List.count_pos_iff.mpr (rootAddr_mem_addrs pl a h.symm)
        unfold Tree.addrs at hr
        omega
      · exact hpar a (by tauto)
    · cases pl with
      | nil => trivial
      | node cr r kr vr rl rr =>
        simp only [repr_node, rootAddr_node, toList_node, List.map_append, List.map_cons,
          List.count_append, List.count_cons, List.mem_append, List.mem_cons] at hpl hc hpar ⊢
        obtain ⟨hcr, hrl, hrr⟩ := hpl
        refine ⟨hr' r _ rfl hcr, ?_, ?_⟩
        · refine repr_congr rl _ ?_ hrl
          intro a ha
          unfold Tree.addrs at ha
          have hpos := List.count_pos_iff.mpr ha
          apply hother a
          · intro h; have hx := hc a; rw [h] at hx hpos
            simp only [beq_self_eq_true, if_true] at hx; omega
          · intro h; have hx := hc a; rw [h] at hx hpos
            simp only [beq_self_eq_true, if_true] at hx; omega
          · simp only [rootAddr_node, ne_eq, Option.some.injEq]
            intro h; have hx := hc a; rw [h] at hx hpos
            simp only [beq_self_eq_true, if_true] at hx; omega
          · exact hpar a (by tauto)
        · refine repr_congr rr _ ?_ hrr
          intro a ha
          unfold Tree.addrs at ha
          have hpos := List.count_pos_iff.mpr ha
          apply hother a
          · intro h; have hx := hc a; rw [h] at hx hpos
            simp only [beq_self_eq_true, if_true] at hx; omega
          · intro h; have hx := hc a; rw [h] at hx hpos
            simp only [beq_self_eq_true, if_true] at hx; omega
          · simp only [rootAddr_node, ne_eq, Option.some.injEq]
            intro h; have hx := hc a; rw [h] at hx hpos
            simp only [beq_self_eq_true, if_true] at hx; omega
          · exact hpar a (by tauto)
    · refine repr_congr pr _ ?_ hpr
      intro a ha
      unfold Tree.addrs at ha
      have hpos := List.count_pos_iff.mpr ha
      apply hother a
      · intro h; have hx := hc a; rw [h] at hx hpos
        simp only [beq_self_eq_true, if_true] at hx; omega
      · intro h; have hx := hc a; rw [h] at hx hpos
        simp only [beq_self_eq_true, if_true] at hx; omega
      · intro h
        have hx := hc a
        have hr := List.count_pos_iff.mpr (rootAddr_mem_addrs pl a h.symm)
        unfold Tree.addrs at hr
        omega
      · exact hpar a (by tauto)
  · intro a ha hne
    simp only [Tree.addrs, toList_node, List.map_append, List.map_cons, List.mem_append,
      List.mem_cons, not_or] at ha
    apply hother a
    · tauto
    · tauto
    · intro h
      have := rootAddr_mem_addrs pl a h.symm
      unfold Tree.addrs at this
      tauto
    · exact hne

end sjtu


namespace sjtu

variable {K V : Type}

open Tree

set_option maxHeartbeats 4000000 in
/-- What `LR(g)` does to the store: it returns, and it assigns to members of `g`, of
`p = g->left_`, of `x = p->right_`, of the children `x_l` and `x_r` of `x` and of `g_par = g->parent_`
only. -/
theorem Store.LR_effect (s : Store K V) (g p x : Nat) (g_par x_l x_r po go : Option Nat)
    (cg cp cx : Colour) (kg kp kx : K) (vg vp vx : V)
    (hg : s.cell g = some ⟨cg, kg, vg, g_par, some p, go⟩)
    (hp : s.cell p = some ⟨cp, kp, vp, some g, po, some x⟩)
    (hx : s.cell x = some ⟨cx, kx, vx, some p, x_l, x_r⟩)
    (hgp : g ≠ p) (hgx : g ≠ x) (hpx : p ≠ x)
    (hxl : ∀ a, x_l = some a → a ≠ g ∧ a ≠ p ∧ a ≠ x ∧ s.cell a ≠ none)
    (hxr : ∀ b, x_r = some b → b ≠ g ∧ b ≠ p ∧ b ≠ x ∧ s.cell b ≠ none)
    (hlr : ∀ a, x_l = some a → x_r ≠ some a)
    (hf : ∀ fa, g_par = some fa →
      fa ≠ g ∧ fa ≠ p ∧ fa ≠ x ∧ x_l ≠ some fa ∧ x_r ≠ some fa ∧ s.cell fa ≠ none) :
    ∃ s', s.LR (some g) = .ok s' ∧
      s'.root_ = (if g_par = none then some x else s.root_) ∧
      s'.cell g = some ⟨cg, kg, vg, some x, x_r, go⟩ ∧
      s'.cell p = some ⟨cp, kp, vp, some x, po, x_l⟩ ∧
      s'.cell x = some ⟨cx, kx, vx, g_par, some p, some g⟩ ∧
      (∀ a c, x_l = some a → s.cell a = some c →
        s'.cell a = some ⟨c.colour_, c.key, c.val, some p, c.left_, c.right_⟩) ∧
      (∀ b c, x_r = some b → s.cell b = some c →
        s'.cell b = some ⟨c.colour_, c.key, c.val, some g, c.left_, c.right_⟩) ∧
      (∀ fa c, g_par = some fa → s.cell fa = some c →
        s'.cell fa = some ⟨c.colour_, c.key, c.val, c.parent_,
          if c.left_ = some g then some x else c.left_,
          if c.left_ = some g then c.right_ else some x⟩) ∧
      (∀ a, a ≠ g → a ≠ p → a ≠ x → some a ≠ x_l → some a ≠ x_r → some a ≠ g_par →
        s'.cell a = s.cell a) := by
  cases x_l with
  | none =>
    cases x_r with
    | none =>
      cases g_par with
      | none =>
        simp [Store.LR, Store.parent, Store.left, Store.right, Store.read, Store.setRight, Store.setParent, Store.setLeft, Store.write, Store.relink, hg, hp, hx, Function.update_apply, hgp, hgx, hpx, hgp.symm, hgx.symm, hpx.symm]
        intro a h1 h2 h3
        simp [h1, h2, h3]
      | some fa =>
        obtain ⟨hf1, hf2, hf3, hf4, hf5, hf6⟩ := hf fa rfl
        obtain ⟨cf, hcf⟩ := Option.ne_none_iff_exists'.mp hf6
        by_cases hl : cf.left_ = some g <;>
        · simp [Store.LR, Store.parent, Store.left, Store.right, Store.read, Store.setRight, Store.setParent, Store.setLeft, Store.write, Store.relink, hg, hp, hx, Function.update_apply, hgp, hgx, hpx, hgp.symm, hgx.symm, hpx.symm, hf1, hf2, hf3, hf1.symm, hf2.symm, hf3.symm, hcf, hl]
          (try split_ands) <;> (intros; subst_vars; simp_all)
    | some b =>
      cases g_par with
      | none =>
        obtain ⟨hb1, hb2, hb3, hb4⟩ := hxr b rfl
        obtain ⟨cb, hcb⟩ := Option.ne_none_iff_exists'.mp hb4
        simp [Store.LR, Store.parent, Store.left, Store.right, Store.read, Store.setRight, Store.setParent, Store.setLeft, Store.write, Store.relink, hg, hp, hx, Function.update_apply, hgp, hgx, hpx, hgp.symm, hgx.symm, hpx.symm, hb1, hb2, hb3, hb1.symm, hb2.symm, hb3.symm, hcb]
        (try split_ands) <;> (intros; subst_vars; simp_all)
      | some fa =>
        obtain ⟨hb1, hb2, hb3, hb4⟩ := hxr b rfl
        obtain ⟨cb, hcb⟩ := Option.ne_none_iff_exists'.mp hb4
        obtain ⟨hf1, hf2, hf3, hf4, hf5, hf6⟩ := hf fa rfl
        obtain ⟨cf, hcf⟩ := Option.ne_none_iff_exists'.mp hf6
        have hfb : fa ≠ b := fun h => hf5 (by rw [h])
        have hbf : b ≠ fa := hfb.symm
        by_cases hl : cf.left_ = some g <;>
        · simp [Store.LR, Store.parent, Store.left, Store.right, Store.read, Store.setRight, Store.setParent, Store.setLeft, Store.write, Store.relink, hg, hp, hx, Function.update_apply, hgp, hgx, hpx, hgp.symm, hgx.symm, hpx.symm, hb1, hb2, hb3, hb1.symm, hb2.symm, hb3.symm, hcb, hf1, hf2, hf3, hf1.symm, hf2.symm, hf3.symm, hcf, hfb, hbf, hl]
          (try split_ands) <;> (intros; subst_vars; simp_all)
  | some a =>
    cases x_r with
    | none =>
      cases g_par with
      | none =>
        obtain ⟨ha1, ha2, ha3, ha4⟩ := hxl a rfl
        obtain ⟨ca, hca⟩ := Option.ne_none_iff_exists'.mp ha4
        simp [Store.LR, Store.parent, Store.left, Store.right, Store.read, Store.setRight, Store.setParent, Store.setLeft, Store.write, Store.relink, hg, hp, hx, Function.update_apply, hgp, hgx, hpx, hgp.symm, hgx.symm, hpx.symm, ha1, ha2, ha3, ha1.symm, ha2.symm, ha3.symm, hca]
        (try split_ands) <;> (intros; subst_vars; simp_all)
      | some fa =>
        obtain ⟨ha1, ha2, ha3, ha4⟩ := hxl a rfl
        obtain ⟨ca, hca⟩ := Option.ne_none_iff_exists'.mp ha4
        obtain ⟨hf1, hf2, hf3, hf4, hf5, hf6⟩ := hf fa rfl
        obtain ⟨cf, hcf⟩ := Option.ne_none_iff_exists'.mp hf6
        have hfa : fa ≠ a := fun h => hf4 (by rw [h])
        have haf : a ≠ fa := hfa.symm
        by_cases hl : cf.left_ = some g <;>
        · simp [Store.LR, Store.parent, Store.left, Store.right, Store.read, Store.setRight, Store.setParent, Store.setLeft, Store.write, Store.relink, hg, hp, hx, Function.update_apply, hgp, hgx, hpx, hgp.symm, hgx.symm, hpx.symm, ha1, ha2, ha3, ha1.symm, ha2.symm, ha3.symm, hca, hf1, hf2, hf3, hf1.symm, hf2.symm, hf3.symm, hcf, hfa, haf, hl]
          (try split_ands) <;> (intros; subst_vars; simp_all)
    | some b =>
      cases g_par with
      | none =>
        obtain ⟨ha1, ha2, ha3, ha4⟩ := hxl a rfl
        obtain ⟨ca, hca⟩ := Option.ne_none_iff_exists'.mp ha4
        obtain ⟨hb1, hb2, hb3, hb4⟩ := hxr b rfl
        obtain ⟨cb, hcb⟩ := Option.ne_none_iff_exists'.mp hb4
        have hab : a ≠ b := fun h => hlr a rfl (by rw [h])
        have hba : b ≠ a := hab.symm
        simp [Store.LR, Store.parent, Store.left, Store.right, Store.read, Store.setRight, Store.setParent, Store.setLeft, Store.write, Store.relink, hg, hp, hx, Function.update_apply, hgp, hgx, hpx, hgp.symm, hgx.symm, hpx.symm, ha1, ha2, ha3, ha1.symm, ha2.symm, ha3.symm, hca, hb1, hb2, hb3, hb1.symm, hb2.symm, hb3.symm, hcb, hab, hba]
        (try split_ands) <;> (intros; subst_vars; simp_all)
      | some fa =>
        obtain ⟨ha1, ha2, ha3, ha4⟩ := hxl a rfl
        obtain ⟨ca, hca⟩ := Option.ne_none_iff_exists'.mp ha4
        obtain ⟨hb1, hb2, hb3, hb4⟩ := hxr b rfl
        obtain ⟨cb, hcb⟩ := Option.ne_none_iff_exists'.mp hb4
        have hab : a ≠ b := fun h => hlr a rfl (by rw [h])
        have hba : b ≠ a := hab.symm
        obtain ⟨hf1, hf2, hf3, hf4, hf5, hf6⟩ := hf fa rfl
        obtain ⟨cf, hcf⟩ := Option.ne_none_iff_exists'.mp hf6
        have hfa : fa ≠ a := fun h => hf4 (by rw [h])
        have haf : a ≠ fa := hfa.symm
        have hfb : fa ≠ b := fun h => hf5 (by rw [h])
        have hbf : b ≠ fa := hfb.symm
        by_cases hl : cf.left_ = some g <;>
        · simp [Store.LR, Store.parent, Store.left, Store.right, Store.read, Store.setRight, Store.setParent, Store.setLeft, Store.write, Store.relink, hg, hp, hx, Function.update_apply, hgp, hgx, hpx, hgp.symm, hgx.symm, hpx.symm, ha1, ha2, ha3, ha1.symm, ha2.symm, ha3.symm, hca, hb1, hb2, hb3, hb1.symm, hb2.symm, hb3.symm, hcb, hab, hba, hf1, hf2, hf3, hf1.symm, hf2.symm, hf3.symm, hcf, hfa, haf, hfb, hbf, hl]
          (try split_ands) <;> (intros; subst_vars; simp_all)

set_option maxHeartbeats 4000000 in
/-- What `RL(g)` does to the store: it returns, and it assigns to members of `g`, of
`p = g->right_`, of `x = p->left_`, of the children `x_l` and `x_r` of `x` and of `g_par = g->parent_`
only. -/
theorem Store.RL_effect (s : Store K V) (g p x : Nat) (g_par x_l x_r po go : Option Nat)
    (cg cp cx : Colour) (kg kp kx : K) (vg vp vx : V)
    (hg : s.cell g = some ⟨cg, kg, vg, g_par, go, some p⟩)
    (hp : s.cell p = some ⟨cp, kp, vp, some g, some x, po⟩)
    (hx : s.cell x = some ⟨cx, kx, vx, some p, x_l, x_r⟩)
    (hgp : g ≠ p) (hgx : g ≠ x) (hpx : p ≠ x)
    (hxl : ∀ a, x_l = some a → a ≠ g ∧ a ≠ p ∧ a ≠ x ∧ s.cell a ≠ none)
    (hxr : ∀ b, x_r = some b → b ≠ g ∧ b ≠ p ∧ b ≠ x ∧ s.cell b ≠ none)
    (hlr : ∀ a, x_l = some a → x_r ≠ some a)
    (hf : ∀ fa, g_par = some fa →
      fa ≠ g ∧ fa ≠ p ∧ fa ≠ x ∧ x_l ≠ some fa ∧ x_r ≠ some fa ∧ s.cell fa ≠ none) :
    ∃ s', s.RL (some g) = .ok s' ∧
      s'.root_ = (if g_par = none then some x else s.root_) ∧
      s'.cell g = some ⟨cg, kg, vg, some x, go, x_l⟩ ∧
      s'.cell p = some ⟨cp, kp, vp, some x, x_r, po⟩ ∧
      s'.cell x = some ⟨cx, kx, vx, g_par, some g, some p⟩ ∧
      (∀ a c, x_l = some a → s.cell a = some c →
        s'.cell a = some ⟨c.colour_, c.key, c.val, some g, c.left_, c.right_⟩) ∧
      (∀ b c, x_r = some b → s.cell b = some c →
        s'.cell b = some ⟨c.colour_, c.key, c.val, some p, c.left_, c.right_⟩) ∧
      (∀ fa c, g_par = some fa → s.cell fa = some c →
        s'.cell fa = some ⟨c.colour_, c.key, c.val, c.parent_,
          if c.left_ = some g then some x else c.left_,
          if c.left_ = some g then c.right_ else some x⟩) ∧
      (∀ a, a ≠ g → a ≠ p → a ≠ x → some a ≠ x_l → some a ≠ x_r → some a ≠ g_par →
        s'.cell a = s.cell a) := by
  cases x_l with
  | none =>
    cases x_r with
    | none =>
      cases g_par with
      | none =>
        simp [Store.RL, Store.parent, Store.left, Store.right, Store.read, Store.setRight, Store.setParent, Store.setLeft, Store.write, Store.relink, hg, hp, hx, Function.update_apply, hgp, hgx, hpx, hgp.symm, hgx.symm, hpx.symm]
        intro a h1 h2 h3
        simp [h1, h2, h3]
      | some fa =>
        obtain ⟨hf1, hf2, hf3, hf4, hf5, hf6⟩ := hf fa rfl
        obtain ⟨cf, hcf⟩ := Option.ne_none_iff_exists'.mp hf6
        by_cases hl : cf.left_ = some g <;>
        · simp [Store.RL, Store.parent, Store.left, Store.right, Store.read, Store.setRight, Store.setParent, Store.setLeft, Store.write, Store.relink, hg, hp, hx, Function.update_apply, hgp, hgx, hpx, hgp.symm, hgx.symm, hpx.symm, hf1, hf2, hf3, hf1.symm, hf2.symm, hf3.symm, hcf, hl]
          (try split_ands) <;> (intros; subst_vars; simp_all)
    | some b =>
      cases g_par with
      | none =>
        obtain ⟨hb1, hb2, hb3, hb4⟩ := hxr b rfl
        obtain ⟨cb, hcb⟩ := Option.ne_none_iff_exists'.mp hb4
        simp [Store.RL, Store.parent, Store.left, Store.right, Store.read, Store.setRight, Store.setParent, Store.setLeft, Store.write, Store.relink, hg, hp, hx, Function.update_apply, hgp, hgx, hpx, hgp.symm, hgx.symm, hpx.symm, hb1, hb2, hb3, hb1.symm, hb2.symm, hb3.symm, hcb]
        (try split_ands) <;> (intros; subst_vars; simp_all)
      | some fa =>
        obtain ⟨hb1, hb2, hb3, hb4⟩ := hxr b rfl
        obtain ⟨cb, hcb⟩ := Option.ne_none_iff_exists'.mp hb4
        obtain ⟨hf1, hf2, hf3, hf4, hf5, hf6⟩ := hf fa rfl
        obtain ⟨cf, hcf⟩ := Option.ne_none_iff_exists'.mp hf6
        have hfb : fa ≠ b := fun h => hf5 (by rw [h])
        have hbf : b ≠ fa := hfb.symm
        by_cases hl : cf.left_ = some g <;>
        · simp [Store.RL, Store.parent, Store.left, Store.right, Store.read, Store.setRight, Store.setParent, Store.setLeft, Store.write, Store.relink, hg, hp, hx, Function.update_apply, hgp, hgx, hpx, hgp.symm, hgx.symm, hpx.symm, hb1, hb2, hb3, hb1.symm, hb2.symm, hb3.symm, hcb, hf1, hf2, hf3, hf1.symm, hf2.symm, hf3.symm, hcf, hfb, hbf, hl]
          (try split_ands) <;> (intros; subst_vars; simp_all)
  | some a =>
    cases x_r with
    | none =>
      cases g_par with
      | none =>
        obtain ⟨ha1, ha2, ha3, ha4⟩ := hxl a rfl
        obtain ⟨ca, hca⟩ := Option.ne_none_iff_exists'.mp ha4
        simp [Store.RL, Store.parent, Store.left, Store.right, Store.read, Store.setRight, Store.setParent, Store.setLeft, Store.write, Store.relink, hg, hp, hx, Function.update_apply, hgp, hgx, hpx, hgp.symm, hgx.symm, hpx.symm, ha1, ha2, ha3, ha1.symm, ha2.symm, ha3.symm, hca]
        (try split_ands) <;> (intros; subst_vars; simp_all)
      | some fa =>
        obtain ⟨ha1, ha2, ha3, ha4⟩ := hxl a rfl
        obtain ⟨ca, hca⟩ := Option.ne_none_iff_exists'.mp ha4
        obtain ⟨hf1, hf2, hf3, hf4, hf5, hf6⟩ := hf fa rfl
        obtain ⟨cf, hcf⟩ := Option.ne_none_iff_exists'.mp hf6
        have hfa : fa ≠ a := fun h => hf4 (by rw [h])
        have haf : a ≠ fa := hfa.symm
        by_cases hl : cf.left_ = some g <;>
        · simp [Store.RL, Store.parent, Store.left, Store.right, Store.read, Store.setRight, Store.setParent, Store.setLeft, Store.write, Store.relink, hg, hp, hx, Function.update_apply, hgp, hgx, hpx, hgp.symm, hgx.symm, hpx.symm, ha1, ha2, ha3, ha1.symm, ha2.symm, ha3.symm, hca, hf1, hf2, hf3, hf1.symm, hf2.symm, hf3.symm, hcf, hfa, haf, hl]
          (try split_ands) <;> (intros; subst_vars; simp_all)
    | some b =>
      cases g_par with
      | none =>
        obtain ⟨ha1, ha2, ha3, ha4⟩ := hxl a rfl
        obtain ⟨ca, hca⟩ := Option.ne_none_iff_exists'.mp ha4
        obtain ⟨hb1, hb2, hb3, hb4⟩ := hxr b rfl
        obtain ⟨cb, hcb⟩ := Option.ne_none_iff_exists'.mp hb4
        have hab : a ≠ b := fun h => hlr a rfl (by rw [h])
        have hba : b ≠ a := hab.symm
        simp [Store.RL, Store.parent, Store.left, Store.right, Store.read, Store.setRight, Store.setParent, Store.setLeft, Store.write, Store.relink, hg, hp, hx, Function.update_apply, hgp, hgx, hpx, hgp.symm, hgx.symm, hpx.symm, ha1, ha2, ha3, ha1.symm, ha2.symm, ha3.symm, hca, hb1, hb2, hb3, hb1.symm, hb2.symm, hb3.symm, hcb, hab, hba]
        (try split_ands) <;> (intros; subst_vars; simp_all)
      | some fa =>
        obtain ⟨ha1, ha2, ha3, ha4⟩ := hxl a rfl
        obtain ⟨ca, hca⟩ := Option.ne_none_iff_exists'.mp ha4
        obtain ⟨hb1, hb2, hb3, hb4⟩ := hxr b rfl
        obtain ⟨cb, hcb⟩ := Option.ne_none_iff_exists'.mp hb4
        have hab : a ≠ b := fun h => hlr a rfl (by rw [h])
        have hba : b ≠ a := hab.symm
        obtain ⟨hf1, hf2, hf3, hf4, hf5, hf6⟩ := hf fa rfl
        obtain ⟨cf, hcf⟩ := Option.ne_none_iff_exists'.mp hf6
        have hfa : fa ≠ a := fun h => hf4 (by rw [h])
        have haf : a ≠ fa := hfa.symm
        have hfb : fa ≠ b := fun h => hf5 (by rw [h])
        have hbf : b ≠ fa := hfb.symm
        by_cases hl : cf.left_ = some g <;>
        · simp [Store.RL, Store.parent, Store.left, Store.right, Store.read, Store.setRight, Store.setParent, Store.setLeft, Store.write, Store.relink, hg, hp, hx, Function.update_apply, hgp, hgx, hpx, hgp.symm, hgx.symm, hpx.symm, ha1, ha2, ha3, ha1.symm, ha2.symm, ha3.symm, hca, hb1, hb2, hb3, hb1.symm, hb2.symm, hb3.symm, hcb, hab, hba, hf1, hf2, hf3, hf1.symm, hf2.symm, hf3.symm, hcf, hfa, haf, hfb, hbf, hl]
          (try split_ands) <;> (intros; subst_vars; simp_all)

end sjtu


namespace sjtu

variable {K V : Type}

open Tree

/-- The root of a represented subtree is a cell of the store. -/
theorem repr_rootAddr_cell {h : Nat → Option (Cell K V)} (par : Option Nat) (t : Tree K V)
    (hr : Repr h par t) (a : Nat) (ha : t.rootAddr = some a) : h a ≠ none := by
  cases t with
  | nil => simp at ha
  | node c b k v l r =>
    simp only [rootAddr_node, Option.some.injEq] at ha
    subst ha
    simp only [repr_node] at hr
    rw [hr.1]; simp

/-- A subtree hung under a new parent: when only `parent_` of its root has been assigned,
the subtree is represented under the new parent. -/
theorem repr_reparent {h h' : Nat → Option (Cell K V)} (par par' : Option Nat) (t : Tree K V)
    (hcnt : ∀ a, t.addrs.count a ≤ 1) (hr : Repr h par t)
    (hroot : ∀ a c, t.rootAddr = some a → h a = some c →
      h' a = some ⟨c.colour_, c.key, c.val, par', c.left_, c.right_⟩)
    (hoth : ∀ a, a ∈ t.addrs → some a ≠ t.rootAddr → h' a = h a) : Repr h' par' t := by
  cases t with
  | nil => trivial
  | node c b k v l r =>
    simp only [repr_node, rootAddr_node, Tree.addrs, toList_node, List.map_append,
      List.map_cons, List.count_append, List.count_cons, List.mem_append, List.mem_cons,
      ne_eq, Option.some.injEq] at hr hcnt hoth hroot ⊢
    obtain ⟨hb, hl, hrr⟩ := hr
    refine ⟨hroot b _ rfl hb, ?_, ?_⟩
    · refine repr_congr l _ ?_ hl
      intro a ha
      unfold Tree.addrs at ha
      have hpos := List.count_pos_iff.mpr ha
      apply hoth a (Or.inl ha)
      intro e; have hx := hcnt a; rw [e] at hx hpos
      simp only [beq_self_eq_true, if_true] at hx; omega
    · refine repr_congr r _ ?_ hrr
      intro a ha
      unfold Tree.addrs at ha
      have hpos := List.count_pos_iff.mpr ha
      apply hoth a (Or.inr (Or.inr ha))
      intro e; have hx := hcnt a; rw [e] at hx hpos
      simp only [beq_self_eq_true, if_true] at hx; omega

/-- On a store that holds a tree, `LR(g)` at a node `g` with a left child that has a right child
returns, and the store then holds the tree with the rotated subtree in the place of the old
one. -/
theorem Store.LR_holds (s : Store K V) (path : Path K V) (cg cp cx : Colour) (kg kp kx : K)
    (vg vp vx : V) (g p x : Nat) (pl xl xr gr : Tree K V)
    (hnd : (plug (node cg g kg vg (node cp p kp vp pl (node cx x kx vx xl xr)) gr) path).addrs.Nodup)
    (hs : s.Holds (plug (node cg g kg vg (node cp p kp vp pl (node cx x kx vx xl xr)) gr) path)) :
    ∃ s', s.LR (some g) = .ok s' ∧
      s'.Holds (plug (node cx x kx vx (node cp p kp vp pl xl) (node cg g kg vg xr gr)) path) ∧
      s'.root_ = (if s.root_ = some g then some x else s.root_) := by
  have hrep := hs.2
  rw [repr_plug] at hrep
  obtain ⟨hsub, hctx⟩ := hrep
  simp only [repr_node, rootAddr_node] at hsub
  obtain ⟨hg, ⟨hp, hpl, hx, hxl, hxr⟩, hgr⟩ := hsub
  obtain ⟨hn1, -, -⟩ := nodup_plug _ path hnd
  have hpar := ne_parentOf _ path hnd
  simp only [Tree.addrs, toList_node, List.map_append, List.map_cons, List.mem_append,
    List.mem_cons, List.append_assoc, List.cons_append] at hn1 hpar
  have hc := List.nodup_iff_count_le_one.mp hn1
  simp only [List.count_append, List.count_cons] at hc
  have hgp : g ≠ p := by
    intro h; have hq := hc g; rw [h] at hq
    simp only [beq_self_eq_true, if_true] at hq; omega
  have hgx : g ≠ x := by
    intro h; have hq := hc g; rw [h] at hq
    simp only [beq_self_eq_true, if_true] at hq; omega
  have hpx : p ≠ x := by
    intro h; have hq := hc p; rw [h] at hq
    simp only [beq_self_eq_true, if_true] at hq; omega
  have hxl1 : ∀ a, xl.rootAddr = some a → a ≠ g ∧ a ≠ p ∧ a ≠ x ∧ s.cell a ≠ none := by
    intro a h
    have hpos := List.count_pos_iff.mpr (rootAddr_mem_addrs xl a h)
    unfold Tree.addrs at hpos
    refine ⟨?_, ?_, ?_, repr_rootAddr_cell _ xl hxl a h⟩
    · intro e; have hq := hc a; rw [e] at hq hpos
      simp only [beq_self_eq_true, if_true] at hq; omega
    · intro e; have hq := hc a; rw [e] at hq hpos
      simp only [beq_self_eq_true, if_true] at hq; omega
    · intro e; have hq := hc a; rw [e] at hq hpos
      simp only [beq_self_eq_true, if_true] at hq; omega
  have hxr1 : ∀ a, xr.rootAddr = some a → a ≠ g ∧ a ≠ p ∧ a ≠ x ∧ s.cell a ≠ none := by
    intro a h
    have hpos := List.count_pos_iff.mpr (rootAddr_mem_addrs xr a h)
    unfold Tree.addrs at hpos
    refine ⟨?_, ?_, ?_, repr_rootAddr_cell _ xr hxr a h⟩
    · intro e; have hq := hc a; rw [e] at hq hpos
      simp only [beq_self_eq_true, if_true] at hq; omega
    · intro e; have hq := hc a; rw [e] at hq hpos
      simp only [beq_self_eq_true, if_true] at hq; omega
    · intro e; have hq := hc a; rw [e] at hq hpos
      simp only [beq_self_eq_true, if_true] at hq; omega
  have hlr : ∀ a, xl.rootAddr = some a → xr.rootAddr ≠ some a := by
    intro a h e
    have hq := hc a
    have hm1 := List.count_pos_iff.mpr (rootAddr_mem_addrs xl a h)
    have hm2 := List.count_pos_iff.mpr (rootAddr_mem_addrs xr a e)
    unfold Tree.addrs at hm1 hm2
    omega
  have hf1 : ∀ fa, parentOf path = some fa → fa ≠ g ∧ fa ≠ p ∧ fa ≠ x ∧
      xl.rootAddr ≠ some fa ∧ xr.rootAddr ≠ some fa ∧ s.cell fa ≠ none := by
    intro fa h
    refine ⟨?_, ?_, ?_, ?_, ?_, parentOf_cell path _ hctx fa h⟩
    · intro e; exact hpar g (by simp) (by rw [h, e])
    · intro e; exact hpar p (by simp) (by rw [h, e])
    · intro e; exact hpar x (by simp) (by rw [h, e])
    · intro e
      have hm := rootAddr_mem_addrs xl fa e
      unfold Tree.addrs at hm
      exact hpar fa (by tauto) h.symm
    · intro e
      have hm := rootAddr_mem_addrs xr fa e
      unfold Tree.addrs at hm
      exact hpar fa (by tauto) h.symm
  obtain ⟨s', hrun, hroot', hg', hp', hx', hl', hr', hf', hother⟩ :=
    Store.LR_effect s g p x (parentOf path) xl.rootAddr xr.rootAddr pl.rootAddr
      gr.rootAddr cg cp cx kg kp kx vg vp vx hg hp hx hgp hgx hpx hxl1 hxr1 hlr hf1
  have hfinal := rotation_holds s s' path (node cg g kg vg (node cp p kp vp pl (node cx x kx vx xl xr)) gr)
    (node cx x kx vx (node cp p kp vp pl xl) (node cg g kg vg xr gr)) g x
    rfl rfl hnd hs hroot' ?_ hf' ?_
  · exact ⟨s', hrun, hfinal.1, by simpa using hfinal.2⟩
  · simp only [repr_node, rootAddr_node]
    refine ⟨hx', ⟨hp', ?_, ?_⟩, hg', ?_, ?_⟩
    · refine repr_congr pl _ ?_ hpl
      intro a ha
      unfold Tree.addrs at ha
      have hpos := List.count_pos_iff.mpr ha
      apply hother a
      · intro e; have hq := hc a; rw [e] at hq hpos
        simp only [beq_self_eq_true, if_true] at hq; omega
      · intro e; have hq := hc a; rw [e] at hq hpos
        simp only [beq_self_eq_true, if_true] at hq; omega
      · intro e; have hq := hc a; rw [e] at hq hpos
        simp only [beq_self_eq_true, if_true] at hq; omega
      · intro e
        have hq := hc a
        have hm := List.count_pos_iff.mpr (rootAddr_mem_addrs xl a e.symm)
        unfold Tree.addrs at hm
        omega
      · intro e
        have hq := hc a
        have hm := List.count_pos_iff.mpr (rootAddr_mem_addrs xr a e.symm)
        unfold Tree.addrs at hm
        omega
      · exact hpar a (by tauto)
    · refine repr_reparent (some x) (some p) xl ?_ hxl hl' ?_
      · intro a
        have hq := hc a
        unfold Tree.addrs
        omega
      · intro a ha hne
        unfold Tree.addrs at ha
        have hpos := List.count_pos_iff.mpr ha
        apply hother a
        · intro e; have hq := hc a; rw [e] at hq hpos
          simp only [beq_self_eq_true, if_true] at hq; omega
        · intro e; have hq := hc a; rw [e] at hq hpos
          simp only [beq_self_eq_true, if_true] at hq; omega
        · intro e; have hq := hc a; rw [e] at hq hpos
          simp only [beq_self_eq_true, if_true] at hq; omega
        · exact hne
        · intro e
          have hq := hc a
          have hm := List.count_pos_iff.mpr (rootAddr_mem_addrs xr a e.symm)
          unfold Tree.addrs at hm
          omega
        · exact hpar a (by tauto)
    · refine repr_reparent (some x) (some g) xr ?_ hxr hr' ?_
      · intro a
        have hq := hc a
        unfold Tree.addrs
        omega
      · intro a ha hne
        unfold Tree.addrs at ha
        have hpos := List.count_pos_iff.mpr ha
        apply hother a
        · intro e; have hq := hc a; rw [e] at hq hpos
          simp only [beq_self_eq_true, if_true] at hq; omega
        · intro e; have hq := hc a; rw [e] at hq hpos
          simp only [beq_self_eq_true, if_true] at hq; omega
        · intro e; have hq := hc a; rw [e] at hq hpos
          simp only [beq_self_eq_true, if_true] at hq; omega
        · intro e
          have hq := hc a
          have hm := List.count_pos_iff.mpr (rootAddr_mem_addrs xl a e.symm)
          unfold Tree.addrs at hm
          omega
        · exact hne
        · exact hpar a (by tauto)
    · refine repr_congr gr _ ?_ hgr
      intro a ha
      unfold Tree.addrs at ha
      have hpos := List.count_pos_iff.mpr ha
      apply hother a
      · intro e; have hq := hc a; rw [e] at hq hpos
        simp only [beq_self_eq_true, if_true] at hq; omega
      · intro e; have hq := hc a; rw [e] at hq hpos
        simp only [beq_self_eq_true, if_true] at hq; omega
      · intro e; have hq := hc a; rw [e] at hq hpos
        simp only [beq_self_eq_true, if_true] at hq; omega
      · intro e
        have hq := hc a
        have hm := List.count_pos_iff.mpr (rootAddr_mem_addrs xl a e.symm)
        unfold Tree.addrs at hm
        omega
      · intro e
        have hq := hc a
        have hm := List.count_pos_iff.mpr (rootAddr_mem_addrs xr a e.symm)
        unfold Tree.addrs at hm
        omega
      · exact hpar a (by tauto)
  · intro a ha hne
    simp only [Tree.addrs, toList_node, List.map_append, List.map_cons, List.mem_append,
      List.mem_cons, not_or] at ha
    apply hother a
    · tauto
    · tauto
    · tauto
    · intro e
      have hm := rootAddr_mem_addrs xl a e.symm
      unfold Tree.addrs at hm
      tauto
    · intro e
      have hm := rootAddr_mem_addrs xr a e.symm
      unfold Tree.addrs at hm
      tauto
    · exact hne

/-- On a store that holds a tree, `RL(g)` at a node `g` with a right child that has a left child
returns, and the store then holds the tree with the rotated subtree in the place of the old
one. -/
theorem Store.RL_holds (s : Store K V) (path : Path K V) (cg cp cx : Colour) (kg kp kx : K)
    (vg vp vx : V) (g p x : Nat) (gl xl xr pr : Tree K V)
    (hnd : (plug (node cg g kg vg gl (node cp p kp vp (node cx x kx vx xl xr) pr)) path).addrs.Nodup)
    (hs : s.Holds (plug (node cg g kg vg gl (node cp p kp vp (node cx x kx vx xl xr) pr)) path)) :
    ∃ s', s.RL (some g) = .ok s' ∧
      s'.Holds (plug (node cx x kx vx (node cg g kg vg gl xl) (node cp p kp vp xr pr)) path) ∧
      s'.root_ = (if s.root_ = some g then some x else s.root_) := by
  have hrep := hs.2
  rw [repr_plug] at hrep
  obtain ⟨hsub, hctx⟩ := hrep
  simp only [repr_node, rootAddr_node] at hsub
  obtain ⟨hg, hgl, hp, ⟨hx, hxl, hxr⟩, hpr⟩ := hsub
  obtain ⟨hn1, -, -⟩ := nodup_plug _ path hnd
  have hpar := ne_parentOf _ path hnd
  simp only [Tree.addrs, toList_node, List.map_append, List.map_cons, List.mem_append,
    List.mem_cons, List.append_assoc, List.cons_append] at hn1 hpar
  have hc := List.nodup_iff_count_le_one.mp hn1
  simp only [List.count_append, List.count_cons] at hc
  have hgp : g ≠ p := by
    intro h; have hq := hc g; rw [h] at hq
    simp only [beq_self_eq_true, if_true] at hq; omega
  have hgx : g ≠ x := by
    intro h; have hq := hc g; rw [h] at hq
    simp only [beq_self_eq_true, if_true] at hq; omega
  have hpx : p ≠ x := by
    intro h; have hq := hc p; rw [h] at hq
    simp only [beq_self_eq_true, if_true] at hq; omega
  have hxl1 : ∀ a, xl.rootAddr = some a → a ≠ g ∧ a ≠ p ∧ a ≠ x ∧ s.cell a ≠ none := by
    intro a h
    have hpos := List.count_pos_iff.mpr (rootAddr_mem_addrs xl a h)
    unfold Tree.addrs at hpos
    refine ⟨?_, ?_, ?_, repr_rootAddr_cell _ xl hxl a h⟩
    · intro e; have hq := hc a; rw [e] at hq hpos
      simp only [beq_self_eq_true, if_true] at hq; omega
    · intro e; have hq := hc a; rw [e] at hq hpos
      simp only [beq_self_eq_true, if_true] at hq; omega
    · intro e; have hq := hc a; rw [e] at hq hpos
      simp only [beq_self_eq_true, if_true] at hq; omega
  have hxr1 : ∀ a, xr.rootAddr = some a → a ≠ g ∧ a ≠ p ∧ a ≠ x ∧ s.cell a ≠ none := by
    intro a h
    have hpos := List.count_pos_iff.mpr (rootAddr_mem_addrs xr a h)
    unfold Tree.addrs at hpos
    refine ⟨?_, ?_, ?_, repr_rootAddr_cell _ xr hxr a h⟩
    · intro e; have hq := hc a; rw [e] at hq hpos
      simp only [beq_self_eq_true, if_true] at hq; omega
    · intro e; have hq := hc a; rw [e] at hq hpos
      simp only [beq_self_eq_true, if_true] at hq; omega
    · intro e; have hq := hc a; rw [e] at hq hpos
      simp only [beq_self_eq_true, if_true] at hq; omega
  have hlr : ∀ a, xl.rootAddr = some a → xr.rootAddr ≠ some a := by
    intro a h e
    have hq := hc a
    have hm1 := List.count_pos_iff.mpr (rootAddr_mem_addrs xl a h)
    have hm2 := List.count_pos_iff.mpr (rootAddr_mem_addrs xr a e)
    unfold Tree.addrs at hm1 hm2
    omega
  have hf1 : ∀ fa, parentOf path = some fa → fa ≠ g ∧ fa ≠ p ∧ fa ≠ x ∧
      xl.rootAddr ≠ some fa ∧ xr.rootAddr ≠ some fa ∧ s.cell fa ≠ none := by
    intro fa h
    refine ⟨?_, ?_, ?_, ?_, ?_, parentOf_cell path _ hctx fa h⟩
    · intro e; exact hpar g (by simp) (by rw [h, e])
    · intro e; exact hpar p (by simp) (by rw [h, e])
    · intro e; exact hpar x (by simp) (by rw [h, e])
    · intro e
      have hm := rootAddr_mem_addrs xl fa e
      unfold Tree.addrs at hm
      exact hpar fa (by tauto) h.symm
    · intro e
      have hm := rootAddr_mem_addrs xr fa e
      unfold Tree.addrs at hm
      exact hpar fa (by tauto) h.symm
  obtain ⟨s', hrun, hroot', hg', hp', hx', hl', hr', hf', hother⟩ :=
    Store.RL_effect s g p x (parentOf path) xl.rootAddr xr.rootAddr pr.rootAddr
      gl.rootAddr cg cp cx kg kp kx vg vp vx hg hp hx hgp hgx hpx hxl1 hxr1 hlr hf1
  have hfinal := rotation_holds s s' path (node cg g kg vg gl (node cp p kp vp (node cx x kx vx xl xr) pr))
    (node cx x kx vx (node cg g kg vg gl xl) (node cp p kp vp xr pr)) g x
    rfl rfl hnd hs hroot' ?_ hf' ?_
  · exact ⟨s', hrun, hfinal.1, by simpa using hfinal.2⟩
  · simp only [repr_node, rootAddr_node]
    refine ⟨hx', ⟨hg', ?_, ?_⟩, hp', ?_, ?_⟩
    · refine repr_congr gl _ ?_ hgl
      intro a ha
      unfold Tree.addrs at ha
      have hpos := List.count_pos_iff.mpr ha
      apply hother a
      · intro e; have hq := hc a; rw [e] at hq hpos
        simp only [beq_self_eq_true, if_true] at hq; omega
      · intro e; have hq := hc a; rw [e] at hq hpos
        simp only [beq_self_eq_true, if_true] at hq; omega
      · intro e; have hq := hc a; rw [e] at hq hpos
        simp only [beq_self_eq_true, if_true] at hq; omega
      · intro e
        have hq := hc a
        have hm := List.count_pos_iff.mpr (rootAddr_mem_addrs xl a e.symm)
        unfold Tree.addrs at hm
        omega
      · intro e
        have hq := hc a
        have hm := List.count_pos_iff.mpr (rootAddr_mem_addrs xr a e.symm)
        unfold Tree.addrs at hm
        omega
      · exact hpar a (by tauto)
    · refine repr_reparent (some x) (some g) xl ?_ hxl hl' ?_
      · intro a
        have hq := hc a
        unfold Tree.addrs
        omega
      · intro a ha hne
        unfold Tree.addrs at ha
        have hpos := List.count_pos_iff.mpr ha
        apply hother a
        · intro e; have hq := hc a; rw [e] at hq hpos
          simp only [beq_self_eq_true, if_true] at hq; omega
        · intro e; have hq := hc a; rw [e] at hq hpos
          simp only [beq_self_eq_true, if_true] at hq; omega
        · intro e; have hq := hc a; rw [e] at hq hpos
          simp only [beq_self_eq_true, if_true] at hq; omega
        · exact hne
        · intro e
          have hq := hc a
          have hm := List.count_pos_iff.mpr (rootAddr_mem_addrs xr a e.symm)
          unfold Tree.addrs at hm
          omega
        · exact hpar a (by tauto)
    · refine repr_reparent (some x) (some p) xr ?_ hxr hr' ?_
      · intro a
        have hq := hc a
        unfold Tree.addrs
        omega
      · intro a ha hne
        unfold Tree.addrs at ha
        have hpos := List.count_pos_iff.mpr ha
        apply hother a
        · intro e; have hq := hc a; rw [e] at hq hpos
          simp only [beq_self_eq_true, if_true] at hq; omega
        · intro e; have hq := hc a; rw [e] at hq hpos
          simp only [beq_self_eq_true, if_true] at hq; omega
        · intro e; have hq := hc a; rw [e] at hq hpos
          simp only [beq_self_eq_true, if_true] at hq; omega
        · intro e
          have hq := hc a
          have hm := List.count_pos_iff.mpr (rootAddr_mem_addrs xl a e.symm)
          unfold Tree.addrs at hm
          omega
        · exact hne
        · exact hpar a (by tauto)
    · refine repr_congr pr _ ?_ hpr
      intro a ha
      unfold Tree.addrs at ha
      have hpos := List.count_pos_iff.mpr ha
      apply hother a
      · intro e; have hq := hc a; rw [e] at hq hpos
        simp only [beq_self_eq_true, if_true] at hq; omega
      · intro e; have hq := hc a; rw [e] at hq hpos
        simp only [beq_self_eq_true, if_true] at hq; omega
      · intro e; have hq := hc a; rw [e] at hq hpos
        simp only [beq_self_eq_true, if_true] at hq; omega
      · intro e
        have hq := hc a
        have hm := List.count_pos_iff.mpr (rootAddr_mem_addrs xl a e.symm)
        unfold Tree.addrs at hm
        omega
      · intro e
        have hq := hc a
        have hm := List.count_pos_iff.mpr (rootAddr_mem_addrs xr a e.symm)
        unfold Tree.addrs at hm
        omega
      · exact hpar a (by tauto)
  · intro a ha hne
    simp only [Tree.addrs, toList_node, List.map_append, List.map_cons, List.mem_append,
      List.mem_cons, not_or] at ha
    apply hother a
    · tauto
    · tauto
    · tauto
    · intro e
      have hm := rootAddr_mem_addrs xl a e.symm
      unfold Tree.addrs at hm
      tauto
    · intro e
      have hm := rootAddr_mem_addrs xr a e.symm
      unfold Tree.addrs at hm
      tauto
    · exact hne

end sjtu


namespace sjtu

variable {K V : Type}

open Tree

/-- The root moves exactly when the rotated node was the root, given where `root_` ends. -/
theorem rootMoved_iff (s s' : Store K V) (g top : Nat) (hne : top ≠ g)
    (h : s'.root_ = (if s.root_ = some g then some top else s.root_)) :
    (RootMoved s s' ↔ s.root_ = some g) ∧ (s.root_ = some g → s'.root_ = some top) := by
  unfold RootMoved
  by_cases hr : s.root_ = some g
  · rw [if_pos hr] at h
    refine ⟨⟨fun _ => hr, fun _ => ?_⟩, fun _ => h⟩
    rw [h, hr]
    simpa using hne
  · rw [if_neg hr] at h
    exact ⟨⟨fun hm => absurd h hm, fun hm => absurd hm hr⟩, fun hm => absurd hm hr⟩

/-- The keys of the whole tree depend on the in-order sequence of the subtree in focus
only. -/
theorem keys_plug_congr (t t' : Tree K V) (path : Path K V) (h : t'.toList = t.toList) :
    (plug t' path).keys = (plug t path).keys := by
  simp only [Tree.keys, toList_plug, h]

/-- C26: in a store that holds a tree with distinct node addresses and consistent links,
each of the rotations `LL`, `RR`, `LR` and `RL`, called at a node `g` that has the children
the rotation reads (the rotation of the subtree at `g` is defined), returns; the store then
holds the tree with the subtree at `g` rotated, so every `parent_` is again the address of the
node whose `left_` or `right_` designates the node; the in-order sequence of keys of the whole
tree is the same; and `root_` changes exactly when `g` was the root, in which case it
designates the node the rotation brings up. -/
theorem rotations_keep_order_and_links (s : Store K V) (path : Path K V) (sub : Tree K V)
    (g : Nat) (hg : sub.rootAddr = some g) (hnd : (plug sub path).addrs.Nodup)
    (hs : s.Holds (plug sub path)) :
    (∀ sub', LL sub = .ok sub' → ∃ s', s.LL (some g) = .ok s' ∧
      s'.Holds (plug sub' path) ∧ (plug sub' path).keys = (plug sub path).keys ∧
      (RootMoved s s' ↔ s.root_ = some g) ∧ (s.root_ = some g → s'.root_ = sub'.rootAddr)) ∧
    (∀ sub', RR sub = .ok sub' → ∃ s', s.RR (some g) = .ok s' ∧
      s'.Holds (plug sub' path) ∧ (plug sub' path).keys = (plug sub path).keys ∧
      (RootMoved s s' ↔ s.root_ = some g) ∧ (s.root_ = some g → s'.root_ = sub'.rootAddr)) ∧
    (∀ sub', LR sub = .ok sub' → ∃ s', s.LR (some g) = .ok s' ∧
      s'.Holds (plug sub' path) ∧ (plug sub' path).keys = (plug sub path).keys ∧
      (RootMoved s s' ↔ s.root_ = some g) ∧ (s.root_ = some g → s'.root_ = sub'.rootAddr)) ∧
    (∀ sub', RL sub = .ok sub' → ∃ s', s.RL (some g) = .ok s' ∧
      s'.Holds (plug sub' path) ∧ (plug sub' path).keys = (plug sub path).keys ∧
      (RootMoved s s' ↔ s.root_ = some g) ∧ (s.root_ = some g → s'.root_ = sub'.rootAddr)) := by
  have hn1 := (nodup_plug sub path hnd).1
  refine ⟨?_, ?_, ?_, ?_⟩
  · intro sub' h
    rcases sub with _ | ⟨cg, ag, kg, vg, l, gr⟩
    · simp [LL] at h
    rcases l with _ | ⟨cp, ap, kp, vp, pl, pr⟩
    · simp [LL] at h
    simp only [LL, Outcome.ok.injEq] at h
    simp only [rootAddr_node, Option.some.injEq] at hg
    subst h hg
    obtain ⟨s', hrun, hh, hroot⟩ := Store.LL_holds s path cg cp kg kp vg vp ag ap pl pr gr hnd hs
    have hne : ap ≠ ag := by
      have hc := List.nodup_iff_count_le_one.mp hn1
      simp only [Tree.addrs, toList_node, List.map_append, List.map_cons, List.count_append,
        List.count_cons] at hc
      intro e; have hq := hc ap; rw [e] at hq
      simp only [beq_self_eq_true, if_true] at hq; omega
    have hm := rootMoved_iff s s' ag ap hne hroot
    exact ⟨s', hrun, hh, keys_plug_congr _ _ path (by simp [toList_node]), hm.1, hm.2⟩
  · intro sub' h
    rcases sub with _ | ⟨cg, ag, kg, vg, gl, r⟩
    · simp [RR] at h
    rcases r with _ | ⟨cp, ap, kp, vp, pl, pr⟩
    · simp [RR] at h
    simp only [RR, Outcome.ok.injEq] at h
    simp only [rootAddr_node, Option.some.injEq] at hg
    subst h hg
    obtain ⟨s', hrun, hh, hroot⟩ := Store.RR_holds s path cg cp kg kp vg vp ag ap gl pl pr hnd hs
    have hne : ap ≠ ag := by
      have hc := List.nodup_iff_count_le_one.mp hn1
      simp only [Tree.addrs, toList_node, List.map_append, List.map_cons, List.count_append,
        List.count_cons] at hc
      intro e; have hq := hc ap; rw [e] at hq
      simp only [beq_self_eq_true, if_true] at hq; omega
    have hm := rootMoved_iff s s' ag ap hne hroot
    exact ⟨s', hrun, hh, keys_plug_congr _ _ path (by simp [toList_node]), hm.1, hm.2⟩
  · intro sub' h
    rcases sub with _ | ⟨cg, ag, kg, vg, l, gr⟩
    · simp [LR] at h
    rcases l with _ | ⟨cp, ap, kp, vp, pl, pr⟩
    · simp [LR] at h
    rcases pr with _ | ⟨cx, ax, kx, vx, xl, xr⟩
    · simp [LR] at h
    simp only [LR, Outcome.ok.injEq] at h
    simp only [rootAddr_node, Option.some.injEq] at hg
    subst h hg
    obtain ⟨s', hrun, hh, hroot⟩ :=
      Store.LR_holds s path cg cp cx kg kp kx vg vp vx ag ap ax pl xl xr gr hnd hs
    have hne : ax ≠ ag := by
      have hc := List.nodup_iff_count_le_one.mp hn1
      simp only [Tree.addrs, toList_node, List.map_append, List.map_cons, List.count_append,
        List.count_cons] at hc
      intro e; have hq := hc ax; rw [e] at hq
      simp only [beq_self_eq_true, if_true] at hq; omega
    have hm := rootMoved_iff s s' ag ax hne hroot
    exact ⟨s', hrun, hh, keys_plug_congr _ _ path (by simp [toList_node]), hm.1, hm.2⟩
  · intro sub' h
    rcases sub with _ | ⟨cg, ag, kg, vg, gl, r⟩
    · simp [RL] at h
    rcases r with _ | ⟨cp, ap, kp, vp, pl, pr⟩
    · simp [RL] at h
    rcases pl with _ | ⟨cx, ax, kx, vx, xl, xr⟩
    · simp [RL] at h
    simp only [RL, Outcome.ok.injEq] at h
    simp only [rootAddr_node, Option.some.injEq] at hg
    subst h hg
    obtain ⟨s', hrun, hh, hroot⟩ :=
      Store.RL_holds s path cg cp cx kg kp kx vg vp vx ag ap ax gl xl xr pr hnd hs
    have hne : ax ≠ ag := by
      have hc := List.nodup_iff_count_le_one.mp hn1
      simp only [Tree.addrs, toList_node, List.map_append, List.map_cons, List.count_append,
        List.count_cons] at hc
      intro e; have hq := hc ax; rw [e] at hq
      simp only [beq_self_eq_true, if_true] at hq; omega
    have hm := rootMoved_iff s s' ag ax hne hroot
    exact ⟨s', hrun, hh, keys_plug_congr _ _ path (by simp [toList_node]), hm.1, hm.2⟩

theorem rotations_keep_order_and_links_witness :
    rotSub.rootAddr = some 1 ∧ (plug rotSub rotPath).addrs.Nodup ∧
      (Store.ofTree (plug rotSub rotPath)).Holds (plug rotSub rotPath) ∧
      (∃ sub', LL rotSub = .ok sub' ∧ ∃ s', (Store.ofTree (plug rotSub rotPath)).LL (some 1) = .ok s' ∧
        s'.Holds (plug sub' rotPath) ∧ (plug sub' rotPath).keys = (plug rotSub rotPath).keys ∧
        (RootMoved (Store.ofTree (plug rotSub rotPath)) s' ↔
          (Store.ofTree (plug rotSub rotPath)).root_ = some 1) ∧
        ((Store.ofTree (plug rotSub rotPath)).root_ = some 1 → s'.root_ = sub'.rootAddr)) ∧
      (∃ sub', RL rotSub = .ok sub' ∧ ∃ s', (Store.ofTree (plug rotSub rotPath)).RL (some 1) = .ok s' ∧
        s'.Holds (plug sub' rotPath) ∧ (plug sub' rotPath).keys = (plug rotSub rotPath).keys ∧
        (RootMoved (Store.ofTree (plug rotSub rotPath)) s' ↔
          (Store.ofTree (plug rotSub rotPath)).root_ = some 1) ∧
        ((Store.ofTree (plug rotSub rotPath)).root_ = some 1 → s'.root_ = sub'.rootAddr)) :=
  have hs : (Store.ofTree (plug rotSub rotPath)).Holds (plug rotSub rotPath) :=
    ⟨rfl, by simp [rotSub, rotPath, plug, Frame.fill, Repr, Store.ofTree, Tree.cellAt, parentOf]⟩
  have h := rotations_keep_order_and_links (Store.ofTree (plug rotSub rotPath)) rotPath rotSub 1
    rfl (by decide) hs
  ⟨rfl, by decide, hs, ⟨_, rfl, h.1 _ rfl⟩, ⟨_, rfl, h.2.2.2 _ rfl⟩⟩

end sjtu


namespace sjtu

variable {T : Type}

/-! ## Integers and blocks -/

theorem toSize_natCast (k : Nat) (h : k < 18446744073709551616) : toSize (k : Int) = k := by
  unfold toSize
  omega

theorem toInt_of_le (n : Nat) (h : n ≤ 2147483647) : toInt n = (n : Int) := by
  unfold toInt
  have : n % 4294967296 = n := Nat.mod_eq_of_lt (by omega)
  rw [this, if_pos (by omega)]

theorem intAdd_nat (k j : Nat) (h : k + j ≤ 2147483647) :
    intAdd (k : Int) (j : Int) = .ok ((k + j : Nat) : Int) := by
  unfold intAdd INT_MIN INT_MAX
  rw [if_pos (by omega)]
  simp

theorem intSub_one (k : Nat) (h1 : 1 ≤ k) (h : k ≤ 2147483647) :
    intSub (k : Int) 1 = .ok ((k - 1 : Nat) : Int) := by
  unfold intSub INT_MIN INT_MAX
  rw [if_pos (by omega)]
  congr 1
  omega

theorem usub_eq (a b : Nat) (h : b ≤ a) (ha : a < 18446744073709551616) : usub a b = a - b := by
  unfold usub SIZE_MOD
  omega

theorem uadd_eq (a b : Nat) (h : a + b < 18446744073709551616) : uadd a b = a + b := by
  unfold uadd SIZE_MOD
  omega

theorem umul_two (a : Nat) (h : a < 9223372036854775808) : umul 2 a = 2 * a ∧ umul a 2 = 2 * a := by
  unfold umul SIZE_MOD
  omega

theorem Block.read_nat (b : Block T) (k : Nat) (x : T) (hk : k < b.len) (h : b.slot k = some x) :
    b.read (k : Int) = .ok x := by
  unfold Block.read
  rw [if_pos (by omega)]
  simp [h]

theorem Block.construct_nat (b : Block T) (k : Nat) (x : T) (hk : k < b.len) :
    b.construct (k : Int) x = .ok ⟨b.len, Function.update b.slot k (some x)⟩ := by
  unfold Block.construct
  rw [if_pos (by omega)]
  simp

theorem Block.assign_nat (b : Block T) (k : Nat) (x y : T) (hk : k < b.len)
    (h : b.slot k = some y) :
    b.assign (k : Int) x = .ok ⟨b.len, Function.update b.slot k (some x)⟩ := by
  unfold Block.assign
  rw [if_pos (by omega)]
  simp [h]

theorem Block.destroy_nat (b : Block T) (k : Nat) (y : T) (hk : k < b.len)
    (h : b.slot k = some y) :
    b.destroy (k : Int) = .ok ⟨b.len, Function.update b.slot k none⟩ := by
  unfold Block.destroy
  rw [if_pos (by omega)]
  simp [h]

end sjtu


namespace sjtu

variable {T : Type}

/-! ## The loops -/

/-- The loop of `Copy` returns when the counter stays an `int`, the source slots hold objects
and the destination slots are in the block; it constructs copies of the source objects in the
destination slots and leaves the other slots as they were. -/
theorem CopyLoop_spec (b : Block T) (doff soff n : Nat) (hn : n ≤ 2147483647)
    (hsrc : ∀ j, j < n → soff + j < b.len ∧ (b.slot (soff + j)).isSome) :
    ∀ (m fuel k : Nat) (d : Block T), k + m = n → m < fuel → doff + n ≤ d.len →
      ∃ d', CopyLoop fuel (k : Int) d doff b soff n = .ok d' ∧ d'.len = d.len ∧
        ∀ x, d'.slot x =
          if doff + k ≤ x ∧ x < doff + n then b.slot (x - doff + soff) else d.slot x := by
  intro m
  induction m with
  | zero =>
    intro fuel k d hk hf hd
    obtain ⟨f, rfl⟩ : ∃ f, fuel = f + 1 := ⟨fuel - 1, by omega⟩
    refine ⟨d, ?_, rfl, ?_⟩
    · rw [CopyLoop, toSize_natCast k (by omega), if_neg (by omega)]
      rfl
    · intro x
      rw [if_neg (by omega)]
  | succ m ih =>
    intro fuel k d hk hf hd
    obtain ⟨f, rfl⟩ : ∃ f, fuel = f + 1 := ⟨fuel - 1, by omega⟩
    obtain ⟨hlen, hsome⟩ := hsrc k (by omega)
    obtain ⟨x, hx⟩ := Option.isSome_iff_exists.mp hsome
    have hread : b.read ((soff : Int) + (k : Int)) = .ok x := by
      have := Block.read_nat b (soff + k) x hlen hx
      rwa [Nat.cast_add] at this
    have hcons : d.construct ((doff : Int) + (k : Int)) x =
        .ok ⟨d.len, Function.update d.slot (doff + k) (some x)⟩ := by
      have := Block.construct_nat d (doff + k) x (by omega)
      rwa [Nat.cast_add] at this
    have hadd : intAdd (k : Int) 1 = .ok ((k + 1 : Nat) : Int) := intAdd_nat k 1 (by omega)
    obtain ⟨d', hrun, hlen', hslot⟩ :=
      ih f (k + 1) ⟨d.len, Function.update d.slot (doff + k) (some x)⟩ (by omega) (by omega) hd
    refine ⟨d', ?_, hlen', ?_⟩
    · rw [CopyLoop, toSize_natCast k (by omega), if_pos (by omega), hread, Outcome.ok_bind,
        hcons, Outcome.ok_bind, hadd, Outcome.ok_bind]
      exact hrun
    · intro y
      rw [hslot y]
      simp only [Function.update_apply]
      by_cases h1 : y = doff + k
      · subst h1
        rw [if_neg (by omega), if_pos rfl, if_pos (by omega)]
        have he : doff + k - doff + soff = soff + k := by omega
        rw [he, hx]
      · by_cases h2 : doff + (k + 1) ≤ y ∧ y < doff + n
        · rw [if_pos h2, if_pos (by omega)]
        · rw [if_neg h2, if_neg h1]
          by_cases h3 : doff + k ≤ y ∧ y < doff + n
          · omega
          · rw [if_neg h3]

/-- Member `Copy` returns under the conditions of `CopyLoop_spec`. -/
theorem Copy_spec (d b : Block T) (doff soff n : Nat) (hn : n ≤ 2147483647)
    (hsrc : ∀ j, j < n → soff + j < b.len ∧ (b.slot (soff + j)).isSome)
    (hd : doff + n ≤ d.len) :
    ∃ d', Copy d doff b soff n = .ok d' ∧ d'.len = d.len ∧
      ∀ x, d'.slot x =
        if doff ≤ x ∧ x < doff + n then b.slot (x - doff + soff) else d.slot x := by
  have h := CopyLoop_spec b doff soff n hn hsrc n (n + 1) 0 d (by omega) (by omega) hd
  simpa [Copy] using h

/-- The loop of `Release` returns when the counter stays an `int` and the slots below
`size_` hold objects. -/
theorem ReleaseLoop_spec (n : Nat) (hn : n ≤ 2147483647) :
    ∀ (m fuel k : Nat) (b : Block T), k + m = n → m < fuel → n ≤ b.len →
      (∀ j, k ≤ j → j < n → (b.slot j).isSome) →
      ∃ b', ReleaseLoop fuel (k : Int) b n = .ok b' := by
  intro m
  induction m with
  | zero =>
    intro fuel k b hk hf hb hs
    obtain ⟨f, rfl⟩ : ∃ f, fuel = f + 1 := ⟨fuel - 1, by omega⟩
    refine ⟨b, ?_⟩
    rw [ReleaseLoop, toSize_natCast k (by omega), if_neg (by omega)]
    rfl
  | succ m ih =>
    intro fuel k b hk hf hb hs
    obtain ⟨f, rfl⟩ : ∃ f, fuel = f + 1 := ⟨fuel - 1, by omega⟩
    obtain ⟨x, hx⟩ := Option.isSome_iff_exists.mp (hs k (le_refl k) (by omega))
    have hadd : intAdd (k : Int) 1 = .ok ((k + 1 : Nat) : Int) := intAdd_nat k 1 (by omega)
    obtain ⟨b', hrun⟩ := ih f (k + 1) ⟨b.len, Function.update b.slot k none⟩ (by omega)
      (by omega) hb (by
        intro j h1 h2
        have : j ≠ k := by omega
        simp only [Function.update_apply, if_neg this]
        exact hs j (by omega) h2)
    refine ⟨b', ?_⟩
    rw [ReleaseLoop, toSize_natCast k (by omega), if_pos (by omega),
      Block.destroy_nat b k x (by omega) hx, Outcome.ok_bind, hadd, Outcome.ok_bind]
    exact hrun

/-- When the loop of `Release` returns, `size_` is at most `INT_MAX`. -/
theorem ReleaseLoop_ok_le (n : Nat) :
    ∀ (fuel k : Nat) (b b' : Block T), k ≤ 2147483647 →
      ReleaseLoop fuel (k : Int) b n = .ok b' → n ≤ 2147483647 := by
  intro fuel
  induction fuel with
  | zero =>
    intro k b b' _ h
    simp [ReleaseLoop] at h
  | succ f ih =>
    intro k b b' hk h
    rw [ReleaseLoop, toSize_natCast k (by omega)] at h
    by_cases hlt : k < n
    · rw [if_pos hlt] at h
      cases hd : b.destroy (k : Int) with
      | fail e => rw [hd] at h; simp at h
      | ok b1 =>
        rw [hd, Outcome.ok_bind] at h
        by_cases hk1 : k + 1 ≤ 2147483647
        · have hadd : intAdd (k : Int) 1 = .ok ((k + 1 : Nat) : Int) := intAdd_nat k 1 hk1
          rw [hadd, Outcome.ok_bind] at h
          exact ih (k + 1) b1 b' hk1 h
        · have : intAdd (k : Int) 1 = .fail .int_overflow := by
            unfold intAdd INT_MIN INT_MAX
            rw [if_neg (by omega)]
          rw [this] at h
          simp at h
    · omega

/-- The loop of the first branch of `insert` returns when the counter stays an `int`; it
moves the objects of the slots `ind` to `k - 1` one slot up. -/
theorem insertLoop_spec (ind : Nat) :
    ∀ (m fuel k : Nat) (b : Block T), k = ind + m → m < fuel → k ≤ 2147483647 → k < b.len →
      (∀ j, j ≤ k → (b.slot j).isSome) →
      ∃ b', insertLoop fuel (k : Int) b ind = .ok b' ∧ b'.len = b.len ∧
        ∀ x, b'.slot x = if ind < x ∧ x ≤ k then b.slot (x - 1) else b.slot x := by
  intro m
  induction m with
  | zero =>
    intro fuel k b hk hf hk2 hb hs
    obtain ⟨f, rfl⟩ : ∃ f, fuel = f + 1 := ⟨fuel - 1, by omega⟩
    refine ⟨b, ?_, rfl, ?_⟩
    · rw [insertLoop, toSize_natCast k (by omega), if_neg (by omega)]
      rfl
    · intro x
      rw [if_neg (by omega)]
  | succ m ih =>
    intro fuel k b hk hf hk2 hb hs
    obtain ⟨f, rfl⟩ : ∃ f, fuel = f + 1 := ⟨fuel - 1, by omega⟩
    obtain ⟨x, hx⟩ := Option.isSome_iff_exists.mp (hs (k - 1) (by omega))
    obtain ⟨y, hy⟩ := Option.isSome_iff_exists.mp (hs k (le_refl k))
    have hsub : intSub (k : Int) 1 = .ok ((k - 1 : Nat) : Int) := intSub_one k (by omega) hk2
    obtain ⟨b', hrun, hlen', hslot⟩ :=
      ih f (k - 1) ⟨b.len, Function.update b.slot k (some x)⟩ (by omega) (by omega) (by omega)
        (by show k - 1 < b.len; omega) (by
          intro j hj
          have : j ≠ k := by omega
          simp only [Function.update_apply, if_neg this]
          exact hs j (by omega))
    refine ⟨b', ?_, hlen', ?_⟩
    · rw [insertLoop, toSize_natCast k (by omega), if_pos (by omega), hsub, Outcome.ok_bind,
        Block.read_nat b (k - 1) x (by omega) hx, Outcome.ok_bind,
        Block.assign_nat b k x y hb hy, Outcome.ok_bind, Outcome.ok_bind]
      exact hrun
    · intro z
      rw [hslot z]
      simp only [Function.update_apply]
      by_cases h1 : z = k
      · subst h1
        rw [if_neg (by omega), if_pos rfl, if_pos (by omega), hx]
      · by_cases h2 : ind < z ∧ z ≤ k - 1
        · rw [if_pos h2, if_neg (by omega), if_pos (by omega)]
        · rw [if_neg h2, if_neg h1, if_neg (by omega)]

/-- The loop of the second branch of `erase` returns when the counter stays an `int`; it
moves the objects of the slots `k + 1` to `size_ - 1` one slot down. -/
theorem eraseLoop_spec (n : Nat) (hn : n ≤ 2147483646) :
    ∀ (m fuel k : Nat) (b : Block T), k + m + 1 = n → m < fuel → n ≤ b.len →
      (∀ j, j < n → (b.slot j).isSome) →
      ∃ b', eraseLoop fuel (k : Int) b n = .ok b' ∧ b'.len = b.len ∧
        ∀ x, b'.slot x = if k ≤ x ∧ x + 2 ≤ n then b.slot (x + 1) else b.slot x := by
  intro m
  induction m with
  | zero =>
    intro fuel k b hk hf hb hs
    obtain ⟨f, rfl⟩ : ∃ f, fuel = f + 1 := ⟨fuel - 1, by omega⟩
    refine ⟨b, ?_, rfl, ?_⟩
    · have h2 : intAdd (k : Int) 2 = .ok ((k + 2 : Nat) : Int) := intAdd_nat k 2 (by omega)
      rw [eraseLoop, h2, Outcome.ok_bind, toSize_natCast (k + 2) (by omega), if_neg (by omega)]
      rfl
    · intro x
      rw [if_neg (by omega)]
  | succ m ih =>
    intro fuel k b hk hf hb hs
    obtain ⟨f, rfl⟩ : ∃ f, fuel = f + 1 := ⟨fuel - 1, by omega⟩
    obtain ⟨x, hx⟩ := Option.isSome_iff_exists.mp (hs (k + 1) (by omega))
    have h2 : intAdd (k : Int) 2 = .ok ((k + 2 : Nat) : Int) := intAdd_nat k 2 (by omega)
    have h1 : intAdd (k : Int) 1 = .ok ((k + 1 : Nat) : Int) := intAdd_nat k 1 (by omega)
    obtain ⟨b', hrun, hlen', hslot⟩ :=
      ih f (k + 1) ⟨b.len, Function.update b.slot k (some x)⟩ (by omega) (by omega) hb (by
          intro j hj
          simp only [Function.update_apply]
          by_cases hjk : j = k
          · rw [if_pos hjk]; rfl
          · rw [if_neg hjk]; exact hs j hj)
    refine ⟨b', ?_, hlen', ?_⟩
    · rw [eraseLoop, h2, Outcome.ok_bind, toSize_natCast (k + 2) (by omega), if_pos (by omega),
        h1, Outcome.ok_bind, Block.read_nat b (k + 1) x (by omega) hx, Outcome.ok_bind,
        Block.construct_nat b k x (by omega), Outcome.ok_bind, Outcome.ok_bind]
      exact hrun
    · intro z
      rw [hslot z]
      simp only [Function.update_apply]
      by_cases h3 : z = k
      · subst h3
        rw [if_neg (by omega), if_pos rfl, if_pos (by omega), hx]
      · by_cases h4 : k + 1 ≤ z ∧ z + 2 ≤ n
        · rw [if_pos h4, if_neg (by omega), if_pos (by omega)]
        · rw [if_neg h4, if_neg h3, if_neg (by omega)]

end sjtu


namespace sjtu

variable {T : Type}

/-! ## `at`, `Release` and `insert` -/

theorem getElem?_take_cons_drop (s : List T) (ind i : Nat) (value : T) (h : ind ≤ s.length) :
    (s.take ind ++ value :: s.drop ind)[i]? =
      if i < ind then s[i]? else if i = ind then some value else s[i - 1]? := by
  have hl : (s.take ind).length = ind := by simp [h]
  rw [List.getElem?_append, hl]
  by_cases h1 : i < ind
  · rw [if_pos h1, if_pos h1, List.getElem?_take_of_lt h1]
  · rw [if_neg h1, if_neg h1, List.getElem?_cons]
    by_cases h2 : i = ind
    · rw [if_pos (by omega), if_pos h2]
    · rw [if_neg (by omega), if_neg h2, List.getElem?_drop]
      congr 1
      omega

theorem length_take_cons_drop (s : List T) (ind : Nat) (value : T) (h : ind ≤ s.length) :
    (s.take ind ++ value :: s.drop ind).length = s.length + 1 := by
  simp only [List.length_append, List.length_take, List.length_cons, List.length_drop]
  omega

/-- The slots below `size_` hold objects. -/
theorem vector.Holds.isSome {v : vector T} {s : List T} (h : v.Holds s) (j : Nat)
    (hj : j < v.size_) : (v.block.slot j).isSome := by
  obtain ⟨hsize, -, -, -, -, hslot⟩ := h
  rw [hslot j hj, List.getElem?_eq_getElem (by omega)]
  rfl

/-- Member `at(pos)` throws `index_out_of_bound` when `pos >= size()` and returns the element
at `pos` otherwise. -/
theorem vector.at_index_spec (v : vector T) (s : List T) (h : v.Holds s) (pos : Nat) :
    (s.length ≤ pos → v.at_ pos = .throws v .index_out_of_bound) ∧
      (∀ x, s[pos]? = some x → v.at_ pos = .returns v x) := by
  obtain ⟨hsize, hlen, hlt, -, -, hslot⟩ := h
  constructor
  · intro hp
    unfold vector.at_
    rw [if_pos (by omega)]
  · intro x hx
    have hp : pos < s.length := by
      by_contra hc
      rw [List.getElem?_eq_none (by omega)] at hx
      cases hx
    unfold vector.at_
    rw [if_neg (by omega), Block.read_nat v.block pos x (by omega) (by rw [hslot pos (by omega), hx])]

/-- Member `Release()` returns on a vector of at most `INT_MAX` elements. -/
theorem vector.Release_spec (v : vector T) (s : List T) (h : v.Holds s)
    (hsz : s.length ≤ 2147483647) : v.Release = .ok () := by
  have hsome := h.isSome
  obtain ⟨hsize, hlen, hlt, -, -, hslot⟩ := h
  obtain ⟨b', hb⟩ := ReleaseLoop_spec v.size_ (by omega) v.size_ (v.size_ + 1) 0 v.block
    (by omega) (by omega) (by omega) (fun j _ hj => hsome j hj)
  unfold vector.Release
  rw [Nat.cast_zero] at hb
  rw [hb]
  rfl

/-- When `Release()` returns, the vector has at most `INT_MAX` elements. -/
theorem vector.Release_ok_le (v : vector T) (h : v.Release = .ok ()) :
    v.size_ ≤ 2147483647 := by
  unfold vector.Release at h
  cases hl : ReleaseLoop (v.size_ + 1) 0 v.block v.size_ with
  | fail e => rw [hl] at h; simp at h
  | ok b' =>
    have := ReleaseLoop_ok_le v.size_ (v.size_ + 1) 0 v.block b' (by omega)
      (by rw [Nat.cast_zero]; exact hl)
    exact this

/-- The first branch of `insert`, for an argument `value` that designates an object of value
`x` when the call starts and of value `y` after the loop: `y` is put at `ind` in the block
the vector has. -/
theorem vector.insert_inplace_core (v : vector T) (s : List T) (this ind : Nat)
    (value : Ref T) (x y : T) (new_space : Nat) (h : v.Holds s) (hsz : s.length ≤ 2147483647)
    (hind : ind ≤ s.length) (hcap : v.size_ + 1 < v.capacity_)
    (hx : v.block.load value = .ok x)
    (hy : ∀ b2 : Block T, b2.len = v.block.len →
      (∀ z, b2.slot z =
        if ind < z ∧ z ≤ v.size_ then Function.update v.block.slot v.size_ (some x) (z - 1)
        else Function.update v.block.slot v.size_ (some x) z) →
      b2.load value = .ok y) :
    ∃ b, v.insert this ind value new_space =
        .returns ⟨v.first_, b, v.size_ + 1, v.capacity_⟩ ⟨⟨v.first_, ind⟩, this⟩ ∧
      vector.Holds ⟨v.first_, b, v.size_ + 1, v.capacity_⟩
        (s.take ind ++ y :: s.drop ind) := by
  have hsome := h.isSome
  obtain ⟨hsize, hlen, hlt, hmin, hmod, hslot⟩ := h
  unfold SIZE_MOD at hmod
  have hcons := Block.construct_nat v.block v.size_ x (by omega)
  obtain ⟨b2, hrun2, hlen2, hslot2⟩ := insertLoop_spec ind (v.size_ - ind) (v.size_ + 1) v.size_
    ⟨v.block.len, Function.update v.block.slot v.size_ (some x)⟩ (by omega) (by omega)
    (by omega) (by show v.size_ < v.block.len; omega) (by
      intro j hj
      simp only [Function.update_apply]
      by_cases hjs : j = v.size_
      · rw [if_pos hjs]; rfl
      · rw [if_neg hjs]; exact hsome j (by omega))
  have hlen2' : b2.len = v.block.len := hlen2
  have hload := hy b2 hlen2' hslot2
  have hind2 : ∃ w, b2.slot ind = some w := by
    rw [hslot2 ind, if_neg (by omega)]
    simp only [Function.update_apply]
    by_cases hjs : ind = v.size_
    · rw [if_pos hjs]; exact ⟨_, rfl⟩
    · rw [if_neg hjs]; exact Option.isSome_iff_exists.mp (hsome ind (by omega))
  obtain ⟨w, hw⟩ := hind2
  have hassign := Block.assign_nat b2 ind y w (by omega) hw
  refine ⟨⟨b2.len, Function.update b2.slot ind (some y)⟩, ?_, ?_⟩
  · unfold vector.insert
    rw [if_neg (by omega), usub_eq v.capacity_ 1 (by omega) hmod, if_pos (by omega), hx,
      Outcome.ok_bind, hcons, Outcome.ok_bind, toInt_of_le v.size_ (by omega), hrun2,
      Outcome.ok_bind, hload, Outcome.ok_bind, hassign, Outcome.ok_bind,
      uadd_eq v.size_ 1 (by omega)]
    rfl
  · refine ⟨?_, ?_, hcap, hmin, ?_, ?_⟩
    · rw [length_take_cons_drop s ind y hind]
      show v.size_ + 1 = s.length + 1
      omega
    · show b2.len = v.capacity_
      omega
    · exact hmod
    · intro i hi
      have hi' : i < v.size_ + 1 := hi
      show Function.update b2.slot ind (some y) i = _
      rw [getElem?_take_cons_drop s ind i y hind]
      simp only [Function.update_apply]
      by_cases h1 : i < ind
      · rw [if_neg (by omega), if_pos h1, hslot2 i, if_neg (by omega)]
        simp only [Function.update_apply]
        rw [if_neg (by omega), hslot i (by omega)]
      · by_cases h2 : i = ind
        · rw [if_pos h2, if_neg h1, if_pos h2]
        · rw [if_neg h2, if_neg h1, if_neg h2, hslot2 i, if_pos (by omega)]
          simp only [Function.update_apply]
          rw [if_neg (by omega), hslot (i - 1) (by omega)]

/-- The first branch of `insert` with an object outside the block: the value is put at
`ind`. -/
theorem vector.insert_inplace (v : vector T) (s : List T) (this ind : Nat) (value : T)
    (new_space : Nat) (h : v.Holds s) (hsz : s.length ≤ 2147483647) (hind : ind ≤ s.length)
    (hcap : v.size_ + 1 < v.capacity_) :
    ∃ b, v.insert this ind (.object value) new_space =
        .returns ⟨v.first_, b, v.size_ + 1, v.capacity_⟩ ⟨⟨v.first_, ind⟩, this⟩ ∧
      vector.Holds ⟨v.first_, b, v.size_ + 1, v.capacity_⟩
        (s.take ind ++ value :: s.drop ind) :=
  vector.insert_inplace_core v s this ind (.object value) value value new_space h hsz hind hcap
    rfl (fun _ _ _ => rfl)

/-- The first branch of `insert` with the element at `j` of the vector itself: the value put
at `ind` is the one read after the loop, which is the element at `j - 1` when `ind < j`. -/
theorem vector.insert_inplace_element (v : vector T) (s : List T) (this ind j : Nat)
    (x y : T) (new_space : Nat) (h : v.Holds s) (hsz : s.length ≤ 2147483647)
    (hind : ind ≤ s.length) (hcap : v.size_ + 1 < v.capacity_)
    (hx : s[j]? = some x) (hy : s[if ind < j then j - 1 else j]? = some y) :
    ∃ b, v.insert this ind (.element j) new_space =
        .returns ⟨v.first_, b, v.size_ + 1, v.capacity_⟩ ⟨⟨v.first_, ind⟩, this⟩ ∧
      vector.Holds ⟨v.first_, b, v.size_ + 1, v.capacity_⟩
        (s.take ind ++ y :: s.drop ind) := by
  have hj : j < s.length := by
    by_contra hc
    rw [List.getElem?_eq_none (by omega)] at hx
    cases hx
  have hsize : v.size_ = s.length := h.1
  have hlen : v.block.len = v.capacity_ := h.2.1
  have hslot := h.2.2.2.2.2
  refine vector.insert_inplace_core v s this ind (.element j) x y new_space h hsz hind hcap
    ?_ ?_
  · exact Block.read_nat v.block j x (by omega) (by rw [hslot j (by omega), hx])
  · intro b2 hl hs2
    refine Block.read_nat b2 j y (by omega) ?_
    rw [hs2 j]
    by_cases hij : ind < j
    · rw [if_pos hij] at hy
      rw [if_pos (by omega)]
      simp only [Function.update_apply]
      rw [if_neg (by omega), hslot (j - 1) (by omega), hy]
    · rw [if_neg hij] at hy
      rw [if_neg (by omega)]
      simp only [Function.update_apply]
      rw [if_neg (by omega), hslot j (by omega), hy]

/-- The second branch of `insert`: the elements and the value are copied to a block of twice
the capacity; the value is read once, before the old block is released. -/
theorem vector.insert_grow (v : vector T) (s : List T) (this ind : Nat) (value : Ref T)
    (x : T) (new_space : Nat) (h : v.Holds s) (hsz : s.length ≤ 2147483647)
    (hind : ind ≤ s.length) (hcap : ¬ v.size_ + 1 < v.capacity_)
    (hx : v.block.load value = .ok x) :
    ∃ b, v.insert this ind value new_space =
        .returns ⟨new_space, b, v.size_ + 1, 2 * v.capacity_⟩ ⟨⟨new_space, ind⟩, this⟩ ∧
      vector.Holds ⟨new_space, b, v.size_ + 1, 2 * v.capacity_⟩
        (s.take ind ++ x :: s.drop ind) := by
  have hsome := h.isSome
  have hrel := vector.Release_spec v s h hsz
  obtain ⟨hsize, hlen, hlt, hmin, hmod, hslot⟩ := h
  unfold SIZE_MOD at hmod
  unfold minCapacity at hmin
  obtain ⟨hm1, hm2⟩ := umul_two v.capacity_ (by omega)
  obtain ⟨d1, hrun1, hlen1, hslot1⟩ := Copy_spec (allocate (2 * v.capacity_)) v.block 0 0 ind
    (by omega) (fun j hj => ⟨by omega, by rw [Nat.zero_add]; exact hsome j (by omega)⟩)
    (by show 0 + ind ≤ 2 * v.capacity_; omega)
  have hlen1' : d1.len = 2 * v.capacity_ := hlen1
  have hcons := Block.construct_nat d1 ind x (by omega)
  obtain ⟨d3, hrun3, hlen3, hslot3⟩ := Copy_spec
    ⟨d1.len, Function.update d1.slot ind (some x)⟩ v.block (ind + 1) ind (v.size_ - ind)
    (by omega) (fun j hj => ⟨by omega, hsome (ind + j) (by omega)⟩)
    (by show ind + 1 + (v.size_ - ind) ≤ d1.len; omega)
  have hlen3' : d3.len = d1.len := hlen3
  refine ⟨d3, ?_, ?_⟩
  · unfold vector.insert
    rw [if_neg (by omega), usub_eq v.capacity_ 1 (by omega) hmod, if_neg (by omega), hm1,
      hrun1, Outcome.ok_bind, hx, Outcome.ok_bind, hcons, Outcome.ok_bind,
      usub_eq v.size_ ind (by omega) (by omega),
      hrun3, Outcome.ok_bind, hrel, Outcome.ok_bind, uadd_eq v.size_ 1 (by omega), hm2]
    rfl
  · refine ⟨?_, ?_, ?_, ?_, ?_, ?_⟩
    · rw [length_take_cons_drop s ind x hind]
      show v.size_ + 1 = s.length + 1
      omega
    · show d3.len = 2 * v.capacity_
      omega
    · show v.size_ + 1 < 2 * v.capacity_
      omega
    · show minCapacity ≤ 2 * v.capacity_
      unfold minCapacity
      omega
    · show 2 * v.capacity_ < SIZE_MOD
      unfold SIZE_MOD
      omega
    · intro i hi
      have hi' : i < v.size_ + 1 := hi
      show d3.slot i = _
      rw [getElem?_take_cons_drop s ind i x hind, hslot3 i]
      simp only [Function.update_apply]
      by_cases h1 : i < ind
      · rw [if_neg (by omega), if_neg (by omega), if_pos h1, hslot1 i, if_pos (by omega),
          Nat.sub_zero, Nat.add_zero, hslot i (by omega)]
      · by_cases h2 : i = ind
        · rw [if_neg (by omega), if_pos h2, if_neg h1, if_pos h2]
        · rw [if_pos (by omega), if_neg h1, if_neg h2, hslot (i - (ind + 1) + ind) (by omega)]
          congr 1
          omega

end sjtu


namespace sjtu

variable {T : Type}

/-! ## `erase`, iterators, `push_back` and `pop_back` -/

theorem length_eraseIdx_of_lt (s : List T) (ind : Nat) (h : ind < s.length) :
    (s.eraseIdx ind).length = s.length - 1 := by
  rw [List.length_eraseIdx, if_pos h]

/-- The second branch of `erase`: the elements after `ind` move one slot down in the block
the vector has. -/
theorem vector.erase_inplace (v : vector T) (s : List T) (this ind : Nat) (new_space : Nat)
    (h : v.Holds s) (hsz : s.length ≤ 2147483646) (hind : ind < s.length)
    (hcap : ¬ (v.capacity_ > minCapacity ∧ v.size_ + 1 ≤ v.capacity_ / 4)) :
    ∃ b, v.erase this ind new_space =
        .returns ⟨v.first_, b, v.size_ - 1, v.capacity_⟩ ⟨⟨v.first_, ind⟩, this⟩ ∧
      vector.Holds ⟨v.first_, b, v.size_ - 1, v.capacity_⟩ (s.eraseIdx ind) := by
  have hsome := h.isSome
  obtain ⟨hsize, hlen, hlt, hmin, hmod, hslot⟩ := h
  unfold SIZE_MOD at hmod
  obtain ⟨b1, hrun1, hlen1, hslot1⟩ := eraseLoop_spec v.size_ (by omega) (v.size_ - 1 - ind)
    (v.size_ + 1) ind v.block (by omega) (by omega) (by omega) hsome
  obtain ⟨y, hy⟩ : ∃ y, b1.slot (v.size_ - 1) = some y := by
    rw [hslot1, if_neg (by omega)]
    exact Option.isSome_iff_exists.mp (hsome _ (by omega))
  have hdes := Block.destroy_nat b1 (v.size_ - 1) y (by omega) hy
  have hcast : ((v.size_ - 1 : Nat) : Int) = (v.size_ : Int) - 1 := by omega
  rw [hcast] at hdes
  refine ⟨⟨b1.len, Function.update b1.slot (v.size_ - 1) none⟩, ?_, ?_⟩
  · unfold vector.erase
    rw [if_neg (by omega), uadd_eq v.size_ 1 (by omega), if_neg hcap,
      toInt_of_le ind (by omega), hrun1, Outcome.ok_bind, hdes, Outcome.ok_bind,
      usub_eq v.size_ 1 (by omega) (by omega)]
    rfl
  · refine ⟨?_, ?_, ?_, hmin, hmod, ?_⟩
    · rw [length_eraseIdx_of_lt s ind hind]
      show v.size_ - 1 = s.length - 1
      omega
    · show b1.len = v.capacity_
      omega
    · show v.size_ - 1 < v.capacity_
      omega
    · intro i hi
      have hi' : i < v.size_ - 1 := hi
      show Function.update b1.slot (v.size_ - 1) none i = _
      rw [List.getElem?_eraseIdx]
      simp only [Function.update_apply]
      rw [if_neg (by omega), hslot1 i]
      by_cases h1 : i < ind
      · rw [if_neg (by omega), if_pos h1, hslot i (by omega)]
      · rw [if_pos (by omega), if_neg h1, hslot (i + 1) (by omega)]

/-- The first branch of `erase`: the other elements are copied to a block of a quarter of
the capacity, or of `minCapacity` slots. -/
theorem vector.erase_shrink (v : vector T) (s : List T) (this ind : Nat) (new_space : Nat)
    (h : v.Holds s) (hsz : s.length ≤ 2147483647) (hind : ind < s.length)
    (hcap : v.capacity_ > minCapacity ∧ v.size_ + 1 ≤ v.capacity_ / 4) :
    ∃ b, v.erase this ind new_space =
        .returns ⟨new_space, b, v.size_ - 1, max (v.capacity_ / 4) minCapacity⟩
          ⟨⟨new_space, ind⟩, this⟩ ∧
      vector.Holds ⟨new_space, b, v.size_ - 1, max (v.capacity_ / 4) minCapacity⟩
        (s.eraseIdx ind) := by
  have hsome := h.isSome
  have hrel := vector.Release_spec v s h hsz
  obtain ⟨hsize, hlen, hlt, hmin, hmod, hslot⟩ := h
  unfold SIZE_MOD at hmod
  obtain ⟨d1, hrun1, hlen1, hslot1⟩ := Copy_spec
    (allocate (max (v.capacity_ / 4) minCapacity)) v.block 0 0 ind
    (by omega) (fun j hj => ⟨by omega, by rw [Nat.zero_add]; exact hsome j (by omega)⟩)
    (by show 0 + ind ≤ max (v.capacity_ / 4) minCapacity; omega)
  have hlen1' : d1.len = max (v.capacity_ / 4) minCapacity := hlen1
  obtain ⟨d2, hrun2, hlen2, hslot2⟩ := Copy_spec d1 v.block ind (ind + 1) (v.size_ - 1 - ind)
    (by omega) (fun j hj => ⟨by omega, hsome (ind + 1 + j) (by omega)⟩) (by omega)
  refine ⟨d2, ?_, ?_⟩
  · unfold vector.erase
    rw [if_neg (by omega), uadd_eq v.size_ 1 (by omega), if_pos hcap, hrun1, Outcome.ok_bind,
      usub_eq v.size_ 1 (by omega) (by omega), usub_eq (v.size_ - 1) ind (by omega) (by omega),
      hrun2, Outcome.ok_bind, hrel, Outcome.ok_bind]
    rfl
  · refine ⟨?_, ?_, ?_, ?_, ?_, ?_⟩
    · rw [length_eraseIdx_of_lt s ind hind]
      show v.size_ - 1 = s.length - 1
      omega
    · show d2.len = max (v.capacity_ / 4) minCapacity
      omega
    · show v.size_ - 1 < max (v.capacity_ / 4) minCapacity
      omega
    · show minCapacity ≤ max (v.capacity_ / 4) minCapacity
      omega
    · show max (v.capacity_ / 4) minCapacity < SIZE_MOD
      unfold SIZE_MOD minCapacity
      omega
    · intro i hi
      have hi' : i < v.size_ - 1 := hi
      show d2.slot i = _
      rw [List.getElem?_eraseIdx, hslot2 i]
      by_cases h1 : i < ind
      · rw [if_neg (by omega), if_pos h1, hslot1 i, if_pos (by omega), Nat.sub_zero,
          Nat.add_zero, hslot i (by omega)]
      · rw [if_pos (by omega), if_neg h1, hslot (i - ind + (ind + 1)) (by omega)]
        congr 1
        omega

/-- An iterator at the index `i` of an element of the vector designates that element. -/
theorem vector.deref_at_index (v : vector T) (s : List T) (h : v.Holds s) (this i : Nat) (x : T)
    (hx : s[i]? = some x) : vector.iterator.deref ⟨⟨v.first_, i⟩, this⟩ v = .ok x := by
  obtain ⟨hsize, hlen, hlt, -, -, hslot⟩ := h
  have hp : i < s.length := by
    by_contra hc
    rw [List.getElem?_eq_none (by omega)] at hx
    cases hx
  unfold vector.iterator.deref
  rw [if_pos rfl]
  exact Block.read_nat v.block i x (by omega) (by rw [hslot i (by omega), hx])

end sjtu


namespace sjtu

variable {T : Type}

/-! ## What every returning call keeps -/

theorem Outcome.bind_eq_ok {α β : Type} (x : Outcome α) (f : α → Outcome β) (b : β) :
    (x >>= f) = .ok b ↔ ∃ a, x = .ok a ∧ f a = .ok b := by
  cases x with
  | ok a => simp
  | fail e => simp

theorem Call.ofOutcome_eq_returns {σ ρ : Type} (x : Outcome (σ × ρ)) (s : σ) (r : ρ) :
    Call.ofOutcome x = .returns s r ↔ x = .ok (s, r) := by
  rcases x with ⟨s', r'⟩ | e
  · simp [Call.ofOutcome]
  · simp [Call.ofOutcome]

theorem Block.construct_len (b b' : Block T) (i : Int) (x : T)
    (h : b.construct i x = .ok b') : b'.len = b.len := by
  unfold Block.construct at h
  split at h
  · simp only [Outcome.ok.injEq] at h
    rw [← h]
  · simp at h

theorem Block.assign_len (b b' : Block T) (i : Int) (x : T)
    (h : b.assign i x = .ok b') : b'.len = b.len := by
  unfold Block.assign at h
  split at h
  · split at h
    · simp only [Outcome.ok.injEq] at h
      rw [← h]
    · simp at h
  · simp at h

theorem Block.destroy_len (b b' : Block T) (i : Int)
    (h : b.destroy i = .ok b') : b'.len = b.len := by
  unfold Block.destroy at h
  split at h
  · split at h
    · simp only [Outcome.ok.injEq] at h
      rw [← h]
    · simp at h
  · simp at h

theorem CopyLoop_len (b : Block T) (doff soff n : Nat) :
    ∀ (fuel : Nat) (i : Int) (d d' : Block T),
      CopyLoop fuel i d doff b soff n = .ok d' → d'.len = d.len := by
  intro fuel
  induction fuel with
  | zero => intro i d d' h; simp [CopyLoop] at h
  | succ f ih =>
    intro i d d' h
    rw [CopyLoop] at h
    split at h
    · simp only [Outcome.bind_eq_ok] at h
      obtain ⟨x, -, d1, hd1, i1, -, hrec⟩ := h
      rw [ih i1 d1 d' hrec, Block.construct_len d d1 _ x hd1]
    · simp only [Outcome.pure_eq, Outcome.ok.injEq] at h
      rw [h]

theorem Copy_len (d d' b : Block T) (doff soff n : Nat)
    (h : Copy d doff b soff n = .ok d') : d'.len = d.len :=
  CopyLoop_len b doff soff n _ _ d d' h

theorem insertLoop_len (ind : Nat) :
    ∀ (fuel : Nat) (i : Int) (b b' : Block T),
      insertLoop fuel i b ind = .ok b' → b'.len = b.len := by
  intro fuel
  induction fuel with
  | zero => intro i b b' h; simp [insertLoop] at h
  | succ f ih =>
    intro i b b' h
    rw [insertLoop] at h
    split at h
    · simp only [Outcome.bind_eq_ok] at h
      obtain ⟨j, -, x, -, b1, hb1, i1, -, hrec⟩ := h
      rw [ih i1 b1 b' hrec, Block.assign_len b b1 _ x hb1]
    · simp only [Outcome.pure_eq, Outcome.ok.injEq] at h
      rw [h]

theorem eraseLoop_len (n : Nat) :
    ∀ (fuel : Nat) (i : Int) (b b' : Block T),
      eraseLoop fuel i b n = .ok b' → b'.len = b.len := by
  intro fuel
  induction fuel with
  | zero => intro i b b' h; simp [eraseLoop] at h
  | succ f ih =>
    intro i b b' h
    rw [eraseLoop] at h
    simp only [Outcome.bind_eq_ok] at h
    obtain ⟨i2, -, h⟩ := h
    split at h
    · simp only [Outcome.bind_eq_ok] at h
      obtain ⟨j, -, x, -, b1, hb1, i1, -, hrec⟩ := h
      rw [ih i1 b1 b' hrec, Block.construct_len b b1 _ x hb1]
    · simp only [Outcome.pure_eq, Outcome.ok.injEq] at h
      rw [h]

/-- The invariant of the data members: the block has `capacity_` slots, at least
`minCapacity` and more than `size_`. -/
theorem vector.insert_keeps (v s : vector T) (this ind : Nat) (value : Ref T) (new_space : Nat)
    (r : vector.iterator) (h : v.insert this ind value new_space = .returns s r)
    (h1 : minCapacity ≤ v.capacity_) (h2 : v.size_ < v.capacity_)
    (h3 : v.block.len = v.capacity_) (h4 : v.capacity_ < SIZE_MOD) :
    minCapacity ≤ s.capacity_ ∧ s.size_ < s.capacity_ ∧ s.block.len = s.capacity_ ∧
      s.capacity_ < SIZE_MOD := by
  unfold minCapacity SIZE_MOD at *
  unfold vector.insert at h
  split at h
  · simp at h
  rw [usub_eq v.capacity_ 1 (by omega) h4] at h
  split at h
  · rename_i hlt
    rw [Call.ofOutcome_eq_returns] at h
    simp only [Outcome.bind_eq_ok, Outcome.pure_eq, Outcome.ok.injEq, Prod.mk.injEq] at h
    obtain ⟨x, -, b1, hb1, b2, hb2, y, -, b3, hb3, hs, -⟩ := h
    have hl1 := Block.construct_len _ _ _ _ hb1
    have hl2 := insertLoop_len _ _ _ _ _ hb2
    have hl3 := Block.assign_len _ _ _ _ hb3
    subst hs
    rw [uadd_eq v.size_ 1 (by omega)]
    refine ⟨h1, ?_, ?_, h4⟩
    · show v.size_ + 1 < v.capacity_
      omega
    · show b3.len = v.capacity_
      omega
  · rename_i hge
    rw [Call.ofOutcome_eq_returns] at h
    simp only [Outcome.bind_eq_ok, Outcome.pure_eq, Outcome.ok.injEq, Prod.mk.injEq] at h
    obtain ⟨d1, hd1, x, -, d2, hd2, d3, hd3, u, hrel, hs, -⟩ := h
    have hsz := vector.Release_ok_le v hrel
    obtain ⟨hm1, hm2⟩ := umul_two v.capacity_ (by omega)
    rw [hm1] at hd1
    have hl1 : d1.len = 2 * v.capacity_ := Copy_len _ _ _ _ _ _ hd1
    have hl2 := Block.construct_len _ _ _ _ hd2
    have hl3 := Copy_len _ _ _ _ _ _ hd3
    subst hs
    rw [uadd_eq v.size_ 1 (by omega), hm2]
    refine ⟨?_, ?_, ?_, ?_⟩
    · show 8 ≤ 2 * v.capacity_
      omega
    · show v.size_ + 1 < 2 * v.capacity_
      omega
    · show d3.len = 2 * v.capacity_
      omega
    · show 2 * v.capacity_ < 18446744073709551616
      omega

theorem vector.erase_keeps (v s : vector T) (this ind : Nat) (new_space : Nat)
    (r : vector.iterator) (h : v.erase this ind new_space = .returns s r)
    (h1 : minCapacity ≤ v.capacity_) (h2 : v.size_ < v.capacity_)
    (h3 : v.block.len = v.capacity_) (h4 : v.capacity_ < SIZE_MOD) :
    minCapacity ≤ s.capacity_ ∧ s.size_ < s.capacity_ ∧ s.block.len = s.capacity_ ∧
      s.capacity_ < SIZE_MOD := by
  unfold minCapacity SIZE_MOD at *
  unfold vector.erase at h
  split at h
  · simp at h
  rename_i hind
  rw [uadd_eq v.size_ 1 (by omega)] at h
  split at h
  · rename_i hcap
    rw [Call.ofOutcome_eq_returns] at h
    simp only [Outcome.bind_eq_ok, Outcome.pure_eq, Outcome.ok.injEq, Prod.mk.injEq] at h
    obtain ⟨d1, hd1, d2, hd2, u, hrel, hs, -⟩ := h
    have hl1 : d1.len = max (v.capacity_ / 4) minCapacity := Copy_len _ _ _ _ _ _ hd1
    have hl2 := Copy_len _ _ _ _ _ _ hd2
    subst hs
    rw [usub_eq v.size_ 1 (by omega) (by omega)]
    unfold minCapacity at hl1 hcap ⊢
    refine ⟨?_, ?_, ?_, ?_⟩
    · show 8 ≤ max (v.capacity_ / 4) 8
      omega
    · show v.size_ - 1 < max (v.capacity_ / 4) 8
      omega
    · show d2.len = max (v.capacity_ / 4) 8
      omega
    · show max (v.capacity_ / 4) 8 < 18446744073709551616
      omega
  · rw [Call.ofOutcome_eq_returns] at h
    simp only [Outcome.bind_eq_ok, Outcome.pure_eq, Outcome.ok.injEq, Prod.mk.injEq] at h
    obtain ⟨b1, hb1, b2, hb2, hs, -⟩ := h
    have hl1 := eraseLoop_len _ _ _ _ _ hb1
    have hl2 := Block.destroy_len _ _ _ hb2
    subst hs
    rw [usub_eq v.size_ 1 (by omega) (by omega)]
    refine ⟨h1, ?_, ?_, h4⟩
    · show v.size_ - 1 < v.capacity_
      omega
    · show b2.len = v.capacity_
      omega

/-- In every reachable state the block has `capacity_` slots, at least `minCapacity` and more
than `size_`, and `capacity_` is a `size_t`. -/
theorem vector.reachable_keeps (v : vector T) (h : vector.Reachable v) :
    minCapacity ≤ v.capacity_ ∧ v.size_ < v.capacity_ ∧ v.block.len = v.capacity_ ∧
      v.capacity_ < SIZE_MOD := by
  induction h with
  | ctor first =>
    unfold vector.empty minCapacity SIZE_MOD allocate
    exact ⟨le_refl _, by show 0 < 8; omega, rfl, by show 8 < 18446744073709551616; omega⟩
  | copy other v first hr h ih =>
    unfold vector.copy at h
    simp only [Outcome.bind_eq_ok, Outcome.pure_eq, Outcome.ok.injEq] at h
    obtain ⟨b, hb, hv⟩ := h
    have hl : b.len = other.capacity_ := Copy_len _ _ _ _ _ _ hb
    subst hv
    exact ⟨ih.1, ih.2.1, hl, ih.2.2.2⟩
  | insert v s this ind value new_space r hr h ih =>
    exact vector.insert_keeps v s this ind value new_space r h ih.1 ih.2.1 ih.2.2.1 ih.2.2.2
  | push_back v s this value new_space hr h ih =>
    unfold vector.push_back at h
    split at h
    · rename_i s' r' heq
      simp only [Call.returns.injEq, and_true] at h
      subst h
      exact vector.insert_keeps v s' this v.size_ value new_space r' heq ih.1 ih.2.1 ih.2.2.1
        ih.2.2.2
    · simp at h
    · simp at h
  | erase v s this ind new_space r hr h ih =>
    exact vector.erase_keeps v s this ind new_space r h ih.1 ih.2.1 ih.2.2.1 ih.2.2.2
  | pop_back v s this new_space hr h ih =>
    unfold vector.pop_back at h
    split at h
    · simp at h
    split at h
    · rename_i s' r' heq
      simp only [Call.returns.injEq, and_true] at h
      subst h
      exact vector.erase_keeps v s' this _ new_space r' heq ih.1 ih.2.1 ih.2.2.1 ih.2.2.2
    · simp at h
    · simp at h
  | clear v s first hr h ih =>
    unfold vector.clear at h
    rw [Call.ofOutcome_eq_returns] at h
    simp only [Outcome.bind_eq_ok, Outcome.pure_eq, Outcome.ok.injEq, Prod.mk.injEq,
      and_true] at h
    obtain ⟨u, -, hs⟩ := h
    subst hs
    unfold minCapacity SIZE_MOD allocate
    exact ⟨le_refl _, by show 0 < 8; omega, rfl, by show 8 < 18446744073709551616; omega⟩

end sjtu


namespace sjtu

variable {T : Type}

/-! ## Reachable vectors, and the sizes beyond `INT_MAX` -/

theorem Call.ofOutcome_ne_throws {σ ρ : Type} (x : Outcome (σ × ρ)) (s : σ) (e : Exn) :
    Call.ofOutcome x ≠ .throws s e := by
  rcases x with ⟨s', r'⟩ | f <;> simp [Call.ofOutcome]

/-- The empty vector a constructor leaves holds the empty sequence. -/
theorem vector.empty_holds (first : Nat) : (vector.empty first : vector T).Holds [] :=
  ⟨rfl, rfl, by show 0 < 8; omega, le_refl _, by show 8 < 18446744073709551616; omega,
    fun i hi => absurd hi (Nat.not_lt_zero i)⟩

/-- Every sequence of at most 2^31 elements is held by a reachable vector: the one that
`push_back` of its elements, in order, leaves from the empty vector. Its capacity is 8 or at
most twice its size. -/
theorem vector.reachable_holds (xs : List T) :
    xs.length ≤ 2147483648 →
      ∃ v : vector T, vector.Reachable v ∧ v.Holds xs ∧
        (v.capacity_ = 8 ∨ v.capacity_ ≤ 2 * xs.length) := by
  induction xs using List.reverseRecOn with
  | nil =>
    intro _
    exact ⟨vector.empty 0, vector.Reachable.ctor 0, vector.empty_holds 0, Or.inl rfl⟩
  | append_singleton xs a ih =>
    intro hl
    rw [List.length_append, List.length_singleton] at hl
    obtain ⟨v, hr, hh, hc⟩ := ih (by omega)
    have hsize : v.size_ = xs.length := hh.1
    have hlist : xs.take xs.length ++ a :: xs.drop xs.length = xs ++ [a] := by simp
    by_cases hcap : v.size_ + 1 < v.capacity_
    · obtain ⟨b, hb, hh'⟩ :=
        vector.insert_inplace v xs 0 xs.length a 0 hh (by omega) (le_refl _) hcap
      rw [hlist] at hh'
      refine ⟨_, vector.Reachable.insert v _ 0 xs.length (.object a) 0 _ hr hb, hh', ?_⟩
      rw [List.length_append, List.length_singleton]
      show v.capacity_ = 8 ∨ v.capacity_ ≤ 2 * (xs.length + 1)
      omega
    · obtain ⟨b, hb, hh'⟩ :=
        vector.insert_grow v xs 0 xs.length (.object a) a 0 hh (by omega) (le_refl _) hcap rfl
      rw [hlist] at hh'
      refine ⟨_, vector.Reachable.insert v _ 0 xs.length (.object a) 0 _ hr hb, hh', ?_⟩
      rw [List.length_append, List.length_singleton]
      show 2 * v.capacity_ = 8 ∨ 2 * v.capacity_ ≤ 2 * (xs.length + 1)
      omega

/-- When the second branch of `insert` returns, the vector had at most `INT_MAX`
elements. -/
theorem vector.insert_grow_returns_le (v s : vector T) (this ind : Nat) (value : Ref T)
    (new_space : Nat) (r : vector.iterator)
    (h : v.insert this ind value new_space = .returns s r)
    (hcap : ¬ v.size_ < usub v.capacity_ 1) : v.size_ ≤ 2147483647 := by
  unfold vector.insert at h
  by_cases hi : ind > v.size_
  · rw [if_pos hi] at h
    simp at h
  rw [if_neg hi, if_neg hcap, Call.ofOutcome_eq_returns] at h
  simp only [Outcome.bind_eq_ok, Outcome.pure_eq, Outcome.ok.injEq, Prod.mk.injEq] at h
  obtain ⟨d1, -, x, -, d2, -, d3, -, u, hrel, -, -⟩ := h
  exact vector.Release_ok_le v hrel

/-- On a vector of 2^31 elements no call `insert(ind, value)` with `ind <= size()` returns or
throws: in the first branch the counter `int i = size_` is -2^31, the test `i > ind` converts
it to a `size_t` above `ind`, and `i - 1` is not an `int`; in the second branch the counter
of `Release` overflows. -/
theorem vector.insert_undefined_at_two31 (v : vector T) (s : List T) (this ind : Nat)
    (value : Ref T) (new_space : Nat) (h : v.Holds s) (hl : s.length = 2147483648)
    (hind : ind ≤ s.length) :
    ∃ f, v.insert this ind value new_space = .undefined f := by
  obtain ⟨hsize, hlen, hlt, hmin, hmod, hslot⟩ := h
  unfold SIZE_MOD at hmod
  by_cases hcap : v.size_ < usub v.capacity_ 1
  · unfold vector.insert
    rw [if_neg (by omega), if_pos hcap]
    cases hx : v.block.load value with
    | fail e => exact ⟨e, by rw [Outcome.fail_bind]; rfl⟩
    | ok x =>
      have hcons := Block.construct_nat v.block v.size_ x (by omega)
      have ht : toInt v.size_ = -2147483648 := by
        rw [hsize, hl]
        unfold toInt
        norm_num
      have hts : toSize (-2147483648) = 18446744071562067968 := by
        unfold toSize
        omega
      have hsub : intSub (-2147483648) 1 = .fail .int_overflow := by
        unfold intSub INT_MIN INT_MAX
        norm_num
      refine ⟨.int_overflow, ?_⟩
      rw [Outcome.ok_bind, hcons, Outcome.ok_bind, insertLoop, ht, hts, if_pos (by omega), hsub]
      rfl
  · cases hres : v.insert this ind value new_space with
    | undefined f => exact ⟨f, rfl⟩
    | returns s' r =>
      have := vector.insert_grow_returns_le v s' this ind value new_space r hres hcap
      omega
    | throws s' e =>
      unfold vector.insert at hres
      rw [if_neg (by omega), if_neg hcap] at hres
      exact absurd hres (Call.ofOutcome_ne_throws _ _ _)

/-- On a vector of 2^31 - 1 elements, `erase` of the last element in the second branch is
undefined: the test `i + 2 <= size_` adds 2 to the counter `int i = ind` = 2^31 - 2. -/
theorem vector.erase_last_overflows (v : vector T) (s : List T) (this new_space : Nat)
    (h : v.Holds s) (hl : s.length = 2147483647)
    (hcap : ¬ (v.capacity_ > minCapacity ∧ v.size_ + 1 ≤ v.capacity_ / 4)) :
    v.erase this 2147483646 new_space = .undefined .int_overflow := by
  obtain ⟨hsize, hlen, hlt, hmin, hmod, hslot⟩ := h
  unfold SIZE_MOD at hmod
  have ht : toInt 2147483646 = 2147483646 := toInt_of_le 2147483646 (by omega)
  have hadd : intAdd 2147483646 2 = .fail .int_overflow := by
    unfold intAdd INT_MIN INT_MAX
    norm_num
  unfold vector.erase
  rw [if_neg (by omega), uadd_eq v.size_ 1 (by omega), if_neg hcap, eraseLoop, ht, hadd]
  rfl

end sjtu


namespace sjtu

variable {T : Type}

/-! ## Steps between reachable vectors -/

/-- A call `insert(ind, value)` with an object outside the block, from a reachable vector:
the vector it leaves is reachable, holds the sequence with the value at `ind`, and has the
same capacity or twice the capacity. -/
theorem vector.insert_step (v : vector T) (s : List T) (ind : Nat) (a : T)
    (hr : vector.Reachable v) (hh : v.Holds s) (hsz : s.length ≤ 2147483647)
    (hind : ind ≤ s.length) :
    ∃ v', vector.Reachable v' ∧ v'.Holds (s.take ind ++ a :: s.drop ind) ∧
      v'.capacity_ = (if s.length + 1 < v.capacity_ then v.capacity_ else 2 * v.capacity_) := by
  have hsize : v.size_ = s.length := hh.1
  by_cases hcap : v.size_ + 1 < v.capacity_
  · obtain ⟨b, hb, hh'⟩ := vector.insert_inplace v s 0 ind a 0 hh hsz hind hcap
    refine ⟨_, vector.Reachable.insert v _ 0 ind (.object a) 0 _ hr hb, hh', ?_⟩
    rw [if_pos (by omega)]
  · obtain ⟨b, hb, hh'⟩ := vector.insert_grow v s 0 ind (.object a) a 0 hh hsz hind hcap rfl
    refine ⟨_, vector.Reachable.insert v _ 0 ind (.object a) 0 _ hr hb, hh', ?_⟩
    rw [if_neg (by omega)]

/-- A call `push_back(value)` from a reachable vector. -/
theorem vector.push_step (v : vector T) (s : List T) (a : T)
    (hr : vector.Reachable v) (hh : v.Holds s) (hsz : s.length ≤ 2147483647) :
    ∃ v', vector.Reachable v' ∧ v'.Holds (s ++ [a]) ∧
      v'.capacity_ = (if s.length + 1 < v.capacity_ then v.capacity_ else 2 * v.capacity_) := by
  have hsize : v.size_ = s.length := hh.1
  have hlist : s.take s.length ++ a :: s.drop s.length = s ++ [a] := by simp
  by_cases hcap : v.size_ + 1 < v.capacity_
  · obtain ⟨b, hb, hh'⟩ := vector.insert_inplace v s 0 s.length a 0 hh hsz (le_refl _) hcap
    rw [hlist] at hh'
    refine ⟨_, vector.Reachable.push_back v _ 0 (.object a) 0 hr ?_, hh', ?_⟩
    · rw [← hsize] at hb
      unfold vector.push_back
      rw [hb]
    · rw [if_pos (by omega)]
  · obtain ⟨b, hb, hh'⟩ :=
      vector.insert_grow v s 0 s.length (.object a) a 0 hh hsz (le_refl _) hcap rfl
    rw [hlist] at hh'
    refine ⟨_, vector.Reachable.push_back v _ 0 (.object a) 0 hr ?_, hh', ?_⟩
    · rw [← hsize] at hb
      unfold vector.push_back
      rw [hb]
    · rw [if_neg (by omega)]

/-- A call `erase(ind)` from a reachable vector: the vector it leaves is reachable, holds the
sequence without its element at `ind`, and has the same capacity or the smaller one. -/
theorem vector.erase_step (v : vector T) (s : List T) (ind : Nat)
    (hr : vector.Reachable v) (hh : v.Holds s) (hsz : s.length ≤ 2147483646)
    (hind : ind < s.length) :
    ∃ v', vector.Reachable v' ∧ v'.Holds (s.eraseIdx ind) ∧
      v'.capacity_ = (if v.capacity_ > 8 ∧ s.length + 1 ≤ v.capacity_ / 4
        then max (v.capacity_ / 4) 8 else v.capacity_) := by
  have hsize : v.size_ = s.length := hh.1
  by_cases hcap : v.capacity_ > minCapacity ∧ v.size_ + 1 ≤ v.capacity_ / 4
  · obtain ⟨b, hb, hh'⟩ := vector.erase_shrink v s 0 ind 0 hh (by omega) hind hcap
    refine ⟨_, vector.Reachable.erase v _ 0 ind 0 _ hr hb, hh', ?_⟩
    unfold minCapacity at hcap ⊢
    rw [if_pos (by omega)]
  · obtain ⟨b, hb, hh'⟩ := vector.erase_inplace v s 0 ind 0 hh hsz hind hcap
    refine ⟨_, vector.Reachable.erase v _ 0 ind 0 _ hr hb, hh', ?_⟩
    unfold minCapacity at hcap
    rw [if_neg (by omega)]

/-- A call `pop_back()` from a reachable vector that is not empty. -/
theorem vector.pop_step (v : vector T) (s : List T)
    (hr : vector.Reachable v) (hh : v.Holds s) (hsz : s.length ≤ 2147483646)
    (hne : 0 < s.length) :
    ∃ v', vector.Reachable v' ∧ v'.Holds s.dropLast ∧
      v'.capacity_ = (if v.capacity_ > 8 ∧ s.length + 1 ≤ v.capacity_ / 4
        then max (v.capacity_ / 4) 8 else v.capacity_) := by
  have hsize : v.size_ = s.length := hh.1
  have hmod : v.capacity_ < 18446744073709551616 := hh.2.2.2.2.1
  have hlt : v.size_ < v.capacity_ := hh.2.2.1
  have hlist : s.dropLast = s.eraseIdx (s.length - 1) :=
    List.dropLast_eq_eraseIdx (show s.length - 1 + 1 = s.length by omega)
  have hu : usub v.size_ 1 = s.length - 1 := by
    rw [usub_eq v.size_ 1 (by omega) (by omega), hsize]
  by_cases hcap : v.capacity_ > minCapacity ∧ v.size_ + 1 ≤ v.capacity_ / 4
  · obtain ⟨b, hb, hh'⟩ := vector.erase_shrink v s 0 (s.length - 1) 0 hh (by omega)
      (by omega) hcap
    rw [← hlist] at hh'
    refine ⟨_, vector.Reachable.pop_back v _ 0 0 hr ?_, hh', ?_⟩
    · unfold vector.pop_back
      rw [if_neg (by omega), hu, hb]
    · unfold minCapacity at hcap ⊢
      rw [if_pos (by omega)]
  · obtain ⟨b, hb, hh'⟩ := vector.erase_inplace v s 0 (s.length - 1) 0 hh hsz (by omega) hcap
    rw [← hlist] at hh'
    refine ⟨_, vector.Reachable.pop_back v _ 0 0 hr ?_, hh', ?_⟩
    · unfold vector.pop_back
      rw [if_neg (by omega), hu, hb]
    · unfold minCapacity at hcap
      rw [if_neg (by omega)]

/-- The copy constructor, from a reachable vector: the copy is reachable, holds the same
sequence and has the same capacity. -/
theorem vector.copy_step (v : vector T) (s : List T) (first : Nat)
    (hr : vector.Reachable v) (hh : v.Holds s) (hsz : s.length ≤ 2147483647) :
    ∃ v', vector.Reachable v' ∧ v'.Holds s ∧ v'.capacity_ = v.capacity_ ∧
      v'.first_ = first := by
  have hsome := hh.isSome
  obtain ⟨hsize, hlen, hlt, hmin, hmod, hslot⟩ := hh
  obtain ⟨d, hd, hdl, hds⟩ := Copy_spec (allocate v.capacity_) v.block 0 0 v.size_ (by omega)
    (fun j hj => ⟨by omega, by rw [Nat.zero_add]; exact hsome j hj⟩)
    (by show 0 + v.size_ ≤ v.capacity_; omega)
  have hcopy : v.copy first = .ok ⟨first, d, v.size_, v.capacity_⟩ := by
    unfold vector.copy
    rw [hd, Outcome.ok_bind]
    rfl
  refine ⟨_, vector.Reachable.copy v _ first hr hcopy, ⟨hsize, hdl, hlt, hmin, hmod, ?_⟩,
    rfl, rfl⟩
  intro i hi
  have hi' : i < v.size_ := hi
  show d.slot i = _
  rw [hds i, if_pos (by omega), Nat.sub_zero, Nat.add_zero, hslot i hi']

/-- A call `clear()` from a reachable vector: it leaves the state of the constructor. -/
theorem vector.clear_step (v : vector T) (s : List T) (first : Nat)
    (hr : vector.Reachable v) (hh : v.Holds s) (hsz : s.length ≤ 2147483647) :
    vector.Reachable (vector.empty first : vector T) ∧
      v.clear first = .returns (vector.empty first) () := by
  have hc : v.clear first = .returns (vector.empty first) () := by
    unfold vector.clear
    rw [vector.Release_spec v s hh hsz, Outcome.ok_bind]
    rfl
  exact ⟨vector.Reachable.clear v _ first hr hc, hc⟩

end sjtu


namespace sjtu

variable {T : Type}

/-! ## `vector`: the claims -/

theorem vecSmall_holds : vecSmall.Holds [10, 20, 30] :=
  ⟨rfl, rfl, by show 3 < 8; omega, by show 8 ≤ 8; omega,
    by show 8 < 18446744073709551616; omega, fun _ _ => rfl⟩

theorem vecFull_holds : vecFull.Holds [1, 2, 3, 4, 5, 6, 7] :=
  ⟨rfl, rfl, by show 7 < 8; omega, by show 8 ≤ 8; omega,
    by show 8 < 18446744073709551616; omega, fun _ _ => rfl⟩

theorem vecSparse_holds : vecSparse.Holds [10, 20] :=
  ⟨rfl, rfl, by show 2 < 32; omega, by show 8 ≤ 32; omega,
    by show 32 < 18446744073709551616; omega, fun _ _ => rfl⟩

/-- The value an argument designates is what a read of it returns. -/
theorem vector.Holds.load {v : vector T} {s : List T} (h : v.Holds s) (value : Ref T) (x : T)
    (hd : value.Designates s x) : v.block.load value = .ok x := by
  cases value with
  | object y =>
    have hy : y = x := hd
    rw [hy]
    rfl
  | element j =>
    have hj : s[j]? = some x := hd
    have hlt : j < s.length := by
      by_contra hc
      rw [List.getElem?_eq_none (by omega)] at hj
      cases hj
    obtain ⟨hsize, hlen, hcap, -, -, hslot⟩ := h
    exact Block.read_nat v.block j x (by omega) (by rw [hslot j (by omega), hj])

/-- C23 fails on the code: a vector that holds 10, 20, 30 is reached by three `push_back`
calls; its element at index 1 is 20; and `insert(0, v[1])`, whose argument `value` is a
reference to that element, leaves 10, 10, 20, 30 and not 20, 10, 20, 30: the first branch of
`insert` reads `value` again in `first_[ind] = value`, after its loop has moved the element
10 into the slot `value` designates. The second branch reads it before anything moves: on a
vector that holds 1 to 7 in a block of 8 slots the same call leaves 2, 1, 2, 3, 4, 5, 6, 7. -/
theorem insert_own_element_reread :
    (∃ v : vector Nat, vector.Reachable v ∧ v.Holds [10, 20, 30] ∧
      v.at_ 1 = .returns v 20 ∧
      ∃ v', v.insert 0 0 (.element 1) 1 = .returns v' ⟨⟨v'.first_, 0⟩, 0⟩ ∧
        v'.Holds [10, 10, 20, 30] ∧ v'.at_ 0 = .returns v' 10) ∧
    (∃ v', vecSmall.insert 0 0 (.element 1) 1 = .returns v' ⟨⟨v'.first_, 0⟩, 0⟩ ∧
      v'.Holds [10, 10, 20, 30]) ∧
    (∃ w', vecFull.insert 0 0 (.element 1) 1 = .returns w' ⟨⟨w'.first_, 0⟩, 0⟩ ∧
      w'.Holds [2, 1, 2, 3, 4, 5, 6, 7]) := by
  refine ⟨?_, ?_, ?_⟩
  · obtain ⟨v, hr, hh, hc⟩ := vector.reachable_holds [10, 20, 30] (by decide)
    have hcap : v.capacity_ = 8 := by
      have h8 : minCapacity ≤ v.capacity_ := hh.2.2.2.1
      have hl : ([10, 20, 30] : List Nat).length = 3 := rfl
      unfold minCapacity at h8
      omega
    have hsize : v.size_ = 3 := hh.1
    obtain ⟨b, hb, hh'⟩ := vector.insert_inplace_element v [10, 20, 30] 0 0 1 20 10 1 hh
      (by decide) (by decide) (by omega) rfl rfl
    exact ⟨v, hr, hh, (vector.at_index_spec v _ hh 1).2 20 rfl, _, hb, hh',
      (vector.at_index_spec _ _ hh' 0).2 10 rfl⟩
  · obtain ⟨b, hb, hh'⟩ := vector.insert_inplace_element vecSmall [10, 20, 30] 0 0 1 20 10 1
      vecSmall_holds (by decide) (by decide) (by show 3 + 1 < 8; omega) rfl rfl
    exact ⟨_, hb, hh'⟩
  · obtain ⟨b, hb, hh'⟩ := vector.insert_grow vecFull [1, 2, 3, 4, 5, 6, 7] 0 0 (.element 1)
      2 1 vecFull_holds (by decide) (by decide) (by show ¬ 7 + 1 < 8; omega)
      (vecFull_holds.load (.element 1) 2 rfl)
    exact ⟨_, hb, hh'⟩

/-- Beside C23: a vector that holds 2^31 elements is reached by `push_back` calls, and on it
no call `insert(ind, value)` with `ind <= size()` and no call `push_back(value)` returns: the
`int` counters of the loops overflow, which is undefined. -/
theorem insert_beyond_int_max :
    ∃ v : vector Nat, vector.Reachable v ∧ v.Holds (List.replicate 2147483648 0) ∧
      (∀ (this ind : Nat) (value : Ref Nat) (new_space : Nat), ind ≤ 2147483648 →
        ∃ f, v.insert this ind value new_space = .undefined f) ∧
      (∀ (this : Nat) (value : Ref Nat) (new_space : Nat),
        ∃ f, v.push_back this value new_space = .undefined f) := by
  have hl : (List.replicate 2147483648 0 : List Nat).length = 2147483648 :=
    List.length_replicate _ _
  obtain ⟨v, hr, hh, -⟩ := vector.reachable_holds (List.replicate 2147483648 (0 : Nat))
    (by rw [hl])
  have hsize : v.size_ = 2147483648 := by rw [hh.1, hl]
  refine ⟨v, hr, hh, ?_, ?_⟩
  · intro this ind value new_space hind
    exact vector.insert_undefined_at_two31 v _ this ind value new_space hh hl (by rw [hl]; exact hind)
  · intro this value new_space
    obtain ⟨f, hf⟩ := vector.insert_undefined_at_two31 v _ this v.size_ value new_space hh hl
      (by rw [hl, hsize])
    refine ⟨f, ?_⟩
    unfold vector.push_back
    rw [hf]

/-- Beside C23, what the code does keep: on a vector that holds a sequence `s` of at most
`INT_MAX` = 2^31 - 1 elements, with `value` designating an object of value `x`,
`insert(ind, value)` throws `index_out_of_bound` exactly when `ind > size()`, and the vector
is then unchanged; otherwise, unless `value` is an element of the vector after `ind` and the
first branch is taken, it returns, the vector holds `s[0..ind) ++ [x] ++ s[ind..)`, `size()`
has grown by 1, `at(ind)` returns `x`, and the iterator returned is `first_ + ind` of the new
state, which designates `x`. With room for one more element the block and the capacity are
kept, otherwise the vector has the new block and twice the capacity. `push_back(value)`
returns and the vector holds `s ++ [x]`. -/
theorem insert_spec_within_int_max (v : vector T) (s : List T) (this ind : Nat)
    (value : Ref T) (x : T) (new_space : Nat) (h : v.Holds s) (hsz : s.length ≤ 2147483647)
    (hd : value.Designates s x) :
    v.size = s.length ∧
      ((v.insert this ind value new_space).Throws .index_out_of_bound ↔ ind > v.size) ∧
      (ind > v.size → v.insert this ind value new_space = .throws v .index_out_of_bound) ∧
      (ind ≤ v.size →
        (∀ j, value = .element j → j ≤ ind ∨ ¬ v.size_ + 1 < v.capacity_) →
        ∃ v', v.insert this ind value new_space = .returns v' ⟨⟨v'.first_, ind⟩, this⟩ ∧
          v'.Holds (s.take ind ++ x :: s.drop ind) ∧ v'.size = v.size + 1 ∧
          v'.at_ ind = .returns v' x ∧
          vector.iterator.deref ⟨⟨v'.first_, ind⟩, this⟩ v' = .ok x ∧
          (v.size_ + 1 < v.capacity_ → v'.first_ = v.first_ ∧ v'.capacity_ = v.capacity_) ∧
          (¬ v.size_ + 1 < v.capacity_ →
            v'.first_ = new_space ∧ v'.capacity_ = 2 * v.capacity_)) ∧
      (∃ v', v.push_back this value new_space = .returns v' () ∧ v'.Holds (s ++ [x])) := by
  have hsize : v.size_ = s.length := h.1
  have hload := h.load value x hd
  have hret : ∀ i, i ≤ s.length →
      (∀ j, value = .element j → j ≤ i ∨ ¬ v.size_ + 1 < v.capacity_) →
      ∃ v', v.insert this i value new_space = .returns v' ⟨⟨v'.first_, i⟩, this⟩ ∧
        v'.Holds (s.take i ++ x :: s.drop i) ∧ v'.size_ = v.size_ + 1 ∧
        (v.size_ + 1 < v.capacity_ → v'.first_ = v.first_ ∧ v'.capacity_ = v.capacity_) ∧
        (¬ v.size_ + 1 < v.capacity_ →
          v'.first_ = new_space ∧ v'.capacity_ = 2 * v.capacity_) := by
    intro i hi hal
    by_cases hcap : v.size_ + 1 < v.capacity_
    · cases value with
      | object y =>
        have hy : y = x := hd
        subst hy
        obtain ⟨b, hb, hh⟩ := vector.insert_inplace v s this i y new_space h hsz hi hcap
        exact ⟨_, hb, hh, rfl, fun _ => ⟨rfl, rfl⟩, fun hn => absurd hcap hn⟩
      | element j =>
        have hj : s[j]? = some x := hd
        have hji : j ≤ i := by
          rcases hal j rfl with hji | hji
          · exact hji
          · exact absurd hcap hji
        obtain ⟨b, hb, hh⟩ := vector.insert_inplace_element v s this i j x x new_space h hsz
          hi hcap hj (by rw [if_neg (by omega)]; exact hj)
        exact ⟨_, hb, hh, rfl, fun _ => ⟨rfl, rfl⟩, fun hn => absurd hcap hn⟩
    · obtain ⟨b, hb, hh⟩ := vector.insert_grow v s this i value x new_space h hsz hi hcap hload
      exact ⟨_, hb, hh, rfl, fun hn => absurd hn hcap, fun _ => ⟨rfl, rfl⟩⟩
  have hthrow : ind > v.size_ →
      v.insert this ind value new_space = .throws v .index_out_of_bound := by
    intro hi
    unfold vector.insert
    rw [if_pos hi]
  refine ⟨hsize, ?_, hthrow, ?_, ?_⟩
  · constructor
    · rintro ⟨st, hst⟩
      by_contra hc
      have hi : ¬ ind > v.size_ := hc
      unfold vector.insert at hst
      rw [if_neg hi] at hst
      split at hst
      · exact absurd hst (Call.ofOutcome_ne_throws _ _ _)
      · exact absurd hst (Call.ofOutcome_ne_throws _ _ _)
    · intro hi
      exact ⟨v, hthrow hi⟩
  · intro hi hal
    obtain ⟨v', hv', hh, hs', hb1, hb2⟩ := hret ind (by unfold vector.size at hi; omega) hal
    have hval : (s.take ind ++ x :: s.drop ind)[ind]? = some x := by
      rw [getElem?_take_cons_drop s ind ind x (by unfold vector.size at hi; omega),
        if_neg (by omega), if_pos rfl]
    exact ⟨v', hv', hh, hs', (vector.at_index_spec v' _ hh ind).2 x hval,
      vector.deref_at_index v' _ hh this ind x hval, hb1, hb2⟩
  · obtain ⟨v', hv', hh, -⟩ := hret s.length (le_refl _) (by
      intro j hj
      left
      subst hj
      have hjx : s[j]? = some x := hd
      by_contra hc
      rw [List.getElem?_eq_none (by omega)] at hjx
      cases hjx)
    refine ⟨v', ?_, ?_⟩
    · unfold vector.push_back
      rw [hsize, hv']
    · simpa using hh

theorem insert_spec_within_int_max_witness :
    vecSmall.Holds [10, 20, 30] ∧ vecFull.Holds [1, 2, 3, 4, 5, 6, 7] ∧
      (∃ v', vecSmall.insert 0 1 (.object 15) 1 = .returns v' ⟨⟨0, 1⟩, 0⟩ ∧
        v'.Holds [10, 15, 20, 30] ∧ v'.at_ 1 = .returns v' 15 ∧ v'.capacity_ = 8) ∧
      (∃ v', vecFull.insert 0 7 (.object 8) 1 = .returns v' ⟨⟨1, 7⟩, 0⟩ ∧
        v'.Holds [1, 2, 3, 4, 5, 6, 7, 8] ∧ v'.at_ 7 = .returns v' 8 ∧ v'.capacity_ = 16) ∧
      vecSmall.insert 0 4 (.object 15) 1 = .throws vecSmall .index_out_of_bound :=
  have h1 := insert_spec_within_int_max vecSmall [10, 20, 30] 0 1 (.object 15) 15 1
    vecSmall_holds (by decide) rfl
  have h2 := insert_spec_within_int_max vecFull [1, 2, 3, 4, 5, 6, 7] 0 7 (.object 8) 8 1
    vecFull_holds (by decide) rfl
  have h3 := insert_spec_within_int_max vecSmall [10, 20, 30] 0 4 (.object 15) 15 1
    vecSmall_holds (by decide) rfl
  ⟨vecSmall_holds, vecFull_holds,
    (by
      obtain ⟨v', e, hh, _, ha, _, hb, _⟩ := h1.2.2.2.1 (by decide) (fun j hj => by cases hj)
      have hf : v'.first_ = 0 := (hb (by decide)).1
      rw [hf] at e
      exact ⟨v', e, hh, ha, (hb (by decide)).2⟩),
    (by
      obtain ⟨v', e, hh, _, ha, _, _, hb⟩ := h2.2.2.2.1 (by decide) (fun j hj => by cases hj)
      have hf : v'.first_ = 1 := (hb (by decide)).1
      rw [hf] at e
      exact ⟨v', e, hh, ha, (hb (by decide)).2⟩),
    h3.2.2.1 (by decide)⟩

/-- C24: the claim fails on the code: a vector that holds 2^31 - 1 elements is reached by
`push_back` calls, and on it `erase(size() - 1)` and `pop_back()` do not return the vector
without its last element: the loop test `i + 2 <= size_` of the second branch of `erase`
adds 2 to the counter `int i` = 2^31 - 2, which is undefined. On the same vector
`push_back(value)` still returns and the vector holds one element more. -/
theorem erase_beyond_int_max :
    ∃ v : vector Nat, vector.Reachable v ∧ v.Holds (List.replicate 2147483647 0) ∧
      v.size = 2147483647 ∧
      (∀ this new_space : Nat,
        v.erase this 2147483646 new_space = .undefined .int_overflow) ∧
      (∀ this new_space : Nat, v.pop_back this new_space = .undefined .int_overflow) ∧
      (∀ this value new_space : Nat,
        ∃ v', v.push_back this (.object value) new_space = .returns v' () ∧
          v'.Holds (List.replicate 2147483647 0 ++ [value])) := by
  have hl : (List.replicate 2147483647 0 : List Nat).length = 2147483647 :=
    List.length_replicate _ _
  obtain ⟨v, hr, hh, hc⟩ := vector.reachable_holds (List.replicate 2147483647 (0 : Nat))
    (by rw [hl]; omega)
  have hsize : v.size_ = 2147483647 := by rw [hh.1, hl]
  have hmod : v.capacity_ < 18446744073709551616 := hh.2.2.2.2.1
  have hcap : ¬ (v.capacity_ > minCapacity ∧ v.size_ + 1 ≤ v.capacity_ / 4) := by
    rw [hl] at hc
    omega
  refine ⟨v, hr, hh, hsize, ?_, ?_, ?_⟩
  rotate_left 2
  · intro this value new_space
    exact (insert_spec_within_int_max v _ this 0 (.object value) value new_space hh
      (by rw [hl]) rfl).2.2.2.2
  · intro this new_space
    exact vector.erase_last_overflows v _ this new_space hh hl hcap
  · intro this new_space
    unfold vector.pop_back
    have hu : usub v.size_ 1 = 2147483646 := by
      rw [usub_eq v.size_ 1 (by omega) (by omega), hsize]
    rw [if_neg (by omega), hu, vector.erase_last_overflows v _ this new_space hh hl hcap]

/-- Beside C24, what the code does keep: on a vector that holds a sequence `s` of at most
`INT_MAX - 1` = 2^31 - 2 elements, `erase(ind)` throws `index_out_of_bound` exactly when `ind >= size()`, and the
vector is then unchanged; otherwise it returns, the vector holds `s` without its element at
`ind`, the others in their order, `size()` has decreased by 1, and the iterator returned is
`first_ + ind` of the new state: it designates the element that followed the erased one, and
it is `end()` when the last element was erased. Both branches are covered: the block and the
capacity are kept unless `capacity_ > minCapacity` and `size_ + 1 <= capacity_ / 4`, in which
case the vector has the new block, of `max(capacity_ / 4, minCapacity)` slots. `pop_back()`
throws `container_is_empty` on an empty vector and otherwise returns, and the vector holds
`s` without its last element. -/
theorem erase_spec_within_int_max (v : vector T) (s : List T) (this ind : Nat)
    (new_space : Nat) (h : v.Holds s) (hsz : s.length ≤ 2147483646) :
    v.size = s.length ∧
      ((v.erase this ind new_space).Throws .index_out_of_bound ↔ ind ≥ v.size) ∧
      (ind ≥ v.size → v.erase this ind new_space = .throws v .index_out_of_bound) ∧
      (ind < v.size →
        ∃ v', v.erase this ind new_space = .returns v' ⟨⟨v'.first_, ind⟩, this⟩ ∧
          v'.Holds (s.eraseIdx ind) ∧ v'.size + 1 = v.size ∧
          (∀ x, s[ind + 1]? = some x →
            vector.iterator.deref ⟨⟨v'.first_, ind⟩, this⟩ v' = .ok x) ∧
          (ind + 1 = v.size → (⟨⟨v'.first_, ind⟩, this⟩ : vector.iterator) = v'.end_ this) ∧
          (¬ (v.capacity_ > minCapacity ∧ v.size_ + 1 ≤ v.capacity_ / 4) →
            v'.first_ = v.first_ ∧ v'.capacity_ = v.capacity_) ∧
          (v.capacity_ > minCapacity ∧ v.size_ + 1 ≤ v.capacity_ / 4 →
            v'.first_ = new_space ∧ v'.capacity_ = max (v.capacity_ / 4) minCapacity)) ∧
      (v.size = 0 → v.pop_back this new_space = .throws v .container_is_empty) ∧
      (0 < v.size →
        ∃ v', v.pop_back this new_space = .returns v' () ∧ v'.Holds s.dropLast) := by
  have hsize : v.size_ = s.length := h.1
  have hmod : v.capacity_ < 18446744073709551616 := h.2.2.2.2.1
  have hlt : v.size_ < v.capacity_ := h.2.2.1
  have hret : ∀ i, i < s.length →
      ∃ v', v.erase this i new_space = .returns v' ⟨⟨v'.first_, i⟩, this⟩ ∧
        v'.Holds (s.eraseIdx i) ∧ v'.size_ = v.size_ - 1 ∧
        (¬ (v.capacity_ > minCapacity ∧ v.size_ + 1 ≤ v.capacity_ / 4) →
          v'.first_ = v.first_ ∧ v'.capacity_ = v.capacity_) ∧
        (v.capacity_ > minCapacity ∧ v.size_ + 1 ≤ v.capacity_ / 4 →
          v'.first_ = new_space ∧ v'.capacity_ = max (v.capacity_ / 4) minCapacity) := by
    intro i hi
    by_cases hcap : v.capacity_ > minCapacity ∧ v.size_ + 1 ≤ v.capacity_ / 4
    · obtain ⟨b, hb, hh⟩ := vector.erase_shrink v s this i new_space h (by omega) hi hcap
      exact ⟨_, hb, hh, rfl, fun hn => absurd hcap hn, fun _ => ⟨rfl, rfl⟩⟩
    · obtain ⟨b, hb, hh⟩ := vector.erase_inplace v s this i new_space h hsz hi hcap
      exact ⟨_, hb, hh, rfl, fun _ => ⟨rfl, rfl⟩, fun hn => absurd hn hcap⟩
  have hthrow : ind ≥ v.size_ →
      v.erase this ind new_space = .throws v .index_out_of_bound := by
    intro hi
    unfold vector.erase
    rw [if_pos hi]
  refine ⟨hsize, ?_, hthrow, ?_, ?_, ?_⟩
  · constructor
    · rintro ⟨st, hst⟩
      by_contra hc
      obtain ⟨v', hv', -⟩ := hret ind (by unfold vector.size at hc; omega)
      rw [hv'] at hst
      cases hst
    · intro hi
      exact ⟨v, hthrow hi⟩
  · intro hi
    have hi' : ind < s.length := by unfold vector.size at hi; omega
    obtain ⟨v', hv', hh, hs', hb1, hb2⟩ := hret ind hi'
    refine ⟨v', hv', hh, ?_, ?_, ?_, hb1, hb2⟩
    · unfold vector.size
      omega
    · intro x hx
      refine vector.deref_at_index v' _ hh this ind x ?_
      rw [List.getElem?_eraseIdx, if_neg (by omega), hx]
    · intro he
      unfold vector.size at he
      unfold vector.end_
      rw [hs']
      have : ind = v.size_ - 1 := by omega
      rw [← this]
  · intro h0
    unfold vector.size at h0
    unfold vector.pop_back
    rw [if_pos h0]
  · intro h0
    unfold vector.size at h0
    obtain ⟨v', hv', hh, -⟩ := hret (s.length - 1) (by omega)
    refine ⟨v', ?_, ?_⟩
    · unfold vector.pop_back
      rw [if_neg (by omega), usub_eq v.size_ 1 (by omega) (by omega), hsize, hv']
    · rw [List.dropLast_eq_eraseIdx (show s.length - 1 + 1 = s.length by omega)]
      exact hh

theorem erase_spec_within_int_max_witness :
    vecSmall.Holds [10, 20, 30] ∧ vecSparse.Holds [10, 20] ∧
      (∃ v', vecSmall.erase 0 1 1 = .returns v' ⟨⟨0, 1⟩, 0⟩ ∧ v'.Holds [10, 30] ∧
        vector.iterator.deref ⟨⟨0, 1⟩, 0⟩ v' = .ok 30 ∧ v'.capacity_ = 8) ∧
      (∃ v', vecSparse.erase 0 1 1 = .returns v' ⟨⟨1, 1⟩, 0⟩ ∧ v'.Holds [10] ∧
        (⟨⟨1, 1⟩, 0⟩ : vector.iterator) = v'.end_ 0 ∧ v'.capacity_ = 8) ∧
      vecSmall.erase 0 3 1 = .throws vecSmall .index_out_of_bound :=
  have h1 := erase_spec_within_int_max vecSmall [10, 20, 30] 0 1 1 vecSmall_holds (by decide)
  have h2 := erase_spec_within_int_max vecSparse [10, 20] 0 1 1 vecSparse_holds (by decide)
  have h3 := erase_spec_within_int_max vecSmall [10, 20, 30] 0 3 1 vecSmall_holds (by decide)
  ⟨vecSmall_holds, vecSparse_holds,
    (by
      obtain ⟨v', e, hh, _, hd, _, hb, _⟩ := h1.2.2.2.1 (by decide)
      have hf : v'.first_ = 0 := (hb (by decide)).1
      have hd' := hd 30 rfl
      rw [hf] at e hd'
      exact ⟨v', e, hh, hd', (hb (by decide)).2⟩),
    (by
      obtain ⟨v', e, hh, _, _, he, _, hb⟩ := h2.2.2.2.1 (by decide)
      have hf : v'.first_ = 1 := (hb (by decide)).1
      have he' := he rfl
      rw [hf] at e
      rw [hf] at he'
      exact ⟨v', e, hh, he', (hb (by decide)).2⟩),
    h3.2.2.1 (by decide)⟩

/-- C30: in every state of a vector reached by the constructors and by returning calls of
`insert`, `push_back`, `erase`, `pop_back` and `clear`, `capacity_ >= minCapacity` = 8 and
`size_ < capacity_`, and the block has `capacity_` slots; so the slot `first_[size_]`, in
which the first branch of `insert` constructs an object, is in the block. -/
theorem reachable_capacity_invariant (v : vector T) (h : vector.Reachable v) :
    minCapacity = 8 ∧ minCapacity ≤ v.capacity_ ∧ v.size_ < v.capacity_ ∧
      v.block.len = v.capacity_ ∧
      ∀ x : T, ∃ b, v.block.construct v.size_ x = .ok b := by
  obtain ⟨h1, h2, h3, -⟩ := vector.reachable_keeps v h
  exact ⟨rfl, h1, h2, h3, fun x => ⟨_, Block.construct_nat v.block v.size_ x (by omega)⟩⟩

theorem reachable_capacity_invariant_witness :
    ∃ v w c : vector Nat,
      vector.Reachable v ∧ v.Holds [0, 1, 2, 3, 4, 5, 6, 7, 8] ∧ v.capacity_ = 16 ∧
      vector.Reachable w ∧ w.Holds [1, 2] ∧ w.capacity_ = 8 ∧
      vector.Reachable c ∧ c.Holds [0, 1, 2, 3, 4, 5, 6, 7, 8] ∧ c.first_ = 7 ∧
      vector.Reachable (vector.empty 5 : vector Nat) ∧
      (minCapacity = 8 ∧ minCapacity ≤ v.capacity_ ∧ v.size_ < v.capacity_ ∧
        v.block.len = v.capacity_ ∧ ∀ x : Nat, ∃ b, v.block.construct v.size_ x = .ok b) ∧
      (minCapacity = 8 ∧ minCapacity ≤ w.capacity_ ∧ w.size_ < w.capacity_ ∧
        w.block.len = w.capacity_ ∧ ∀ x : Nat, ∃ b, w.block.construct w.size_ x = .ok b) ∧
      (minCapacity = 8 ∧ minCapacity ≤ c.capacity_ ∧ c.size_ < c.capacity_ ∧
        c.block.len = c.capacity_ ∧ ∀ x : Nat, ∃ b, c.block.construct c.size_ x = .ok b) ∧
      (minCapacity = 8 ∧ minCapacity ≤ (vector.empty 5 : vector Nat).capacity_ ∧ (vector.empty 5 : vector Nat).size_ < (vector.empty 5 : vector Nat).capacity_ ∧
        (vector.empty 5 : vector Nat).block.len = (vector.empty 5 : vector Nat).capacity_ ∧ ∀ x : Nat, ∃ b, (vector.empty 5 : vector Nat).block.construct (vector.empty 5 : vector Nat).size_ x = .ok b) := by
  obtain ⟨v1, r1, h1, e1⟩ := vector.push_step (vector.empty 0) [] 1 (vector.Reachable.ctor 0) (vector.empty_holds 0) (by decide)
  have e0 : (vector.empty 0 : vector Nat).capacity_ = 8 := rfl
  rw [e0] at e1
  have c1 : v1.capacity_ = 8 := e1
  have g1 : v1.Holds [1] := h1
  obtain ⟨v2, r2, h2, e2⟩ := vector.push_step v1 [1] 2 r1 g1 (by decide)
  rw [c1] at e2
  have c2 : v2.capacity_ = 8 := e2
  have g2 : v2.Holds [1, 2] := h2
  obtain ⟨v3, r3, h3, e3⟩ := vector.push_step v2 [1, 2] 3 r2 g2 (by decide)
  rw [c2] at e3
  have c3 : v3.capacity_ = 8 := e3
  have g3 : v3.Holds [1, 2, 3] := h3
  obtain ⟨v4, r4, h4, e4⟩ := vector.push_step v3 [1, 2, 3] 4 r3 g3 (by decide)
  rw [c3] at e4
  have c4 : v4.capacity_ = 8 := e4
  have g4 : v4.Holds [1, 2, 3, 4] := h4
  obtain ⟨v5, r5, h5, e5⟩ := vector.push_step v4 [1, 2, 3, 4] 5 r4 g4 (by decide)
  rw [c4] at e5
  have c5 : v5.capacity_ = 8 := e5
  have g5 : v5.Holds [1, 2, 3, 4, 5] := h5
  obtain ⟨v6, r6, h6, e6⟩ := vector.push_step v5 [1, 2, 3, 4, 5] 6 r5 g5 (by decide)
  rw [c5] at e6
  have c6 : v6.capacity_ = 8 := e6
  have g6 : v6.Holds [1, 2, 3, 4, 5, 6] := h6
  obtain ⟨v7, r7, h7, e7⟩ := vector.push_step v6 [1, 2, 3, 4, 5, 6] 7 r6 g6 (by decide)
  rw [c6] at e7
  have c7 : v7.capacity_ = 8 := e7
  have g7 : v7.Holds [1, 2, 3, 4, 5, 6, 7] := h7
  obtain ⟨v8, r8, h8, e8⟩ := vector.push_step v7 [1, 2, 3, 4, 5, 6, 7] 8 r7 g7 (by decide)
  rw [c7] at e8
  have c8 : v8.capacity_ = 16 := e8
  have g8 : v8.Holds [1, 2, 3, 4, 5, 6, 7, 8] := h8
  obtain ⟨v9, r9, h9, e9⟩ := vector.insert_step v8 [1, 2, 3, 4, 5, 6, 7, 8] 0 0 r8 g8 (by decide) (by decide)
  rw [c8] at e9
  have c9 : v9.capacity_ = 16 := e9
  have g9 : v9.Holds [0, 1, 2, 3, 4, 5, 6, 7, 8] := h9
  obtain ⟨v10, r10, h10, e10⟩ := vector.erase_step v9 [0, 1, 2, 3, 4, 5, 6, 7, 8] 0 r9 g9 (by decide) (by decide)
  rw [c9] at e10
  have c10 : v10.capacity_ = 16 := e10
  have g10 : v10.Holds [1, 2, 3, 4, 5, 6, 7, 8] := h10
  obtain ⟨v11, r11, h11, e11⟩ := vector.pop_step v10 [1, 2, 3, 4, 5, 6, 7, 8] r10 g10 (by decide) (by decide)
  rw [c10] at e11
  have c11 : v11.capacity_ = 16 := e11
  have g11 : v11.Holds [1, 2, 3, 4, 5, 6, 7] := h11
  obtain ⟨v12, r12, h12, e12⟩ := vector.pop_step v11 [1, 2, 3, 4, 5, 6, 7] r11 g11 (by decide) (by decide)
  rw [c11] at e12
  have c12 : v12.capacity_ = 16 := e12
  have g12 : v12.Holds [1, 2, 3, 4, 5, 6] := h12
  obtain ⟨v13, r13, h13, e13⟩ := vector.pop_step v12 [1, 2, 3, 4, 5, 6] r12 g12 (by decide) (by decide)
  rw [c12] at e13
  have c13 : v13.capacity_ = 16 := e13
  have g13 : v13.Holds [1, 2, 3, 4, 5] := h13
  obtain ⟨v14, r14, h14, e14⟩ := vector.pop_step v13 [1, 2, 3, 4, 5] r13 g13 (by decide) (by decide)
  rw [c13] at e14
  have c14 : v14.capacity_ = 16 := e14
  have g14 : v14.Holds [1, 2, 3, 4] := h14
  obtain ⟨v15, r15, h15, e15⟩ := vector.pop_step v14 [1, 2, 3, 4] r14 g14 (by decide) (by decide)
  rw [c14] at e15
  have c15 : v15.capacity_ = 16 := e15
  have g15 : v15.Holds [1, 2, 3] := h15
  obtain ⟨v16, r16, h16, e16⟩ := vector.pop_step v15 [1, 2, 3] r15 g15 (by decide) (by decide)
  rw [c15] at e16
  have c16 : v16.capacity_ = 8 := e16
  have g16 : v16.Holds [1, 2] := h16
  obtain ⟨c, rc, hc, -, fc⟩ := vector.copy_step v9 [0, 1, 2, 3, 4, 5, 6, 7, 8] 7 r9 g9 (by decide)
  have rz := (vector.clear_step v16 [1, 2] 5 r16 g16 (by decide)).1
  exact ⟨v9, v16, c, r9, g9, c9, r16, g16, c16, rc, hc, fc, rz,
    reachable_capacity_invariant v9 r9, reachable_capacity_invariant v16 r16,
    reachable_capacity_invariant c rc, reachable_capacity_invariant (vector.empty 5) rz⟩

end sjtu
